import Mathlib

/-!
# DAN decoder / encoder (`dan/dan.go`): shallow embedding and properties

Modelling conventions.

* A Go `string` is modelled as `Str = List Char`, the sequence of code points of a
  well-formed UTF-8 text.  Every byte the source inspects (`#`, `/`, `,`, `"`, `[`, `]`,
  the braces, the newline, the regular-expression classes `\w` and `\s`) is ASCII, so
  byte positions and code-point positions select the same cuts.
* `strconv.ParseFloat` and the `fmt` verbs for `float64` belong to the Go library, not to
  this repository.  They are taken as a parameter (`FloatLib`), and `num` carries a value of
  the parameter type `F` standing for `float64`.
* Go maps are mutable references.  The decoder aliases them (a nested block is stored in
  its parent and pushed on the stack; an open table keeps its parent frame), so `Decode`
  is embedded over an explicit heap of frames addressed by `Nat`.
* A Go map is modelled by an association list in insertion order; Go's iteration order is
  unspecified, and the list order stands for the order one particular run iterates in.
-/

namespace Dan

/-- Go `string`: a sequence of code points. -/
abbrev Str := List Char

/-! ## Library functions of package `strings` and `unicode` -/

/-- The predicate `unicode.IsSpace`. -/
def isSpace (c : Char) : Bool :=
  let n := c.toNat
  (9 ≤ n && n ≤ 13) || n = 32 || n = 0x85 || n = 0xA0 || n = 0x1680 ||
  (0x2000 ≤ n && n ≤ 0x200A) || n = 0x2028 || n = 0x2029 || n = 0x202F ||
  n = 0x205F || n = 0x3000

/-- Leading white space removed (`strings.TrimLeftFunc(s, unicode.IsSpace)`). -/
def trimLeft (s : Str) : Str := s.dropWhile isSpace

/-- Trailing white space removed (`strings.TrimRightFunc(s, unicode.IsSpace)`). -/
def trimRight (s : Str) : Str := s.rdropWhile isSpace

/-- The function `strings.TrimSpace`. -/
def trimSpace (s : Str) : Str := trimRight (trimLeft s)

/-- The function `strings.Index`: position of the first occurrence of `sub` in `s`,
or `-1`. -/
def index (s sub : Str) : Int :=
  if sub.isPrefixOf s then 0
  else match s with
    | [] => -1
    | _ :: t => if index t sub < 0 then -1 else index t sub + 1

/-- The function `strings.HasSuffix`. -/
def hasSuffix (s suffix : Str) : Bool := suffix.isSuffixOf s

/-- The function `strings.Split(s, sep)` for a one-character separator. -/
def split (s : Str) (sep : Char) : List Str := s.splitOn sep

/-- The function `strings.Join`. -/
def join (parts : List Str) (sep : Str) : Str := sep.intercalate parts

/-! ## Values -/

/-- The Go values `Decode` produces and `Encode` consumes, `F` standing for `float64`:
`nil`, `bool`, `float64`, `int`/`int64`, `string`, `[]interface{}`,
`map[string]interface{}` and `[]map[string]interface{}`. -/
inductive Value (F : Type) where
  | null
  | bool (b : Bool)
  | num (x : F)
  | int (i : Int)
  | str (s : Str)
  | arr (xs : List (Value F))
  | obj (kvs : List (Str × Value F))
  | table (rows : List (List (Str × Value F)))

/-- A Go `map[string]interface{}` as an association list. -/
abbrev Obj (F : Type) := List (Str × Value F)

/-- The Go library functions on `float64` the source calls. -/
structure FloatLib (F : Type) where
  /-- `strconv.ParseFloat(s, 64)`: `some x` when `err == nil`. -/
  parseFloat : Str → Option F
  /-- The test `v == float64(int64(v))`. -/
  isIntegral : F → Bool
  /-- `fmt.Sprintf("%.0f", v)`. -/
  fmtF0 : F → Str
  /-- `fmt.Sprintf("%g", v)`. -/
  fmtG : F → Str

/-- Map assignment `m[k] = v`: overwrite the entry of `k`, or add one. -/
def mapSet {α : Type} : List (Str × α) → Str → α → List (Str × α)
  | [], k, v => [(k, v)]
  | (k0, v0) :: t, k, v => if k0 = k then (k0, v) :: t else (k0, v0) :: mapSet t k v

/-- Map lookup `m[k]`. -/
def mapGet {α : Type} : List (Str × α) → Str → Option α
  | [], _ => none
  | (k0, v0) :: t, k => if k0 = k then some v0 else mapGet t k

/-- All results of `f` on a list, failing when one of them fails. -/
def mapOpt {α β : Type} (f : α → Option β) : List α → Option (List β)
  | [] => some []
  | a :: t =>
    match f a with
    | none => none
    | some b =>
      match mapOpt f t with
      | none => none
      | some bs => some (b :: bs)

/-! ## `removeComments` and `parseValue` -/

/-- Source function `removeComments`. -/
def removeComments (line : Str) : Str :=
  let commentIndex1 := index line "#".toList
  let commentIndex2 := index line "//".toList
  let cutIndex : Int :=
    if commentIndex1 ≥ 0 ∧ commentIndex2 ≥ 0 then
      if commentIndex1 < commentIndex2 then commentIndex1 else commentIndex2
    else if commentIndex1 ≥ 0 then commentIndex1
    else if commentIndex2 ≥ 0 then commentIndex2
    else -1
  if cutIndex ≥ 0 then line.take cutIndex.toNat else line

/-- The test `len(val) >= 2 && val[0] == open && val[len(val)-1] == close`. -/
def enclosed (val : Str) (opening closing : Char) : Bool :=
  decide (val.length ≥ 2) && val.head? == some opening && val.getLast? == some closing

/-- The slice `val[1 : len(val)-1]`. -/
def inner (val : Str) : Str := (val.take (val.length - 1)).drop 1

/-- Source function `parseValue`, with a bound on the depth of the recursion: `none` when
the bound is exhausted. -/
def parseValueFuel {F : Type} (L : FloatLib F) : Nat → Str → Option (Value F)
  | 0, _ => none
  | fuel + 1, val0 =>
    let val := trimSpace val0
    if val = "true".toList then some (.bool true)
    else if val = "false".toList then some (.bool false)
    else if enclosed val (Char.ofNat 34) (Char.ofNat 34) then some (.str (inner val))
    else
      match L.parseFloat val with
      | some num => some (.num num)
      | none =>
        if enclosed val (Char.ofNat 91) (Char.ofNat 93) then
          let content := trimSpace (inner val)
          if content = [] then some (.arr [])
          else
            (mapOpt (fun part => parseValueFuel L fuel (trimSpace part))
              (split content (Char.ofNat 44))).map .arr
        else some (.str val)

/-- Source function `parseValue`.  The bound `len(val) + 1` is never exhausted
(`parseValueFuel_total`). -/
def parseValue {F : Type} (L : FloatLib F) (val : Str) : Value F :=
  (parseValueFuel L (val.length + 1) val).getD .null

/-! ## `serializeValue` and `Encode` -/

/-- Lexicographic order on strings by code point (the order in which `fmt` prints map
keys). -/
def strLe : Str → Str → Bool
  | [], _ => true
  | _ :: _, [] => false
  | a :: s, b :: t => a.toNat < b.toNat || (a.toNat = b.toNat && strLe s t)

/-- Insertion of a rendered map entry into a list sorted by key. -/
def insertEntry (e : Str × Str) : List (Str × Str) → List (Str × Str)
  | [] => [e]
  | x :: t => if strLe e.1 x.1 then e :: x :: t else x :: insertEntry e t

/-- Rendered map entries sorted by key. -/
def sortEntries : List (Str × Str) → List (Str × Str)
  | [] => []
  | e :: t => insertEntry e (sortEntries t)

/-- Text of a rendered map entry under the verb `%v`: `key:value`. -/
def entryText (e : Str × Str) : Str := e.1 ++ ":".toList ++ e.2

mutual
/-- The verb `%v` of package `fmt` on a value (`fmt.Sprintf("%v", v)`). -/
def sprintV {F : Type} (L : FloatLib F) : Value F → Str
  | .null => "<nil>".toList
  | .bool b => if b then "true".toList else "false".toList
  | .num x => L.fmtG x
  | .int i => (toString i).toList
  | .str s => s
  | .arr xs => "[".toList ++ join (sprintList L xs) " ".toList ++ "]".toList
  | .obj kvs =>
    "map[".toList ++ join ((sortEntries (sprintEntries L kvs)).map entryText) " ".toList
      ++ "]".toList
  | .table rows => "[".toList ++ join (sprintRows L rows) " ".toList ++ "]".toList
termination_by structural v => v
/-- The verb `%v` on the elements of a slice. -/
def sprintList {F : Type} (L : FloatLib F) : List (Value F) → List Str
  | [] => []
  | v :: vs => sprintV L v :: sprintList L vs
termination_by structural vs => vs
/-- The verb `%v` on the entries of a map, each as key and rendered value. -/
def sprintEntries {F : Type} (L : FloatLib F) : List (Str × Value F) → List (Str × Str)
  | [] => []
  | (k, v) :: kvs => (k, sprintV L v) :: sprintEntries L kvs
termination_by structural kvs => kvs
/-- The verb `%v` on the rows of a table. -/
def sprintRows {F : Type} (L : FloatLib F) : List (List (Str × Value F)) → List Str
  | [] => []
  | r :: rs =>
    ("map[".toList ++ join ((sortEntries (sprintEntries L r)).map entryText) " ".toList
      ++ "]".toList) :: sprintRows L rs
termination_by structural rs => rs
end

mutual
/-- Source function `serializeValue`. -/
def serializeValue {F : Type} (L : FloatLib F) : Value F → Str
  | .bool v => if v then "true".toList else "false".toList
  | .str v => [Char.ofNat 34] ++ v ++ [Char.ofNat 34]
  | .num v => if L.isIntegral v then L.fmtF0 v else L.fmtG v
  | .int v => (toString v).toList
  | .arr v => "[".toList ++ join (serializeList L v) ", ".toList ++ "]".toList
  | .null => sprintV L .null
  | .obj kvs => sprintV L (.obj kvs)
  | .table rows => sprintV L (.table rows)
termination_by structural v => v
/-- The loop `parts[i] = serializeValue(item)` of `serializeValue`. -/
def serializeList {F : Type} (L : FloatLib F) : List (Value F) → List Str
  | [] => []
  | item :: rest => serializeValue L item :: serializeList L rest
termination_by structural v => v
end

/-- The padding `strings.Repeat("  ", indent)`. -/
def padOf (indent : Nat) : Str := (List.replicate indent "  ".toList).flatten

/-- The read `row[col]` of a table cell: `nil` when the row has no such key. -/
def cellOf {F : Type} (row : Obj F) (col : Str) : Value F := (mapGet row col).getD .null

/-- One table row line of `encodeValue`: the padded, comma-joined cells in column order. -/
def rowLine {F : Type} (L : FloatLib F) (pad : Str) (columns : List Str) (row : Obj F) :
    Str :=
  pad ++ "  ".toList ++ join (columns.map (fun col => serializeValue L (cellOf row col))) ", ".toList

/-- The header line `key: table(col, ...) [` of `encodeValue`. -/
def tableHeader (pad key : Str) (columns : List Str) : Str :=
  pad ++ key ++ ": table(".toList ++ join columns ", ".toList ++ ") [".toList

/-- The rows of a `[]interface{}` that are maps (the others are skipped by the table
branch of `encodeValue`). -/
def objectRows {F : Type} : List (Value F) → List (Obj F)
  | [] => []
  | .obj o :: rest => o :: objectRows rest
  | _ :: rest => objectRows rest

mutual
/-- Source function `encodeValue`. -/
def encodeValue {F : Type} (L : FloatLib F) : Value F → Nat → Str
  | .obj v, indent => join (encodeLines L v indent) "\n".toList
  | _, _ => []
termination_by structural val => val
/-- The loop of `encodeValue` over the entries of a map, in iteration order: the lines
it appends. -/
def encodeLines {F : Type} (L : FloatLib F) : List (Str × Value F) → Nat → List Str
  | [], _ => []
  | (key, val) :: rest, indent =>
    let pad := padOf indent
    (match val with
      | .table arrVal =>
        match arrVal with
        | first :: _ =>
          let columns := first.map Prod.fst
          [tableHeader pad key columns] ++ arrVal.map (rowLine L pad columns) ++ [pad ++ "]".toList]
        | [] => [pad ++ key ++ ": table() [".toList, pad ++ "]".toList]
      | .arr arrVal =>
        match arrVal with
        | .obj first :: _ =>
          let columns := first.map Prod.fst
          [tableHeader pad key columns] ++ (objectRows arrVal).map (rowLine L pad columns)
            ++ [pad ++ "]".toList]
        | _ => [pad ++ key ++ ": ".toList ++ serializeValue L val]
      | .obj _ =>
        let nestedLines := encodeValue L val (indent + 1)
        [pad ++ key ++ " \x7b".toList] ++ (if nestedLines ≠ [] then [nestedLines] else [])
          ++ [pad ++ "\x7d".toList]
      | _ => [pad ++ key ++ ": ".toList ++ serializeValue L val])
    ++ encodeLines L rest indent
termination_by structural kvs => kvs
end

/-- Source function `Encode`. -/
def Encode {F : Type} (L : FloatLib F) (obj : Obj F) : Str := encodeValue L (.obj obj) 0

/-! ## The two regular expressions of `Decode` -/

/-- The class `\w` of Go regular expressions: `[0-9A-Za-z_]`. -/
def isWordChar (c : Char) : Bool :=
  let n := c.toNat
  (48 ≤ n && n ≤ 57) || (65 ≤ n && n ≤ 90) || (97 ≤ n && n ≤ 122) || n = 95

/-- The class `\s` of Go regular expressions: `[\t\n\f\r ]`. -/
def isReSpace (c : Char) : Bool :=
  let n := c.toNat
  n = 9 || n = 10 || n = 12 || n = 13 || n = 32

/-- The call `tableRe.FindStringSubmatch(line)` for
`^(\w+):\s*table\(([^)]+)\)\s*\[$`: the two groups, or `none` for `nil`.  Every
repetition is followed by a character outside its class, so the greedy match is the only
match. -/
def tableMatch (line : Str) : Option (Str × Str) :=
  let key := line.takeWhile isWordChar
  if key = [] then none
  else
    match line.dropWhile isWordChar with
    | [] => none
    | c :: afterColon =>
      if c ≠ Char.ofNat 58 then none
      else
        let r := afterColon.dropWhile isReSpace
        if ¬ "table(".toList.isPrefixOf r then none
        else
          let r := r.drop 6
          let columnsStr := r.takeWhile (fun c => c ≠ Char.ofNat 41)
          if columnsStr = [] then none
          else
            match r.dropWhile (fun c => c ≠ Char.ofNat 41) with
            | [] => none
            | _ :: afterParen =>
              if afterParen.dropWhile isReSpace = "[".toList then some (key, columnsStr)
              else none

/-- The call `kvRe.FindStringSubmatch(line)` for `^(\w+):\s*(.+)$`: the two groups, or
`none` for `nil`.  The greedy `\s*` takes the whole run of `\s`; when nothing is left for
`.+` it gives back its last character, which `.` accepts unless it is a newline. -/
def kvMatch (line : Str) : Option (Str × Str) :=
  let key := line.takeWhile isWordChar
  if key = [] then none
  else
    match line.dropWhile isWordChar with
    | [] => none
    | c :: afterColon =>
      if c ≠ Char.ofNat 58 then none
      else
        let rest := afterColon.dropWhile isReSpace
        if rest ≠ [] then
          if Char.ofNat 10 ∈ rest then none else some (key, rest)
        else
          match (afterColon.takeWhile isReSpace).getLast? with
          | none => none
          | some w => if w = Char.ofNat 10 then none else some (key, [w])

/-! ## `Decode` -/

/-- An entry of a frame: a value, or a reference to another frame (a nested
`map[string]interface{}`, shared with the stack). -/
inductive Cell (F : Type) where
  | val (v : Value F)
  | ref (addr : Nat)

/-- A frame: a `map[string]interface{}` under construction. -/
abbrev Frame (F : Type) := List (Str × Cell F)

/-- Source type `tableContext`; `table` holds the slice the pointer refers to and `parent`
the address of the parent frame. -/
structure TableContext (F : Type) where
  table : List (Obj F)
  columns : List Str
  key : Str
  parent : Nat

/-- The variables of the loop of `Decode`, and the maps they refer to. -/
structure State (F : Type) where
  heap : List (Frame F)
  stack : List Nat
  currentTable : Option (TableContext F)

/-- Assignment `m[key] = cell` into the frame at address `addr`; `none` when there is no
such frame. -/
def heapSet {F : Type} (heap : List (Frame F)) (addr : Nat) (key : Str) (cell : Cell F) :
    Option (List (Frame F)) :=
  match heap[addr]? with
  | none => none
  | some m => some (heap.set addr (mapSet m key cell))

/-- The row loop of `Decode`: the row after the parts from position `i` on are assigned. -/
def rowLoop {F : Type} (L : FloatLib F) (columns : List Str) :
    List Str → Nat → Obj F → Obj F
  | [], _, row => row
  | part :: parts, i, row =>
    rowLoop L columns parts (i + 1)
      (if i < columns.length then
        mapSet row (columns.getD i []) (parseValue L (trimSpace part))
      else row)

/-- The row `Decode` builds from a table-row line. -/
def tableRow {F : Type} (L : FloatLib F) (columns : List Str) (line : Str) : Obj F :=
  rowLoop L columns (split line (Char.ofNat 44)) 0 []

/-- One iteration of the loop of `Decode`, from `top := stack[len(stack)-1]` on, for a
line that is already stripped of its comment, trimmed and not empty; `none` is a run-time
panic (reading the top of an empty stack, or a dangling frame address). -/
def stepLine {F : Type} (L : FloatLib F) (st : State F) (line : Str) : Option (State F) :=
  match st.stack.getLast? with
  | none => none
  | some top =>
    if hasSuffix line "\x7b".toList then
      let key := trimSpace line.dropLast
      let newObj := st.heap.length
      match heapSet (st.heap ++ [[]]) top key (.ref newObj) with
      | none => none
      | some heap => some { st with heap := heap, stack := st.stack ++ [newObj] }
    else if line = "\x7d".toList then
      if st.stack.length > 1 then some { st with stack := st.stack.dropLast } else some st
    else
      match tableMatch line with
      | some (key, columnsStr) =>
        let columns := (split columnsStr (Char.ofNat 44)).map trimSpace
        match heapSet st.heap top key (.val (.table [])) with
        | none => none
        | some heap =>
          some { st with
            heap := heap
            currentTable := some { table := [], columns := columns, key := key, parent := top } }
      | none =>
        if line = "]".toList then
          match st.currentTable with
          | some ct =>
            match heapSet st.heap ct.parent ct.key (.val (.table ct.table)) with
            | none => none
            | some heap => some { st with heap := heap, currentTable := none }
          | none => some { st with currentTable := none }
        else
          match st.currentTable with
          | some ct =>
            let table := ct.table ++ [tableRow L ct.columns line]
            match heapSet st.heap ct.parent ct.key (.val (.table table)) with
            | none => none
            | some heap =>
              some { st with heap := heap, currentTable := some { ct with table := table } }
          | none =>
            match kvMatch line with
            | some (key, val) =>
              match heapSet st.heap top key (.val (parseValue L (trimSpace val))) with
              | none => none
              | some heap => some { st with heap := heap }
            | none => some st

/-- One iteration of the loop of `Decode` on a raw line: strip the comment, trim, skip
the line when nothing is left. -/
def step {F : Type} (L : FloatLib F) (st : State F) (raw : Str) : Option (State F) :=
  let line := trimSpace (removeComments raw)
  if line = [] then some st else stepLine L st line

/-- The loop of `Decode` over the lines. -/
def run {F : Type} (L : FloatLib F) : State F → List Str → Option (State F)
  | st, [] => some st
  | st, raw :: lines =>
    match step L st raw with
    | none => none
    | some st1 => run L st1 lines

/-- The state before the first line: one empty root frame, on the stack. -/
def initState {F : Type} : State F := { heap := [[]], stack := [0], currentTable := none }

/-- The map a frame address denotes, its references followed to depth `fuel`; `none` for
a dangling address or an exhausted bound. -/
def reify {F : Type} (heap : List (Frame F)) : Nat → Nat → Option (Obj F)
  | 0, _ => none
  | fuel + 1, addr =>
    match heap[addr]? with
    | none => none
    | some m =>
      mapOpt (fun kc =>
        match kc.2 with
        | .val v => some (kc.1, v)
        | .ref r =>
          match reify heap fuel r with
          | none => none
          | some o => some (kc.1, Value.obj o)) m

/-- The argument of `Decode`: a `string`, a `[]byte` (given by the text it converts to),
or a value of another type, given by the name `%T` prints. -/
inductive Input where
  | string (v : Str)
  | bytes (v : Str)
  | other (typeName : Str)

/-- What a call of `Decode` does: return `(obj, nil)`, return `(nil, err)`, or panic. -/
inductive Outcome (F : Type) where
  | ok (obj : Obj F)
  | error (msg : Str)
  | panic

/-- The value `stack[0]` returned at the end of `Decode`, as a tree. -/
def finish {F : Type} (st : Option (State F)) : Outcome F :=
  match st with
  | none => .panic
  | some st =>
    match st.stack.head? with
    | none => .panic
    | some root =>
      match reify st.heap st.heap.length root with
      | none => .panic
      | some obj => .ok obj

/-- Source function `Decode` after the type switch. -/
def decodeText {F : Type} (L : FloatLib F) (input0 : Str) : Outcome F :=
  let input := trimSpace input0
  if input = [] then .ok []
  else finish (run L initState (split input (Char.ofNat 10)))

/-- Source function `Decode`. -/
def Decode {F : Type} (L : FloatLib F) (text : Input) : Outcome F :=
  match text with
  | .string v => decodeText L v
  | .bytes v => decodeText L v
  | .other typeName => .error ("expected string or []byte, got ".toList ++ typeName)


/-- A value of one of the four kinds `parseValue` returns. -/
def Value.isParsed {F : Type} : Value F → Prop
  | .bool _ => True
  | .str _ => True
  | .num _ => True
  | .arr _ => True
  | _ => False

/-! ## A concrete library instance for evaluating examples -/

/-- The value of a decimal numeral `[0-9]+`, `none` for any other text. -/
def sampleParse (s : Str) : Option Nat :=
  if s ≠ [] ∧ s.all Char.isDigit = true then
    some (s.foldl (fun n c => 10 * n + (c.toNat - 48)) 0)
  else none

/-- The decimal digit `d < 10` as a character. -/
def digitChar (d : Nat) : Char := Char.ofNat (48 + d)

/-- The decimal numeral of `n`, by a recursion of depth at most `fuel`. -/
def natTextFuel : Nat → Nat → Str
  | 0, _ => []
  | fuel + 1, n =>
    if n < 10 then [digitChar n] else natTextFuel fuel (n / 10) ++ [digitChar (n % 10)]

/-- The decimal numeral of `n`. -/
def natText (n : Nat) : Str := natTextFuel (n + 1) n

/-- A stand-in for the Go library on `float64`, for evaluating examples: it reads the
decimal numerals `[0-9]+` only and prints them back.  The theorems below hold for every
instance of `FloatLib`. -/
def sampleLib : FloatLib Nat where
  parseFloat := sampleParse
  isIntegral := fun _ => true
  fmtF0 := natText
  fmtG := natText

/-! ## Specification-side definitions -/

/-- In the words of the specification: a comment marker occurs at position `i` of the
line, that is a `#` at `i`, or a `/` at `i` followed by a `/` at `i + 1`. -/
def markerAt (line : Str) (i : Nat) : Bool :=
  line.get? i == some (Char.ofNat 35) ||
  (line.get? i == some (Char.ofNat 47) && line.get? (i + 1) == some (Char.ofNat 47))

/-- The value of the variable `cutIndex` of `removeComments`, from the two indices. -/
def cutIndexOf (commentIndex1 commentIndex2 : Int) : Int :=
  if commentIndex1 ≥ 0 ∧ commentIndex2 ≥ 0 then
    if commentIndex1 < commentIndex2 then commentIndex1 else commentIndex2
  else if commentIndex1 ≥ 0 then commentIndex1
  else if commentIndex2 ≥ 0 then commentIndex2
  else -1

/-! ## Invariant of the loop of `Decode` -/

/-- The invariant of the loop of `Decode`: the stack is not empty and starts with the
root frame (address 0); the stack and the open table refer to frames that exist; a frame
refers only to frames created after it. -/
structure State.WF {F : Type} (st : State F) : Prop where
  root : st.stack.head? = some 0
  stack_lt : ∀ a ∈ st.stack, a < st.heap.length
  parent_lt : ∀ ct, st.currentTable = some ct → ct.parent < st.heap.length
  refs_up : ∀ a m, st.heap[a]? = some m → ∀ k r, (k, Cell.ref r) ∈ m →
    a < r ∧ r < st.heap.length

/-! ## The lines `Decode` acts on -/

/-- What the loop of `Decode` makes of a raw line before it classifies it. -/
def normLine (raw : Str) : Str := trimSpace (removeComments raw)

/-- The lines of a text the loop of `Decode` does not skip, stripped and trimmed. -/
def normLines (input : Str) : List Str :=
  ((split input (Char.ofNat 10)).map normLine).filter (fun l => l ≠ [])

/-- The loop of `Decode` over lines that are already stripped, trimmed and not empty. -/
def runLines {F : Type} (L : FloatLib F) : State F → List Str → Option (State F)
  | st, [] => some st
  | st, line :: lines =>
    match stepLine L st line with
    | none => none
    | some st1 => runLines L st1 lines

/-- The list of lines with one more character at the end of the last line. -/
def appendToLast (c : Char) : List Str → List Str
  | [] => []
  | [l] => [l ++ [c]]
  | l :: r => l :: appendToLast c r

/-- In the words of the specification: a line that is empty, whitespace-only or
comment-only, that is nothing but white space, or nothing but white space before a `#`
or a `//`. -/
def isBlankOrComment (line : Str) : Prop :=
  ∃ ws rest : Str, (∀ c ∈ ws, isSpace c = true) ∧
    (line = ws ∨ line = ws ++ Char.ofNat 35 :: rest ∨
      line = ws ++ Char.ofNat 47 :: Char.ofNat 47 :: rest)

/-- In the words of the specification: a trailing comment, that is a space, then `#` or
`//`, then any text without a newline. -/
def isTrailingComment (cmt : Str) : Prop :=
  ∃ x : Str, Char.ofNat 10 ∉ x ∧
    (cmt = Char.ofNat 32 :: Char.ofNat 35 :: x ∨
      cmt = Char.ofNat 32 :: Char.ofNat 47 :: Char.ofNat 47 :: x)

/-- A stripped, trimmed, non-empty line that the loop of `Decode` takes for a table row
when a table is open: it passes the tests for a block start, a block end, a table start
and a table end. -/
def isRowLine (line : Str) : Prop :=
  hasSuffix line "\x7b".toList = false ∧ line ≠ "\x7d".toList ∧ tableMatch line = none ∧
    line ≠ "]".toList

/-- An open table with the columns `a`, `b`, `c` and no row yet, for evaluating
examples. -/
def exampleTableContext : TableContext Nat :=
  { table := [], columns := ["a".toList, "b".toList, "c".toList], key := "t".toList, parent := 0 }

/-- The state of the loop of `Decode` after the single line `t: table(a, b, c) [`. -/
def exampleTableState : State Nat :=
  { heap := [[("t".toList, .val (.table []))]], stack := [0],
    currentTable := some exampleTableContext }

/-! ## Table documents, in the words of the specification -/

/-- An identifier: a non-empty run of `[0-9A-Za-z_]`. -/
def isIdent (s : Str) : Prop := s ≠ [] ∧ ∀ c ∈ s, isWordChar c = true

/-- A token of a row line: free of commas, of `#`, of `//` and of newlines. -/
def isToken (tok : Str) : Prop :=
  Char.ofNat 44 ∉ tok ∧ Char.ofNat 35 ∉ tok ∧ Char.ofNat 10 ∉ tok ∧ index tok "//".toList < 0

/-- The row line made of the given tokens, separated by commas. -/
def rowText (toks : List Str) : Str := join toks ",".toList

/-- The document `key: table(c1, ..., cn) [`, one row line per token list, `]`. -/
def tableDoc (key : Str) (columns : List Str) (rows : List (List Str)) : Str :=
  join (tableHeader [] key columns :: rows.map rowText ++ ["]".toList]) "\n".toList

/-- The table whose `i`-th row maps each column `cj` to `parseValue` of the `j`-th token
of the `i`-th token list. -/
def tableOf {F : Type} (L : FloatLib F) (columns : List Str) (rows : List (List Str)) :
    List (Obj F) :=
  rows.map (fun toks => List.zip columns (toks.map (parseValue L)))

/-- The state of the loop of `Decode` inside a table opened in the root frame of an
otherwise empty document, with the rows `tbl` read so far. -/
def tableState {F : Type} (key : Str) (columns : List Str) (tbl : List (Obj F)) : State F :=
  { heap := [[(key, .val (.table tbl))]], stack := [0],
    currentTable := some { table := tbl, columns := columns, key := key, parent := 0 } }

/-- The condition the claim on table documents puts on a row: `n` tokens, its line not
ending in an opening brace and not being a closing brace or a closing bracket. -/
def isClaimedRow (columns : List Str) (toks : List Str) : Prop :=
  toks.length = columns.length ∧ (∀ tok ∈ toks, isToken tok) ∧
    hasSuffix (trimSpace (rowText toks)) "\x7b".toList = false ∧
    trimSpace (rowText toks) ≠ "\x7d".toList ∧ trimSpace (rowText toks) ≠ "]".toList

instance (s : Str) : Decidable (isIdent s) := by
  unfold isIdent; infer_instance

instance (tok : Str) : Decidable (isToken tok) := by
  unfold isToken; infer_instance

instance (line : Str) : Decidable (isRowLine line) := by
  unfold isRowLine; infer_instance

instance (columns toks : List Str) : Decidable (isClaimedRow columns toks) := by
  unfold isClaimedRow; infer_instance

/-! ## Round trip: the values `Decode` produces and the library laws it relies on -/

/-- The text `serializeValue` prints for a number. -/
def numText {F : Type} (L : FloatLib F) (x : F) : Str :=
  if L.isIntegral x then L.fmtF0 x else L.fmtG x

/-- A character of a printed number: a digit or one of `+ - . e E I n f N a`. -/
def isNumChar (c : Char) : Bool :=
  let n := c.toNat
  (48 ≤ n && n ≤ 57) || n = 43 || n = 45 || n = 46 || n = 101 || n = 69 || n = 73 ||
    n = 110 || n = 102 || n = 78 || n = 97

/-- What the round trip needs of the Go library: a printed number is a non-empty text of
number characters that `ParseFloat` reads back as the same value, and `ParseFloat` rejects
a text that starts with an opening bracket. -/
structure FloatLib.Lawful {F : Type} (L : FloatLib F) : Prop where
  parse_fmt : ∀ x, L.parseFloat (numText L x) = some x
  fmt_chars : ∀ x, ∀ c ∈ numText L x, isNumChar c = true
  fmt_ne : ∀ x, numText L x ≠ []
  parse_bracket : ∀ s : Str, s.head? = some (Char.ofNat 91) → L.parseFloat s = none

/-- A text without newline and without comment marker. -/
def isClean (s : Str) : Prop := Char.ofNat 10 ∉ s ∧ removeComments s = s

/-- An array element or table cell as `parseValue` returns it for a comma-free part of a
line: a Bool, a Number, a String free of commas, newlines and comment markers, or an
array of at most one such element. -/
inductive OkElem {F : Type} : Value F → Prop where
  | bool (b : Bool) : OkElem (.bool b)
  | num (x : F) : OkElem (.num x)
  | str (s : Str) : isClean s → Char.ofNat 44 ∉ s → OkElem (.str s)
  | arrNil : OkElem (.arr [])
  | arrOne (e : Value F) : OkElem e → OkElem (.arr [e])

/-- The value of a key-value line as `parseValue` returns it: a Bool, a Number, a clean
String, or an array of elements. -/
inductive OkScalar {F : Type} : Value F → Prop where
  | bool (b : Bool) : OkScalar (.bool b)
  | num (x : F) : OkScalar (.num x)
  | str (s : Str) : isClean s → OkScalar (.str s)
  | arr (xs : List (Value F)) : (∀ e ∈ xs, OkElem e) → OkScalar (.arr xs)

/-- A printed value as it stands in a line: not empty, no white space at either end, not
starting with a closing brace or bracket, not ending in an opening brace or bracket, free
of newlines and comment markers. -/
structure TokText (s : Str) : Prop where
  ne : s ≠ []
  head_ok : ∀ a, s.head? = some a →
    isSpace a = false ∧ a ≠ Char.ofNat 125 ∧ a ≠ Char.ofNat 93
  last_ok : ∀ b, s.getLast? = some b →
    isSpace b = false ∧ b ≠ Char.ofNat 123 ∧ b ≠ Char.ofNat 91
  clean : isClean s

/-- The key of a block as `Decode` stores it: trimmed and clean. -/
def isBlockKey (k : Str) : Prop := trimSpace k = k ∧ isClean k

/-- A column name as `Decode` reads it from a table-open line: trimmed, clean, free of
commas and closing parentheses. -/
def isColumn (c : Str) : Prop :=
  trimSpace c = c ∧ Char.ofNat 44 ∉ c ∧ Char.ofNat 41 ∉ c ∧ isClean c

/-- A table row as `Decode` builds it: distinct column names, each with an element. -/
def isRow {F : Type} (row : Obj F) : Prop :=
  (row.map Prod.fst).Nodup ∧ ∀ e ∈ row, isColumn e.1 ∧ OkElem e.2

/-- A value `Decode` stores under the key of a key-value line or of a table-open line. -/
inductive OkVal {F : Type} : Value F → Prop where
  | scalar (v : Value F) : OkScalar v → OkVal v
  | table (rows : List (Obj F)) : (∀ row ∈ rows, isRow row) → OkVal (.table rows)

/-- An object as `Decode` returns it: distinct keys; identifiers carrying a scalar or a
table; block keys carrying such an object again. -/
inductive ImgObj {F : Type} : Obj F → Prop where
  | nil : ImgObj []
  | val (k : Str) (v : Value F) (O : Obj F) : isIdent k → OkVal v → k ∉ O.map Prod.fst →
      ImgObj O → ImgObj ((k, v) :: O)
  | block (k : Str) (O1 O : Obj F) : isBlockKey k → ImgObj O1 → k ∉ O.map Prod.fst →
      ImgObj O → ImgObj ((k, .obj O1) :: O)

/-- A table that `Encode` prints in full: it has a first row, whose column list is
neither empty nor the single empty name, and every row has the columns of the first
row, in the same order. -/
def tableRegular {F : Type} (rows : List (Obj F)) : Bool :=
  match rows with
  | [] => false
  | first :: rest =>
    decide (first.map Prod.fst ≠ []) && decide (first.map Prod.fst ≠ [[]]) &&
      rest.all (fun row => decide (row.map Prod.fst = first.map Prod.fst))

mutual
/-- Every table inside the value is regular. -/
def regularVal {F : Type} : Value F → Bool
  | .table rows => tableRegular rows
  | .obj kvs => regularObj kvs
  | _ => true
termination_by structural v => v
/-- Every table inside the object is regular. -/
def regularObj {F : Type} : List (Str × Value F) → Bool
  | [] => true
  | (_, v) :: kvs => regularVal v && regularObj kvs
termination_by structural kvs => kvs
end

/-- The state `st1` is reached from `st` by lines that leave the stack as it is, close
every table, keep every frame of `st` other than the top one, and leave the top frame
with the entries `frame`. -/
structure Extends {F : Type} (st st1 : State F) (top : Nat) (frame : Frame F) : Prop where
  stack_eq : st1.stack = st.stack
  table_none : st1.currentTable = none
  len_le : st.heap.length ≤ st1.heap.length
  frames : ∀ a, a < st.heap.length → a ≠ top → st1.heap[a]? = st.heap[a]?
  top_frame : st1.heap[top]? = some frame
  wf : st1.WF

/-- The cell denotes the value in the heap: the value itself, or a reference to a frame,
created at address `n0` or later, that reifies to the nested object. -/
def CellDenotes {F : Type} (heap : List (Frame F)) (n0 : Nat) (c : Str × Cell F)
    (e : Str × Value F) : Prop :=
  c.1 = e.1 ∧
    match c.2 with
    | .val v => e.2 = v
    | .ref r => n0 ≤ r ∧ ∃ O1, e.2 = .obj O1 ∧
        ∀ fuel, heap.length ≤ fuel + r → reify heap fuel r = some O1

/-- The state of the loop of `Decode` inside a table opened under `key` in the frame at
`top`, whose other entries are `m`, with the rows `tbl` read so far. -/
def tableStateAt {F : Type} (st : State F) (top : Nat) (m : Frame F) (key : Str)
    (columns : List Str) (tbl : List (Obj F)) : State F :=
  { heap := st.heap.set top (m ++ [(key, .val (.table tbl))]), stack := st.stack,
    currentTable := some { table := tbl, columns := columns, key := key, parent := top } }















/-! ## Round trip: what the loop of `Decode` keeps true of the frames -/

/-- A line as the loop of `Decode` classifies it: not empty, trimmed, clean. -/
def isNormLine (line : Str) : Prop := line ≠ [] ∧ trimSpace line = line ∧ isClean line

/-- An entry of a frame as `Decode` writes it: an identifier with a scalar or a table, or
a block key with a reference. -/
def CellOk {F : Type} (e : Str × Cell F) : Prop :=
  match e.2 with
  | .val v => isIdent e.1 ∧ OkVal v
  | .ref _ => isBlockKey e.1

/-- A frame as `Decode` builds it: distinct keys, every entry well-formed. -/
def FrameOk {F : Type} (m : Frame F) : Prop :=
  (m.map Prod.fst).Nodup ∧ ∀ e ∈ m, CellOk e

/-- What the loop of `Decode` keeps true of the values it has stored. -/
structure State.Ok {F : Type} (st : State F) : Prop where
  frames : ∀ (a : Nat) (m : Frame F), st.heap[a]? = some m → FrameOk m
  table : ∀ ct, st.currentTable = some ct →
    isIdent ct.key ∧ (∀ c ∈ ct.columns, isColumn c) ∧ (∀ row ∈ ct.table, isRow row)









/-! ## Specification-side definitions for arrays -/

/-- The text `[t1, ..., tn]`: the tokens joined by a comma and a space, in brackets. -/
def arrayText (toks : List Str) : Str :=
  Char.ofNat 91 :: (join toks ", ".toList ++ [Char.ofNat 93])

/-- A fact of the Go library: `strconv.ParseFloat` rejects a text that starts with an
opening bracket. -/
def FloatLib.RejectsBracket {F : Type} (L : FloatLib F) : Prop :=
  ∀ s : Str, s.head? = some (Char.ofNat 91) → L.parseFloat s = none

/-- A value without branching arrays: a Bool, a Number, a String, the empty Array, or an
Array whose only element is again such a value. -/
inductive Unbranched {F : Type} : Value F → Prop where
  | bool (b : Bool) : Unbranched (.bool b)
  | num (x : F) : Unbranched (.num x)
  | str (s : Str) : Unbranched (.str s)
  | arrNil : Unbranched (.arr [])
  | arrOne (e : Value F) : Unbranched e → Unbranched (.arr [e])

/-- A scalar of the data model: a Bool, a Number or a String. -/
def isScalar {F : Type} : Value F → Bool
  | .bool _ => true
  | .num _ => true
  | .str _ => true
  | _ => false



/-- In the words of the specification: the line has the form identifier, colon, non-empty
rest. -/
def isKeyValueForm (line : Str) : Prop :=
  ∃ k rest : Str, isIdent k ∧ rest ≠ [] ∧ line = k ++ Char.ofNat 58 :: rest

/-! ## Specification-side definitions for key-value documents -/

/-- The key-value line `k: v`. -/
def kvText (kv : Str × Str) : Str := kv.1 ++ Char.ofNat 58 :: Char.ofNat 32 :: kv.2

/-- The condition the claim on key-value documents puts on a line: the key an
identifier, the value a non-empty token without newline and comment markers, the line not
ending in an opening brace and not a table-open line. -/
def isClaimedKv (kv : Str × Str) : Prop :=
  isIdent kv.1 ∧ kv.2 ≠ [] ∧ Char.ofNat 10 ∉ kv.2 ∧ Char.ofNat 35 ∉ kv.2 ∧
    index kv.2 "//".toList < 0 ∧ hasSuffix (kvText kv) "\x7b".toList = false ∧
    tableMatch (kvText kv) = none

/-- The condition under which a key-value line is read as one: as `isClaimedKv`, with a
value that is not white space only, and the two conditions on the line read after
trimming. -/
def isKvLine (kv : Str × Str) : Prop :=
  isIdent kv.1 ∧ trimSpace kv.2 ≠ [] ∧ Char.ofNat 10 ∉ kv.2 ∧ Char.ofNat 35 ∉ kv.2 ∧
    index kv.2 "//".toList < 0 ∧ hasSuffix (trimSpace (kvText kv)) "\x7b".toList = false ∧
    tableMatch (trimSpace (kvText kv)) = none

instance (kv : Str × Str) : Decidable (isClaimedKv kv) := by
  unfold isClaimedKv; infer_instance

instance (kv : Str × Str) : Decidable (isKvLine kv) := by
  unfold isKvLine; infer_instance

/-- The value on the last line bearing the key, `none` when no line bears it. -/
def lastValue : List (Str × Str) → Str → Option Str
  | [], _ => none
  | kv :: rest, k =>
    match lastValue rest k with
    | some v => some v
    | none => if kv.1 = k then some kv.2 else none

/-- The assignments `m[k] = parseValue(v)` of the lines, in order, on the map `m`. -/
def assignAll {F : Type} (L : FloatLib F) : List (Str × Str) → Obj F → Obj F
  | [], m => m
  | kv :: rest, m => assignAll L rest (mapSet m kv.1 (parseValue L kv.2))

/-- The frame whose cells hold the values of the object. -/
def frameOf {F : Type} (O : Obj F) : Frame F := O.map (fun e => (e.1, Cell.val e.2))

/-! ## Specification-side definitions for unclosed tables -/

/-- No block-open line is met while a table is open: a scan of the lines `Decode` acts
on, in its order of classification, with `inTable` telling whether a table is open. -/
def noBlockInTable : Bool → List Str → Bool
  | _, [] => true
  | inTable, l :: ls =>
    if hasSuffix l "\x7b".toList then !inTable && noBlockInTable inTable ls
    else if l = "\x7d".toList then noBlockInTable inTable ls
    else if (tableMatch l).isSome then noBlockInTable true ls
    else if l = "]".toList then noBlockInTable false ls
    else noBlockInTable inTable ls

/-- The entry of the open table in its parent frame is the table as read so far. -/
def State.Synced {F : Type} (st : State F) : Prop :=
  ∀ ct, st.currentTable = some ct →
    ∃ m, st.heap[ct.parent]? = some m ∧ mapGet m ct.key = some (.val (.table ct.table))

/-! ## Specification-side definitions for nested objects -/

/-- The lines of a text: none for the empty text, else the parts between newlines. -/
def textLines (s : Str) : List Str := if s = [] then [] else split s (Char.ofNat 10)

/-- A fact of the Go library: a printed number holds no newline. -/
def FloatLib.NoNewline {F : Type} (L : FloatLib F) : Prop :=
  ∀ x : F, Char.ofNat 10 ∉ L.fmtF0 x ∧ Char.ofNat 10 ∉ L.fmtG x

mutual
/-- No key and no String inside the value holds a newline. -/
def noNewlineVal {F : Type} : Value F → Bool
  | .str s => decide (Char.ofNat 10 ∉ s)
  | .arr xs => noNewlineList xs
  | .obj kvs => noNewlineObj kvs
  | .table rows => noNewlineRows rows
  | _ => true
termination_by structural v => v
/-- No key and no String inside the values holds a newline. -/
def noNewlineList {F : Type} : List (Value F) → Bool
  | [] => true
  | v :: vs => noNewlineVal v && noNewlineList vs
termination_by structural vs => vs
/-- No key and no String inside the object holds a newline. -/
def noNewlineObj {F : Type} : List (Str × Value F) → Bool
  | [] => true
  | (k, v) :: kvs => decide (Char.ofNat 10 ∉ k) && noNewlineVal v && noNewlineObj kvs
termination_by structural kvs => kvs
/-- No key and no String inside the rows holds a newline. -/
def noNewlineRows {F : Type} : List (List (Str × Value F)) → Bool
  | [] => true
  | r :: rs => noNewlineObj r && noNewlineRows rs
termination_by structural rs => rs
end

/-- The lines of the texts of a list, each text cut at its newlines. -/
def flatLines : List Str → List Str
  | [] => []
  | l :: ls => split l (Char.ofNat 10) ++ flatLines ls

/-- Every line prefixed with two spaces. -/
def indentLines (ls : List Str) : List Str := ls.map (fun l => "  ".toList ++ l)

/-- The value is an object (a Go `map[string]interface{}`). -/
def isObjVal {F : Type} : Value F → Bool
  | .obj _ => true
  | _ => false



/-! ## Specification-side definitions for comments inside quotes -/

/-- A text of letters, digits and inner spaces: every character is an ASCII letter, a
digit or a space, and no space stands at either end. -/
def isPlainText (a : Str) : Prop :=
  (∀ c ∈ a, c.isAlphanum = true ∨ c = Char.ofNat 32) ∧ trimSpace a = a

/-- A fact of the Go library: `strconv.ParseFloat` rejects a text that starts with a
double quote. -/
def FloatLib.RejectsQuote {F : Type} (L : FloatLib F) : Prop :=
  ∀ s : Str, s.head? = some (Char.ofNat 34) → L.parseFloat s = none

instance (a : Str) : Decidable (isPlainText a) := by
  unfold isPlainText; infer_instance



/-! ## Specification-side definitions for numbers -/

/-- The text after an optional sign `+` or `-`. -/
def dropSign (s : Str) : Str :=
  match s with
  | c :: t => if c = Char.ofNat 43 ∨ c = Char.ofNat 45 then t else s
  | [] => []

/-- In the words of the specification: a base-10 numeral, that is an optional sign, decimal
digits with an optional decimal point, and an optional exponent. -/
def isDecimalNumeral (s : Str) : Bool :=
  let body := dropSign s
  let intPart := body.takeWhile Char.isDigit
  let afterInt := body.dropWhile Char.isDigit
  let fracPart :=
    match afterInt with
    | c :: t => if c = Char.ofNat 46 then t.takeWhile Char.isDigit else []
    | [] => []
  let afterFrac :=
    match afterInt with
    | c :: t => if c = Char.ofNat 46 then t.dropWhile Char.isDigit else afterInt
    | [] => []
  decide (intPart ≠ [] ∨ fracPart ≠ []) &&
    (match afterFrac with
      | [] => true
      | e :: t =>
        decide (e = Char.ofNat 101 ∨ e = Char.ofNat 69) &&
          decide (dropSign t ≠ []) && (dropSign t).all Char.isDigit)

/-- A stand-in for the Go library that, like `strconv.ParseFloat`, reads the text `NaN`
besides the decimal numerals `[0-9]+`; `none` stands for the value NaN. -/
def nanLib : FloatLib (Option Nat) where
  parseFloat := fun s => if s = "NaN".toList then some none else (sampleParse s).map some
  isIntegral := fun x => x.isSome
  fmtF0 := fun x => match x with | some n => natText n | none => "NaN".toList
  fmtG := fun x => match x with | some n => natText n | none => "NaN".toList

/-! ## Specification-side definitions for missing cells -/

/-- The cell `Decode` reads back for the column of a printed row: the value of the row,
or the String `<nil>` when the row has no such field. -/
def cellBack {F : Type} (row : Obj F) (col : Str) : Value F :=
  (mapGet row col).getD (.str "<nil>".toList)

/-- The row `Decode` reads back from the line `Encode` prints for a row under the given
columns. -/
def rowBack {F : Type} (columns : List Str) (row : Obj F) : Obj F :=
  columns.map (fun col => (col, cellBack row col))

/-! ## Specification-side definitions for nested blocks -/

/-- Every `}` line closes a block opened earlier among the lines: a scan of the lines
`Decode` acts on, `depth` counting the blocks that are open. -/
def closesBalanced : Nat → List Str → Bool
  | _, [] => true
  | depth, l :: ls =>
    if hasSuffix l "\x7b".toList then closesBalanced (depth + 1) ls
    else if l = "\x7d".toList then
      match depth with
      | 0 => false
      | d + 1 => closesBalanced d ls
    else closesBalanced depth ls

/-- The cell with its frame address moved up by one. -/
def shiftCell {F : Type} : Cell F → Cell F
  | .val v => .val v
  | .ref r => .ref (r + 1)

/-- The frame with its frame addresses moved up by one. -/
def shiftFrame {F : Type} (m : Frame F) : Frame F := m.map (fun e => (e.1, shiftCell e.2))

/-- The state of the loop of `Decode` inside the block `k`, opened in an empty root
frame, that corresponds to the state `st` of the loop on the body alone: a root frame
holding the block under `k` is put below the frames of `st`. -/
def wrapState {F : Type} (k : Str) (st : State F) : State F :=
  { heap := [(k, Cell.ref 1)] :: st.heap.map shiftFrame
    stack := 0 :: st.stack.map (fun a => a + 1)
    currentTable := st.currentTable.map (fun ct => { ct with parent := ct.parent + 1 }) }





/-! ## Specification-side definitions for the write-back at the end of input -/

/-- The frame at address `p` is met when the references of the frame at an address are
followed, to depth `fuel`: it is part of the map that `reify` builds from that address. -/
def reaches {F : Type} (heap : List (Frame F)) (p : Nat) : Nat → Nat → Bool
  | 0, _ => false
  | fuel + 1, a =>
    a == p ||
      match heap[a]? with
      | none => false
      | some m =>
        m.any (fun kc =>
          match kc.2 with
          | .val _ => false
          | .ref r => reaches heap p fuel r)

/-- The entry of the open table is lost: a table is open, the entry under its key in the
frame where it was opened holds a block instead of the rows, and that frame is part of
the map `Decode` returns. -/
def tableEntryLost {F : Type} (st : State F) : Bool :=
  match st.currentTable with
  | none => false
  | some ct =>
    match st.heap[ct.parent]? with
    | none => false
    | some m =>
      match mapGet m ct.key with
      | some (.ref _) => reaches st.heap ct.parent st.heap.length 0
      | _ => false

/-- The state of the loop of `Decode` after the last line of the text. -/
def endState {F : Type} (L : FloatLib F) (t : Str) : Option (State F) :=
  run L initState (split (trimSpace t) (Char.ofNat 10))

/-- The entry of a table left open at the end of the text is lost. -/
def entryLostAt {F : Type} (L : FloatLib F) (t : Str) : Bool :=
  match endState L t with
  | none => false
  | some st => tableEntryLost st

/-- The entry of the open table in its parent frame is the table as read so far, or a
block. -/
def State.Kept {F : Type} (st : State F) : Prop :=
  ∀ ct, st.currentTable = some ct →
    ∃ m, st.heap[ct.parent]? = some m ∧
      (mapGet m ct.key = some (.val (.table ct.table)) ∨ ∃ r, mapGet m ct.key = some (.ref r))









/-! ## Specification-side definitions for the integrality test -/

/-- The decimal digits of `n` without the zeros at their end. -/
def sigDigits (n : Nat) : Str :=
  ((natText n).reverse.dropWhile (fun c => decide (c = Char.ofNat 48))).reverse

/-- The exponent of the `%e` form: a sign and at least two digits. -/
def expText (e : Nat) : Str :=
  "e+".toList ++ (if e < 10 then Char.ofNat 48 :: natText e else natText e)

/-- What `%g` prints for the `float64` whose value is the natural number `n`, when the
digits of `n` without the zeros at their end are the shortest digits that read back as
that value: the numeral below `10^6`; from there on the first digit, a decimal point when
more digits follow, these digits, and the exponent. -/
def gText (n : Nat) : Str :=
  if n < 1000000 then natText n
  else
    match sigDigits n with
    | [] => natText n
    | d :: rest =>
      (if rest = [] then [d] else d :: Char.ofNat 46 :: rest) ++
        expText ((natText n).length - 1)

/-- A stand-in for the Go library on the `float64` values that are natural numbers, all of
them integral: the conversion to `int64` and back returns the value exactly when it is
below `2^63`, `%.0f` prints the decimal numeral and `%g` the shortest digits. -/
def wideLib : FloatLib Nat where
  parseFloat := sampleParse
  isIntegral := fun n => decide (n < 2 ^ 63)
  fmtF0 := natText
  fmtG := gText

/-! ## Facts about trimming -/

theorem trimLeft_eq_self {s : Str} (h : ∀ a, s.head? = some a → isSpace a = false) :
    trimLeft s = s := by
  cases s with
  | nil => rfl
  | cons a t =>
    have := h a rfl
    simp [trimLeft, List.dropWhile_cons, this]

theorem trimRight_eq_self {s : Str} (h : ∀ b, s.getLast? = some b → isSpace b = false) :
    trimRight s = s := by
  unfold trimRight
  rw [List.rdropWhile_eq_self_iff]
  intro hl
  have := h (s.getLast hl) (List.getLast?_eq_getLast _ hl)
  simp [this]

theorem trimSpace_eq_self {s : Str} (h1 : ∀ a, s.head? = some a → isSpace a = false)
    (h2 : ∀ b, s.getLast? = some b → isSpace b = false) : trimSpace s = s := by
  unfold trimSpace
  rw [trimLeft_eq_self h1, trimRight_eq_self h2]

theorem trimLeft_length_le (s : Str) : (trimLeft s).length ≤ s.length :=
  (List.dropWhile_suffix isSpace).length_le

theorem trimRight_length_le (s : Str) : (trimRight s).length ≤ s.length :=
  (List.rdropWhile_prefix isSpace s).length_le

theorem trimSpace_length_le (s : Str) : (trimSpace s).length ≤ s.length :=
  Nat.le_trans (trimRight_length_le _) (trimLeft_length_le s)

theorem trimLeft_head {s : Str} {a : Char} (h : (trimLeft s).head? = some a) :
    isSpace a = false := by
  unfold trimLeft at h
  have hne : s.dropWhile isSpace ≠ [] := by
    intro h0; rw [h0] at h; simp at h
  have := List.head_dropWhile_not isSpace s hne
  rw [List.head?_eq_head hne] at h
  injection h with h
  rw [← h]; exact this

theorem trimRight_getLast {s : Str} {b : Char} (h : (trimRight s).getLast? = some b) :
    isSpace b = false := by
  unfold trimRight at h
  have hid := List.rdropWhile_idempotent isSpace s
  rw [List.rdropWhile_eq_self_iff] at hid
  have hne : s.rdropWhile isSpace ≠ [] := by
    intro h0; rw [h0] at h; simp at h
  have := hid hne
  rw [List.getLast?_eq_getLast _ hne] at h
  injection h with h
  rw [← h]; simpa using this

theorem trimSpace_head {s : Str} {a : Char} (h : (trimSpace s).head? = some a) :
    isSpace a = false := by
  unfold trimSpace trimRight at h
  obtain ⟨t, ht⟩ := List.rdropWhile_prefix isSpace (trimLeft s)
  cases hr : List.rdropWhile isSpace (trimLeft s) with
  | nil => rw [hr] at h; simp at h
  | cons x r =>
    rw [hr] at h ht
    have hx : x = a := by simpa using h
    apply trimLeft_head (s := s)
    rw [← ht, ← hx]; rfl

theorem trimSpace_getLast {s : Str} {b : Char} (h : (trimSpace s).getLast? = some b) :
    isSpace b = false := trimRight_getLast h

theorem trimSpace_idem (s : Str) : trimSpace (trimSpace s) = trimSpace s :=
  trimSpace_eq_self (fun _ h => trimSpace_head h) (fun _ h => trimSpace_getLast h)

/-! ## `parseValue` never exhausts its bound -/

theorem mapOpt_congr_some {α β : Type} {f g : α → Option β} {l : List α} {bs : List β}
    (hfg : ∀ a ∈ l, ∀ b, f a = some b → g a = some b) (h : mapOpt f l = some bs) :
    mapOpt g l = some bs := by
  induction l generalizing bs with
  | nil => simpa [mapOpt] using h
  | cons a t ih =>
    simp only [mapOpt] at h ⊢
    cases hfa : f a with
    | none => simp [hfa] at h
    | some b =>
      rw [hfa] at h
      rw [hfg a (List.mem_cons_self _ _) b hfa]
      cases hft : mapOpt f t with
      | none => simp [hft] at h
      | some cs =>
        rw [hft] at h
        rw [ih (fun x hx => hfg x (List.mem_cons_of_mem _ hx)) hft]
        exact h

theorem mapOpt_total {α β : Type} {f : α → Option β} {l : List α}
    (hf : ∀ a ∈ l, ∃ b, f a = some b) : ∃ bs, mapOpt f l = some bs := by
  induction l with
  | nil => exact ⟨[], rfl⟩
  | cons a t ih =>
    obtain ⟨b, hb⟩ := hf a (List.mem_cons_self _ _)
    obtain ⟨bs, hbs⟩ := ih (fun x hx => hf x (List.mem_cons_of_mem _ hx))
    exact ⟨b :: bs, by simp [mapOpt, hb, hbs]⟩

theorem mapOpt_eq_map {α β : Type} {f : α → Option β} {g : α → β} {l : List α}
    (hf : ∀ a ∈ l, f a = some (g a)) : mapOpt f l = some (l.map g) := by
  induction l with
  | nil => rfl
  | cons a t ih =>
    simp [mapOpt, hf a (List.mem_cons_self _ _),
      ih (fun x hx => hf x (List.mem_cons_of_mem _ hx))]

theorem parseValueFuel_succ {F : Type} (L : FloatLib F) (n : Nat) :
    ∀ (val : Str) (r : Value F), parseValueFuel L n val = some r →
      parseValueFuel L (n + 1) val = some r := by
  induction n with
  | zero => intro val r h; simp [parseValueFuel] at h
  | succ n ih =>
    intro val r h
    rw [parseValueFuel] at h ⊢
    simp only at h ⊢
    split
    · simp_all
    · split
      · simp_all
      · split
        · simp_all
        · split
          · simp_all
          · split
            · split
              · simp_all
              · rename_i h1 h2 h3 x hx h4 h5
                simp only [h1, h2, h3, hx, h4, h5, if_false, if_true] at h
                cases hm : mapOpt (fun part => parseValueFuel L n (trimSpace part))
                    (split (trimSpace (inner (trimSpace val))) (Char.ofNat 44)) with
                | none => simp [hm] at h
                | some bs =>
                  rw [hm] at h
                  rw [mapOpt_congr_some (fun a _ b hb => ih (trimSpace a) b hb) hm]
                  exact h
            · simp_all

theorem parseValueFuel_mono {F : Type} (L : FloatLib F) {n m : Nat} (hnm : n ≤ m)
    {val : Str} {r : Value F} (h : parseValueFuel L n val = some r) :
    parseValueFuel L m val = some r := by
  induction hnm with
  | refl => exact h
  | step _ ih => exact parseValueFuel_succ L _ _ _ ih

theorem mem_modifyHead {α : Type} {f : α → α} {l : List α} {p : α}
    (h : p ∈ l.modifyHead f) : p ∈ l ∨ ∃ x ∈ l, p = f x := by
  cases l with
  | nil => simp [List.modifyHead] at h
  | cons a t =>
    simp only [List.modifyHead, List.mem_cons] at h
    rcases h with h | h
    · exact Or.inr ⟨a, List.mem_cons_self _ _, h⟩
    · exact Or.inl (List.mem_cons_of_mem _ h)

theorem split_nil (sep : Char) : split [] sep = [[]] := by
  simp [split, List.splitOn]

theorem split_cons (c : Char) (s : Str) (sep : Char) :
    split (c :: s) sep =
      if c = sep then [] :: split s sep else (split s sep).modifyHead (List.cons c) := by
  simp [split, List.splitOn, List.splitOnP_cons]

theorem split_ne_nil (s : Str) (sep : Char) : split s sep ≠ [] := by
  simp [split, List.splitOn, List.splitOnP_ne_nil]

theorem split_part_length (sep : Char) :
    ∀ (s : Str) (p : Str), p ∈ split s sep → p.length ≤ s.length := by
  intro s
  induction s with
  | nil => intro p hp; simp [split_nil] at hp; simp [hp]
  | cons c s ih =>
    intro p hp
    rw [split_cons] at hp
    split at hp
    · simp only [List.mem_cons] at hp
      rcases hp with hp | hp
      · simp [hp]
      · have := ih p hp; simp; omega
    · rcases mem_modifyHead hp with h | ⟨x, hx, rfl⟩
      · have := ih p h; simp; omega
      · have := ih x hx; simp; omega

theorem enclosed_length {val : Str} {a b : Char} (h : enclosed val a b = true) :
    2 ≤ val.length := by
  simp [enclosed] at h
  exact h.1.1

theorem inner_length (val : Str) : (inner val).length = val.length - 2 := by
  simp [inner]; omega

/-- The parts `parseValue` recurses on are strictly shorter than its argument. -/
theorem part_shorter {val0 : Str} {a b : Char} (h : enclosed (trimSpace val0) a b = true)
    {part : Str} (hp : part ∈ split (trimSpace (inner (trimSpace val0))) (Char.ofNat 44)) :
    (trimSpace part).length + 2 ≤ val0.length := by
  have h1 := enclosed_length h
  have h2 := trimSpace_length_le val0
  have h3 := inner_length (trimSpace val0)
  have h4 := trimSpace_length_le (inner (trimSpace val0))
  have h5 := split_part_length _ _ _ hp
  have h6 := trimSpace_length_le part
  omega

theorem parseValueFuel_total {F : Type} (L : FloatLib F) (n : Nat) :
    ∀ val : Str, val.length < n → ∃ r, parseValueFuel L n val = some r := by
  induction n with
  | zero => intro val h; omega
  | succ n ih =>
    intro val hlen
    rw [parseValueFuel]
    simp only
    split
    · exact ⟨_, rfl⟩
    · split
      · exact ⟨_, rfl⟩
      · split
        · exact ⟨_, rfl⟩
        · split
          · exact ⟨_, rfl⟩
          · split
            · rename_i henc
              split
              · exact ⟨_, rfl⟩
              · have hall : ∀ part ∈ split (trimSpace (inner (trimSpace val))) (Char.ofNat 44),
                    ∃ b, parseValueFuel L n (trimSpace part) = some b := by
                  intro part hp
                  apply ih
                  have := part_shorter henc hp
                  omega
                obtain ⟨bs, hbs⟩ := mapOpt_total hall
                exact ⟨.arr bs, by rw [hbs]; rfl⟩
            · exact ⟨_, rfl⟩

theorem parseValueFuel_eq_parseValue {F : Type} (L : FloatLib F) {n : Nat} {val : Str}
    (h : val.length < n) : parseValueFuel L n val = some (parseValue L val) := by
  obtain ⟨r, hr⟩ := parseValueFuel_total L (val.length + 1) val (Nat.lt_succ_self _)
  have : parseValue L val = r := by simp [parseValue, hr]
  rw [this]
  exact parseValueFuel_mono L (by omega) hr

/-- The defining equation of `parseValue`, as the source states it. -/
theorem parseValue_eq {F : Type} (L : FloatLib F) (val0 : Str) :
    parseValue L val0 =
      (let val := trimSpace val0
       if val = "true".toList then .bool true
       else if val = "false".toList then .bool false
       else if enclosed val (Char.ofNat 34) (Char.ofNat 34) then .str (inner val)
       else
         match L.parseFloat val with
         | some num => .num num
         | none =>
           if enclosed val (Char.ofNat 91) (Char.ofNat 93) then
             let content := trimSpace (inner val)
             if content = [] then .arr []
             else .arr ((split content (Char.ofNat 44)).map
               (fun part => parseValue L (trimSpace part)))
           else .str val) := by
  have h := parseValueFuel_eq_parseValue L (Nat.lt_succ_self val0.length)
  rw [parseValueFuel] at h
  simp only at h ⊢
  split
  · simp_all
  · split
    · simp_all
    · split
      · simp_all
      · split
        · simp_all
        · split
          · rename_i henc
            split
            · simp_all
            · rename_i h1 h2 h3 x hx h5
              simp only [h1, h2, h3, hx, henc, h5, if_false, if_true] at h
              rw [mapOpt_eq_map (g := fun part => parseValue L (trimSpace part))] at h
              · simpa using h.symm
              · intro part hp
                apply parseValueFuel_eq_parseValue
                have := part_shorter henc hp
                omega
          · simp_all

/-! ## Scalars: totality and round trip -/

theorem parseValue_isParsed {F : Type} (L : FloatLib F) (val : Str) :
    (parseValue L val).isParsed := by
  rw [parseValue_eq]
  simp only
  split
  · trivial
  · split
    · trivial
    · split
      · trivial
      · split
        · trivial
        · split
          · split <;> trivial
          · trivial

theorem quoted_ne_nil (s : Str) : Char.ofNat 34 :: (s ++ [Char.ofNat 34]) ≠ [] := by simp

theorem trimSpace_quoted (s : Str) :
    trimSpace (Char.ofNat 34 :: (s ++ [Char.ofNat 34])) = Char.ofNat 34 :: (s ++ [Char.ofNat 34]) := by
  apply trimSpace_eq_self
  · intro a h
    simp only [List.head?_cons, Option.some.injEq] at h
    subst h; decide
  · intro b h
    rw [← List.cons_append, List.getLast?_concat] at h
    simp only [Option.some.injEq] at h
    subst h; decide

theorem enclosed_quoted (s : Str) :
    enclosed (Char.ofNat 34 :: (s ++ [Char.ofNat 34])) (Char.ofNat 34) (Char.ofNat 34) = true := by
  have h : (Char.ofNat 34 :: (s ++ [Char.ofNat 34])).getLast? = some (Char.ofNat 34) := by
    rw [← List.cons_append, List.getLast?_concat]
  simp [enclosed, h]

theorem inner_quoted (s : Str) (a b : Char) : inner (a :: (s ++ [b])) = s := by
  simp [inner, List.take_append_eq_append_take]

theorem parseValue_quoted {F : Type} (L : FloatLib F) (s : Str) :
    parseValue L (Char.ofNat 34 :: (s ++ [Char.ofNat 34])) = .str s := by
  rw [parseValue_eq]
  simp only [trimSpace_quoted, enclosed_quoted, inner_quoted, if_true]
  have h1 : Char.ofNat 34 :: (s ++ [Char.ofNat 34]) ≠ "true".toList := by
    intro h
    have := congrArg List.head? h
    simp only [List.head?_cons] at this
    revert this; decide
  have h2 : Char.ofNat 34 :: (s ++ [Char.ofNat 34]) ≠ "false".toList := by
    intro h
    have := congrArg List.head? h
    simp only [List.head?_cons] at this
    revert this; decide
  simp [h1, h2]

/-- C9. `parseValue` is total: on every token the bounded recursion returns a value before
its bound `len(val) + 1` is exhausted, that value is what `parseValue` returns, and it is
a Bool, a String, a Number or an Array; and every recursive call made for an array
element (the trimmed parts of the bracketed content) is on a string strictly shorter
than the token. -/
theorem C9_parseValue_total {F : Type} (L : FloatLib F) (val : Str) :
    (∃ v, parseValueFuel L (val.length + 1) val = some v ∧ parseValue L val = v ∧
      v.isParsed) ∧
    (enclosed (trimSpace val) (Char.ofNat 91) (Char.ofNat 93) = true →
      ∀ part ∈ split (trimSpace (inner (trimSpace val))) (Char.ofNat 44),
        (trimSpace part).length < val.length) := by
  refine ⟨⟨parseValue L val, parseValueFuel_eq_parseValue L (Nat.lt_succ_self _), rfl,
    parseValue_isParsed L val⟩, ?_⟩
  intro henc part hp
  have := part_shorter henc hp
  omega

/-- Witness of C9 on the token `[a, [b]]`, whose second element recurses once more. -/
theorem C9_parseValue_total_witness :
    (∃ v, parseValueFuel sampleLib ("[a, [b]]".toList.length + 1) "[a, [b]]".toList = some v ∧
      parseValue sampleLib "[a, [b]]".toList = v ∧ v.isParsed) ∧
    (enclosed (trimSpace "[a, [b]]".toList) (Char.ofNat 91) (Char.ofNat 93) = true →
      ∀ part ∈ split (trimSpace (inner (trimSpace "[a, [b]]".toList))) (Char.ofNat 44),
        (trimSpace part).length < "[a, [b]]".toList.length) :=
  C9_parseValue_total sampleLib "[a, [b]]".toList

/-- C10. Scalar round trip: `parseValue` of any string `s` wrapped in double quotes is
the String `s`, taken verbatim; hence `parseValue (serializeValue (String s)) = String s`,
and `parseValue (serializeValue (Bool b)) = Bool b`. -/
theorem C10_scalar_round_trip {F : Type} (L : FloatLib F) :
    (∀ s : Str, parseValue L ([Char.ofNat 34] ++ s ++ [Char.ofNat 34]) = .str s) ∧
    (∀ s : Str, parseValue L (serializeValue L (.str s)) = .str s) ∧
    (∀ b : Bool, parseValue L (serializeValue L (.bool b)) = .bool b) := by
  refine ⟨fun s => ?_, fun s => ?_, fun b => ?_⟩
  · simpa using parseValue_quoted L s
  · simpa [serializeValue] using parseValue_quoted L s
  · cases b
    · have hs : serializeValue L (.bool false) = "false".toList := by simp [serializeValue]
      have ht : trimSpace "false".toList = "false".toList := by decide
      rw [hs, parseValue_eq]
      simp only [ht]
      rw [if_neg (by decide), if_pos trivial]
    · have hs : serializeValue L (.bool true) = "true".toList := by simp [serializeValue]
      have ht : trimSpace "true".toList = "true".toList := by decide
      rw [hs, parseValue_eq]
      simp only [ht]
      rw [if_pos trivial]

/-! ## `removeComments` -/

theorem index_ge (sub : Str) : ∀ s : Str, -1 ≤ index s sub := by
  intro s
  induction s with
  | nil => rw [index]; split <;> omega
  | cons c t ih =>
    rw [index]
    split
    · omega
    · split <;> omega

theorem index_cons (c : Char) (t sub : Str) :
    index (c :: t) sub =
      if sub.isPrefixOf (c :: t) then 0
      else if index t sub < 0 then -1 else index t sub + 1 := by
  rw [index]

theorem index_nil (sub : Str) : index [] sub = if sub.isPrefixOf [] then 0 else -1 := by
  rw [index]

theorem hash_isPrefixOf (c : Char) (t : Str) :
    "#".toList.isPrefixOf (c :: t) = decide (c = Char.ofNat 35) := by
  have h : "#".toList = [Char.ofNat 35] := rfl
  rw [h]
  by_cases hc : c = Char.ofNat 35
  · subst hc; simp [List.isPrefixOf]
  · simp [List.isPrefixOf, hc]
    exact fun h => hc h.symm

theorem slashes_isPrefixOf (c : Char) (t : Str) :
    "//".toList.isPrefixOf (c :: t) =
      (decide (c = Char.ofNat 47) && decide (t.head? = some (Char.ofNat 47))) := by
  have h : "//".toList = [Char.ofNat 47, Char.ofNat 47] := rfl
  rw [h]
  cases t with
  | nil =>
    by_cases hc : c = Char.ofNat 47
    · subst hc; simp [List.isPrefixOf]
    · simp [List.isPrefixOf, hc]
  | cons d t =>
    by_cases hc : c = Char.ofNat 47 <;> by_cases hd : d = Char.ofNat 47
    · subst hc; subst hd; simp [List.isPrefixOf]
    · subst hc; simp [List.isPrefixOf, hd]; exact fun h => hd h.symm
    · simp [List.isPrefixOf, hc]; intro h; exact absurd h.symm hc
    · simp [List.isPrefixOf, hc]; intro h; exact absurd h.symm hc

theorem removeComments_nil : removeComments [] = [] := by
  simp [removeComments]

theorem removeComments_def (line : Str) :
    removeComments line =
      if cutIndexOf (index line "#".toList) (index line "//".toList) ≥ 0 then
        line.take (cutIndexOf (index line "#".toList) (index line "//".toList)).toNat
      else line := rfl

theorem cutIndexOf_shift (i1 i2 : Int) (h1 : -1 ≤ i1) (h2 : -1 ≤ i2) :
    cutIndexOf (if i1 < 0 then -1 else i1 + 1) (if i2 < 0 then -1 else i2 + 1) =
      if cutIndexOf i1 i2 < 0 then -1 else cutIndexOf i1 i2 + 1 := by
  unfold cutIndexOf
  split_ifs <;> omega

theorem cutIndexOf_zero_left (j : Int) (_h : -1 ≤ j) : cutIndexOf 0 j = 0 := by
  unfold cutIndexOf
  split_ifs <;> omega

theorem cutIndexOf_zero_right (i : Int) (_h : -1 ≤ i) : cutIndexOf i 0 = 0 := by
  unfold cutIndexOf
  split_ifs <;> omega

theorem cutIndexOf_ge (i1 i2 : Int) (_h1 : -1 ≤ i1) (_h2 : -1 ≤ i2) : -1 ≤ cutIndexOf i1 i2 := by
  unfold cutIndexOf
  split_ifs <;> omega

/-- `removeComments`, by recursion on the line. -/
theorem removeComments_cons (c : Char) (t : Str) :
    removeComments (c :: t) =
      if c = Char.ofNat 35 ∨ (c = Char.ofNat 47 ∧ t.head? = some (Char.ofNat 47)) then []
      else c :: removeComments t := by
  have g1 := index_ge "#".toList t
  have g2 := index_ge "//".toList t
  rw [removeComments_def, removeComments_def]
  rw [index_cons, index_cons, hash_isPrefixOf, slashes_isPrefixOf]
  generalize index t "#".toList = i1 at g1 ⊢
  generalize index t "//".toList = i2 at g2 ⊢
  by_cases h1 : c = Char.ofNat 35
  · have e : ∀ x : Int, cutIndexOf (if decide (c = Char.ofNat 35) = true then 0 else
        if i1 < 0 then -1 else i1 + 1) x = cutIndexOf 0 x := by simp [h1]
    rw [e, cutIndexOf_zero_left _ (by split_ifs <;> omega), if_pos (Or.inl h1)]
    rfl
  · by_cases h2 : c = Char.ofNat 47 ∧ t.head? = some (Char.ofNat 47)
    · have e : ∀ x : Int, cutIndexOf x (if (decide (c = Char.ofNat 47) &&
          decide (t.head? = some (Char.ofNat 47))) = true then 0 else
          if i2 < 0 then -1 else i2 + 1) = cutIndexOf x 0 := by simp [h2]
      rw [e, cutIndexOf_zero_right _ (by split_ifs <;> omega), if_pos (Or.inr h2)]
      rfl
    · have e : cutIndexOf (if decide (c = Char.ofNat 35) = true then 0 else
          if i1 < 0 then -1 else i1 + 1) (if (decide (c = Char.ofNat 47) &&
          decide (t.head? = some (Char.ofNat 47))) = true then 0 else
          if i2 < 0 then -1 else i2 + 1) =
          cutIndexOf (if i1 < 0 then -1 else i1 + 1) (if i2 < 0 then -1 else i2 + 1) := by
        have h2f : (decide (c = Char.ofNat 47) && decide (t.head? = some (Char.ofNat 47))) = false := by
          simpa using h2
        rw [h2f]
        simp [h1]
      have hno : ¬ (c = Char.ofNat 35 ∨ (c = Char.ofNat 47 ∧ t.head? = some (Char.ofNat 47))) := by
        intro h; rcases h with h | h
        · exact h1 h
        · exact h2 h
      rw [e, cutIndexOf_shift i1 i2 g1 g2, if_neg hno]
      have g := cutIndexOf_ge i1 i2 g1 g2
      generalize cutIndexOf i1 i2 = k at g ⊢
      by_cases hk : k < 0
      · have hk2 : ¬ (k ≥ 0) := by omega
        simp [hk, hk2]
      · have hk2 : k ≥ 0 := by omega
        have hk3 : k + 1 ≥ 0 := by omega
        have : (k + 1).toNat = k.toNat + 1 := by omega
        simp only [hk, hk2, hk3, if_true, if_false, this, List.take_succ_cons]

theorem markerAt_zero (c : Char) (t : Str) :
    markerAt (c :: t) 0 = true ↔
      (c = Char.ofNat 35 ∨ (c = Char.ofNat 47 ∧ t.head? = some (Char.ofNat 47))) := by
  cases t <;> simp [markerAt]

theorem markerAt_succ (c : Char) (t : Str) (i : Nat) :
    markerAt (c :: t) (i + 1) = markerAt t i := by
  simp [markerAt]

theorem removeComments_take (line : Str) :
    ∀ i, markerAt line i = true → (∀ j, j < i → markerAt line j = false) →
      removeComments line = line.take i := by
  induction line with
  | nil => intro i h _; simp [markerAt] at h
  | cons c t ih =>
    intro i h hmin
    rw [removeComments_cons]
    by_cases h0 : markerAt (c :: t) 0 = true
    · have hi : i = 0 := by
        by_contra hne
        have := hmin 0 (Nat.pos_of_ne_zero hne)
        rw [h0] at this; cases this
      subst hi
      rw [if_pos ((markerAt_zero c t).1 h0)]; rfl
    · rw [if_neg (fun hc => h0 ((markerAt_zero c t).2 hc))]
      cases i with
      | zero => exact absurd h h0
      | succ i =>
        rw [markerAt_succ] at h
        rw [ih i h (fun j hj => by
          have := hmin (j + 1) (Nat.succ_lt_succ hj)
          rwa [markerAt_succ] at this)]
        rfl

theorem removeComments_none (line : Str) :
    (∀ i, markerAt line i = false) → removeComments line = line := by
  induction line with
  | nil => intro _; exact removeComments_nil
  | cons c t ih =>
    intro h
    rw [removeComments_cons]
    have h0 : ¬ markerAt (c :: t) 0 = true := by rw [h 0]; simp
    rw [if_neg (fun hc => h0 ((markerAt_zero c t).2 hc))]
    rw [ih (fun i => by have := h (i + 1); rwa [markerAt_succ] at this)]

/-- C5. `removeComments` returns the prefix of the line that ends just before the
earliest comment marker (a `#`, or a `/` followed by a `/`), and the line unchanged when
it holds no marker. -/
theorem C5_removeComments_cut (line : Str) :
    (∀ i, markerAt line i = true → (∀ j, j < i → markerAt line j = false) →
      removeComments line = line.take i) ∧
    ((∀ i, markerAt line i = false) → removeComments line = line) :=
  ⟨removeComments_take line, removeComments_none line⟩

/-- Witness of C5: in `ab // x # y` the earliest marker is the `//` at position 3, before
the `#`; `a/b` holds no marker. -/
theorem C5_removeComments_cut_witness :
    removeComments "ab // x # y".toList = "ab ".toList ∧
    removeComments "a/b".toList = "a/b".toList :=
  ⟨(C5_removeComments_cut "ab // x # y".toList).1 3 (by decide) (by decide),
   (C5_removeComments_cut "a/b".toList).2 (fun i => by
     rcases i with _ | _ | _ | _ | i <;> rfl)⟩

/-! ## `Decode` never panics -/

theorem mem_mapSet {α : Type} {m : List (Str × α)} {k : Str} {v : α} {e : Str × α}
    (h : e ∈ mapSet m k v) : e ∈ m ∨ e = (k, v) := by
  induction m with
  | nil => simp [mapSet] at h; exact Or.inr h
  | cons x t ih =>
    obtain ⟨k0, v0⟩ := x
    simp only [mapSet] at h
    split at h
    · rename_i hk
      simp only [List.mem_cons] at h
      rcases h with h | h
      · right; rw [h, hk]
      · left; exact List.mem_cons_of_mem _ h
    · simp only [List.mem_cons] at h
      rcases h with h | h
      · left; rw [h]; exact List.mem_cons_self _ _
      · rcases ih h with h | h
        · left; exact List.mem_cons_of_mem _ h
        · right; exact h

theorem heapSet_some {F : Type} {heap : List (Frame F)} {addr : Nat} (h : addr < heap.length)
    (key : Str) (cell : Cell F) :
    ∃ m, heap[addr]? = some m ∧
      heapSet heap addr key cell = some (heap.set addr (mapSet m key cell)) := by
  have : heap[addr]? = some heap[addr] := List.getElem?_eq_getElem h
  exact ⟨_, this, by simp [heapSet, this]⟩

theorem heapSet_length {F : Type} {heap heap1 : List (Frame F)} {addr : Nat} {key : Str}
    {cell : Cell F} (h : heapSet heap addr key cell = some heap1) :
    heap1.length = heap.length := by
  unfold heapSet at h
  split at h
  · cases h
  · injection h with h; rw [← h]; simp

/-- Entries of a frame after an assignment somewhere in the heap: old entries of that
frame, or the assigned entry. -/
theorem heapSet_get {F : Type} {heap heap1 : List (Frame F)} {addr : Nat} {key : Str}
    {cell : Cell F} (h : heapSet heap addr key cell = some heap1) {a : Nat} {m1 : Frame F}
    (hm1 : heap1[a]? = some m1) {e : Str × Cell F} (he : e ∈ m1) :
    (∃ m, heap[a]? = some m ∧ e ∈ m) ∨ (a = addr ∧ e = (key, cell)) := by
  unfold heapSet at h
  split at h
  · cases h
  · rename_i m hm
    injection h with h
    subst h
    by_cases ha : addr = a
    · subst ha
      have hlt : addr < heap.length := by
        by_contra hge
        rw [List.getElem?_eq_none (by omega)] at hm
        cases hm
      rw [List.getElem?_set_self hlt] at hm1
      injection hm1 with hm1
      subst hm1
      rcases mem_mapSet he with h | h
      · left; exact ⟨m, hm, h⟩
      · right; exact ⟨rfl, h⟩
    · rw [List.getElem?_set_ne ha] at hm1
      left; exact ⟨m1, hm1, he⟩

theorem WF_heapSet_val {F : Type} {st : State F} (hwf : st.WF) {addr : Nat} {key : Str}
    {v : Value F} {heap1 : List (Frame F)}
    (h : heapSet st.heap addr key (.val v) = some heap1) (ct : Option (TableContext F))
    (hct : ∀ c, ct = some c → c.parent < st.heap.length) :
    State.WF { st with heap := heap1, currentTable := ct } := by
  have hlen := heapSet_length h
  refine ⟨hwf.root, ?_, ?_, ?_⟩
  · intro a ha; simp only [hlen]; exact hwf.stack_lt a ha
  · intro c hc; simp only [hlen]; exact hct c hc
  · intro a m hm k r hr
    simp only at hm
    rcases heapSet_get h hm hr with ⟨m0, hm0, hin⟩ | ⟨_, heq⟩
    · simp only [hlen]; exact hwf.refs_up a m0 hm0 k r hin
    · cases heq

theorem WF_top {F : Type} {st : State F} (hwf : st.WF) :
    ∃ top, st.stack.getLast? = some top ∧ top ∈ st.stack ∧ top < st.heap.length := by
  have hne : st.stack ≠ [] := by
    intro h
    have := hwf.root
    rw [h] at this; cases this
  refine ⟨st.stack.getLast hne, List.getLast?_eq_getLast _ hne, List.getLast_mem hne, ?_⟩
  exact hwf.stack_lt _ (List.getLast_mem hne)

theorem WF_push {F : Type} {st : State F} (hwf : st.WF) {top : Nat}
    (htop : top < st.heap.length) {key : Str} {heap1 : List (Frame F)}
    (h : heapSet (st.heap ++ [[]]) top key (.ref st.heap.length) = some heap1) :
    State.WF { st with heap := heap1, stack := st.stack ++ [st.heap.length] } := by
  have hlen : heap1.length = st.heap.length + 1 := by
    rw [heapSet_length h]; simp
  refine ⟨?_, ?_, ?_, ?_⟩
  · have := hwf.root
    cases hs : st.stack with
    | nil => rw [hs] at this; cases this
    | cons a t => rw [hs] at this; simpa using this
  · intro a ha
    simp only [List.mem_append, List.mem_singleton] at ha
    simp only [hlen]
    rcases ha with ha | ha
    · have := hwf.stack_lt a ha; omega
    · omega
  · intro c hc
    simp only [hlen]
    have := hwf.parent_lt c hc; omega
  · intro a m hm k r hr
    simp only at hm
    simp only [hlen]
    rcases heapSet_get h hm hr with ⟨m0, hm0, hin⟩ | ⟨ha, heq⟩
    · by_cases hlt : a < st.heap.length
      · rw [List.getElem?_append_left hlt] at hm0
        have := hwf.refs_up a m0 hm0 k r hin
        omega
      · rw [List.getElem?_append_right (by omega)] at hm0
        cases hidx : a - st.heap.length with
        | zero =>
          rw [hidx] at hm0
          simp at hm0
          subst hm0
          cases hin
        | succ n =>
          rw [hidx] at hm0
          simp at hm0
    · injection heq with _ h2
      injection h2 with h2
      omega

theorem WF_pop {F : Type} {st : State F} (hwf : st.WF) (hlen : st.stack.length > 1) :
    State.WF { st with stack := st.stack.dropLast } := by
  refine ⟨?_, ?_, hwf.parent_lt, hwf.refs_up⟩
  · have := hwf.root
    cases hs : st.stack with
    | nil => rw [hs] at this; cases this
    | cons a t =>
      rw [hs] at this hlen
      cases t with
      | nil => simp at hlen
      | cons b u => simpa [List.dropLast] using this
  · intro a ha
    exact hwf.stack_lt a (List.dropLast_subset _ ha)

/-- A step on a well-formed state does not panic, and keeps the state well-formed. -/
theorem stepLine_WF {F : Type} (L : FloatLib F) {st : State F} (hwf : st.WF) (line : Str) :
    ∃ st1, stepLine L st line = some st1 ∧ st1.WF := by
  obtain ⟨top, htop, _, hlt⟩ := WF_top hwf
  unfold stepLine
  rw [htop]
  simp only
  split
  · obtain ⟨m, _, hset⟩ := @heapSet_some F (st.heap ++ [[]]) top
      (by simp; omega) (trimSpace line.dropLast) (.ref st.heap.length)
    rw [hset]
    exact ⟨_, rfl, WF_push hwf hlt hset⟩
  · split
    · split
      · rename_i h
        exact ⟨_, rfl, WF_pop hwf h⟩
      · exact ⟨_, rfl, hwf⟩
    · split
      · rename_i key columnsStr _
        obtain ⟨m, _, hset⟩ := heapSet_some hlt key (Cell.val (Value.table ([] : List (Obj F))))
        rw [hset]
        refine ⟨_, rfl, WF_heapSet_val hwf hset _ ?_⟩
        intro c hc
        injection hc with hc
        rw [← hc]; exact hlt
      · split
        · split
          · rename_i ct hct
            have hp := hwf.parent_lt ct hct
            obtain ⟨m, _, hset⟩ := heapSet_some hp ct.key (Cell.val (Value.table ct.table))
            rw [hset]
            exact ⟨_, rfl, WF_heapSet_val hwf hset none (fun c hc => by cases hc)⟩
          · exact ⟨_, rfl, State.WF.mk hwf.root hwf.stack_lt (fun c hc => by cases hc) hwf.refs_up⟩
        · split
          · rename_i ct hct
            have hp := hwf.parent_lt ct hct
            obtain ⟨m, _, hset⟩ := heapSet_some hp ct.key
              (Cell.val (Value.table (ct.table ++ [tableRow L ct.columns line])))
            rw [hset]
            refine ⟨_, rfl, WF_heapSet_val hwf hset _ ?_⟩
            intro c hc
            injection hc with hc
            rw [← hc]; exact hp
          · rename_i hct
            split
            · rename_i key val _
              obtain ⟨m, _, hset⟩ := heapSet_some hlt key
                (Cell.val (parseValue L (trimSpace val)))
              rw [hset]
              have := WF_heapSet_val hwf hset none (fun c hc => by cases hc)
              rw [← hct] at this
              exact ⟨_, rfl, this⟩
            · exact ⟨_, rfl, hwf⟩

theorem step_WF {F : Type} (L : FloatLib F) {st : State F} (hwf : st.WF) (raw : Str) :
    ∃ st1, step L st raw = some st1 ∧ st1.WF := by
  unfold step
  simp only
  split
  · exact ⟨st, rfl, hwf⟩
  · exact stepLine_WF L hwf _

theorem run_WF {F : Type} (L : FloatLib F) (lines : List Str) :
    ∀ {st : State F}, st.WF → ∃ st1, run L st lines = some st1 ∧ st1.WF := by
  induction lines with
  | nil => intro st hwf; exact ⟨st, rfl, hwf⟩
  | cons raw lines ih =>
    intro st hwf
    obtain ⟨st1, h1, hwf1⟩ := step_WF L hwf raw
    obtain ⟨st2, h2, hwf2⟩ := ih hwf1
    exact ⟨st2, by simp [run, h1, h2], hwf2⟩

theorem initState_WF {F : Type} : (initState : State F).WF := by
  refine ⟨rfl, ?_, ?_, ?_⟩
  · intro a ha; simp [initState] at ha ⊢; omega
  · intro c hc; cases hc
  · intro a m hm k r hr
    simp only [initState] at hm
    cases a with
    | zero => simp at hm; subst hm; cases hr
    | succ n => simp at hm

theorem reify_total {F : Type} {heap : List (Frame F)}
    (hup : ∀ a m, heap[a]? = some m → ∀ k r, (k, Cell.ref r) ∈ m → a < r ∧ r < heap.length)
    (fuel : Nat) : ∀ a, a < heap.length → heap.length ≤ fuel + a →
      ∃ o, reify heap fuel a = some o := by
  induction fuel with
  | zero => intro a h1 h2; omega
  | succ fuel ih =>
    intro a h1 h2
    have hm : heap[a]? = some heap[a] := List.getElem?_eq_getElem h1
    rw [reify, hm]
    simp only
    apply mapOpt_total
    intro kc hkc
    obtain ⟨k, c⟩ := kc
    cases c with
    | val v => exact ⟨_, rfl⟩
    | ref r =>
      have := hup a _ hm k r hkc
      obtain ⟨o, ho⟩ := ih r this.2 (by omega)
      exact ⟨(k, Value.obj o), by simp [ho]⟩

theorem finish_ok {F : Type} {st : State F} (hwf : st.WF) :
    ∃ obj, finish (some st) = Outcome.ok obj := by
  have hroot := hwf.root
  have h0 : 0 < st.heap.length := by
    have hne : st.stack ≠ [] := by
      intro h; rw [h] at hroot; cases hroot
    have : (0 : Nat) ∈ st.stack := by
      cases hs : st.stack with
      | nil => exact absurd hs hne
      | cons a t => rw [hs] at hroot; simp at hroot; simp [hroot]
    exact hwf.stack_lt 0 this
  obtain ⟨o, ho⟩ := reify_total hwf.refs_up st.heap.length 0 h0 (by omega)
  exact ⟨o, by simp [finish, hroot, ho]⟩

theorem decodeText_ok {F : Type} (L : FloatLib F) (input : Str) :
    ∃ obj, decodeText L input = Outcome.ok obj := by
  unfold decodeText
  simp only
  split
  · exact ⟨[], rfl⟩
  · obtain ⟨st1, h1, hwf1⟩ := run_WF L (split (trimSpace input) (Char.ofNat 10)) initState_WF
    rw [h1]
    exact finish_ok hwf1

/-- C2. `Decode` returns an object and no error for every string input and for every
byte-sequence input (it does not panic either), and it returns an error exactly when the
input is of another type. -/
theorem C2_decode_error_iff_not_text {F : Type} (L : FloatLib F) :
    (∀ s : Str, ∃ obj, Decode L (.string s) = Outcome.ok obj) ∧
    (∀ b : Str, ∃ obj, Decode L (.bytes b) = Outcome.ok obj) ∧
    (∀ text : Input, (∃ msg, Decode L text = Outcome.error msg) ↔
      ∃ typeName, text = .other typeName) := by
  refine ⟨fun s => decodeText_ok L s, fun b => decodeText_ok L b, fun text => ?_⟩
  constructor
  · rintro ⟨msg, h⟩
    cases text with
    | string s =>
      obtain ⟨o, ho⟩ := decodeText_ok L s
      simp only [Decode, ho] at h
      cases h
    | bytes b =>
      obtain ⟨o, ho⟩ := decodeText_ok L b
      simp only [Decode, ho] at h
      cases h
    | other ty => exact ⟨ty, rfl⟩
  · rintro ⟨ty, rfl⟩
    exact ⟨_, rfl⟩

/-! ## `Decode` as a function of the normalised lines -/

theorem run_eq_runLines {F : Type} (L : FloatLib F) (raws : List Str) :
    ∀ st : State F, run L st raws =
      runLines L st ((raws.map normLine).filter (fun l => l ≠ [])) := by
  induction raws with
  | nil => intro st; rfl
  | cons raw raws ih =>
    intro st
    simp only [run, step, List.map_cons]
    by_cases h : normLine raw = []
    · have h2 : trimSpace (removeComments raw) = [] := h
      simp only [h2, if_true]
      rw [List.filter_cons_of_neg (by simp [h])]
      exact ih st
    · have h2 : ¬ trimSpace (removeComments raw) = [] := h
      simp only [h2, if_false]
      rw [List.filter_cons_of_pos (by simp [h])]
      simp only [runLines]
      have h3 : stepLine L st (normLine raw) = stepLine L st (trimSpace (removeComments raw)) := rfl
      rw [h3]
      cases stepLine L st (trimSpace (removeComments raw)) with
      | none => rfl
      | some st1 => exact ih st1

theorem space_not_marker {c : Char} (h : isSpace c = true) :
    c ≠ Char.ofNat 35 ∧ c ≠ Char.ofNat 47 := by
  constructor <;> (intro hc; subst hc; revert h; decide)

theorem removeComments_cons_space {c : Char} (h : isSpace c = true) (t : Str) :
    removeComments (c :: t) = c :: removeComments t := by
  rw [removeComments_cons]
  obtain ⟨h1, h2⟩ := space_not_marker h
  simp [h1, h2]

theorem removeComments_spaces {w : Str} (h : ∀ c ∈ w, isSpace c = true) :
    removeComments w = w := by
  induction w with
  | nil => exact removeComments_nil
  | cons c t ih =>
    rw [removeComments_cons_space (h c (List.mem_cons_self _ _)),
      ih (fun x hx => h x (List.mem_cons_of_mem _ hx))]

/-- A comment marker does not straddle the boundary when the right part does not start
with `/`: the cut is found in the left part, or else in the right part. -/
theorem removeComments_append (l r : Str) (hr : r.head? ≠ some (Char.ofNat 47)) :
    removeComments (l ++ r) =
      if removeComments l = l then l ++ removeComments r else removeComments l := by
  induction l with
  | nil => simp [removeComments_nil]
  | cons d t ih =>
    rw [List.cons_append, removeComments_cons, removeComments_cons]
    have hhead : (t ++ r).head? = some (Char.ofNat 47) ↔ t.head? = some (Char.ofNat 47) := by
      cases t with
      | nil => simp [hr]
      | cons e u => simp
    by_cases hm : d = Char.ofNat 35 ∨ (d = Char.ofNat 47 ∧ t.head? = some (Char.ofNat 47))
    · have hm2 : d = Char.ofNat 35 ∨ (d = Char.ofNat 47 ∧ (t ++ r).head? = some (Char.ofNat 47)) := by
        rw [hhead]; exact hm
      rw [if_pos hm2, if_pos hm]
      simp
    · have hm2 : ¬ (d = Char.ofNat 35 ∨ (d = Char.ofNat 47 ∧ (t ++ r).head? = some (Char.ofNat 47))) := by
        rw [hhead]; exact hm
      rw [if_neg hm2, if_neg hm, ih]
      by_cases ht : removeComments t = t
      · simp [ht]
      · simp [ht]

theorem trimLeft_spaces_append {w : Str} (h : ∀ c ∈ w, isSpace c = true) (x : Str) :
    trimLeft (w ++ x) = trimLeft x := by
  unfold trimLeft
  exact List.dropWhile_append_of_pos h

theorem trimSpace_spaces_append {w : Str} (h : ∀ c ∈ w, isSpace c = true) (x : Str) :
    trimSpace (w ++ x) = trimSpace x := by
  unfold trimSpace
  rw [trimLeft_spaces_append h]

theorem trimRight_append_spaces (x : Str) {w : Str} (h : ∀ c ∈ w, isSpace c = true) :
    trimRight (x ++ w) = trimRight x := by
  induction w using List.reverseRecOn with
  | nil => simp
  | append_singleton w c ih =>
    unfold trimRight at ih ⊢
    rw [← List.append_assoc, List.rdropWhile_concat, if_pos (h c (by simp))]
    exact ih (fun y hy => h y (by simp [hy]))

theorem trimLeft_spaces {w : Str} (h : ∀ c ∈ w, isSpace c = true) : trimLeft w = [] := by
  unfold trimLeft
  rw [List.dropWhile_eq_nil_iff]; exact h

theorem trimSpace_spaces {w : Str} (h : ∀ c ∈ w, isSpace c = true) : trimSpace w = [] := by
  unfold trimSpace
  rw [trimLeft_spaces h]; rfl

theorem trimLeft_append (x w : Str) :
    trimLeft (x ++ w) = if trimLeft x = [] then trimLeft w else trimLeft x ++ w := by
  unfold trimLeft
  rw [List.dropWhile_append]
  cases h : List.dropWhile isSpace x <;> simp

theorem trimSpace_append_spaces (x : Str) {w : Str} (h : ∀ c ∈ w, isSpace c = true) :
    trimSpace (x ++ w) = trimSpace x := by
  unfold trimSpace
  rw [trimLeft_append]
  by_cases hx : trimLeft x = []
  · rw [if_pos hx, trimLeft_spaces h, hx]
  · rw [if_neg hx, trimRight_append_spaces _ h]

theorem normLine_spaces_append {w : Str} (h : ∀ c ∈ w, isSpace c = true) (l : Str) :
    normLine (w ++ l) = normLine l := by
  unfold normLine
  induction w with
  | nil => rfl
  | cons c t ih =>
    rw [List.cons_append, removeComments_cons_space (h c (List.mem_cons_self _ _))]
    have hc : ∀ x ∈ [c], isSpace x = true := by
      intro x hx; rw [List.mem_singleton.1 hx]; exact h c (List.mem_cons_self _ _)
    have := trimSpace_spaces_append hc (removeComments (t ++ l))
    simp only [List.singleton_append] at this
    rw [this]
    exact ih (fun x hx => h x (List.mem_cons_of_mem _ hx))

/-- Text appended to a line after white space changes nothing when it is itself white
space or a comment. -/
theorem normLine_append {l r : Str} (hr : r.head? ≠ some (Char.ofNat 47))
    (hblank : ∀ c ∈ removeComments r, isSpace c = true) : normLine (l ++ r) = normLine l := by
  unfold normLine
  rw [removeComments_append l r hr]
  by_cases h : removeComments l = l
  · rw [if_pos h, h, trimSpace_append_spaces l hblank]
  · rw [if_neg h]

theorem normLine_append_spaces (l : Str) {w : Str} (h : ∀ c ∈ w, isSpace c = true) :
    normLine (l ++ w) = normLine l := by
  apply normLine_append
  · cases w with
    | nil => simp
    | cons c t =>
      have := (space_not_marker (h c (List.mem_cons_self _ _))).2
      simp [this]
  · rw [removeComments_spaces h]; exact h

theorem appendToLast_ne_nil (c : Char) {X : List Str} (h : X ≠ []) : appendToLast c X ≠ [] := by
  cases X with
  | nil => exact absurd rfl h
  | cons l r => cases r <;> simp [appendToLast]

theorem modifyHead_appendToLast (c d : Char) {X : List Str} (h : X ≠ []) :
    (appendToLast c X).modifyHead (List.cons d) = appendToLast c (X.modifyHead (List.cons d)) := by
  cases X with
  | nil => exact absurd rfl h
  | cons l r => cases r <;> simp [appendToLast, List.modifyHead]

theorem split_append_singleton (sep c : Char) (t : Str) :
    split (t ++ [c]) sep =
      if c = sep then split t sep ++ [[]] else appendToLast c (split t sep) := by
  induction t with
  | nil =>
    by_cases h : c = sep
    · simp [split_cons, split_nil, h]
    · simp [split_cons, split_nil, h, appendToLast, List.modifyHead]
  | cons d t ih =>
    rw [List.cons_append, split_cons, split_cons, ih]
    by_cases hd : d = sep <;> by_cases hc : c = sep
    · simp [hd, hc]
    · simp only [hd, hc, if_true, if_false]
      cases hs : split t sep with
      | nil => exact absurd hs (split_ne_nil t sep)
      | cons l r => simp [appendToLast]
    · simp only [hd, hc, if_true, if_false]
      cases hs : split t sep with
      | nil => exact absurd hs (split_ne_nil t sep)
      | cons l r => simp [List.modifyHead]
    · simp only [hd, hc, if_false]
      exact modifyHead_appendToLast c d (split_ne_nil t sep)

theorem map_normLine_appendToLast {c : Char} (hc : isSpace c = true) (X : List Str) :
    (appendToLast c X).map normLine = X.map normLine := by
  have h1 : ∀ x ∈ [c], isSpace x = true := by
    intro x hx; rw [List.mem_singleton.1 hx]; exact hc
  induction X with
  | nil => rfl
  | cons l r ih =>
    cases r with
    | nil => simp [appendToLast, normLine_append_spaces l h1]
    | cons l2 r2 =>
      simp only [appendToLast, List.map_cons] at ih ⊢
      rw [ih]

theorem normLine_nil : normLine [] = [] := by
  simp [normLine, removeComments_nil, trimSpace, trimLeft, trimRight]

theorem normLines_cons_space {c : Char} (hc : isSpace c = true) (t : Str) :
    normLines (c :: t) = normLines t := by
  unfold normLines
  rw [split_cons]
  by_cases h : c = Char.ofNat 10
  · rw [if_pos h, List.map_cons, normLine_nil, List.filter_cons_of_neg (by simp)]
  · rw [if_neg h]
    cases hs : split t (Char.ofNat 10) with
    | nil => exact absurd hs (split_ne_nil t _)
    | cons l r =>
      have h1 : ∀ x ∈ [c], isSpace x = true := by
        intro x hx; rw [List.mem_singleton.1 hx]; exact hc
      have := normLine_spaces_append h1 l
      simp only [List.singleton_append] at this
      simp only [List.modifyHead, List.map_cons, this]

theorem normLines_append_space {c : Char} (hc : isSpace c = true) (t : Str) :
    normLines (t ++ [c]) = normLines t := by
  unfold normLines
  rw [split_append_singleton]
  by_cases h : c = Char.ofNat 10
  · rw [if_pos h, List.map_append, List.filter_append]
    simp [normLine_nil]
  · rw [if_neg h, map_normLine_appendToLast hc]

theorem normLines_trimLeft (t : Str) : normLines (trimLeft t) = normLines t := by
  induction t with
  | nil => rfl
  | cons c t ih =>
    unfold trimLeft at ih ⊢
    rw [List.dropWhile_cons]
    by_cases hc : isSpace c = true
    · rw [if_pos hc, ih, normLines_cons_space hc]
    · rw [if_neg hc]

theorem normLines_trimRight (t : Str) : normLines (trimRight t) = normLines t := by
  induction t using List.reverseRecOn with
  | nil => rfl
  | append_singleton t c ih =>
    unfold trimRight at ih ⊢
    rw [List.rdropWhile_concat]
    by_cases hc : isSpace c = true
    · rw [if_pos hc, ih, normLines_append_space hc]
    · rw [if_neg hc]

theorem normLines_trimSpace (t : Str) : normLines (trimSpace t) = normLines t := by
  unfold trimSpace
  rw [normLines_trimRight, normLines_trimLeft]

theorem finish_initState {F : Type} : finish (some (initState : State F)) = Outcome.ok [] := by
  rfl

/-- `Decode` on a text is the loop run over the normalised lines of that text: trimming
the whole document first makes no difference. -/
theorem decodeText_eq {F : Type} (L : FloatLib F) (input : Str) :
    decodeText L input = finish (runLines L initState (normLines input)) := by
  unfold decodeText
  simp only
  split
  · rename_i h
    have := normLines_trimSpace input
    rw [h] at this
    have h0 : normLines ([] : Str) = [] := by
      simp [normLines, split_nil, normLine_nil]
    rw [← this, h0]
    rfl
  · rw [run_eq_runLines, ← normLines_trimSpace input]
    rfl

/-! ## Blank lines and comments -/

theorem split_no_sep (sep : Char) : ∀ (t : Str) (l : Str), l ∈ split t sep → sep ∉ l := by
  intro t
  induction t with
  | nil => intro l hl; simp [split_nil] at hl; simp [hl]
  | cons c t ih =>
    intro l hl
    rw [split_cons] at hl
    split at hl
    · simp only [List.mem_cons] at hl
      rcases hl with hl | hl
      · simp [hl]
      · exact ih l hl
    · rename_i hc
      rcases mem_modifyHead hl with h | ⟨x, hx, rfl⟩
      · exact ih l h
      · intro hmem
        simp only [List.mem_cons] at hmem
        rcases hmem with hmem | hmem
        · exact hc hmem.symm
        · exact ih x hx hmem

theorem split_join {ls : List Str} (sep : Char) (h : ∀ l ∈ ls, sep ∉ l) (hne : ls ≠ []) :
    split (join ls [sep]) sep = ls := by
  unfold split join
  exact List.splitOn_intercalate ls sep h hne

theorem join_split (t : Str) (sep : Char) : join (split t sep) [sep] = t := by
  unfold split join
  exact List.intercalate_splitOn t sep

theorem normLines_join {ls : List Str} (h : ∀ l ∈ ls, Char.ofNat 10 ∉ l) (hne : ls ≠ []) :
    normLines (join ls "\n".toList) = (ls.map normLine).filter (fun l => l ≠ []) := by
  have hs : "\n".toList = [Char.ofNat 10] := rfl
  unfold normLines
  rw [hs, split_join _ h hne]

theorem normLine_of_blankOrComment {line : Str} (h : isBlankOrComment line) :
    normLine line = [] := by
  obtain ⟨ws, rest, hws, h⟩ := h
  rcases h with h | h | h
  · subst h
    unfold normLine
    rw [removeComments_spaces hws, trimSpace_spaces hws]
  · subst h
    rw [normLine_spaces_append hws]
    unfold normLine
    rw [removeComments_cons]
    simp [trimSpace, trimLeft, trimRight]
  · subst h
    rw [normLine_spaces_append hws]
    unfold normLine
    rw [removeComments_cons]
    simp [trimSpace, trimLeft, trimRight]

theorem normLine_trailingComment (line : Str) {cmt : Str} (h : isTrailingComment cmt) :
    normLine (line ++ cmt) = normLine line := by
  obtain ⟨x, _, h⟩ := h
  have hsp : isSpace (Char.ofNat 32) = true := by decide
  rcases h with h | h
  · subst h
    apply normLine_append
    · rw [List.head?_cons]; decide
    · rw [removeComments_cons_space hsp, removeComments_cons]
      intro c hc
      simp at hc
      rw [hc]; exact hsp
  · subst h
    apply normLine_append
    · rw [List.head?_cons]; decide
    · rw [removeComments_cons_space hsp, removeComments_cons]
      intro c hc
      simp at hc
      rw [hc]; exact hsp

/-- C3. For every text in which every line is empty, whitespace-only or comment-only
(the empty text included), `Decode` returns the empty object, for a string and for a byte
sequence alike. -/
theorem C3_decode_blank_text {F : Type} (L : FloatLib F) (t : Str)
    (h : ∀ line ∈ split t (Char.ofNat 10), isBlankOrComment line) :
    Decode L (.string t) = Outcome.ok [] ∧ Decode L (.bytes t) = Outcome.ok [] := by
  have hn : normLines t = [] := by
    unfold normLines
    rw [List.filter_eq_nil_iff]
    intro l hl
    obtain ⟨raw, hraw, rfl⟩ := List.mem_map.1 hl
    simp [normLine_of_blankOrComment (h raw hraw)]
  have : decodeText L t = Outcome.ok [] := by
    rw [decodeText_eq, hn]; rfl
  exact ⟨this, this⟩

/-- C6. Inserting a blank, whitespace-only or comment-only line at any position among
the lines of a text (before, between or after them) does not change the result of
`Decode`. -/
theorem C6_decode_insert_blank_line {F : Type} (L : FloatLib F) (t : Str)
    (ls1 ls2 : List Str) (b : Str) (hsplit : split t (Char.ofNat 10) = ls1 ++ ls2)
    (hb : isBlankOrComment b) (hnl : Char.ofNat 10 ∉ b) :
    Decode L (.string (join (ls1 ++ b :: ls2) "\n".toList)) = Decode L (.string t) := by
  have hlines : ∀ l ∈ ls1 ++ b :: ls2, Char.ofNat 10 ∉ l := by
    intro l hl
    simp only [List.mem_append, List.mem_cons] at hl
    rcases hl with hl | hl | hl
    · exact split_no_sep _ t l (by rw [hsplit]; simp [hl])
    · rw [hl]; exact hnl
    · exact split_no_sep _ t l (by rw [hsplit]; simp [hl])
  have h1 : normLines (join (ls1 ++ b :: ls2) "\n".toList) = normLines t := by
    rw [normLines_join hlines (by simp)]
    unfold normLines
    rw [hsplit]
    simp [List.filter_append, normLine_of_blankOrComment hb]
  show decodeText L _ = decodeText L _
  rw [decodeText_eq, decodeText_eq, h1]

/-- The general part of C4: a trailing comment appended to a line of a text does not
change the result of `Decode`. -/
theorem decode_append_comment {F : Type} (L : FloatLib F) (t : Str)
    (ls1 ls2 : List Str) (line cmt : Str)
    (hsplit : split t (Char.ofNat 10) = ls1 ++ line :: ls2) (hc : isTrailingComment cmt) :
    Decode L (.string (join (ls1 ++ (line ++ cmt) :: ls2) "\n".toList)) =
      Decode L (.string t) := by
  have hlines : ∀ l ∈ ls1 ++ (line ++ cmt) :: ls2, Char.ofNat 10 ∉ l := by
    intro l hl
    simp only [List.mem_append, List.mem_cons] at hl
    rcases hl with hl | hl | hl
    · exact split_no_sep _ t l (by rw [hsplit]; simp [hl])
    · rw [hl]
      have h1 : Char.ofNat 10 ∉ line := split_no_sep _ t line (by rw [hsplit]; simp)
      obtain ⟨x, hx, hcm⟩ := hc
      intro hmem
      rw [List.mem_append] at hmem
      rcases hmem with hmem | hmem
      · exact h1 hmem
      · rcases hcm with hcm | hcm
        · rw [hcm] at hmem
          simp only [List.mem_cons] at hmem
          rcases hmem with hmem | hmem | hmem
          · revert hmem; decide
          · revert hmem; decide
          · exact hx hmem
        · rw [hcm] at hmem
          simp only [List.mem_cons] at hmem
          rcases hmem with hmem | hmem | hmem | hmem
          · revert hmem; decide
          · revert hmem; decide
          · revert hmem; decide
          · exact hx hmem
    · exact split_no_sep _ t l (by rw [hsplit]; simp [hl])
  have h1 : normLines (join (ls1 ++ (line ++ cmt) :: ls2) "\n".toList) = normLines t := by
    rw [normLines_join hlines (by simp)]
    unfold normLines
    rw [hsplit]
    simp [normLine_trailingComment line hc]
  show decodeText L _ = decodeText L _
  rw [decodeText_eq, decodeText_eq, h1]

theorem decode_john_hash {F : Type} (L : FloatLib F) :
    Decode L (.string "name: \"John\" # x".toList) =
      Outcome.ok [("name".toList, .str "John".toList)] := by
  rfl

theorem decode_john_slashes {F : Type} (L : FloatLib F) :
    Decode L (.string "name: \"John\" // x".toList) =
      Outcome.ok [("name".toList, .str "John".toList)] := by
  rfl

/-- C4. Appending a trailing comment (a space, then `#` or `//`, then any text without a
newline) to a line of a text does not change the result of `Decode`; and `Decode` of
`name: "John" # x` and of `name: "John" // x` both give the object `{name: "John"}`. -/
theorem C4_decode_trailing_comment {F : Type} (L : FloatLib F) (t : Str)
    (ls1 ls2 : List Str) (line cmt : Str)
    (hsplit : split t (Char.ofNat 10) = ls1 ++ line :: ls2) (hc : isTrailingComment cmt) :
    Decode L (.string (join (ls1 ++ (line ++ cmt) :: ls2) "\n".toList)) =
      Decode L (.string t) ∧
    Decode L (.string "name: \"John\" # x".toList) =
      Outcome.ok [("name".toList, .str "John".toList)] ∧
    Decode L (.string "name: \"John\" // x".toList) =
      Outcome.ok [("name".toList, .str "John".toList)] :=
  ⟨decode_append_comment L t ls1 ls2 line cmt hsplit hc, decode_john_hash L,
    decode_john_slashes L⟩

/-- Witness of C4: the comment ` # note` appended to the second line of a two-line text. -/
theorem C4_decode_trailing_comment_witness :
    split "a: 1\nb: true".toList (Char.ofNat 10) = ["a: 1".toList] ++ "b: true".toList :: [] ∧
    Decode sampleLib (.string (join (["a: 1".toList] ++ ("b: true".toList ++ " # note".toList) :: [])
      "\n".toList)) = Decode sampleLib (.string "a: 1\nb: true".toList) :=
  ⟨by decide, (C4_decode_trailing_comment sampleLib "a: 1\nb: true".toList ["a: 1".toList] []
    "b: true".toList " # note".toList (by decide) ⟨" note".toList, by decide, Or.inl (by decide)⟩).1⟩

/-- Witness of C3: a text of four lines, white space and comments only. -/
theorem C3_decode_blank_text_witness :
    Decode sampleLib (.string "  \n# c\n \t// d\n".toList) = Outcome.ok [] :=
  (C3_decode_blank_text sampleLib "  \n# c\n \t// d\n".toList (by
    intro line hl
    have hs : split "  \n# c\n \t// d\n".toList (Char.ofNat 10) =
        ["  ".toList, "# c".toList, " \t// d".toList, []] := by decide
    rw [hs] at hl
    simp only [List.mem_cons, List.mem_singleton, List.not_mem_nil, or_false] at hl
    rcases hl with h | h | h | h
    · exact ⟨"  ".toList, [], by decide, Or.inl h⟩
    · exact ⟨[], " c".toList, by decide, Or.inr (Or.inl h)⟩
    · exact ⟨" \t".toList, " d".toList, by decide, Or.inr (Or.inr h)⟩
    · exact ⟨[], [], by decide, Or.inl h⟩)).1

/-- Witness of C6: a comment-only line inserted between the two lines of a text. -/
theorem C6_decode_insert_blank_line_witness :
    split "a: 1\nb: true".toList (Char.ofNat 10) = ["a: 1".toList] ++ ["b: true".toList] ∧
    Decode sampleLib (.string (join (["a: 1".toList] ++ "  # c".toList :: ["b: true".toList])
      "\n".toList)) = Decode sampleLib (.string "a: 1\nb: true".toList) :=
  ⟨by decide, C6_decode_insert_blank_line sampleLib "a: 1\nb: true".toList ["a: 1".toList]
    ["b: true".toList] "  # c".toList (by decide)
    ⟨"  ".toList, " c".toList, by decide, Or.inr (Or.inl (by decide))⟩ (by decide)⟩

/-! ## Table rows -/

theorem mapSet_new {α : Type} (m : List (Str × α)) (k : Str) (v : α)
    (h : k ∉ m.map Prod.fst) : mapSet m k v = m ++ [(k, v)] := by
  induction m with
  | nil => rfl
  | cons x t ih =>
    obtain ⟨k0, v0⟩ := x
    simp only [List.map_cons, List.mem_cons, not_or] at h
    simp only [mapSet]
    rw [if_neg (fun e => h.1 e.symm), ih h.2]
    rfl

theorem rowLoop_done {F : Type} (L : FloatLib F) (columns : List Str) (parts : List Str) :
    ∀ (i : Nat) (row : Obj F), columns.length ≤ i → rowLoop L columns parts i row = row := by
  induction parts with
  | nil => intro i row _; rfl
  | cons p ps ih =>
    intro i row hi
    simp only [rowLoop]
    rw [if_neg (by omega)]
    exact ih (i + 1) row (by omega)

theorem getD_not_mem_take {columns : List Str} (hnd : columns.Nodup) {i j : Nat}
    (hij : i ≤ j) (hj : j < columns.length) : columns.getD j [] ∉ columns.take i := by
  intro hmem
  rw [List.getD_eq_getElem _ _ hj] at hmem
  obtain ⟨k, hk, hke⟩ := List.getElem_of_mem hmem
  have hk2 : k < i := by
    have := List.length_take_le i columns
    omega
  rw [List.getElem_take] at hke
  have := (@List.Nodup.getElem_inj_iff _ _ hnd k (by omega) j hj).1 hke
  omega

theorem mapGet_none {α : Type} (m : List (Str × α)) (k : Str) (h : k ∉ m.map Prod.fst) :
    mapGet m k = none := by
  induction m with
  | nil => rfl
  | cons x t ih =>
    obtain ⟨k0, v0⟩ := x
    simp only [List.map_cons, List.mem_cons, not_or] at h
    simp only [mapGet]
    rw [if_neg (fun e => h.1 e.symm), ih h.2]

/-- The row loop assigns the parts to the columns in order, as far as both reach. -/
theorem rowLoop_eq_zip {F : Type} (L : FloatLib F) {columns : List Str} (hnd : columns.Nodup)
    (parts : List Str) : ∀ (i : Nat) (row : Obj F), i ≤ columns.length →
      row.map Prod.fst = columns.take i →
      rowLoop L columns parts i row =
        row ++ List.zip (columns.drop i)
          (parts.map (fun part => parseValue L (trimSpace part))) := by
  induction parts with
  | nil => intro i row _ _; simp [rowLoop]
  | cons p ps ih =>
    intro i row hi hkeys
    simp only [rowLoop]
    by_cases hlt : i < columns.length
    · rw [if_pos hlt]
      have hnew : columns.getD i [] ∉ row.map Prod.fst := by
        rw [hkeys]; exact getD_not_mem_take hnd (Nat.le_refl i) hlt
      rw [mapSet_new _ _ _ hnew]
      rw [ih (i + 1) _ (by omega) (by
        rw [List.map_append, hkeys, List.take_succ]
        simp [List.getD_eq_getElem?_getD, List.getElem?_eq_getElem hlt])]
      have hd : columns.drop i = columns[i] :: columns.drop (i + 1) :=
        List.drop_eq_getElem_cons hlt
      rw [hd, List.map_cons, List.zip_cons_cons, List.getD_eq_getElem _ _ hlt,
        List.append_assoc, List.singleton_append]
    · rw [if_neg hlt, rowLoop_done L columns ps (i + 1) row (by omega)]
      have : columns.drop i = [] := List.drop_eq_nil_of_le (by omega)
      rw [this]; simp

theorem tableRow_eq_zip {F : Type} (L : FloatLib F) {columns : List Str}
    (hnd : columns.Nodup) (line : Str) :
    tableRow L columns line =
      List.zip columns
        ((split line (Char.ofNat 44)).map (fun part => parseValue L (trimSpace part))) := by
  unfold tableRow
  rw [rowLoop_eq_zip L hnd _ 0 [] (by omega) (by simp)]
  simp

theorem map_fst_zip_take {α β : Type} (l1 : List α) (l2 : List β) :
    (List.zip l1 l2).map Prod.fst = l1.take (min l2.length l1.length) := by
  induction l1 generalizing l2 with
  | nil => simp
  | cons a t ih =>
    cases l2 with
    | nil => simp
    | cons b u =>
      simp only [List.zip_cons_cons, List.map_cons, List.length_cons, ih]
      rw [Nat.succ_min_succ, List.take_succ_cons]

/-- A row line met while a table is open appends the row built from it. -/
theorem stepLine_row {F : Type} (L : FloatLib F) {st : State F} {ct : TableContext F}
    {line : Str} {top : Nat} (htop : st.stack.getLast? = some top)
    (hct : st.currentTable = some ct) (hparent : ct.parent < st.heap.length)
    (hrow : isRowLine line) :
    ∃ heap1, heapSet st.heap ct.parent ct.key
        (.val (.table (ct.table ++ [tableRow L ct.columns line]))) = some heap1 ∧
      stepLine L st line = some { st with
        heap := heap1
        currentTable := some { ct with table := ct.table ++ [tableRow L ct.columns line] } } := by
  obtain ⟨h1, h2, h3, h4⟩ := hrow
  obtain ⟨m, _, hset⟩ := heapSet_some hparent ct.key
    (Cell.val (Value.table (ct.table ++ [tableRow L ct.columns line])))
  refine ⟨_, hset, ?_⟩
  unfold stepLine
  rw [htop]
  simp only [h1, h2, h3, h4, hct, hset, if_false, Bool.false_eq_true]

/-- C8. While a table with distinct declared columns is open, a row line with `m`
comma-separated fields is decoded to a row object, appended to the table, that assigns
the fields to the declared columns in order as far as both reach; its keys are exactly
the first `min(m, n)` of the `n` declared columns: with `m < n` the trailing columns are
absent, with `m > n` the fields beyond the `n`-th are dropped. -/
theorem C8_row_keys {F : Type} (L : FloatLib F) (st : State F) (ct : TableContext F)
    (line : Str) (top : Nat) (htop : st.stack.getLast? = some top)
    (hct : st.currentTable = some ct) (hparent : ct.parent < st.heap.length)
    (hnd : ct.columns.Nodup) (hrow : isRowLine line) :
    ∃ st1 row, stepLine L st line = some st1 ∧
      (st1.currentTable.map (fun c => c.table)) = some (ct.table ++ [row]) ∧
      row = List.zip ct.columns
        ((split line (Char.ofNat 44)).map (fun part => parseValue L (trimSpace part))) ∧
      row.map Prod.fst =
        ct.columns.take (min (split line (Char.ofNat 44)).length ct.columns.length) ∧
      (∀ j, (split line (Char.ofNat 44)).length ≤ j → j < ct.columns.length →
        mapGet row (ct.columns.getD j []) = none) := by
  obtain ⟨heap1, _, hstep⟩ := stepLine_row L htop hct hparent hrow
  have hkeys : (tableRow L ct.columns line).map Prod.fst =
      ct.columns.take (min (split line (Char.ofNat 44)).length ct.columns.length) := by
    rw [tableRow_eq_zip L hnd, map_fst_zip_take]
    simp
  refine ⟨_, tableRow L ct.columns line, hstep, rfl, tableRow_eq_zip L hnd line, hkeys, ?_⟩
  intro j hj1 hj2
  apply mapGet_none
  rw [hkeys]
  exact getD_not_mem_take hnd (by omega) hj2

/-- Witness of C8: two fields for three declared columns. -/
theorem C8_row_keys_witness :
    ∃ st1 row, stepLine sampleLib exampleTableState "1, x".toList = some st1 ∧
      (st1.currentTable.map (fun c => c.table)) = some (exampleTableContext.table ++ [row]) ∧
      row = List.zip exampleTableContext.columns
        ((split "1, x".toList (Char.ofNat 44)).map
          (fun part => parseValue sampleLib (trimSpace part))) ∧
      row.map Prod.fst =
        exampleTableContext.columns.take
          (min (split "1, x".toList (Char.ofNat 44)).length exampleTableContext.columns.length) ∧
      (∀ j, (split "1, x".toList (Char.ofNat 44)).length ≤ j →
        j < exampleTableContext.columns.length →
        mapGet row (exampleTableContext.columns.getD j []) = none) :=
  C8_row_keys sampleLib exampleTableState exampleTableContext "1, x".toList 0 rfl rfl
    (by decide) (by decide) ⟨by decide, by decide, by decide, by decide⟩

theorem exampleTableState_eq :
    runLines sampleLib initState ["t: table(a, b, c) [".toList] = some exampleTableState := by
  rfl

/-! ## Decoding a table document -/

theorem takeWhile_append_stop {α : Type} {p : α → Bool} {a : List α} {b : α} (r : List α)
    (ha : ∀ x ∈ a, p x = true) (hb : p b = false) : (a ++ b :: r).takeWhile p = a := by
  rw [List.takeWhile_append_of_pos ha, List.takeWhile_cons]
  simp [hb]

theorem dropWhile_append_stop {α : Type} {p : α → Bool} {a : List α} {b : α} (r : List α)
    (ha : ∀ x ∈ a, p x = true) (hb : p b = false) : (a ++ b :: r).dropWhile p = b :: r := by
  rw [List.dropWhile_append_of_pos ha, List.dropWhile_cons]
  simp [hb]

theorem wordChar_facts {c : Char} (h : isWordChar c = true) :
    isSpace c = false ∧ c ≠ Char.ofNat 44 ∧ c ≠ Char.ofNat 41 ∧ c ≠ Char.ofNat 35 ∧
      c ≠ Char.ofNat 47 ∧ c ≠ Char.ofNat 10 ∧ c ≠ Char.ofNat 123 := by
  have hn : (48 ≤ c.toNat ∧ c.toNat ≤ 57) ∨ (65 ≤ c.toNat ∧ c.toNat ≤ 90) ∨
      (97 ≤ c.toNat ∧ c.toNat ≤ 122) ∨ c.toNat = 95 := by
    simp only [isWordChar, Bool.or_eq_true, Bool.and_eq_true, decide_eq_true_eq] at h
    tauto
  have hne : ∀ n : Nat, n < 48 ∨ n = 123 → c ≠ Char.ofNat n ∨ ¬ (Char.ofNat n).toNat = n := by
    intro n hn2
    by_cases hc : c = Char.ofNat n
    · right
      intro h2
      rw [hc, h2] at hn
      omega
    · exact Or.inl hc
  refine ⟨?_, ?_, ?_, ?_, ?_, ?_, ?_⟩
  · simp only [isSpace, Bool.or_eq_false_iff, Bool.and_eq_false_iff, decide_eq_false_iff_not]
    omega
  · exact (hne 44 (by omega)).resolve_right (by decide)
  · exact (hne 41 (by omega)).resolve_right (by decide)
  · exact (hne 35 (by omega)).resolve_right (by decide)
  · exact (hne 47 (by omega)).resolve_right (by decide)
  · exact (hne 10 (by omega)).resolve_right (by decide)
  · exact (hne 123 (by omega)).resolve_right (by decide)

theorem join_nil (sep : Str) : join [] sep = [] := by
  simp [join, List.intercalate]

theorem join_singleton (a sep : Str) : join [a] sep = a := by
  simp [join, List.intercalate]

theorem join_cons_cons (a b : Str) (r : List Str) (sep : Str) :
    join (a :: b :: r) sep = a ++ (sep ++ join (b :: r) sep) := by
  simp [join, List.intercalate, List.intersperse]

theorem mem_join {ls : List Str} {sep : Str} {c : Char} (h : c ∈ join ls sep) :
    c ∈ sep ∨ ∃ l ∈ ls, c ∈ l := by
  induction ls with
  | nil => simp [join_nil] at h
  | cons a r ih =>
    cases r with
    | nil =>
      rw [join_singleton] at h
      exact Or.inr ⟨a, List.mem_cons_self _ _, h⟩
    | cons b r =>
      rw [join_cons_cons] at h
      simp only [List.mem_append] at h
      rcases h with h | h | h
      · exact Or.inr ⟨a, List.mem_cons_self _ _, h⟩
      · exact Or.inl h
      · rcases ih h with h | ⟨l, hl, hc⟩
        · exact Or.inl h
        · exact Or.inr ⟨l, List.mem_cons_of_mem _ hl, hc⟩

theorem join_ne_nil {ls : List Str} {sep : Str} (h : ∃ l ∈ ls, l ≠ []) : join ls sep ≠ [] := by
  induction ls with
  | nil => obtain ⟨l, hl, _⟩ := h; cases hl
  | cons a r ih =>
    cases r with
    | nil =>
      rw [join_singleton]
      obtain ⟨l, hl, hne⟩ := h
      simp only [List.mem_singleton] at hl
      rw [← hl]; exact hne
    | cons b r =>
      rw [join_cons_cons]
      obtain ⟨l, hl, hne⟩ := h
      simp only [List.mem_cons] at hl
      rcases hl with hl | hl
      · subst hl
        intro h0
        exact hne (List.append_eq_nil.1 h0).1
      · intro h0
        have h1 := (List.append_eq_nil.1 h0).2
        have h2 := (List.append_eq_nil.1 h1).2
        exact ih ⟨l, by simpa using hl, hne⟩ h2

/-- A line none of whose characters is `#` or `/` holds no comment. -/
theorem removeComments_no_marker_char {s : Str}
    (h : ∀ c ∈ s, c ≠ Char.ofNat 35 ∧ c ≠ Char.ofNat 47) : removeComments s = s := by
  induction s with
  | nil => exact removeComments_nil
  | cons c t ih =>
    rw [removeComments_cons]
    have := h c (List.mem_cons_self _ _)
    rw [if_neg (by
      intro hc
      rcases hc with hc | hc
      · exact this.1 hc
      · exact this.2 hc.1)]
    rw [ih (fun x hx => h x (List.mem_cons_of_mem _ hx))]

/-- The characters of the column list `c1, ..., cn` of identifiers. -/
theorem columns_chars {columns : List Str} (hid : ∀ c ∈ columns, isIdent c) {x : Char}
    (hx : x ∈ join columns ", ".toList) :
    isWordChar x = true ∨ x = Char.ofNat 44 ∨ x = Char.ofNat 32 := by
  rcases mem_join hx with h | ⟨l, hl, hc⟩
  · have : ", ".toList = [Char.ofNat 44, Char.ofNat 32] := rfl
    rw [this] at h
    simp only [List.mem_cons, List.mem_singleton, List.not_mem_nil, or_false] at h
    exact Or.inr h
  · exact Or.inl ((hid l hl).2 x hc)

theorem header_eq (key : Str) (columns : List Str) :
    tableHeader [] key columns =
      key ++ Char.ofNat 58 :: Char.ofNat 32 ::
        ("table(".toList ++ (join columns ", ".toList ++ Char.ofNat 41 :: " [".toList)) := by
  have h1 : ": table(".toList = Char.ofNat 58 :: Char.ofNat 32 :: "table(".toList := rfl
  have h2 : ") [".toList = Char.ofNat 41 :: " [".toList := rfl
  simp [tableHeader, h1, h2]

theorem tableMatch_header {key : Str} {columns : List Str} (hkey : isIdent key)
    (hne : columns ≠ []) (hid : ∀ c ∈ columns, isIdent c) :
    tableMatch (tableHeader [] key columns) = some (key, join columns ", ".toList) := by
  have hcne : join columns ", ".toList ≠ [] := by
    apply join_ne_nil
    cases columns with
    | nil => exact absurd rfl hne
    | cons a r => exact ⟨a, List.mem_cons_self _ _, (hid a (List.mem_cons_self _ _)).1⟩
  have hcp : ∀ x ∈ join columns ", ".toList, (fun c => decide (c ≠ Char.ofNat 41)) x = true := by
    intro x hx
    rcases columns_chars hid hx with h | h | h
    · simpa using (wordChar_facts h).2.2.1
    · subst h; decide
    · subst h; decide
  rw [header_eq]
  unfold tableMatch
  simp only
  rw [takeWhile_append_stop _ hkey.2 (by decide), dropWhile_append_stop _ hkey.2 (by decide)]
  rw [if_neg hkey.1]
  simp only
  rw [if_neg (by decide)]
  have hd : (Char.ofNat 32 :: ("table(".toList ++
      (join columns ", ".toList ++ Char.ofNat 41 :: " [".toList))).dropWhile isReSpace =
      "table(".toList ++ (join columns ", ".toList ++ Char.ofNat 41 :: " [".toList) := by
    rfl
  rw [hd]
  have hp : "table(".toList.isPrefixOf ("table(".toList ++
      (join columns ", ".toList ++ Char.ofNat 41 :: " [".toList)) = true := by
    rw [List.isPrefixOf_iff_prefix]; exact List.prefix_append _ _
  rw [if_neg (by simp [hp])]
  have hdrop : ("table(".toList ++ (join columns ", ".toList ++ Char.ofNat 41 :: " [".toList)).drop 6
      = join columns ", ".toList ++ Char.ofNat 41 :: " [".toList := by
    rfl
  simp only [hdrop]
  rw [takeWhile_append_stop _ hcp (by decide), dropWhile_append_stop _ hcp (by decide)]
  rw [if_neg hcne]
  simp only
  rw [if_pos (by decide)]

theorem parseValue_trimSpace {F : Type} (L : FloatLib F) (x : Str) :
    parseValue L (trimSpace x) = parseValue L x := by
  rw [parseValue_eq, parseValue_eq L x, trimSpace_idem]

theorem trimSpace_cons_space {c : Char} (hc : isSpace c = true) (x : Str) :
    trimSpace (c :: x) = trimSpace x := by
  have h1 : ∀ y ∈ [c], isSpace y = true := by
    intro y hy; rw [List.mem_singleton.1 hy]; exact hc
  exact trimSpace_spaces_append h1 x

theorem trimSpace_concat_space {c : Char} (hc : isSpace c = true) (x : Str) :
    trimSpace (x ++ [c]) = trimSpace x := by
  have h1 : ∀ y ∈ [c], isSpace y = true := by
    intro y hy; rw [List.mem_singleton.1 hy]; exact hc
  exact trimSpace_append_spaces x h1

theorem map_trimSpace_split_cons {c sep : Char} (hc : isSpace c = true) (hsep : c ≠ sep)
    (t : Str) : (split (c :: t) sep).map trimSpace = (split t sep).map trimSpace := by
  rw [split_cons, if_neg hsep]
  cases hs : split t sep with
  | nil => exact absurd hs (split_ne_nil t sep)
  | cons l r => simp [List.modifyHead, trimSpace_cons_space hc]

theorem map_trimSpace_appendToLast {c : Char} (hc : isSpace c = true) (X : List Str) :
    (appendToLast c X).map trimSpace = X.map trimSpace := by
  induction X with
  | nil => rfl
  | cons l r ih =>
    cases r with
    | nil => simp [appendToLast, trimSpace_concat_space hc]
    | cons l2 r2 =>
      simp only [appendToLast, List.map_cons] at ih ⊢
      rw [ih]

theorem map_trimSpace_split_concat {c sep : Char} (hc : isSpace c = true) (hsep : c ≠ sep)
    (t : Str) : (split (t ++ [c]) sep).map trimSpace = (split t sep).map trimSpace := by
  rw [split_append_singleton, if_neg hsep, map_trimSpace_appendToLast hc]

/-- Trimming a line before splitting it changes the fields by white space only, when the
separator is not white space. -/
theorem map_trimSpace_split_trimSpace {sep : Char} (hsep : isSpace sep = false) (s : Str) :
    (split (trimSpace s) sep).map trimSpace = (split s sep).map trimSpace := by
  have hne : ∀ c, isSpace c = true → c ≠ sep := by
    intro c hc h; rw [h, hsep] at hc; cases hc
  have hleft : ∀ t : Str, (split (trimLeft t) sep).map trimSpace = (split t sep).map trimSpace := by
    intro t
    induction t with
    | nil => rfl
    | cons c t ih =>
      unfold trimLeft at ih ⊢
      rw [List.dropWhile_cons]
      by_cases hc : isSpace c = true
      · rw [if_pos hc, ih, map_trimSpace_split_cons hc (hne c hc)]
      · rw [if_neg hc]
  have hright : ∀ t : Str, (split (trimRight t) sep).map trimSpace = (split t sep).map trimSpace := by
    intro t
    induction t using List.reverseRecOn with
    | nil => rfl
    | append_singleton t c ih =>
      unfold trimRight at ih ⊢
      rw [List.rdropWhile_concat]
      by_cases hc : isSpace c = true
      · rw [if_pos hc, ih, map_trimSpace_split_concat hc (hne c hc)]
      · rw [if_neg hc]
  have h1 : trimSpace s = trimRight (trimLeft s) := rfl
  rw [h1, hright, hleft]

theorem trimSpace_ident {s : Str} (h : isIdent s) : trimSpace s = s := by
  apply trimSpace_eq_self
  · intro a ha
    have : a ∈ s := by
      cases s with
      | nil => cases ha
      | cons b t => simp at ha; simp [ha]
    exact (wordChar_facts (h.2 a this)).1
  · intro b hb
    have : b ∈ s := by
      rw [List.getLast?_eq_some_iff] at hb
      obtain ⟨ys, hys⟩ := hb
      rw [hys]; simp
    exact (wordChar_facts (h.2 b this)).1

theorem split_append_sep {c : Str} {sep : Char} (h : sep ∉ c) (X : Str) :
    split (c ++ sep :: X) sep = c :: split X sep := by
  unfold split
  simp only [List.splitOn]
  apply List.splitOnP_first
  · intro x hx hp
    simp only [beq_iff_eq] at hp
    exact h (hp ▸ hx)
  · simp

theorem split_no_sep_self {c : Str} {sep : Char} (h : sep ∉ c) : split c sep = [c] := by
  unfold split
  simp only [List.splitOn]
  apply List.splitOnP_eq_single
  intro x hx hp
  simp only [beq_iff_eq] at hp
  exact h (hp ▸ hx)

/-- The declared columns are read back from the column list of the header. -/
theorem columns_of_header {columns : List Str} (hne : columns ≠ [])
    (hid : ∀ c ∈ columns, isIdent c) :
    (split (join columns ", ".toList) (Char.ofNat 44)).map trimSpace = columns := by
  have hsp : ", ".toList = Char.ofNat 44 :: [Char.ofNat 32] := rfl
  have hnc : ∀ c ∈ columns, Char.ofNat 44 ∉ c := by
    intro c hc hmem
    exact (wordChar_facts ((hid c hc).2 _ hmem)).2.1 rfl
  induction columns with
  | nil => exact absurd rfl hne
  | cons a r ih =>
    cases r with
    | nil =>
      rw [join_singleton, split_no_sep_self (hnc a (List.mem_cons_self _ _))]
      simp [trimSpace_ident (hid a (List.mem_cons_self _ _))]
    | cons b r =>
      rw [join_cons_cons, hsp, List.cons_append, split_append_sep (hnc a (List.mem_cons_self _ _))]
      rw [List.map_cons, trimSpace_ident (hid a (List.mem_cons_self _ _))]
      rw [List.singleton_append, map_trimSpace_split_cons (by decide) (by decide)]
      rw [← hsp, ih (by simp) (fun c hc => hid c (List.mem_cons_of_mem _ hc))
        (fun c hc => hnc c (List.mem_cons_of_mem _ hc))]

theorem index_hash_neg {s : Str} (h : Char.ofNat 35 ∉ s) : index s "#".toList = -1 := by
  induction s with
  | nil => rfl
  | cons c t ih =>
    simp only [List.mem_cons, not_or] at h
    rw [index_cons, hash_isPrefixOf]
    rw [if_neg (by simpa using fun e => h.1 e.symm), ih h.2]
    rfl

theorem removeComments_token {tok : Str} (h : isToken tok) : removeComments tok = tok := by
  obtain ⟨_, h2, _, h4⟩ := h
  rw [removeComments_def, index_hash_neg h2]
  have : cutIndexOf (-1) (index tok "//".toList) = -1 := by
    unfold cutIndexOf
    split_ifs <;> omega
  rw [this]
  rfl

theorem removeComments_cons_comma (X : Str) :
    removeComments (Char.ofNat 44 :: X) = Char.ofNat 44 :: removeComments X := by
  have h1 : Char.ofNat 44 ≠ Char.ofNat 35 := by decide
  have h2 : Char.ofNat 44 ≠ Char.ofNat 47 := by decide
  rw [removeComments_cons, if_neg (by
    intro h
    rcases h with h | h
    · exact h1 h
    · exact h2 h.1)]

theorem removeComments_rowText {toks : List Str} (h : ∀ tok ∈ toks, isToken tok) :
    removeComments (rowText toks) = rowText toks := by
  have hsp : ",".toList = [Char.ofNat 44] := rfl
  unfold rowText
  induction toks with
  | nil => rw [join_nil]; exact removeComments_nil
  | cons a r ih =>
    cases r with
    | nil => rw [join_singleton]; exact removeComments_token (h a (List.mem_cons_self _ _))
    | cons b r =>
      rw [join_cons_cons, hsp, List.singleton_append, removeComments_append _ _ (by
        rw [List.head?_cons]; decide)]
      rw [if_pos (removeComments_token (h a (List.mem_cons_self _ _))),
        removeComments_cons_comma, ← hsp, ih (fun t ht => h t (List.mem_cons_of_mem _ ht))]

theorem split_rowText {toks : List Str} (hne : toks ≠ []) (h : ∀ tok ∈ toks, isToken tok) :
    split (rowText toks) (Char.ofNat 44) = toks := by
  have hsp : ",".toList = [Char.ofNat 44] := rfl
  unfold rowText
  rw [hsp]
  exact split_join _ (fun l hl => (h l hl).1) hne

theorem rowText_no_newline {toks : List Str} (h : ∀ tok ∈ toks, isToken tok) :
    Char.ofNat 10 ∉ rowText toks := by
  intro hmem
  rcases mem_join hmem with h1 | ⟨l, hl, hc⟩
  · revert h1; decide
  · exact (h l hl).2.2.1 hc

/-- The row `Decode` builds from the trimmed row line of a token list. -/
theorem tableRow_rowText {F : Type} (L : FloatLib F) {columns : List Str}
    (hnd : columns.Nodup) {toks : List Str} (hne : toks ≠ [])
    (h : ∀ tok ∈ toks, isToken tok) :
    tableRow L columns (trimSpace (rowText toks)) =
      List.zip columns (toks.map (parseValue L)) := by
  rw [tableRow_eq_zip L hnd]
  have h1 : (split (trimSpace (rowText toks)) (Char.ofNat 44)).map
      (fun part => parseValue L (trimSpace part)) =
      ((split (trimSpace (rowText toks)) (Char.ofNat 44)).map trimSpace).map (parseValue L) := by
    rw [List.map_map]; rfl
  rw [h1, map_trimSpace_split_trimSpace (by decide), split_rowText hne h, List.map_map]
  congr 1
  apply List.map_congr_left
  intro tok _
  exact parseValue_trimSpace L tok

theorem runLines_append {F : Type} (L : FloatLib F) (a b : List Str) :
    ∀ st : State F, runLines L st (a ++ b) =
      match runLines L st a with
      | none => none
      | some st1 => runLines L st1 b := by
  induction a with
  | nil => intro st; rfl
  | cons x a ih =>
    intro st
    simp only [List.cons_append, runLines]
    cases stepLine L st x with
    | none => rfl
    | some st1 => exact ih st1

theorem hasSuffix_singleton (s : Str) (c : Char) :
    hasSuffix s [c] = true ↔ s.getLast? = some c := by
  unfold hasSuffix
  rw [List.isSuffixOf_iff_suffix]
  constructor
  · rintro ⟨t, rfl⟩; simp
  · intro h
    rw [List.getLast?_eq_some_iff] at h
    obtain ⟨ys, hys⟩ := h
    exact ⟨ys, hys.symm⟩

theorem header_getLast (key : Str) (columns : List Str) :
    (tableHeader [] key columns).getLast? = some (Char.ofNat 91) := by
  have h2 : ") [".toList = ") ".toList ++ [Char.ofNat 91] := rfl
  unfold tableHeader
  rw [h2, ← List.append_assoc, List.getLast?_concat]

theorem header_head {key : Str} (hkey : isIdent key) (columns : List Str) :
    ∀ a, (tableHeader [] key columns).head? = some a → isSpace a = false := by
  intro a ha
  rw [header_eq] at ha
  obtain ⟨hne, hw⟩ := hkey
  cases key with
  | nil => exact absurd rfl hne
  | cons b t =>
    simp only [List.cons_append, List.head?_cons, Option.some.injEq] at ha
    rw [← ha]
    exact (wordChar_facts (hw b (List.mem_cons_self _ _))).1

theorem header_chars {key : Str} {columns : List Str} (hkey : isIdent key)
    (hid : ∀ c ∈ columns, isIdent c) {x : Char} (hx : x ∈ tableHeader [] key columns) :
    x ≠ Char.ofNat 35 ∧ x ≠ Char.ofNat 47 ∧ x ≠ Char.ofNat 10 := by
  have hword : ∀ y : Char, isWordChar y = true →
      y ≠ Char.ofNat 35 ∧ y ≠ Char.ofNat 47 ∧ y ≠ Char.ofNat 10 := by
    intro y hy
    have := wordChar_facts hy
    exact ⟨this.2.2.2.1, this.2.2.2.2.1, this.2.2.2.2.2.1⟩
  have hfix1 : ∀ y ∈ "table(".toList,
      y ≠ Char.ofNat 35 ∧ y ≠ Char.ofNat 47 ∧ y ≠ Char.ofNat 10 := by decide
  have hfix2 : ∀ y ∈ " [".toList,
      y ≠ Char.ofNat 35 ∧ y ≠ Char.ofNat 47 ∧ y ≠ Char.ofNat 10 := by decide
  rw [header_eq] at hx
  simp only [List.mem_append, List.mem_cons] at hx
  rcases hx with hx | hx | hx | hx | hx | hx | hx
  · exact hword x (hkey.2 x hx)
  · subst hx; decide
  · subst hx; decide
  · exact hfix1 x hx
  · rcases columns_chars hid hx with h | h | h
    · exact hword x h
    · subst h; decide
    · subst h; decide
  · subst hx; decide
  · exact hfix2 x hx

theorem normLine_header {key : Str} {columns : List Str} (hkey : isIdent key)
    (hid : ∀ c ∈ columns, isIdent c) :
    normLine (tableHeader [] key columns) = tableHeader [] key columns := by
  unfold normLine
  rw [removeComments_no_marker_char (fun c hc =>
    ⟨(header_chars hkey hid hc).1, (header_chars hkey hid hc).2.1⟩)]
  apply trimSpace_eq_self (header_head hkey columns)
  intro b hb
  rw [header_getLast] at hb
  injection hb with hb
  rw [← hb]; decide

theorem stepLine_header {F : Type} (L : FloatLib F) {key : Str} {columns : List Str}
    (hkey : isIdent key) (hne : columns ≠ []) (hid : ∀ c ∈ columns, isIdent c) :
    stepLine L (initState : State F) (tableHeader [] key columns) =
      some (tableState key columns []) := by
  have hb : "\x7b".toList = [Char.ofNat 123] := rfl
  have h1 : hasSuffix (tableHeader [] key columns) "\x7b".toList = false := by
    rw [hb]
    cases h : hasSuffix (tableHeader [] key columns) [Char.ofNat 123] with
    | false => rfl
    | true =>
      rw [hasSuffix_singleton, header_getLast] at h
      revert h; decide
  have h2 : tableHeader [] key columns ≠ "\x7d".toList := by
    intro h
    have := header_getLast key columns
    rw [h] at this
    revert this; decide
  unfold stepLine
  simp only [initState, List.getLast?_singleton, h1, h2, Bool.false_eq_true, if_false,
    tableMatch_header hkey hne hid, columns_of_header hne hid]
  rfl

theorem stepLine_tableRow {F : Type} (L : FloatLib F) (key : Str) (columns : List Str)
    (tbl : List (Obj F)) {line : Str} (hrow : isRowLine line) :
    stepLine L (tableState key columns tbl) line =
      some (tableState key columns (tbl ++ [tableRow L columns line])) := by
  obtain ⟨heap1, hset, hstep⟩ := @stepLine_row F L (tableState key columns tbl)
    { table := tbl, columns := columns, key := key, parent := 0 } line 0
    rfl rfl (by simp [tableState]) hrow
  rw [hstep]
  simp only [tableState, heapSet, List.getElem?_cons_zero, mapSet, if_true, List.set_cons_zero,
    Option.some.injEq] at hset
  rw [← hset]
  rfl

theorem stepLine_tableEnd {F : Type} (L : FloatLib F) (key : Str) (columns : List Str)
    (tbl : List (Obj F)) :
    stepLine L (tableState key columns tbl) "]".toList =
      some { heap := [[(key, .val (.table tbl))]], stack := [0], currentTable := none } := by
  have h1 : hasSuffix "]".toList "\x7b".toList = false := by decide
  have h2 : "]".toList ≠ "\x7d".toList := by decide
  have h3 : tableMatch "]".toList = none := by decide
  unfold stepLine
  simp only [tableState, List.getLast?_singleton, h1, h2, h3, Bool.false_eq_true, if_false,
    if_true, heapSet, List.getElem?_cons_zero, mapSet, List.set_cons_zero]

theorem runLines_rows {F : Type} (L : FloatLib F) (key : Str) {columns : List Str}
    (hnd : columns.Nodup) (rows : List (List Str)) :
    ∀ tbl : List (Obj F),
      (∀ toks ∈ rows, toks ≠ [] ∧ (∀ tok ∈ toks, isToken tok) ∧
        isRowLine (trimSpace (rowText toks))) →
      runLines L (tableState key columns tbl) (rows.map (fun toks => trimSpace (rowText toks))) =
        some (tableState key columns (tbl ++ tableOf L columns rows)) := by
  induction rows with
  | nil => intro tbl _; simp [runLines, tableOf]
  | cons toks rows ih =>
    intro tbl h
    obtain ⟨hne, htok, hrow⟩ := h toks (List.mem_cons_self _ _)
    simp only [List.map_cons, runLines]
    rw [stepLine_tableRow L key columns tbl hrow, tableRow_rowText L hnd hne htok]
    simp only
    rw [ih _ (fun t ht => h t (List.mem_cons_of_mem _ ht))]
    simp [tableOf]

theorem normLines_tableDoc {key : Str} {columns : List Str} {rows : List (List Str)}
    (hkey : isIdent key) (hid : ∀ c ∈ columns, isIdent c)
    (hrows : ∀ toks ∈ rows, (∀ tok ∈ toks, isToken tok) ∧ trimSpace (rowText toks) ≠ []) :
    normLines (tableDoc key columns rows) =
      tableHeader [] key columns :: rows.map (fun toks => trimSpace (rowText toks))
        ++ ["]".toList] := by
  have hlines : ∀ l ∈ tableHeader [] key columns :: rows.map rowText ++ ["]".toList],
      Char.ofNat 10 ∉ l := by
    intro l hl
    simp only [List.cons_append, List.mem_cons, List.mem_append, List.mem_map,
      List.mem_singleton, List.not_mem_nil, or_false] at hl
    rcases hl with hl | ⟨toks, ht, hl⟩ | hl
    · rw [hl]; intro hmem; exact (header_chars hkey hid hmem).2.2 rfl
    · rw [← hl]; exact rowText_no_newline (hrows toks ht).1
    · rw [hl]; decide
  unfold tableDoc
  rw [normLines_join hlines (by simp)]
  have hmap : (tableHeader [] key columns :: rows.map rowText ++ ["]".toList]).map normLine =
      tableHeader [] key columns :: rows.map (fun toks => trimSpace (rowText toks))
        ++ ["]".toList] := by
    simp only [List.cons_append, List.map_cons, List.map_append, List.map_map, List.map_nil,
      normLine_header hkey hid]
    congr 1
    congr 1
    · apply List.map_congr_left
      intro toks ht
      simp only [Function.comp, normLine, removeComments_rowText (hrows toks ht).1]
  rw [hmap, List.filter_eq_self]
  intro l hl
  simp only [List.cons_append, List.mem_cons, List.mem_append, List.mem_map,
    List.mem_singleton, List.not_mem_nil, or_false] at hl
  rcases hl with hl | ⟨toks, ht, hl⟩ | hl
  · rw [hl]
    have := header_getLast key columns
    cases h : tableHeader [] key columns with
    | nil => rw [h] at this; cases this
    | cons a t => simp
  · rw [← hl]; simpa using (hrows toks ht).2
  · rw [hl]; decide

/-- C7, amended. For an identifier `key`, `n ≥ 1` distinct identifier columns, and rows of
`n` tokens each (tokens free of commas, `#`, `//` and newlines), every trimmed row line
being non-empty, not ending in an opening brace, not a closing brace or bracket, and not
itself a table-open line: `Decode` of `key: table(c1, ..., cn) [`, the row lines and `]`
stores under `key` (the only key) a table with one row per row line, in input order,
whose `i`-th row maps each column `cj` to `parseValue` of the `j`-th token of line `i`. -/
theorem C7_table_decode {F : Type} (L : FloatLib F) (key : Str) (columns : List Str)
    (rows : List (List Str)) (hkey : isIdent key) (hne : columns ≠ [])
    (hid : ∀ c ∈ columns, isIdent c) (hnd : columns.Nodup)
    (hrows : ∀ toks ∈ rows, isClaimedRow columns toks ∧ trimSpace (rowText toks) ≠ [] ∧
      tableMatch (trimSpace (rowText toks)) = none) :
    Decode L (.string (tableDoc key columns rows)) =
      Outcome.ok [(key, .table (tableOf L columns rows))] := by
  have hlen : 0 < columns.length := List.length_pos.2 hne
  have h1 : ∀ toks ∈ rows, (∀ tok ∈ toks, isToken tok) ∧ trimSpace (rowText toks) ≠ [] :=
    fun toks ht => ⟨(hrows toks ht).1.2.1, (hrows toks ht).2.1⟩
  have h2 : ∀ toks ∈ rows, toks ≠ [] ∧ (∀ tok ∈ toks, isToken tok) ∧
      isRowLine (trimSpace (rowText toks)) := by
    intro toks ht
    obtain ⟨⟨hl, htok, hb, hc, hd⟩, _, htm⟩ := hrows toks ht
    refine ⟨?_, htok, hb, hc, htm, hd⟩
    intro h0
    rw [h0] at hl
    simp at hl
    omega
  show decodeText L _ = _
  rw [decodeText_eq, normLines_tableDoc hkey hid h1, List.cons_append]
  simp only [runLines]
  rw [stepLine_header L hkey hne hid]
  simp only
  rw [runLines_append, runLines_rows L key hnd rows [] h2]
  simp only [runLines, stepLine_tableEnd, List.nil_append]
  rfl

/-- Witness of C7 (amended): the two-row table of the test suite. -/
theorem C7_table_decode_witness :
    tableDoc "users".toList ["name".toList, "age".toList]
        [["\"Alice\"".toList, " 25".toList], ["\"Bob\"".toList, " 30".toList]] =
      "users: table(name, age) [\n\"Alice\", 25\n\"Bob\", 30\n]".toList ∧
    tableOf sampleLib ["name".toList, "age".toList]
        [["\"Alice\"".toList, " 25".toList], ["\"Bob\"".toList, " 30".toList]] =
      [[("name".toList, .str "Alice".toList), ("age".toList, .num 25)],
       [("name".toList, .str "Bob".toList), ("age".toList, .num 30)]] ∧
    Decode sampleLib (.string (tableDoc "users".toList ["name".toList, "age".toList]
        [["\"Alice\"".toList, " 25".toList], ["\"Bob\"".toList, " 30".toList]])) =
      Outcome.ok [("users".toList, .table (tableOf sampleLib ["name".toList, "age".toList]
        [["\"Alice\"".toList, " 25".toList], ["\"Bob\"".toList, " 30".toList]]))] :=
  ⟨by decide, by rfl,
    C7_table_decode sampleLib "users".toList ["name".toList, "age".toList]
      [["\"Alice\"".toList, " 25".toList], ["\"Bob\"".toList, " 30".toList]]
      (by decide) (by decide) (by decide) (by decide) (by decide)⟩

/-- Counterexample to C7 as stated.  Both inputs meet every condition of the claim.  In
the first (one column, one row line made of the empty token) the blank row line is
skipped and the table has no row instead of one.  In the second the first row line,
made of the tokens `x: table(p` and ` q) [`, is taken for a table-open line: the table
under `t` stays empty and the second row goes to a table under `x`. -/
theorem C7_table_decode_counterexample :
    (isIdent "t".toList ∧ (∀ c ∈ ["a".toList], isIdent c) ∧ ["a".toList].Nodup ∧
      (∀ toks ∈ [[([] : Str)]], isClaimedRow ["a".toList] toks) ∧
      Decode sampleLib (.string (tableDoc "t".toList ["a".toList] [[[]]])) =
        Outcome.ok [("t".toList, .table [])] ∧
      Decode sampleLib (.string (tableDoc "t".toList ["a".toList] [[[]]])) ≠
        Outcome.ok [("t".toList, .table (tableOf sampleLib ["a".toList] [[[]]]))]) ∧
    (isIdent "t".toList ∧ (∀ c ∈ ["a".toList, "b".toList], isIdent c) ∧
      ["a".toList, "b".toList].Nodup ∧
      (∀ toks ∈ [["x: table(p".toList, " q) [".toList], ["1".toList, "2".toList]],
        isClaimedRow ["a".toList, "b".toList] toks) ∧
      Decode sampleLib (.string (tableDoc "t".toList ["a".toList, "b".toList]
        [["x: table(p".toList, " q) [".toList], ["1".toList, "2".toList]])) =
        Outcome.ok [("t".toList, .table []),
          ("x".toList, .table [[("p".toList, .num 1), ("q".toList, .num 2)]])] ∧
      Decode sampleLib (.string (tableDoc "t".toList ["a".toList, "b".toList]
        [["x: table(p".toList, " q) [".toList], ["1".toList, "2".toList]])) ≠
        Outcome.ok [("t".toList, .table (tableOf sampleLib ["a".toList, "b".toList]
          [["x: table(p".toList, " q) [".toList], ["1".toList, "2".toList]]))]) := by
  have e1 : Decode sampleLib (.string (tableDoc "t".toList ["a".toList] [[[]]])) =
      Outcome.ok [("t".toList, .table [])] := by rfl
  have e2 : Decode sampleLib (.string (tableDoc "t".toList ["a".toList, "b".toList]
      [["x: table(p".toList, " q) [".toList], ["1".toList, "2".toList]])) =
      Outcome.ok [("t".toList, .table []),
        ("x".toList, .table [[("p".toList, .num 1), ("q".toList, .num 2)]])] := by rfl
  refine ⟨⟨by decide, by decide, by decide, by decide, e1, ?_⟩,
    ⟨by decide, by decide, by decide, by decide, e2, ?_⟩⟩
  · rw [e1]
    intro h
    simp [tableOf] at h
  · rw [e2]
    intro h
    simp at h

/-! ## The sample library obeys the library laws -/

theorem digitChar_facts {d : Nat} (h : d < 10) :
    (digitChar d).isDigit = true ∧ (digitChar d).toNat - 48 = d ∧
      isNumChar (digitChar d) = true := by
  interval_cases d <;> decide

theorem natTextFuel_facts : ∀ (fuel n : Nat), n < fuel →
    natTextFuel fuel n ≠ [] ∧ (∀ c ∈ natTextFuel fuel n, c.isDigit = true ∧ isNumChar c = true) ∧
      (natTextFuel fuel n).foldl (fun m c => 10 * m + (c.toNat - 48)) 0 = n := by
  intro fuel
  induction fuel with
  | zero => intro n h; omega
  | succ fuel ih =>
    intro n h
    rw [natTextFuel]
    by_cases h10 : n < 10
    · rw [if_pos h10]
      have := digitChar_facts h10
      refine ⟨by simp, ?_, ?_⟩
      · intro c hc
        rw [List.mem_singleton.1 hc]
        exact ⟨this.1, this.2.2⟩
      · simp [this.2.1]
    · rw [if_neg h10]
      have hd := digitChar_facts (Nat.mod_lt n (by omega : 10 > 0))
      obtain ⟨h1, h2, h3⟩ := ih (n / 10) (by omega)
      refine ⟨by simp, ?_, ?_⟩
      · intro c hc
        rw [List.mem_append] at hc
        rcases hc with hc | hc
        · exact h2 c hc
        · rw [List.mem_singleton.1 hc]
          exact ⟨hd.1, hd.2.2⟩
      · rw [List.foldl_append, h3]
        simp only [List.foldl_cons, List.foldl_nil, hd.2.1]
        omega

theorem sampleLib_lawful : sampleLib.Lawful := by
  have hnum : ∀ x : Nat, numText sampleLib x = natText x := by
    intro x; simp [numText, sampleLib]
  refine ⟨?_, ?_, ?_, ?_⟩
  · intro x
    rw [hnum]
    obtain ⟨h1, h2, h3⟩ := natTextFuel_facts (x + 1) x (Nat.lt_succ_self x)
    show sampleParse (natText x) = some x
    unfold sampleParse natText
    rw [if_pos ⟨h1, by
      rw [List.all_eq_true]
      exact fun c hc => (h2 c hc).1⟩, h3]
  · intro x c hc
    rw [hnum] at hc
    exact ((natTextFuel_facts (x + 1) x (Nat.lt_succ_self x)).2.1 c hc).2
  · intro x
    rw [hnum]
    exact (natTextFuel_facts (x + 1) x (Nat.lt_succ_self x)).1
  · intro s hs
    show sampleParse s = none
    unfold sampleParse
    cases s with
    | nil => simp
    | cons c t =>
      simp only [List.head?_cons, Option.some.injEq] at hs
      subst hs
      rw [if_neg]
      intro h
      have := h.2
      rw [List.all_cons] at this
      have hd : (Char.ofNat 91).isDigit = false := by decide
      rw [hd] at this
      simp at this

/-! ## Texts without comment marker -/

theorem removeComments_eq_self_cons {d : Char} {t : Str} (h : removeComments (d :: t) = d :: t) :
    ¬ (d = Char.ofNat 35 ∨ (d = Char.ofNat 47 ∧ t.head? = some (Char.ofNat 47))) ∧
      removeComments t = t := by
  rw [removeComments_cons] at h
  by_cases hc : d = Char.ofNat 35 ∨ (d = Char.ofNat 47 ∧ t.head? = some (Char.ofNat 47))
  · rw [if_pos hc] at h; cases h
  · rw [if_neg hc] at h
    exact ⟨hc, List.tail_eq_of_cons_eq h⟩

/-- Two texts without marker, not meeting in `//`, give a text without marker. -/
theorem noMarker_append {l r : Str} (hl : removeComments l = l) (hr : removeComments r = r)
    (hb : l.getLast? ≠ some (Char.ofNat 47) ∨ r.head? ≠ some (Char.ofNat 47)) :
    removeComments (l ++ r) = l ++ r := by
  induction l with
  | nil => simpa using hr
  | cons d t ih =>
    obtain ⟨hc, ht⟩ := removeComments_eq_self_cons hl
    rw [List.cons_append, removeComments_cons]
    have hc2 : ¬ (d = Char.ofNat 35 ∨
        (d = Char.ofNat 47 ∧ (t ++ r).head? = some (Char.ofNat 47))) := by
      intro h
      rcases h with h | ⟨h1, h2⟩
      · exact hc (Or.inl h)
      · cases t with
        | nil =>
          simp only [List.nil_append] at h2
          rcases hb with hb | hb
          · exact hb (by simp [h1])
          · exact hb h2
        | cons e u =>
          simp only [List.cons_append, List.head?_cons] at h2
          exact hc (Or.inr ⟨h1, by simpa using h2⟩)
    rw [if_neg hc2]
    cases t with
    | nil => simpa using hr
    | cons e u =>
      rw [ih ht (by
        rcases hb with hb | hb
        · left; simpa [List.getLast?_cons_cons] using hb
        · right; exact hb)]

theorem noMarker_of_append {l r : Str} (h : removeComments (l ++ r) = l ++ r) :
    removeComments l = l ∧ removeComments r = r := by
  induction l with
  | nil => exact ⟨removeComments_nil, by simpa using h⟩
  | cons d t ih =>
    rw [List.cons_append] at h
    obtain ⟨hc, ht⟩ := removeComments_eq_self_cons h
    obtain ⟨h1, h2⟩ := ih ht
    refine ⟨?_, h2⟩
    rw [removeComments_cons, if_neg, h1]
    intro hc2
    rcases hc2 with hc2 | ⟨h3, h4⟩
    · exact hc (Or.inl hc2)
    · apply hc
      right
      refine ⟨h3, ?_⟩
      cases t with
      | nil => simp at h4
      | cons e u => simpa using h4

theorem isClean_sub {m s : Str} (h : m <:+: s) (hs : isClean s) : isClean m := by
  obtain ⟨a, b, rfl⟩ := h
  obtain ⟨h1, h2⟩ := hs
  refine ⟨fun hm => h1 (by simp [hm]), ?_⟩
  rw [List.append_assoc] at h2
  exact (noMarker_of_append (noMarker_of_append h2).2).1

theorem trimSpace_sub (s : Str) : trimSpace s <:+: s := by
  unfold trimSpace trimRight trimLeft
  exact (List.rdropWhile_prefix _ _).isInfix.trans (List.dropWhile_suffix _).isInfix

theorem inner_sub (s : Str) : inner s <:+: s := by
  unfold inner
  exact (List.drop_suffix _ _).isInfix.trans (List.take_prefix _ _).isInfix

theorem split_sub (sep : Char) : ∀ t : Str,
    (∀ p ∈ split t sep, p <:+: t) ∧ (∀ h r, split t sep = h :: r → h <+: t) := by
  intro t
  induction t with
  | nil =>
    rw [split_nil]
    constructor
    · intro p hp; simp at hp; subst hp; exact List.infix_refl _
    · intro h r e; simp at e; rw [← e.1]
  | cons c t ih =>
    obtain ⟨ih1, ih2⟩ := ih
    rw [split_cons]
    by_cases hc : c = sep
    · rw [if_pos hc]
      constructor
      · intro p hp
        simp only [List.mem_cons] at hp
        rcases hp with hp | hp
        · rw [hp]; exact List.nil_infix
        · exact (ih1 p hp).trans (List.suffix_cons _ _).isInfix
      · intro h r e
        simp at e
        rw [e.1]; exact List.nil_prefix
    · rw [if_neg hc]
      cases hs : split t sep with
      | nil => exact absurd hs (split_ne_nil t sep)
      | cons h0 r0 =>
        have hpre := ih2 h0 r0 hs
        simp only [List.modifyHead]
        constructor
        · intro p hp
          simp only [List.mem_cons] at hp
          rcases hp with hp | hp
          · rw [hp]
            obtain ⟨u, hu⟩ := hpre
            exact ⟨[], u, by simp [← hu]⟩
          · exact (ih1 p (by rw [hs]; exact List.mem_cons_of_mem _ hp)).trans
              (List.suffix_cons _ _).isInfix
        · intro h r e
          simp at e
          rw [← e.1]
          obtain ⟨u, hu⟩ := hpre
          exact ⟨u, by simp [← hu]⟩

theorem split_part_sub {t p : Str} {sep : Char} (h : p ∈ split t sep) : p <:+: t :=
  (split_sub sep t).1 p h

/-! ## Printed values read back -/

theorem serializeList_eq_map {F : Type} (L : FloatLib F) (xs : List (Value F)) :
    serializeList L xs = xs.map (serializeValue L) := by
  induction xs with
  | nil => simp [serializeList]
  | cons x xs ih => simp [serializeList, ih]

theorem serializeValue_arr {F : Type} (L : FloatLib F) (xs : List (Value F)) :
    serializeValue L (.arr xs) =
      Char.ofNat 91 :: (join (xs.map (serializeValue L)) ", ".toList ++ [Char.ofNat 93]) := by
  have h1 : "[".toList = [Char.ofNat 91] := rfl
  have h2 : "]".toList = [Char.ofNat 93] := rfl
  simp [serializeValue, serializeList_eq_map, h1, h2]

theorem TokText.trim {s : Str} (h : TokText s) : trimSpace s = s :=
  trimSpace_eq_self (fun a ha => (h.head_ok a ha).1) (fun b hb => (h.last_ok b hb).1)

theorem join_head {xs : List Str} {sep : Str} {x : Str} {r : List Str} (hx : x ≠ [])
    (h : xs = x :: r) : (join xs sep).head? = x.head? := by
  subst h
  cases r with
  | nil => rw [join_singleton]
  | cons y r =>
    rw [join_cons_cons]
    cases x with
    | nil => exact absurd rfl hx
    | cons a t => simp

theorem join_getLast {xs : List Str} {sep : Str} (hne : ∀ x ∈ xs, x ≠ []) (hxs : xs ≠ []) :
    ∃ x ∈ xs, (join xs sep).getLast? = x.getLast? := by
  induction xs with
  | nil => exact absurd rfl hxs
  | cons a r ih =>
    cases r with
    | nil => exact ⟨a, List.mem_cons_self _ _, by rw [join_singleton]⟩
    | cons b r =>
      obtain ⟨x, hx, he⟩ := ih (fun y hy => hne y (List.mem_cons_of_mem _ hy)) (by simp)
      refine ⟨x, List.mem_cons_of_mem _ hx, ?_⟩
      rw [join_cons_cons, ← List.append_assoc, List.getLast?_append, he]
      have hxne : x ≠ [] := hne x (List.mem_cons_of_mem _ hx)
      cases hl : x.getLast? with
      | none => rw [List.getLast?_eq_none_iff] at hl; exact absurd hl hxne
      | some c => simp

theorem isClean_append {l r : Str} (hl : isClean l) (hr : isClean r)
    (hb : l.getLast? ≠ some (Char.ofNat 47) ∨ r.head? ≠ some (Char.ofNat 47)) :
    isClean (l ++ r) := by
  refine ⟨?_, noMarker_append hl.2 hr.2 hb⟩
  intro h
  rw [List.mem_append] at h
  rcases h with h | h
  · exact hl.1 h
  · exact hr.1 h

theorem isClean_join_comma_space {xs : List Str} (h : ∀ x ∈ xs, isClean x) :
    isClean (join xs ", ".toList) := by
  have hsp : ", ".toList = Char.ofNat 44 :: [Char.ofNat 32] := rfl
  have hsep : isClean ", ".toList := by
    constructor
    · decide
    · decide
  induction xs with
  | nil => rw [join_nil]; exact ⟨by simp, removeComments_nil⟩
  | cons a r ih =>
    cases r with
    | nil => rw [join_singleton]; exact h a (List.mem_cons_self _ _)
    | cons b r =>
      rw [join_cons_cons]
      apply isClean_append (h a (List.mem_cons_self _ _))
      · apply isClean_append hsep (ih (fun x hx => h x (List.mem_cons_of_mem _ hx)))
        left; rw [hsp]; decide
      · right; rw [hsp]; simp only [List.cons_append, List.head?_cons]; decide

/-- The parts of a comma-space separated list are read back up to white space. -/
theorem split_join_comma_space {xs : List Str} (hne : xs ≠ [])
    (hnc : ∀ x ∈ xs, Char.ofNat 44 ∉ x) :
    (split (join xs ", ".toList) (Char.ofNat 44)).map trimSpace = xs.map trimSpace := by
  have hsp : ", ".toList = Char.ofNat 44 :: [Char.ofNat 32] := rfl
  induction xs with
  | nil => exact absurd rfl hne
  | cons a r ih =>
    cases r with
    | nil =>
      rw [join_singleton, split_no_sep_self (hnc a (List.mem_cons_self _ _))]
    | cons b r =>
      rw [join_cons_cons, hsp, List.cons_append, split_append_sep (hnc a (List.mem_cons_self _ _))]
      rw [List.map_cons, List.map_cons]
      rw [List.singleton_append, map_trimSpace_split_cons (by decide) (by decide)]
      rw [← hsp, ih (by simp) (fun c hc => hnc c (List.mem_cons_of_mem _ hc))]

theorem parseValue_bool {F : Type} (L : FloatLib F) (b : Bool) :
    parseValue L (serializeValue L (.bool b)) = .bool b := by
  cases b
  · have hs : serializeValue L (.bool false) = "false".toList := by simp [serializeValue]
    have ht : trimSpace "false".toList = "false".toList := by decide
    rw [hs, parseValue_eq]
    simp only [ht]
    rw [if_neg (by decide), if_pos trivial]
  · have hs : serializeValue L (.bool true) = "true".toList := by simp [serializeValue]
    have ht : trimSpace "true".toList = "true".toList := by decide
    rw [hs, parseValue_eq]
    simp only [ht]
    rw [if_pos trivial]

theorem tokText_bool {F : Type} (L : FloatLib F) (b : Bool) :
    TokText (serializeValue L (.bool b)) ∧ Char.ofNat 44 ∉ serializeValue L (.bool b) := by
  cases b
  · have hs : serializeValue L (.bool false) = "false".toList := by simp [serializeValue]
    rw [hs]
    exact ⟨⟨by decide, by decide, by decide, ⟨by decide, by decide⟩⟩, by decide⟩
  · have hs : serializeValue L (.bool true) = "true".toList := by simp [serializeValue]
    rw [hs]
    exact ⟨⟨by decide, by decide, by decide, ⟨by decide, by decide⟩⟩, by decide⟩

theorem numChar_facts {c : Char} (h : isNumChar c = true) :
    isSpace c = false ∧ c ≠ Char.ofNat 10 ∧ c ≠ Char.ofNat 35 ∧ c ≠ Char.ofNat 47 ∧
      c ≠ Char.ofNat 44 ∧ c ≠ Char.ofNat 123 ∧ c ≠ Char.ofNat 91 ∧ c ≠ Char.ofNat 34 ∧
      c ≠ Char.ofNat 116 ∧ c ≠ Char.ofNat 108 ∧ c ≠ Char.ofNat 125 ∧ c ≠ Char.ofNat 93 := by
  have hn : (48 ≤ c.toNat ∧ c.toNat ≤ 57) ∨ c.toNat = 43 ∨ c.toNat = 45 ∨ c.toNat = 46 ∨
      c.toNat = 101 ∨ c.toNat = 69 ∨ c.toNat = 73 ∨ c.toNat = 110 ∨ c.toNat = 102 ∨
      c.toNat = 78 ∨ c.toNat = 97 := by
    simp only [isNumChar, Bool.or_eq_true, Bool.and_eq_true, decide_eq_true_eq] at h
    tauto
  have hne : ∀ n : Nat, (n < 43 ∨ n = 44 ∨ n = 47 ∨ n = 91 ∨ n = 108 ∨ n = 116 ∨ n = 123 ∨
      n = 125 ∨ n = 93) →
      c ≠ Char.ofNat n ∨ ¬ (Char.ofNat n).toNat = n := by
    intro n hn2
    by_cases hc : c = Char.ofNat n
    · right
      intro h2
      rw [hc, h2] at hn
      omega
    · exact Or.inl hc
  refine ⟨?_, ?_, ?_, ?_, ?_, ?_, ?_, ?_, ?_, ?_, ?_, ?_⟩
  · simp only [isSpace, Bool.or_eq_false_iff, Bool.and_eq_false_iff, decide_eq_false_iff_not]
    omega
  · exact (hne 10 (by omega)).resolve_right (by decide)
  · exact (hne 35 (by omega)).resolve_right (by decide)
  · exact (hne 47 (by omega)).resolve_right (by decide)
  · exact (hne 44 (by omega)).resolve_right (by decide)
  · exact (hne 123 (by omega)).resolve_right (by decide)
  · exact (hne 91 (by omega)).resolve_right (by decide)
  · exact (hne 34 (by omega)).resolve_right (by decide)
  · exact (hne 116 (by omega)).resolve_right (by decide)
  · exact (hne 108 (by omega)).resolve_right (by decide)
  · exact (hne 125 (by omega)).resolve_right (by decide)
  · exact (hne 93 (by omega)).resolve_right (by decide)

theorem mem_of_head? {s : Str} {a : Char} (h : s.head? = some a) : a ∈ s := by
  cases s with
  | nil => cases h
  | cons b t => simp at h; simp [h]

theorem mem_of_getLast? {s : Str} {b : Char} (h : s.getLast? = some b) : b ∈ s := by
  rw [List.getLast?_eq_some_iff] at h
  obtain ⟨ys, hys⟩ := h
  rw [hys]; simp

theorem tokText_num {F : Type} {L : FloatLib F} (hL : L.Lawful) (x : F) :
    TokText (serializeValue L (.num x)) ∧ Char.ofNat 44 ∉ serializeValue L (.num x) := by
  have hs : serializeValue L (.num x) = numText L x := by simp [serializeValue, numText]
  rw [hs]
  have hch := hL.fmt_chars x
  refine ⟨⟨hL.fmt_ne x, ?_, ?_, ⟨?_, ?_⟩⟩, ?_⟩
  · intro a ha
    have := numChar_facts (hch a (mem_of_head? ha))
    exact ⟨this.1, this.2.2.2.2.2.2.2.2.2.2.1, this.2.2.2.2.2.2.2.2.2.2.2⟩
  · intro b hb
    have := numChar_facts (hch b (mem_of_getLast? hb))
    exact ⟨this.1, this.2.2.2.2.2.1, this.2.2.2.2.2.2.1⟩
  · intro hmem
    exact (numChar_facts (hch _ hmem)).2.1 rfl
  · apply removeComments_no_marker_char
    intro c hc
    have := numChar_facts (hch c hc)
    exact ⟨this.2.2.1, this.2.2.2.1⟩
  · intro hmem
    exact (numChar_facts (hch _ hmem)).2.2.2.2.1 rfl

theorem parseValue_num {F : Type} {L : FloatLib F} (hL : L.Lawful) (x : F) :
    parseValue L (serializeValue L (.num x)) = .num x := by
  have htok := (tokText_num hL x).1
  have hs : serializeValue L (.num x) = numText L x := by simp [serializeValue, numText]
  rw [hs] at htok ⊢
  have hch := hL.fmt_chars x
  rw [parseValue_eq]
  simp only [htok.trim]
  have h1 : numText L x ≠ "true".toList := by
    intro h
    have : Char.ofNat 116 ∈ numText L x := by rw [h]; decide
    exact (numChar_facts (hch _ this)).2.2.2.2.2.2.2.2.1 rfl
  have h2 : numText L x ≠ "false".toList := by
    intro h
    have : Char.ofNat 108 ∈ numText L x := by rw [h]; decide
    exact (numChar_facts (hch _ this)).2.2.2.2.2.2.2.2.2.1 rfl
  have h3 : enclosed (numText L x) (Char.ofNat 34) (Char.ofNat 34) = false := by
    cases he : enclosed (numText L x) (Char.ofNat 34) (Char.ofNat 34) with
    | false => rfl
    | true =>
      simp only [enclosed, Bool.and_eq_true, beq_iff_eq] at he
      exact absurd rfl (numChar_facts (hch _ (mem_of_head? he.1.2))).2.2.2.2.2.2.2.1
  rw [if_neg h1, if_neg h2, h3, hL.parse_fmt x]
  simp

theorem tokText_quoted {s : Str} (h : isClean s) :
    TokText (Char.ofNat 34 :: (s ++ [Char.ofNat 34])) := by
  have hq : isClean [Char.ofNat 34] := ⟨by decide, by decide⟩
  have hlast : (Char.ofNat 34 :: (s ++ [Char.ofNat 34])).getLast? = some (Char.ofNat 34) := by
    rw [← List.cons_append, List.getLast?_concat]
  refine ⟨by simp, ?_, ?_, ?_⟩
  · intro a ha
    simp only [List.head?_cons, Option.some.injEq] at ha
    rw [← ha]; decide
  · intro b hb
    rw [hlast] at hb
    injection hb with hb
    rw [← hb]; decide
  · have h1 : isClean (s ++ [Char.ofNat 34]) :=
      isClean_append h hq (Or.inr (by decide))
    have h2 := isClean_append hq h1 (Or.inl (by decide))
    simpa using h2

theorem serializeValue_str {F : Type} (L : FloatLib F) (s : Str) :
    serializeValue L (.str s) = Char.ofNat 34 :: (s ++ [Char.ofNat 34]) := by
  simp [serializeValue]

theorem not_mem_quoted {s : Str} {c : Char} (hc : c ≠ Char.ofNat 34) (h : c ∉ s) :
    c ∉ Char.ofNat 34 :: (s ++ [Char.ofNat 34]) := by
  intro hmem
  simp only [List.mem_cons, List.mem_append, List.mem_singleton, List.not_mem_nil,
    or_false] at hmem
  rcases hmem with hmem | hmem | hmem
  · exact hc hmem
  · exact h hmem
  · exact hc hmem

theorem tokText_bracket {J : Str} (hJ : isClean J) :
    TokText (Char.ofNat 91 :: (J ++ [Char.ofNat 93])) := by
  have ho : isClean [Char.ofNat 91] := ⟨by decide, by decide⟩
  have hc : isClean [Char.ofNat 93] := ⟨by decide, by decide⟩
  have hlast : (Char.ofNat 91 :: (J ++ [Char.ofNat 93])).getLast? = some (Char.ofNat 93) := by
    rw [← List.cons_append, List.getLast?_concat]
  refine ⟨by simp, ?_, ?_, ?_⟩
  · intro a ha
    simp only [List.head?_cons, Option.some.injEq] at ha
    rw [← ha]; decide
  · intro b hb
    rw [hlast] at hb
    injection hb with hb
    rw [← hb]; decide
  · have h1 : isClean (J ++ [Char.ofNat 93]) := isClean_append hJ hc (Or.inr (by decide))
    have h2 := isClean_append ho h1 (Or.inl (by decide))
    simpa using h2

theorem tokText_join {xs : List Str} (htok : ∀ x ∈ xs, TokText x) (hne : xs ≠ []) :
    join xs ", ".toList ≠ [] ∧ trimSpace (join xs ", ".toList) = join xs ", ".toList := by
  cases hxs : xs with
  | nil => exact absurd hxs hne
  | cons a r =>
    have ha : TokText a := htok a (by rw [hxs]; exact List.mem_cons_self _ _)
    have hne2 : join (a :: r) ", ".toList ≠ [] :=
      join_ne_nil ⟨a, List.mem_cons_self _ _, ha.ne⟩
    refine ⟨hne2, ?_⟩
    apply trimSpace_eq_self
    · intro c hc
      rw [join_head ha.ne rfl] at hc
      exact (ha.head_ok c hc).1
    · intro c hc
      obtain ⟨x, hx, he⟩ := @join_getLast (a :: r) ", ".toList
        (fun y hy => (htok y (by rw [hxs]; exact hy)).ne) (by simp : a :: r ≠ [])
      rw [he] at hc
      exact ((htok x (by rw [hxs]; exact hx)).last_ok c hc).1

/-- A printed array of printed, comma-free values is read back element by element. -/
theorem parseValue_array {F : Type} {L : FloatLib F} (hL : L.Lawful) {xs : List Str}
    (htok : ∀ x ∈ xs, TokText x) (hnc : ∀ x ∈ xs, Char.ofNat 44 ∉ x) :
    parseValue L (Char.ofNat 91 :: (join xs ", ".toList ++ [Char.ofNat 93])) =
      .arr (xs.map (parseValue L)) := by
  have hJ : isClean (join xs ", ".toList) :=
    isClean_join_comma_space (fun x hx => (htok x hx).clean)
  have hW := tokText_bracket hJ
  have hlast : (Char.ofNat 91 :: (join xs ", ".toList ++ [Char.ofNat 93])).getLast? =
      some (Char.ofNat 93) := by
    rw [← List.cons_append, List.getLast?_concat]
  have h1 : Char.ofNat 91 :: (join xs ", ".toList ++ [Char.ofNat 93]) ≠ "true".toList := by
    intro h
    have := congrArg List.head? h
    simp only [List.head?_cons] at this
    revert this; decide
  have h2 : Char.ofNat 91 :: (join xs ", ".toList ++ [Char.ofNat 93]) ≠ "false".toList := by
    intro h
    have := congrArg List.head? h
    simp only [List.head?_cons] at this
    revert this; decide
  have h3 : enclosed (Char.ofNat 91 :: (join xs ", ".toList ++ [Char.ofNat 93]))
      (Char.ofNat 34) (Char.ofNat 34) = false := by
    have hne : Char.ofNat 91 ≠ Char.ofNat 34 := by decide
    simp [enclosed, hne]
  have h4 : enclosed (Char.ofNat 91 :: (join xs ", ".toList ++ [Char.ofNat 93]))
      (Char.ofNat 91) (Char.ofNat 93) = true := by
    unfold enclosed
    rw [hlast]
    simp
  rw [parseValue_eq]
  simp only [hW.trim, if_neg h1, if_neg h2, h3, h4, Bool.false_eq_true, if_false, if_true,
    hL.parse_bracket _ (List.head?_cons), inner_quoted]
  by_cases hxs : xs = []
  · subst hxs
    have : trimSpace (join [] ", ".toList) = [] := by
      rw [join_nil]; decide
    rw [if_pos this]
    rfl
  · obtain ⟨hne, htrim⟩ := tokText_join htok hxs
    rw [htrim, if_neg hne]
    congr 1
    have e1 : (split (join xs ", ".toList) (Char.ofNat 44)).map
        (fun part => parseValue L (trimSpace part)) =
        ((split (join xs ", ".toList) (Char.ofNat 44)).map trimSpace).map (parseValue L) := by
      rw [List.map_map]; rfl
    rw [e1, split_join_comma_space hxs hnc, List.map_map]
    apply List.map_congr_left
    intro x _
    exact parseValue_trimSpace L x

theorem not_mem_bracket {s : Str} {c : Char} (h1 : c ≠ Char.ofNat 91) (h2 : c ≠ Char.ofNat 93)
    (h : c ∉ s) : c ∉ Char.ofNat 91 :: (s ++ [Char.ofNat 93]) := by
  intro hmem
  simp only [List.mem_cons, List.mem_append, List.mem_singleton, List.not_mem_nil,
    or_false] at hmem
  rcases hmem with hmem | hmem | hmem
  · exact h1 hmem
  · exact h hmem
  · exact h2 hmem

/-- An element is printed as a comma-free token that `parseValue` reads back. -/
theorem okElem_serialize {F : Type} {L : FloatLib F} (hL : L.Lawful) {e : Value F}
    (h : OkElem e) :
    TokText (serializeValue L e) ∧ Char.ofNat 44 ∉ serializeValue L e ∧
      parseValue L (serializeValue L e) = e := by
  induction h with
  | bool b => exact ⟨(tokText_bool L b).1, (tokText_bool L b).2, parseValue_bool L b⟩
  | num x => exact ⟨(tokText_num hL x).1, (tokText_num hL x).2, parseValue_num hL x⟩
  | str s hs hc =>
    rw [serializeValue_str]
    exact ⟨tokText_quoted hs, not_mem_quoted (by decide) hc, parseValue_quoted L s⟩
  | arrNil =>
    rw [serializeValue_arr]
    have := @parseValue_array F L hL [] (fun x hx => by cases hx) (fun x hx => by cases hx)
    simp only [List.map_nil, join_nil] at this ⊢
    exact ⟨tokText_bracket ⟨by simp, removeComments_nil⟩, by decide, this⟩
  | arrOne e _ ih =>
    obtain ⟨h1, h2, h3⟩ := ih
    rw [serializeValue_arr]
    have := @parseValue_array F L hL [serializeValue L e]
      (fun x hx => by rw [List.mem_singleton.1 hx]; exact h1)
      (fun x hx => by rw [List.mem_singleton.1 hx]; exact h2)
    simp only [List.map_cons, List.map_nil, join_singleton, h3] at this ⊢
    exact ⟨tokText_bracket h1.clean, not_mem_bracket (by decide) (by decide) h2, this⟩

/-- The value of a key-value line is printed as a token that `parseValue` reads back. -/
theorem okScalar_serialize {F : Type} {L : FloatLib F} (hL : L.Lawful) {v : Value F}
    (h : OkScalar v) :
    TokText (serializeValue L v) ∧ parseValue L (serializeValue L v) = v := by
  cases h with
  | bool b => exact ⟨(tokText_bool L b).1, parseValue_bool L b⟩
  | num x => exact ⟨(tokText_num hL x).1, parseValue_num hL x⟩
  | str s hs =>
    rw [serializeValue_str]
    exact ⟨tokText_quoted hs, parseValue_quoted L s⟩
  | arr xs hxs =>
    rw [serializeValue_arr]
    have htok : ∀ x ∈ xs.map (serializeValue L), TokText x := by
      intro x hx
      obtain ⟨e, he, rfl⟩ := List.mem_map.1 hx
      exact (okElem_serialize hL (hxs e he)).1
    have hnc : ∀ x ∈ xs.map (serializeValue L), Char.ofNat 44 ∉ x := by
      intro x hx
      obtain ⟨e, he, rfl⟩ := List.mem_map.1 hx
      exact (okElem_serialize hL (hxs e he)).2.1
    refine ⟨tokText_bracket (isClean_join_comma_space (fun x hx => (htok x hx).clean)), ?_⟩
    rw [parseValue_array hL htok hnc, List.map_map]
    congr 1
    conv_rhs => rw [← List.map_id xs]
    apply List.map_congr_left
    intro e he
    exact (okElem_serialize hL (hxs e he)).2.2

/-! ## Round trip: reading back what `Encode` prints -/

theorem padOf_spaces (indent : Nat) : ∀ c ∈ padOf indent, isSpace c = true := by
  induction indent with
  | zero => intro c hc; simp [padOf] at hc
  | succ n ih =>
    intro c hc
    simp only [padOf, List.replicate_succ, List.flatten_cons, List.mem_append] at hc
    rcases hc with hc | hc
    · have : ∀ x ∈ "  ".toList, isSpace x = true := by decide
      exact this c hc
    · exact ih c hc

theorem padOf_no_newline (indent : Nat) : Char.ofNat 10 ∉ padOf indent := by
  induction indent with
  | zero => simp [padOf]
  | succ n ih =>
    intro hc
    simp only [padOf, List.replicate_succ, List.flatten_cons, List.mem_append] at hc
    rcases hc with hc | hc
    · revert hc; decide
    · exact ih hc

theorem split_append_sep_general (sep : Char) (a b : Str) :
    split (a ++ sep :: b) sep = split a sep ++ split b sep := by
  induction a with
  | nil => simp [split_cons, split_nil]
  | cons c t ih =>
    rw [List.cons_append, split_cons, split_cons, ih]
    by_cases hc : c = sep
    · simp [hc]
    · simp only [hc, if_false]
      cases hs : split t sep with
      | nil => exact absurd hs (split_ne_nil t sep)
      | cons h r => simp [List.modifyHead]

theorem normLines_nil : normLines ([] : Str) = [] := by
  simp [normLines, split_nil, normLine_nil]

theorem normLines_append_newline (a b : Str) :
    normLines (a ++ Char.ofNat 10 :: b) = normLines a ++ normLines b := by
  unfold normLines
  rw [split_append_sep_general, List.map_append, List.filter_append]

theorem normLines_join_cons (x : Str) (xs : List Str) :
    normLines (join (x :: xs) "\n".toList) = normLines x ++ normLines (join xs "\n".toList) := by
  have hs : "\n".toList = [Char.ofNat 10] := rfl
  cases xs with
  | nil => rw [join_singleton, join_nil, normLines_nil, List.append_nil]
  | cons y r =>
    rw [join_cons_cons, hs, List.singleton_append, normLines_append_newline]

theorem normLines_join_append (xs ys : List Str) :
    normLines (join (xs ++ ys) "\n".toList) =
      normLines (join xs "\n".toList) ++ normLines (join ys "\n".toList) := by
  induction xs with
  | nil => rw [join_nil, normLines_nil]; rfl
  | cons x xs ih =>
    rw [List.cons_append, normLines_join_cons, normLines_join_cons, ih, List.append_assoc]

/-- A padded line whose body is trimmed, clean and not empty is normalised to its body. -/
theorem normLines_padded (indent : Nat) {body : Str} (hne : body ≠ [])
    (htrim : trimSpace body = body) (hclean : isClean body) :
    normLines (padOf indent ++ body) = [body] := by
  have hnl : Char.ofNat 10 ∉ padOf indent ++ body := by
    intro h
    rw [List.mem_append] at h
    rcases h with h | h
    · exact padOf_no_newline indent h
    · exact hclean.1 h
  have hn : normLine (padOf indent ++ body) = body := by
    rw [normLine_spaces_append (padOf_spaces indent)]
    unfold normLine
    rw [hclean.2, htrim]
  unfold normLines
  rw [split_no_sep_self hnl]
  simp [hn, hne]

theorem hasSuffix_brace_false {line : Str} (h : line.getLast? ≠ some (Char.ofNat 123)) :
    hasSuffix line "\x7b".toList = false := by
  have hb : "\x7b".toList = [Char.ofNat 123] := rfl
  rw [hb]
  cases hs : hasSuffix line [Char.ofNat 123] with
  | false => rfl
  | true => exact absurd ((hasSuffix_singleton _ _).1 hs) h

theorem getLast?_of_suffix {s t : Str} {c : Char} (h : s <:+ t) (hs : s.getLast? = some c) :
    t.getLast? = some c := by
  obtain ⟨u, rfl⟩ := h
  rw [List.getLast?_append, hs]
  rfl

/-- A line the table pattern matches ends in an opening bracket. -/
theorem tableMatch_some_getLast {line : Str} {p : Str × Str} (h : tableMatch line = some p) :
    line.getLast? = some (Char.ofNat 91) := by
  unfold tableMatch at h
  simp only at h
  split at h
  · cases h
  · split at h
    · cases h
    · rename_i c afterColon hdrop
      split at h
      · cases h
      · split at h
        · cases h
        · split at h
          · cases h
          · split at h
            · cases h
            · rename_i x afterParen hdrop2
              split at h
              · rename_i hlast
                have s1 : afterParen <:+ line := by
                  have a1 : (c :: afterColon) <:+ line := by
                    rw [← hdrop]; exact List.dropWhile_suffix _
                  have a2 : afterColon <:+ line := (List.suffix_cons _ _).trans a1
                  have a3 : afterColon.dropWhile isReSpace <:+ line :=
                    (List.dropWhile_suffix _).trans a2
                  have a4 : (afterColon.dropWhile isReSpace).drop 6 <:+ line :=
                    (List.drop_suffix _ _).trans a3
                  have a5 : (x :: afterParen) <:+ line := by
                    rw [← hdrop2]; exact (List.dropWhile_suffix _).trans a4
                  exact (List.suffix_cons _ _).trans a5
                have s2 : "[".toList <:+ line := by
                  rw [← hlast]; exact (List.dropWhile_suffix _).trans s1
                exact getLast?_of_suffix s2 rfl
              · cases h

theorem tableMatch_none_of_last {line : Str} (h : line.getLast? ≠ some (Char.ofNat 91)) :
    tableMatch line = none := by
  cases hm : tableMatch line with
  | none => rfl
  | some p => exact absurd (tableMatch_some_getLast hm) h

theorem reSpace_isSpace {c : Char} (h : isReSpace c = true) : isSpace c = true := by
  simp only [isReSpace, Bool.or_eq_true, decide_eq_true_eq] at h
  simp only [isSpace, Bool.or_eq_true, Bool.and_eq_true, decide_eq_true_eq]
  omega

theorem dropWhile_reSpace_tok {s : Str} (h : ∀ a, s.head? = some a → isSpace a = false) :
    s.dropWhile isReSpace = s := by
  cases s with
  | nil => rfl
  | cons a t =>
    have := h a rfl
    rw [List.dropWhile_cons, if_neg]
    intro hr
    rw [reSpace_isSpace hr] at this
    cases this

theorem kvMatch_line {k s : Str} (hk : isIdent k) (hne : s ≠ [])
    (hhead : ∀ a, s.head? = some a → isSpace a = false) (hnl : Char.ofNat 10 ∉ s) :
    kvMatch (k ++ Char.ofNat 58 :: Char.ofNat 32 :: s) = some (k, s) := by
  unfold kvMatch
  simp only
  rw [takeWhile_append_stop _ hk.2 (by decide), dropWhile_append_stop _ hk.2 (by decide)]
  rw [if_neg hk.1]
  simp only
  rw [if_neg (by decide)]
  have hd : (Char.ofNat 32 :: s).dropWhile isReSpace = s := by
    rw [List.dropWhile_cons, if_pos (by decide)]
    exact dropWhile_reSpace_tok hhead
  rw [hd, if_pos hne, if_neg hnl]

theorem heapSet_eq {F : Type} {heap : List (Frame F)} {addr : Nat} {m : Frame F}
    (h : heap[addr]? = some m) (key : Str) (cell : Cell F) :
    heapSet heap addr key cell = some (heap.set addr (mapSet m key cell)) := by
  simp [heapSet, h]

theorem ident_head {k : Str} (hk : isIdent k) :
    ∃ a t, k = a :: t ∧ isWordChar a = true := by
  obtain ⟨hne, hw⟩ := hk
  cases k with
  | nil => exact absurd rfl hne
  | cons a t => exact ⟨a, t, rfl, hw a (List.mem_cons_self _ _)⟩

theorem isClean_ident {k : Str} (hk : isIdent k) : isClean k := by
  constructor
  · intro h; exact (wordChar_facts (hk.2 _ h)).2.2.2.2.2.1 rfl
  · apply removeComments_no_marker_char
    intro c hc
    have := wordChar_facts (hk.2 c hc)
    exact ⟨this.2.2.2.1, this.2.2.2.2.1⟩

theorem ident_getLast {k : Str} (hk : isIdent k) :
    k.getLast? ≠ some (Char.ofNat 47) := by
  intro h
  exact (wordChar_facts (hk.2 _ (mem_of_getLast? h))).2.2.2.2.1 rfl

/-- The body of a key-value line printed by `Encode`. -/
theorem kvLine_facts {k s : Str} (hk : isIdent k) (hs : TokText s) :
    k ++ Char.ofNat 58 :: Char.ofNat 32 :: s ≠ [] ∧
    trimSpace (k ++ Char.ofNat 58 :: Char.ofNat 32 :: s) =
      k ++ Char.ofNat 58 :: Char.ofNat 32 :: s ∧
    isClean (k ++ Char.ofNat 58 :: Char.ofNat 32 :: s) ∧
    (k ++ Char.ofNat 58 :: Char.ofNat 32 :: s).getLast? = s.getLast? := by
  obtain ⟨a, t, hat, hw⟩ := ident_head hk
  have hlast : (k ++ Char.ofNat 58 :: Char.ofNat 32 :: s).getLast? = s.getLast? := by
    have e : k ++ Char.ofNat 58 :: Char.ofNat 32 :: s = (k ++ [Char.ofNat 58, Char.ofNat 32]) ++ s := by
      simp
    rw [e, List.getLast?_append]
    cases hl : s.getLast? with
    | none => rw [List.getLast?_eq_none_iff] at hl; exact absurd hl hs.ne
    | some c => rfl
  refine ⟨by simp, ?_, ?_, hlast⟩
  · apply trimSpace_eq_self
    · intro b hb
      rw [hat] at hb
      simp only [List.cons_append, List.head?_cons, Option.some.injEq] at hb
      rw [← hb]; exact (wordChar_facts hw).1
    · intro b hb
      rw [hlast] at hb
      exact (hs.last_ok b hb).1
  · have hsep : isClean [Char.ofNat 58, Char.ofNat 32] := ⟨by decide, by decide⟩
    have h1 : isClean ([Char.ofNat 58, Char.ofNat 32] ++ s) :=
      isClean_append hsep hs.clean (Or.inl (by decide))
    have h2 := isClean_append (isClean_ident hk) h1 (Or.inl (ident_getLast hk))
    simpa using h2

/-- A key-value line printed by `Encode`, met while no table is open, assigns the value
read back from its text. -/
theorem stepLine_kv {F : Type} (L : FloatLib F) {st : State F} {top : Nat} {m : Frame F}
    {k s : Str} (htop : st.stack.getLast? = some top) (hct : st.currentTable = none)
    (hm : st.heap[top]? = some m) (hk : isIdent k) (hs : TokText s) :
    stepLine L st (k ++ Char.ofNat 58 :: Char.ofNat 32 :: s) =
      some { st with heap := st.heap.set top (mapSet m k (.val (parseValue L s))) } := by
  obtain ⟨_, _, _, hlast⟩ := kvLine_facts hk hs
  have hl : ∀ c, (k ++ Char.ofNat 58 :: Char.ofNat 32 :: s).getLast? = some c →
      c ≠ Char.ofNat 123 ∧ c ≠ Char.ofNat 91 := by
    intro c hc
    rw [hlast] at hc
    exact (hs.last_ok c hc).2
  have h1 : hasSuffix (k ++ Char.ofNat 58 :: Char.ofNat 32 :: s) "\x7b".toList = false :=
    hasSuffix_brace_false (fun h => (hl _ h).1 rfl)
  have h3 : tableMatch (k ++ Char.ofNat 58 :: Char.ofNat 32 :: s) = none :=
    tableMatch_none_of_last (fun h => (hl _ h).2 rfl)
  obtain ⟨a, t, hat, hw⟩ := ident_head hk
  have h2 : k ++ Char.ofNat 58 :: Char.ofNat 32 :: s ≠ "\x7d".toList := by
    intro h
    have := congrArg List.length h
    rw [hat] at this
    simp at this
  have h4 : k ++ Char.ofNat 58 :: Char.ofNat 32 :: s ≠ "]".toList := by
    intro h
    have := congrArg List.length h
    rw [hat] at this
    simp at this
  unfold stepLine
  rw [htop]
  simp only [h1, h2, h3, h4, hct, Bool.false_eq_true, if_false,
    kvMatch_line hk hs.ne (fun a ha => (hs.head_ok a ha).1) hs.clean.1, hs.trim,
    heapSet_eq hm]

theorem normLines_prefixed {w body : Str} (hw : ∀ c ∈ w, isSpace c = true)
    (hwn : Char.ofNat 10 ∉ w) (hne : body ≠ []) (htrim : trimSpace body = body)
    (hclean : isClean body) : normLines (w ++ body) = [body] := by
  have hnl : Char.ofNat 10 ∉ w ++ body := by
    intro h
    rw [List.mem_append] at h
    rcases h with h | h
    · exact hwn h
    · exact hclean.1 h
  have hn : normLine (w ++ body) = body := by
    rw [normLine_spaces_append hw]
    unfold normLine
    rw [hclean.2, htrim]
  unfold normLines
  rw [split_no_sep_self hnl]
  simp [hn, hne]

/-- The line `key {` printed by `Encode`, as `Decode` normalises it. -/
theorem blockLine_facts (indent : Nat) {k : Str} (hk : isBlockKey k) :
    normLines (padOf indent ++ (k ++ " \x7b".toList)) = [trimSpace (k ++ " \x7b".toList)] ∧
    (trimSpace (k ++ " \x7b".toList)).getLast? = some (Char.ofNat 123) ∧
    trimSpace (trimSpace (k ++ " \x7b".toList)).dropLast = k := by
  have hb : " \x7b".toList = [Char.ofNat 32, Char.ofNat 123] := rfl
  have hbc : isClean " \x7b".toList := ⟨by decide, by decide⟩
  have hclean : isClean (k ++ " \x7b".toList) :=
    isClean_append hk.2 hbc (Or.inr (by decide))
  have hval : trimSpace (k ++ " \x7b".toList) =
      if k = [] then [Char.ofNat 123] else k ++ " \x7b".toList := by
    by_cases hk0 : k = []
    · rw [if_pos hk0, hk0]; decide
    · rw [if_neg hk0]
      apply trimSpace_eq_self
      · intro a ha
        cases k with
        | nil => exact absurd rfl hk0
        | cons b t =>
          simp only [List.cons_append, List.head?_cons, Option.some.injEq] at ha
          apply trimSpace_head (s := b :: t)
          rw [hk.1, ← ha]; rfl
      · intro b hb2
        rw [hb, List.getLast?_append] at hb2
        simp at hb2
        rw [← hb2]; decide
  refine ⟨?_, ?_, ?_⟩
  · have hnl : Char.ofNat 10 ∉ padOf indent ++ (k ++ " \x7b".toList) := by
      intro h
      rw [List.mem_append] at h
      rcases h with h | h
      · exact padOf_no_newline indent h
      · exact hclean.1 h
    have hn : normLine (padOf indent ++ (k ++ " \x7b".toList)) =
        trimSpace (k ++ " \x7b".toList) := by
      rw [normLine_spaces_append (padOf_spaces indent)]
      unfold normLine
      rw [hclean.2]
    unfold normLines
    rw [split_no_sep_self hnl]
    have hne : trimSpace (k ++ " \x7b".toList) ≠ [] := by
      rw [hval]; split <;> simp
    rw [List.map_cons, List.map_nil, hn, List.filter_cons_of_pos (by simpa using hne)]
    rfl
  · rw [hval]
    split
    · rfl
    · rw [hb, List.getLast?_append]; rfl
  · rw [hval]
    split
    · rename_i h0; rw [h0]; decide
    · have e : (k ++ " \x7b".toList).dropLast = k ++ [Char.ofNat 32] := by
        rw [hb]
        have : k ++ [Char.ofNat 32, Char.ofNat 123] = (k ++ [Char.ofNat 32]) ++ [Char.ofNat 123] := by
          simp
        rw [this, List.dropLast_concat]
      rw [e, trimSpace_concat_space (by decide), hk.1]

/-- A line ending in an opening brace stores a new empty frame under its key in the top
frame and pushes it. -/
theorem stepLine_block {F : Type} (L : FloatLib F) {st : State F} {top : Nat} {m : Frame F}
    {line : Str} (htop : st.stack.getLast? = some top) (hm : st.heap[top]? = some m)
    (hlast : line.getLast? = some (Char.ofNat 123)) :
    stepLine L st line =
      some { st with
        heap := (st.heap ++ [[]]).set top
          (mapSet m (trimSpace line.dropLast) (.ref st.heap.length))
        stack := st.stack ++ [st.heap.length] } := by
  have hb : "\x7b".toList = [Char.ofNat 123] := rfl
  have h1 : hasSuffix line "\x7b".toList = true := by
    rw [hb, hasSuffix_singleton]; exact hlast
  have hlt : top < st.heap.length := by
    by_contra hge
    rw [List.getElem?_eq_none (by omega)] at hm
    cases hm
  have hm2 : (st.heap ++ [[]])[top]? = some m := by
    rw [List.getElem?_append_left hlt]; exact hm
  unfold stepLine
  rw [htop]
  simp only [h1, if_true, heapSet_eq hm2]

/-- A closing brace pops the stack unless only the root frame remains. -/
theorem stepLine_close {F : Type} (L : FloatLib F) {st : State F} {top : Nat}
    (htop : st.stack.getLast? = some top) :
    stepLine L st "\x7d".toList =
      some (if st.stack.length > 1 then { st with stack := st.stack.dropLast } else st) := by
  have h1 : hasSuffix "\x7d".toList "\x7b".toList = false := by decide
  unfold stepLine
  rw [htop]
  simp only [h1, Bool.false_eq_true, if_false, if_true]
  split <;> rfl

theorem tableMatch_header_gen {key J : Str} (hkey : isIdent key) (hJne : J ≠ [])
    (hJ : ∀ x ∈ J, x ≠ Char.ofNat 41) :
    tableMatch (key ++ Char.ofNat 58 :: Char.ofNat 32 ::
      ("table(".toList ++ (J ++ Char.ofNat 41 :: " [".toList))) = some (key, J) := by
  have hcp : ∀ x ∈ J, (fun c => decide (c ≠ Char.ofNat 41)) x = true := by
    intro x hx
    simpa using hJ x hx
  unfold tableMatch
  simp only
  rw [takeWhile_append_stop _ hkey.2 (by decide), dropWhile_append_stop _ hkey.2 (by decide)]
  rw [if_neg hkey.1]
  simp only
  rw [if_neg (by decide)]
  have hd : (Char.ofNat 32 :: ("table(".toList ++
      (J ++ Char.ofNat 41 :: " [".toList))).dropWhile isReSpace =
      "table(".toList ++ (J ++ Char.ofNat 41 :: " [".toList) := by
    rfl
  rw [hd]
  have hp : "table(".toList.isPrefixOf ("table(".toList ++
      (J ++ Char.ofNat 41 :: " [".toList)) = true := by
    rw [List.isPrefixOf_iff_prefix]; exact List.prefix_append _ _
  rw [if_neg (by simp [hp])]
  have hdrop : ("table(".toList ++ (J ++ Char.ofNat 41 :: " [".toList)).drop 6
      = J ++ Char.ofNat 41 :: " [".toList := by
    rfl
  simp only [hdrop]
  rw [takeWhile_append_stop _ hcp (by decide), dropWhile_append_stop _ hcp (by decide)]
  rw [if_neg hJne]
  simp only
  rw [if_pos (by decide)]

theorem join_eq_nil {xs : List Str} {sep : Str} (hsep : sep ≠ []) (h : join xs sep = []) :
    xs = [] ∨ xs = [[]] := by
  cases xs with
  | nil => exact Or.inl rfl
  | cons a r =>
    cases r with
    | nil => rw [join_singleton] at h; right; rw [h]
    | cons b r =>
      rw [join_cons_cons] at h
      have := (List.append_eq_nil.1 (List.append_eq_nil.1 h).2).1
      exact absurd this hsep

/-- The header line of a table printed by `Encode`, for column names as `Decode` reads
them. -/
theorem headerLine_facts {key : Str} {columns : List Str} (hkey : isIdent key)
    (hcols : ∀ c ∈ columns, isColumn c) (hne : columns ≠ []) (hne2 : columns ≠ [[]]) :
    tableHeader [] key columns ≠ [] ∧
    trimSpace (tableHeader [] key columns) = tableHeader [] key columns ∧
    isClean (tableHeader [] key columns) ∧
    tableMatch (tableHeader [] key columns) = some (key, join columns ", ".toList) ∧
    (split (join columns ", ".toList) (Char.ofNat 44)).map trimSpace = columns := by
  have hJc : isClean (join columns ", ".toList) :=
    isClean_join_comma_space (fun c hc => (hcols c hc).2.2.2)
  have hJne : join columns ", ".toList ≠ [] := by
    intro h
    rcases join_eq_nil (by decide) h with h | h
    · exact hne h
    · exact hne2 h
  have hJp : ∀ x ∈ join columns ", ".toList, x ≠ Char.ofNat 41 := by
    intro x hx
    rcases mem_join hx with h | ⟨l, hl, hc⟩
    · intro e; rw [e] at h; revert h; decide
    · intro e; rw [e] at hc; exact (hcols l hl).2.2.1 hc
  have hlast := header_getLast key columns
  refine ⟨?_, ?_, ?_, ?_, ?_⟩
  · intro h; rw [h] at hlast; cases hlast
  · apply trimSpace_eq_self (header_head hkey columns)
    intro b hb
    rw [hlast] at hb
    injection hb with hb
    rw [← hb]; decide
  · rw [header_eq]
    have h1 : isClean (Char.ofNat 41 :: " [".toList) := ⟨by decide, by decide⟩
    have h2 : isClean (join columns ", ".toList ++ Char.ofNat 41 :: " [".toList) :=
      isClean_append hJc h1 (Or.inr (by decide))
    have h3 : isClean "table(".toList := ⟨by decide, by decide⟩
    have h4 : isClean ("table(".toList ++
        (join columns ", ".toList ++ Char.ofNat 41 :: " [".toList)) :=
      isClean_append h3 h2 (Or.inl (by decide))
    have h5 : isClean [Char.ofNat 58, Char.ofNat 32] := ⟨by decide, by decide⟩
    have h6 := isClean_append h5 h4 (Or.inl (by decide))
    have h7 := isClean_append (isClean_ident hkey) h6 (Or.inl (ident_getLast hkey))
    simpa using h7
  · rw [header_eq]
    exact tableMatch_header_gen hkey hJne hJp
  · rw [split_join_comma_space hne (fun c hc => (hcols c hc).2.1)]
    conv_rhs => rw [← List.map_id columns]
    apply List.map_congr_left
    intro c hc
    exact (hcols c hc).1

/-- A table-open line printed by `Encode` stores an empty table under its key and opens
the table context. -/
theorem stepLine_tableOpen {F : Type} (L : FloatLib F) {st : State F} {top : Nat}
    {m : Frame F} {key : Str} {columns : List Str}
    (htop : st.stack.getLast? = some top) (hm : st.heap[top]? = some m)
    (hkey : isIdent key) (hfresh : key ∉ m.map Prod.fst)
    (hcols : ∀ c ∈ columns, isColumn c) (hne : columns ≠ []) (hne2 : columns ≠ [[]]) :
    stepLine L st (tableHeader [] key columns) =
      some (tableStateAt st top m key columns []) := by
  obtain ⟨_, _, _, hmatch, hsplit⟩ := headerLine_facts hkey hcols hne hne2
  have hlast := header_getLast key columns
  have h1 : hasSuffix (tableHeader [] key columns) "\x7b".toList = false :=
    hasSuffix_brace_false (by rw [hlast]; decide)
  have h2 : tableHeader [] key columns ≠ "\x7d".toList := by
    intro h
    rw [h] at hlast
    revert hlast; decide
  unfold stepLine
  rw [htop]
  simp only [h1, h2, Bool.false_eq_true, if_false, hmatch, hsplit, heapSet_eq hm,
    mapSet_new m key _ hfresh]
  rfl

theorem mapSet_replace_last {α : Type} (m : List (Str × α)) (k : Str) (c0 c : α)
    (h : k ∉ m.map Prod.fst) : mapSet (m ++ [(k, c0)]) k c = m ++ [(k, c)] := by
  induction m with
  | nil => simp [mapSet]
  | cons x t ih =>
    obtain ⟨k0, v0⟩ := x
    simp only [List.map_cons, List.mem_cons, not_or] at h
    rw [List.cons_append]
    simp only [mapSet]
    rw [if_neg (fun e => h.1 e.symm), ih h.2]
    rfl

theorem mapGet_of_mem {α : Type} {row : List (Str × α)} (hnd : (row.map Prod.fst).Nodup)
    {e : Str × α} (he : e ∈ row) : mapGet row e.1 = some e.2 := by
  induction row with
  | nil => cases he
  | cons x t ih =>
    obtain ⟨k0, v0⟩ := x
    simp only [List.map_cons, List.nodup_cons] at hnd
    simp only [List.mem_cons] at he
    simp only [mapGet]
    rcases he with he | he
    · rw [he]; simp
    · have hne : k0 ≠ e.1 := by
        intro h
        apply hnd.1
        rw [h]
        exact List.mem_map_of_mem Prod.fst he
      rw [if_neg hne]
      exact ih hnd.2 he

/-- The cells `Encode` prints for a row that has exactly the columns of the header. -/
theorem rowCells_eq {F : Type} (L : FloatLib F) {row : Obj F}
    (hnd : (row.map Prod.fst).Nodup) :
    (row.map Prod.fst).map (fun col => serializeValue L (cellOf row col)) =
      row.map (fun e => serializeValue L e.2) := by
  rw [List.map_map]
  apply List.map_congr_left
  intro e he
  simp only [Function.comp, cellOf, mapGet_of_mem hnd he, Option.getD_some]

theorem zip_fst_snd {α β : Type} (l : List (α × β)) :
    List.zip (l.map Prod.fst) (l.map Prod.snd) = l := by
  induction l with
  | nil => rfl
  | cons x t ih => simp [ih]

/-- The body of a row line printed by `Encode`, and the row `Decode` builds from it. -/
theorem rowLine_facts {F : Type} {L : FloatLib F} (hL : L.Lawful) {row : Obj F}
    (hrow : isRow row) (hne : row ≠ []) :
    join (row.map (fun e => serializeValue L e.2)) ", ".toList ≠ [] ∧
    trimSpace (join (row.map (fun e => serializeValue L e.2)) ", ".toList) =
      join (row.map (fun e => serializeValue L e.2)) ", ".toList ∧
    isClean (join (row.map (fun e => serializeValue L e.2)) ", ".toList) ∧
    isRowLine (join (row.map (fun e => serializeValue L e.2)) ", ".toList) ∧
    tableRow L (row.map Prod.fst)
      (join (row.map (fun e => serializeValue L e.2)) ", ".toList) = row := by
  have htok : ∀ x ∈ row.map (fun e => serializeValue L e.2), TokText x := by
    intro x hx
    obtain ⟨e, he, rfl⟩ := List.mem_map.1 hx
    exact (okElem_serialize hL (hrow.2 e he).2).1
  have hnc : ∀ x ∈ row.map (fun e => serializeValue L e.2), Char.ofNat 44 ∉ x := by
    intro x hx
    obtain ⟨e, he, rfl⟩ := List.mem_map.1 hx
    exact (okElem_serialize hL (hrow.2 e he).2).2.1
  have hxs : row.map (fun e => serializeValue L e.2) ≠ [] := by
    simpa using hne
  obtain ⟨hjne, hjtrim⟩ := tokText_join htok hxs
  have hlast : ∀ c, (join (row.map (fun e => serializeValue L e.2)) ", ".toList).getLast? = some c →
      c ≠ Char.ofNat 123 ∧ c ≠ Char.ofNat 91 := by
    intro c hc
    obtain ⟨x, hx, he⟩ := @join_getLast _ ", ".toList (fun y hy => (htok y hy).ne) hxs
    rw [he] at hc
    exact ((htok x hx).last_ok c hc).2
  have hhead : ∀ c, (join (row.map (fun e => serializeValue L e.2)) ", ".toList).head? = some c →
      c ≠ Char.ofNat 125 ∧ c ≠ Char.ofNat 93 := by
    intro c hc
    cases hr : row.map (fun e => serializeValue L e.2) with
    | nil => exact absurd hr hxs
    | cons a r =>
      have ha := htok a (by rw [hr]; exact List.mem_cons_self _ _)
      rw [join_head ha.ne hr] at hc
      exact (ha.head_ok c hc).2
  refine ⟨hjne, hjtrim, isClean_join_comma_space (fun x hx => (htok x hx).clean), ?_, ?_⟩
  · refine ⟨hasSuffix_brace_false (fun h => (hlast _ h).1 rfl), ?_,
      tableMatch_none_of_last (fun h => (hlast _ h).2 rfl), ?_⟩
    · intro h
      have := hhead (Char.ofNat 125) (by rw [h]; rfl)
      exact this.1 rfl
    · intro h
      have := hhead (Char.ofNat 93) (by rw [h]; rfl)
      exact this.2 rfl
  · rw [tableRow_eq_zip L hrow.1]
    have e1 : (split (join (row.map (fun e => serializeValue L e.2)) ", ".toList)
        (Char.ofNat 44)).map (fun part => parseValue L (trimSpace part)) =
        ((split (join (row.map (fun e => serializeValue L e.2)) ", ".toList)
          (Char.ofNat 44)).map trimSpace).map (parseValue L) := by
      rw [List.map_map]; rfl
    rw [e1, split_join_comma_space hxs hnc, List.map_map, List.map_map]
    have e2 : row.map ((parseValue L ∘ trimSpace) ∘ fun e => serializeValue L e.2) =
        row.map Prod.snd := by
      apply List.map_congr_left
      intro e he
      simp only [Function.comp, parseValue_trimSpace]
      exact (okElem_serialize hL (hrow.2 e he).2).2.2
    rw [e2, zip_fst_snd]

theorem stepLine_rowAt {F : Type} (L : FloatLib F) {st : State F} {top top1 : Nat}
    (m : Frame F) {key : Str} (columns : List Str) (tbl : List (Obj F)) {line : Str}
    (htop : st.stack.getLast? = some top1) (hlt : top < st.heap.length)
    (hfresh : key ∉ m.map Prod.fst) (hrow : isRowLine line) :
    stepLine L (tableStateAt st top m key columns tbl) line =
      some (tableStateAt st top m key columns (tbl ++ [tableRow L columns line])) := by
  obtain ⟨heap1, hset, hstep⟩ := @stepLine_row F L (tableStateAt st top m key columns tbl)
    { table := tbl, columns := columns, key := key, parent := top } line top1
    htop rfl (by simp [tableStateAt]; exact hlt) hrow
  rw [hstep]
  have hm : (tableStateAt st top m key columns tbl).heap[top]? =
      some (m ++ [(key, .val (.table tbl))]) := by
    simp [tableStateAt, List.getElem?_set_self hlt]
  rw [heapSet_eq hm, mapSet_replace_last m key _ _ hfresh] at hset
  injection hset with hset
  rw [← hset]
  simp [tableStateAt]

theorem stepLine_tableEndAt {F : Type} (L : FloatLib F) {st : State F} {top top1 : Nat}
    (m : Frame F) {key : Str} (columns : List Str) (tbl : List (Obj F))
    (htop : st.stack.getLast? = some top1) (hlt : top < st.heap.length)
    (hfresh : key ∉ m.map Prod.fst) :
    stepLine L (tableStateAt st top m key columns tbl) "]".toList =
      some { st with heap := st.heap.set top (m ++ [(key, .val (.table tbl))]) ,
                     currentTable := none } := by
  have h1 : hasSuffix "]".toList "\x7b".toList = false := by decide
  have h2 : "]".toList ≠ "\x7d".toList := by decide
  have h3 : tableMatch "]".toList = none := by decide
  have hm : (st.heap.set top (m ++ [(key, Cell.val (Value.table tbl))]))[top]? =
      some (m ++ [(key, .val (.table tbl))]) := by
    simp [List.getElem?_set_self hlt]
  unfold stepLine
  simp only [tableStateAt, htop, h1, h2, h3, Bool.false_eq_true, if_false, if_true,
    heapSet_eq hm, mapSet_replace_last m key _ _ hfresh, List.set_set]

theorem runLines_rowsAt {F : Type} {L : FloatLib F} (hL : L.Lawful) {st : State F}
    {top top1 : Nat} (m : Frame F) {key : Str} (columns : List Str)
    (htop : st.stack.getLast? = some top1) (hlt : top < st.heap.length)
    (hfresh : key ∉ m.map Prod.fst) (rows : List (Obj F)) :
    ∀ tbl : List (Obj F),
      (∀ row ∈ rows, isRow row ∧ row ≠ [] ∧ row.map Prod.fst = columns) →
      runLines L (tableStateAt st top m key columns tbl)
        (rows.map (fun row => join (row.map (fun e => serializeValue L e.2)) ", ".toList)) =
        some (tableStateAt st top m key columns (tbl ++ rows)) := by
  induction rows with
  | nil => intro tbl _; simp [runLines]
  | cons row rows ih =>
    intro tbl h
    obtain ⟨hrow, hne, hcols⟩ := h row (List.mem_cons_self _ _)
    obtain ⟨_, _, _, hline, htr⟩ := rowLine_facts hL hrow hne
    simp only [List.map_cons, runLines]
    rw [stepLine_rowAt L m columns tbl htop hlt hfresh hline]
    simp only
    rw [← hcols, htr, hcols, ih _ (fun r hr => h r (List.mem_cons_of_mem _ hr))]
    simp

theorem encodeLines_nil {F : Type} (L : FloatLib F) (indent : Nat) :
    encodeLines L ([] : List (Str × Value F)) indent = [] := by
  simp [encodeLines]

theorem encodeLines_scalar {F : Type} (L : FloatLib F) (k : Str) {v : Value F}
    (hv : OkScalar v) (O : Obj F) (indent : Nat) :
    encodeLines L ((k, v) :: O) indent =
      [padOf indent ++ (k ++ Char.ofNat 58 :: Char.ofNat 32 :: serializeValue L v)] ++
        encodeLines L O indent := by
  have hs : ": ".toList = [Char.ofNat 58, Char.ofNat 32] := rfl
  cases hv with
  | bool b => simp [encodeLines, hs]
  | num x => simp [encodeLines, hs]
  | str s _ => simp [encodeLines, hs]
  | arr xs hxs =>
    cases xs with
    | nil => simp [encodeLines, hs]
    | cons e r =>
      have he := hxs e (List.mem_cons_self _ _)
      cases he <;> simp [encodeLines, hs]

theorem encodeLines_table {F : Type} (L : FloatLib F) (k : Str) (first : Obj F)
    (rest : List (Obj F)) (O : Obj F) (indent : Nat) :
    encodeLines L ((k, .table (first :: rest)) :: O) indent =
      [padOf indent ++ tableHeader [] k (first.map Prod.fst)] ++
        ((first :: rest).map (rowLine L (padOf indent) (first.map Prod.fst)) ++
          ([padOf indent ++ "]".toList] ++ encodeLines L O indent)) := by
  simp [encodeLines, tableHeader]

theorem encodeLines_obj {F : Type} (L : FloatLib F) (k : Str) (O1 O : Obj F) (indent : Nat) :
    encodeLines L ((k, .obj O1) :: O) indent =
      [padOf indent ++ (k ++ " \x7b".toList)] ++
        ((if join (encodeLines L O1 (indent + 1)) "\n".toList ≠ [] then
            [join (encodeLines L O1 (indent + 1)) "\n".toList] else []) ++
          ([padOf indent ++ "\x7d".toList] ++ encodeLines L O indent)) := by
  simp [encodeLines, encodeValue]

theorem mapOpt_congr {α β : Type} {f g : α → Option β} {l : List α}
    (h : ∀ a ∈ l, f a = g a) : mapOpt f l = mapOpt g l := by
  induction l with
  | nil => rfl
  | cons a t ih =>
    simp only [mapOpt]
    rw [h a (List.mem_cons_self _ _), ih (fun x hx => h x (List.mem_cons_of_mem _ hx))]

/-- Reification from an address on depends only on the frames from that address on. -/
theorem reify_agree {F : Type} {h1 h2 : List (Frame F)} {n : Nat}
    (hup : ∀ a m, h1[a]? = some m → ∀ k r, (k, Cell.ref r) ∈ m → a < r ∧ r < h1.length)
    (hag : ∀ a, n ≤ a → a < h1.length → h2[a]? = h1[a]?) (fuel : Nat) :
    ∀ r, n ≤ r → r < h1.length → reify h2 fuel r = reify h1 fuel r := by
  induction fuel with
  | zero => intro r _ _; rfl
  | succ fuel ih =>
    intro r hr1 hr2
    have hm : h1[r]? = some h1[r] := List.getElem?_eq_getElem hr2
    rw [reify, reify, hag r hr1 hr2, hm]
    simp only
    apply mapOpt_congr
    intro kc hkc
    obtain ⟨k, c⟩ := kc
    cases c with
    | val v => rfl
    | ref r1 =>
      have := hup r _ hm k r1 hkc
      simp only
      rw [ih r1 (by omega) this.2]

/-- A frame whose cells denote the entries of an object reifies to that object. -/
theorem reify_frame {F : Type} {heap : List (Frame F)} {n0 a : Nat} {cells : Frame F}
    {O : Obj F} (hcells : heap[a]? = some cells)
    (hden : List.Forall₂ (CellDenotes heap n0) cells O) (han : a < n0) (fuel : Nat)
    (hfuel : heap.length ≤ fuel + a) : reify heap fuel a = some O := by
  have hlt : a < heap.length := by
    by_contra hge
    rw [List.getElem?_eq_none (by omega)] at hcells
    cases hcells
  cases fuel with
  | zero => omega
  | succ fuel =>
    rw [reify, hcells]
    simp only
    clear hcells
    induction hden with
    | nil => rfl
    | @cons c e cs es hce _ ih =>
      obtain ⟨k, cell⟩ := c
      obtain ⟨k2, v⟩ := e
      obtain ⟨hk, hcell⟩ := hce
      simp only at hk hcell
      subst hk
      simp only [mapOpt]
      cases cell with
      | val w =>
        simp only at hcell
        subst hcell
        simp only [ih]
      | ref r =>
        simp only at hcell
        obtain ⟨hr, O1, hv, hre⟩ := hcell
        subst hv
        simp only [hre fuel (by omega), ih]

theorem CellDenotes_mono {F : Type} {heap : List (Frame F)} {n0 n1 : Nat} (h : n0 ≤ n1)
    {c : Str × Cell F} {e : Str × Value F} (hc : CellDenotes heap n1 c e) :
    CellDenotes heap n0 c e := by
  obtain ⟨h1, h2⟩ := hc
  refine ⟨h1, ?_⟩
  cases hcell : c.2 with
  | val v => rw [hcell] at h2; exact h2
  | ref r =>
    rw [hcell] at h2
    exact ⟨by omega, h2.2⟩

theorem Forall₂_CellDenotes_mono {F : Type} {heap : List (Frame F)} {n0 n1 : Nat}
    (h : n0 ≤ n1) {cells : Frame F} {O : Obj F}
    (hc : List.Forall₂ (CellDenotes heap n1) cells O) :
    List.Forall₂ (CellDenotes heap n0) cells O :=
  hc.imp (fun _ _ h1 => CellDenotes_mono h h1)

theorem stepLine_some_WF {F : Type} (L : FloatLib F) {st st1 : State F} (hwf : st.WF)
    {line : Str} (h : stepLine L st line = some st1) : st1.WF := by
  obtain ⟨st2, h2, hwf2⟩ := stepLine_WF L hwf line
  rw [h] at h2
  injection h2 with h2
  rw [h2]; exact hwf2

theorem Extends.refl {F : Type} {st : State F} {top : Nat} {m : Frame F} (hwf : st.WF)
    (hct : st.currentTable = none) (hm : st.heap[top]? = some m) : Extends st st top m :=
  ⟨rfl, hct, Nat.le_refl _, fun _ _ _ => rfl, hm, hwf⟩

/-- Composition: a state that differs from `st` in the top frame only, then an
extension. -/
theorem Extends.after {F : Type} {st st0 st1 : State F} {top : Nat} {G : Frame F}
    (hs : st0.stack = st.stack) (hlen : st.heap.length ≤ st0.heap.length)
    (hfr : ∀ a, a < st.heap.length → a ≠ top → st0.heap[a]? = st.heap[a]?)
    (h : Extends st0 st1 top G) : Extends st st1 top G := by
  refine ⟨h.stack_eq.trans hs, h.table_none, Nat.le_trans hlen h.len_le, ?_, h.top_frame, h.wf⟩
  intro a ha hat
  rw [h.frames a (by omega) hat, hfr a ha hat]

theorem lt_of_getElem?_some {α : Type} {l : List α} {i : Nat} {x : α}
    (h : l[i]? = some x) : i < l.length := by
  by_contra hge
  rw [List.getElem?_eq_none (by omega)] at h
  cases h

theorem normLines_join_map {α : Type} (f : α → Str) (g : α → Str) (xs : List α)
    (h : ∀ x ∈ xs, normLines (f x) = [g x]) :
    normLines (join (xs.map f) "\n".toList) = xs.map g := by
  induction xs with
  | nil => rw [List.map_nil, join_nil, normLines_nil]; rfl
  | cons x xs ih =>
    rw [List.map_cons, normLines_join_cons, h x (List.mem_cons_self _ _),
      ih (fun y hy => h y (List.mem_cons_of_mem _ hy))]
    rfl

theorem normLines_single (x : Str) : normLines (join [x] "\n".toList) = normLines x := by
  rw [join_singleton]

theorem tableRegular_cons {F : Type} {rows : List (Obj F)} (h : tableRegular rows = true) :
    ∃ first rest, rows = first :: rest ∧ first.map Prod.fst ≠ [] ∧
      first.map Prod.fst ≠ [[]] ∧ ∀ row ∈ first :: rest, row.map Prod.fst = first.map Prod.fst := by
  cases rows with
  | nil => simp [tableRegular] at h
  | cons first rest =>
    simp only [tableRegular, Bool.and_eq_true, decide_eq_true_eq, List.all_eq_true] at h
    refine ⟨first, rest, rfl, h.1.1, h.1.2, ?_⟩
    intro row hrow
    simp only [List.mem_cons] at hrow
    rcases hrow with hrow | hrow
    · rw [hrow]
    · exact h.2 row hrow

/-- The lines `Encode` prints for a regular table, as `Decode` normalises them. -/
theorem normLines_tableLines {F : Type} {L : FloatLib F} (hL : L.Lawful) (indent : Nat)
    {k : Str} (hk : isIdent k) {first : Obj F} {rest : List (Obj F)}
    (hrows : ∀ row ∈ first :: rest, isRow row)
    (hne : first.map Prod.fst ≠ []) (hne2 : first.map Prod.fst ≠ [[]])
    (hreg : ∀ row ∈ first :: rest, row.map Prod.fst = first.map Prod.fst) :
    normLines (padOf indent ++ tableHeader [] k (first.map Prod.fst)) =
      [tableHeader [] k (first.map Prod.fst)] ∧
    normLines (join ((first :: rest).map (rowLine L (padOf indent) (first.map Prod.fst)))
      "\n".toList) =
      (first :: rest).map (fun row => join (row.map (fun e => serializeValue L e.2)) ", ".toList) ∧
    normLines (padOf indent ++ "]".toList) = ["]".toList] := by
  have hcols : ∀ c ∈ first.map Prod.fst, isColumn c := by
    intro c hc
    obtain ⟨e, he, rfl⟩ := List.mem_map.1 hc
    exact ((hrows first (List.mem_cons_self _ _)).2 e he).1
  obtain ⟨h1, h2, h3, _, _⟩ := headerLine_facts hk hcols hne hne2
  refine ⟨normLines_padded indent h1 h2 h3, ?_,
    normLines_padded indent (by decide) (by decide) ⟨by decide, by decide⟩⟩
  apply normLines_join_map
  intro row hrow
  have hr := hrows row hrow
  have hrne : row ≠ [] := by
    intro h0
    have := hreg row hrow
    rw [h0] at this
    exact hne this.symm
  obtain ⟨b1, b2, b3, _, _⟩ := rowLine_facts hL hr hrne
  have e : rowLine L (padOf indent) (first.map Prod.fst) row =
      (padOf indent ++ "  ".toList) ++
        join (row.map (fun e => serializeValue L e.2)) ", ".toList := by
    unfold rowLine
    rw [← hreg row hrow, rowCells_eq L hr.1]
  rw [e]
  apply normLines_prefixed _ _ b1 b2 b3
  · intro c hc
    rw [List.mem_append] at hc
    rcases hc with hc | hc
    · exact padOf_spaces indent c hc
    · revert hc; revert c; decide
  · intro hc
    rw [List.mem_append] at hc
    rcases hc with hc | hc
    · exact padOf_no_newline indent hc
    · revert hc; decide

theorem runLines_cons {F : Type} (L : FloatLib F) (st : State F) (x : Str) (xs : List Str) :
    runLines L st (x :: xs) =
      match stepLine L st x with
      | none => none
      | some st1 => runLines L st1 xs := rfl

/-- The lines `Encode` prints for a scalar or a regular table under an identifier, read
by `Decode` while no table is open, assign that value to that key in the top frame. -/
theorem runEntry_val {F : Type} {L : FloatLib F} (hL : L.Lawful) {k : Str} {v : Value F}
    (hk : isIdent k) (hv : OkVal v) (hreg : regularVal v = true) (indent : Nat) (O : Obj F)
    {st : State F} {top : Nat} {m : Frame F} (hct : st.currentTable = none)
    (htop : st.stack.getLast? = some top) (hm : st.heap[top]? = some m)
    (hfresh : k ∉ m.map Prod.fst) :
    ∃ lines, normLines (join (encodeLines L ((k, v) :: O) indent) "\n".toList) =
        lines ++ normLines (join (encodeLines L O indent) "\n".toList) ∧
      runLines L st lines =
        some { heap := st.heap.set top (m ++ [(k, .val v)]), stack := st.stack,
               currentTable := none } := by
  have hlt := lt_of_getElem?_some hm
  cases hv with
  | scalar v hs =>
    obtain ⟨htok, hparse⟩ := okScalar_serialize hL hs
    obtain ⟨b1, b2, b3, _⟩ := kvLine_facts hk htok
    refine ⟨[k ++ Char.ofNat 58 :: Char.ofNat 32 :: serializeValue L v], ?_, ?_⟩
    · rw [encodeLines_scalar L k hs, normLines_join_append, normLines_single,
        normLines_padded indent b1 b2 b3]
    · simp only [runLines]
      rw [stepLine_kv L htop hct hm hk htok, hparse, mapSet_new m k _ hfresh]
      simp only
      rw [← hct]
  | table rows hrows =>
    have hreg2 : tableRegular rows = true := by simpa [regularVal] using hreg
    obtain ⟨first, rest, rfl, hne, hne2, hsame⟩ := tableRegular_cons hreg2
    obtain ⟨n1, n2, n3⟩ := normLines_tableLines hL indent hk hrows hne hne2 hsame
    have hcols : ∀ c ∈ first.map Prod.fst, isColumn c := by
      intro c hc
      obtain ⟨e, he, rfl⟩ := List.mem_map.1 hc
      exact ((hrows first (List.mem_cons_self _ _)).2 e he).1
    refine ⟨[tableHeader [] k (first.map Prod.fst)] ++
      ((first :: rest).map
        (fun row => join (row.map (fun e => serializeValue L e.2)) ", ".toList) ++
        ["]".toList]), ?_, ?_⟩
    · rw [encodeLines_table, normLines_join_append, normLines_single, n1,
        normLines_join_append, n2, normLines_join_append, normLines_single, n3]
      simp only [List.append_assoc]
    · rw [List.singleton_append, runLines_cons,
        stepLine_tableOpen L htop hm hk hfresh hcols hne hne2]
      simp only
      rw [runLines_append, runLines_rowsAt hL m (first.map Prod.fst) htop hlt hfresh
        (first :: rest) [] (fun row hrow => ⟨hrows row hrow, by
          intro h0
          have := hsame row hrow
          rw [h0] at this
          exact hne this.symm, hsame row hrow⟩)]
      simp only
      rw [runLines_cons, List.nil_append,
        stepLine_tableEndAt L m (first.map Prod.fst) (first :: rest) htop hlt hfresh]
      rfl

theorem regularObj_cons {F : Type} {k : Str} {v : Value F} {O : Obj F}
    (h : regularObj ((k, v) :: O) = true) : regularVal v = true ∧ regularObj O = true := by
  simpa [regularObj] using h

theorem regularVal_obj {F : Type} {O : Obj F} (h : regularVal (.obj O) = true) :
    regularObj O = true := by
  simpa [regularVal] using h

/-- Reading back what `Encode` prints for an object of the image of `Decode` with regular
tables: run from a well-formed state with no open table, the lines add to the top frame
cells that denote the entries of the object, and leave the rest of the state alone. -/
theorem runEncoded {F : Type} {L : FloatLib F} (hL : L.Lawful) {O : Obj F} (hO : ImgObj O) :
    regularObj O = true → ∀ (indent : Nat) (st : State F) (top : Nat) (m : Frame F),
      st.WF → st.currentTable = none → st.stack.getLast? = some top →
      st.heap[top]? = some m → (∀ k ∈ O.map Prod.fst, k ∉ m.map Prod.fst) →
      ∃ st1 cells,
        runLines L st (normLines (join (encodeLines L O indent) "\n".toList)) = some st1 ∧
        Extends st st1 top (m ++ cells) ∧
        List.Forall₂ (CellDenotes st1.heap st.heap.length) cells O := by
  induction hO with
  | nil =>
    intro _ indent st top m hwf hct _ hm _
    refine ⟨st, [], ?_, ?_, List.Forall₂.nil⟩
    · rw [encodeLines_nil, join_nil, normLines_nil]; rfl
    · rw [List.append_nil]; exact Extends.refl hwf hct hm
  | val k v O hk hv hfresh _ ih =>
    intro hreg indent st top m hwf hct htop hm hdis
    obtain ⟨hregv, hregO⟩ := regularObj_cons hreg
    have hlt := lt_of_getElem?_some hm
    have hkm : k ∉ m.map Prod.fst :=
      hdis k (by rw [List.map_cons]; exact List.mem_cons_self _ _)
    obtain ⟨lines, hnorm, hrun⟩ := runEntry_val hL hk hv hregv indent O hct htop hm hkm
    have hwf0 : State.WF (⟨st.heap.set top (m ++ [(k, Cell.val v)]), st.stack, none⟩ :
        State F) := by
      have h1 := WF_heapSet_val hwf (heapSet_eq hm k (Cell.val v)) none (fun c hc => by cases hc)
      rw [mapSet_new m k _ hkm] at h1
      exact h1
    obtain ⟨st1, cells, hrun1, hext, hden⟩ := ih hregO indent
      ⟨st.heap.set top (m ++ [(k, Cell.val v)]), st.stack, none⟩
      top (m ++ [(k, Cell.val v)]) hwf0 rfl htop
      (by simp [List.getElem?_set_self hlt])
      (by
        intro k1 hk1
        simp only [List.map_append, List.map_cons, List.map_nil, List.mem_append,
          List.mem_singleton, not_or]
        refine ⟨hdis k1 (by rw [List.map_cons]; exact List.mem_cons_of_mem _ hk1), ?_⟩
        intro e
        exact hfresh (e ▸ hk1))
    refine ⟨st1, (k, Cell.val v) :: cells, ?_, ?_, ?_⟩
    · rw [hnorm, runLines_append, hrun]
      exact hrun1
    · have := @Extends.after F st ⟨st.heap.set top (m ++ [(k, Cell.val v)]), st.stack, none⟩
        st1 top _ rfl (by simp) (by
        intro a _ hat
        simp [List.getElem?_set_ne (Ne.symm hat)]) hext
      simpa using this
    · refine List.Forall₂.cons ⟨rfl, rfl⟩ ?_
      simpa using hden
  | block k O1 O hk _ hfresh _ ih1 ih =>
    intro hreg indent st top m hwf hct htop hm hdis
    obtain ⟨hregv, hregO⟩ := regularObj_cons hreg
    have hreg1 := regularVal_obj hregv
    have hlt := lt_of_getElem?_some hm
    have hkm : k ∉ m.map Prod.fst :=
      hdis k (by rw [List.map_cons]; exact List.mem_cons_self _ _)
    obtain ⟨b1, b2, b3⟩ := blockLine_facts indent hk
    -- the line that opens the block
    have hstep1 := stepLine_block L htop hm b2
    rw [b3, mapSet_new m k _ hkm] at hstep1
    have hwf1 := stepLine_some_WF L hwf hstep1
    -- the lines of the nested object
    obtain ⟨st2, cells1, hrun2, hext2, hden2⟩ := ih1 hreg1 (indent + 1) _ st.heap.length []
      hwf1 hct (by simp) (by
        simp only
        rw [List.getElem?_set_ne (by omega), List.getElem?_append_right (Nat.le_refl _)]
        simp) (by intro k1 _; simp)
    -- the closing brace
    have htop2 : st2.stack.getLast? = some st.heap.length := by
      rw [hext2.stack_eq]; simp
    have hlen2 : st2.stack.length > 1 := by
      rw [hext2.stack_eq]
      simp only [List.length_append, List.length_singleton]
      cases hs : st.stack with
      | nil => rw [hs] at htop; cases htop
      | cons a t => simp
    have hstep3 := stepLine_close L htop2
    rw [if_pos hlen2] at hstep3
    have hwf3 := stepLine_some_WF L hext2.wf hstep3
    have hstack3 : st2.stack.dropLast = st.stack := by
      rw [hext2.stack_eq]; simp
    have hm3 : st2.heap[top]? = some (m ++ [(k, Cell.ref st.heap.length)]) := by
      rw [hext2.frames top (by simp; omega) (by omega)]
      simp [List.getElem?_set_self (by simp; omega : top < (st.heap ++ [[]]).length)]
    -- the remaining entries
    obtain ⟨st4, cells, hrun4, hext4, hden4⟩ := ih hregO indent
      ⟨st2.heap, st2.stack.dropLast, st2.currentTable⟩ top
      (m ++ [(k, Cell.ref st.heap.length)])
      hwf3 hext2.table_none (by simp only; rw [hstack3]; exact htop) hm3
      (by
        intro k1 hk1
        simp only [List.map_append, List.map_cons, List.map_nil, List.mem_append,
          List.mem_singleton, not_or]
        refine ⟨hdis k1 (by rw [List.map_cons]; exact List.mem_cons_of_mem _ hk1), ?_⟩
        intro e
        exact hfresh (e ▸ hk1))
    have hlen12 : st.heap.length + 1 ≤ st2.heap.length := by
      have := hext2.len_le
      simpa using this
    refine ⟨st4, (k, Cell.ref st.heap.length) :: cells, ?_, ?_, ?_⟩
    · rw [encodeLines_obj, normLines_join_append, normLines_single, b1,
        normLines_join_append, normLines_join_append, normLines_single,
        normLines_padded indent (by decide) (by decide) ⟨by decide, by decide⟩]
      have hnested : normLines (join (if join (encodeLines L O1 (indent + 1)) "\n".toList ≠ []
          then [join (encodeLines L O1 (indent + 1)) "\n".toList] else []) "\n".toList) =
          normLines (join (encodeLines L O1 (indent + 1)) "\n".toList) := by
        split
        · rw [normLines_single]
        · rename_i h0
          rw [join_nil, not_not.1 h0]
      rw [hnested, List.singleton_append, runLines_cons, hstep1]
      simp only
      rw [runLines_append, hrun2]
      simp only
      rw [List.singleton_append, runLines_cons, hstep3]
      exact hrun4
    · refine ⟨hext4.stack_eq.trans hstack3, hext4.table_none, ?_, ?_, ?_, hext4.wf⟩
      · have := hext4.len_le
        simp only at this
        omega
      · intro a ha hat
        rw [hext4.frames a (by simp only; omega) hat,
          hext2.frames a (by simp; omega) (by omega)]
        simp only
        rw [List.getElem?_set_ne (Ne.symm hat), List.getElem?_append_left ha]
      · have := hext4.top_frame
        simpa using this
    · refine List.Forall₂.cons ⟨rfl, ?_⟩ (Forall₂_CellDenotes_mono (by
        simp only; omega) hden4)
      refine ⟨Nat.le_refl _, O1, rfl, ?_⟩
      intro fuel hfuel
      have hlen24 : st2.heap.length ≤ st4.heap.length := hext4.len_le
      have h2 : reify st2.heap fuel st.heap.length = some O1 := by
        refine @reify_frame F st2.heap (st.heap.length + 1) st.heap.length cells1 O1 ?_ ?_
          (by omega) fuel (by omega)
        · have := hext2.top_frame
          simpa using this
        · have := hden2
          simpa using this
      rw [← h2]
      apply reify_agree hext2.wf.refs_up _ fuel _ (Nat.le_refl _) (by omega)
      intro a ha1 ha2
      exact hext4.frames a ha2 (by omega)

/-- Encoding an object of the image of `Decode` whose tables are regular and decoding the
text gives the object back. -/
theorem decode_encode_img {F : Type} {L : FloatLib F} (hL : L.Lawful) {V : Obj F}
    (hV : ImgObj V) (hreg : regularObj V = true) :
    Decode L (.string (Encode L V)) = Outcome.ok V := by
  have henc : Encode L V = join (encodeLines L V 0) "\n".toList := by
    simp [Encode, encodeValue]
  obtain ⟨st1, cells, hrun, hext, hden⟩ := runEncoded hL hV hreg 0 initState 0 []
    initState_WF rfl rfl rfl (by intro k _; simp)
  show decodeText L _ = _
  rw [decodeText_eq, henc, hrun]
  have hstack : st1.stack = [0] := hext.stack_eq
  have hre : reify st1.heap st1.heap.length 0 = some V := by
    refine @reify_frame F st1.heap 1 0 cells V ?_ ?_ (by omega) st1.heap.length (by omega)
    · have := hext.top_frame
      simpa using this
    · exact hden
  simp only [finish, hstack, List.head?_cons, hre]

/-! ## Round trip: the image of `Decode` -/

theorem removeComments_pre (line : Str) : removeComments line <+: line := by
  rw [removeComments_def]
  split
  · exact List.take_prefix _ _
  · exact List.prefix_refl _

theorem removeComments_idem (line : Str) :
    removeComments (removeComments line) = removeComments line := by
  induction line with
  | nil => rw [removeComments_nil, removeComments_nil]
  | cons c t ih =>
    rw [removeComments_cons]
    by_cases hc : c = Char.ofNat 35 ∨ (c = Char.ofNat 47 ∧ t.head? = some (Char.ofNat 47))
    · rw [if_pos hc, removeComments_nil]
    · rw [if_neg hc, removeComments_cons, if_neg, ih]
      intro h
      apply hc
      rcases h with h | ⟨h1, h2⟩
      · exact Or.inl h
      · right
        refine ⟨h1, ?_⟩
        obtain ⟨u, hu⟩ := removeComments_pre t
        cases hr : removeComments t with
        | nil => rw [hr] at h2; cases h2
        | cons a r =>
          rw [hr] at h2 hu
          rw [← hu]
          simpa using h2

theorem normLine_isNormLine {raw : Str} (hnl : Char.ofNat 10 ∉ raw)
    (hne : normLine raw ≠ []) : isNormLine (normLine raw) := by
  refine ⟨hne, trimSpace_idem _, ?_⟩
  have h1 : isClean (removeComments raw) :=
    ⟨fun h => hnl ((removeComments_pre raw).subset h), removeComments_idem raw⟩
  exact isClean_sub (trimSpace_sub _) h1

theorem normLines_isNormLine (input : Str) : ∀ line ∈ normLines input, isNormLine line := by
  intro line hl
  unfold normLines at hl
  rw [List.mem_filter, List.mem_map] at hl
  obtain ⟨⟨raw, hraw, rfl⟩, hne⟩ := hl
  exact normLine_isNormLine (split_no_sep _ input raw hraw) (by simpa using hne)

theorem not_mem_sub {m s : Str} {c : Char} (h : m <:+: s) (hc : c ∉ s) : c ∉ m :=
  fun hm => hc (h.subset hm)

/-- A comma-free clean token is parsed to an element. -/
theorem parseValue_okElem {F : Type} (L : FloatLib F) (n : Nat) :
    ∀ w : Str, w.length ≤ n → isClean w → Char.ofNat 44 ∉ w → OkElem (parseValue L w) := by
  induction n with
  | zero =>
    intro w hw _ _
    have : w = [] := List.length_eq_zero.1 (by omega)
    subst this
    rw [parseValue_eq]
    have ht : trimSpace ([] : Str) = [] := by decide
    simp only [ht]
    rw [if_neg (by decide), if_neg (by decide)]
    have he : ∀ a b, enclosed ([] : Str) a b = false := by intro a b; rfl
    simp only [he, Bool.false_eq_true, if_false]
    split
    · exact OkElem.num _
    · exact OkElem.str _ ⟨by simp, removeComments_nil⟩ (by simp)
  | succ n ih =>
    intro w hw hclean hcomma
    have hct := isClean_sub (trimSpace_sub w) hclean
    have hcm := not_mem_sub (trimSpace_sub w) hcomma
    rw [parseValue_eq]
    simp only
    split
    · exact OkElem.bool _
    · split
      · exact OkElem.bool _
      · split
        · exact OkElem.str _ (isClean_sub (inner_sub _) hct)
            (not_mem_sub (inner_sub _) hcm)
        · split
          · exact OkElem.num _
          · split
            · rename_i henc
              have hcc := not_mem_sub (trimSpace_sub _)
                (not_mem_sub (inner_sub _) hcm)
              split
              · exact OkElem.arrNil
              · rw [split_no_sep_self hcc]
                simp only [List.map_cons, List.map_nil]
                apply OkElem.arrOne
                rw [parseValue_trimSpace]
                apply ih
                · have := part_shorter henc (by
                    rw [split_no_sep_self hcc]; exact List.mem_singleton_self _)
                  rw [trimSpace_idem] at this
                  omega
                · exact isClean_sub (trimSpace_sub _) (isClean_sub (inner_sub _) hct)
                · exact hcc
            · exact OkElem.str _ hct hcm

/-- A clean token is parsed to the value of a key-value line. -/
theorem parseValue_okScalar {F : Type} (L : FloatLib F) {w : Str} (hclean : isClean w) :
    OkScalar (parseValue L w) := by
  have hct := isClean_sub (trimSpace_sub w) hclean
  rw [parseValue_eq]
  simp only
  split
  · exact OkScalar.bool _
  · split
    · exact OkScalar.bool _
    · split
      · exact OkScalar.str _ (isClean_sub (inner_sub _) hct)
      · split
        · exact OkScalar.num _
        · split
          · split
            · exact OkScalar.arr _ (by intro e he; cases he)
            · apply OkScalar.arr
              intro e he
              obtain ⟨p, hp, rfl⟩ := List.mem_map.1 he
              have hpi : p <:+: trimSpace (inner (trimSpace w)) := split_part_sub hp
              have hpc : isClean p :=
                isClean_sub hpi (isClean_sub (trimSpace_sub _)
                  (isClean_sub (inner_sub _) hct))
              exact parseValue_okElem L _ _ (Nat.le_refl _)
                (isClean_sub (trimSpace_sub p) hpc)
                (not_mem_sub (trimSpace_sub p) (split_no_sep _ _ p hp))
          · exact OkScalar.str _ hct

theorem tableMatch_groups {line key cs : Str} (h : tableMatch line = some (key, cs)) :
    isIdent key ∧ cs <:+: line ∧ Char.ofNat 41 ∉ cs := by
  unfold tableMatch at h
  simp only at h
  split at h
  · cases h
  · rename_i hkey
    split at h
    · cases h
    · rename_i c afterColon hdrop
      split at h
      · cases h
      · split at h
        · cases h
        · split at h
          · cases h
          · split at h
            · cases h
            · split at h
              · injection h with h
                injection h with h1 h2
                refine ⟨⟨by rw [← h1]; exact hkey, ?_⟩, ?_, ?_⟩
                · intro x hx
                  rw [← h1] at hx
                  exact List.mem_takeWhile_imp hx
                · have a1 : (c :: afterColon) <:+ line := by
                    rw [← hdrop]; exact List.dropWhile_suffix _
                  have a2 : afterColon <:+ line := (List.suffix_cons _ _).trans a1
                  have a3 : afterColon.dropWhile isReSpace <:+ line :=
                    (List.dropWhile_suffix _).trans a2
                  have a4 : (afterColon.dropWhile isReSpace).drop 6 <:+ line :=
                    (List.drop_suffix _ _).trans a3
                  rw [← h2]
                  exact (List.takeWhile_prefix _).isInfix.trans a4.isInfix
                · intro hx
                  rw [← h2] at hx
                  have := List.mem_takeWhile_imp hx
                  simp at this
              · cases h

theorem kvMatch_groups {line key val : Str} (h : kvMatch line = some (key, val)) :
    isIdent key ∧ val <:+: line := by
  unfold kvMatch at h
  simp only at h
  split at h
  · cases h
  · rename_i hkey
    split at h
    · cases h
    · rename_i c afterColon hdrop
      have a1 : (c :: afterColon) <:+ line := by
        rw [← hdrop]; exact List.dropWhile_suffix _
      have a2 : afterColon <:+ line := (List.suffix_cons _ _).trans a1
      have hid : isIdent (List.takeWhile isWordChar line) :=
        ⟨hkey, fun x hx => List.mem_takeWhile_imp hx⟩
      split at h
      · cases h
      · split at h
        · split at h
          · cases h
          · injection h with h
            injection h with h1 h2
            rw [← h1, ← h2]
            exact ⟨hid, (List.dropWhile_suffix _).isInfix.trans a2.isInfix⟩
        · split at h
          · cases h
          · rename_i w hw
            split at h
            · cases h
            · injection h with h
              injection h with h1 h2
              rw [← h1, ← h2]
              refine ⟨hid, ?_⟩
              have hmem : w ∈ afterColon.takeWhile isReSpace := List.mem_of_getLast?_eq_some hw
              have hmem2 : w ∈ afterColon := (List.takeWhile_prefix _).subset hmem
              obtain ⟨s, t, hst⟩ := List.append_of_mem hmem2
              have : [w] <:+: afterColon := ⟨s, t, by rw [hst]; simp⟩
              exact this.trans a2.isInfix

theorem mapSet_keys_nodup {α : Type} {m : List (Str × α)} (k : Str) (v : α)
    (h : (m.map Prod.fst).Nodup) : ((mapSet m k v).map Prod.fst).Nodup := by
  induction m with
  | nil => simp [mapSet]
  | cons x t ih =>
    obtain ⟨k0, v0⟩ := x
    rw [List.map_cons, List.nodup_cons] at h
    simp only [mapSet]
    split
    · rw [List.map_cons, List.nodup_cons]
      exact h
    · rename_i hk
      rw [List.map_cons, List.nodup_cons]
      refine ⟨?_, ih h.2⟩
      intro hmem
      obtain ⟨e, he, hek⟩ := List.mem_map.1 hmem
      rcases mem_mapSet he with he | he
      · exact h.1 (List.mem_map.2 ⟨e, he, hek⟩)
      · rw [he] at hek
        exact hk hek.symm

theorem FrameOk_mapSet {F : Type} {m : Frame F} (hm : FrameOk m) {k : Str} {c : Cell F}
    (hc : CellOk (k, c)) : FrameOk (mapSet m k c) := by
  refine ⟨mapSet_keys_nodup k c hm.1, ?_⟩
  intro e he
  rcases mem_mapSet he with he | he
  · exact hm.2 e he
  · rw [he]; exact hc

theorem frames_heapSet {F : Type} {heap heap1 : List (Frame F)} {addr : Nat} {key : Str}
    {cell : Cell F} (h : heapSet heap addr key cell = some heap1)
    (hfr : ∀ (a : Nat) (m : Frame F), heap[a]? = some m → FrameOk m)
    (hc : CellOk (key, cell)) :
    ∀ (a : Nat) (m : Frame F), heap1[a]? = some m → FrameOk m := by
  unfold heapSet at h
  split at h
  · cases h
  · rename_i m0 hm0
    injection h with h
    subst h
    intro a m hm
    rw [List.getElem?_set] at hm
    split at hm
    · split at hm
      · injection hm with hm
        rw [← hm]
        exact FrameOk_mapSet (hfr _ _ hm0) hc
      · cases hm
    · exact hfr _ _ hm

theorem isRow_mapSet {F : Type} {row : Obj F} (hrow : isRow row) {k : Str} {v : Value F}
    (hk : isColumn k) (hv : OkElem v) : isRow (mapSet row k v) := by
  refine ⟨mapSet_keys_nodup k v hrow.1, ?_⟩
  intro e he
  rcases mem_mapSet he with he | he
  · exact hrow.2 e he
  · rw [he]; exact ⟨hk, hv⟩

theorem rowLoop_isRow {F : Type} (L : FloatLib F) {columns : List Str}
    (hcols : ∀ c ∈ columns, isColumn c) :
    ∀ (parts : List Str) (i : Nat) (row : Obj F),
      (∀ p ∈ parts, isClean p ∧ Char.ofNat 44 ∉ p) → isRow row →
      isRow (rowLoop L columns parts i row) := by
  intro parts
  induction parts with
  | nil => intro i row _ hrow; exact hrow
  | cons p ps ih =>
    intro i row hp hrow
    simp only [rowLoop]
    apply ih
    · intro q hq; exact hp q (List.mem_cons_of_mem _ hq)
    · split
      · rename_i hi
        apply isRow_mapSet hrow
        · apply hcols
          rw [List.getD_eq_getElem _ _ hi]
          exact List.getElem_mem _
        · obtain ⟨h1, h2⟩ := hp p (List.mem_cons_self _ _)
          exact parseValue_okElem L _ _ (Nat.le_refl _)
            (isClean_sub (trimSpace_sub p) h1) (not_mem_sub (trimSpace_sub p) h2)
      · exact hrow

theorem tableRow_isRow {F : Type} (L : FloatLib F) {columns : List Str}
    (hcols : ∀ c ∈ columns, isColumn c) {line : Str} (hline : isClean line) :
    isRow (tableRow L columns line) := by
  unfold tableRow
  apply rowLoop_isRow L hcols
  · intro p hp
    exact ⟨isClean_sub (split_part_sub hp) hline, split_no_sep _ _ p hp⟩
  · exact ⟨List.nodup_nil, fun e he => by cases he⟩

theorem frames_push {F : Type} {heap : List (Frame F)}
    (hfr : ∀ (a : Nat) (m : Frame F), heap[a]? = some m → FrameOk m) :
    ∀ (a : Nat) (m : Frame F), (heap ++ [[]])[a]? = some m → FrameOk m := by
  intro a m hm
  have hmem : m ∈ heap ++ [[]] := (List.mem_iff_getElem?.2 ⟨_, hm⟩)
  rw [List.mem_append] at hmem
  rcases hmem with hmem | hmem
  · obtain ⟨i, hi⟩ := List.mem_iff_getElem?.1 hmem
    exact hfr i m hi
  · rw [List.mem_singleton.1 hmem]
    exact ⟨List.nodup_nil, fun e he => by cases he⟩

/-- One iteration of the loop of `Decode` on a normalised line keeps the frames and the
open table well-formed. -/
theorem stepLine_Ok {F : Type} (L : FloatLib F) {st st1 : State F} (hok : st.Ok)
    {line : Str} (hline : isNormLine line) (h : stepLine L st line = some st1) : st1.Ok := by
  obtain ⟨hne, htrim, hclean⟩ := hline
  unfold stepLine at h
  split at h
  · cases h
  · rename_i top htop
    split at h
    · simp only at h
      split at h
      · cases h
      · rename_i heap hheap
        injection h with h
        subst h
        refine ⟨?_, hok.table⟩
        apply frames_heapSet hheap (frames_push hok.frames)
        exact ⟨trimSpace_idem _,
          isClean_sub ((trimSpace_sub _).trans (List.dropLast_prefix _).isInfix) hclean⟩
    · split at h
      · split at h
        · injection h with h
          subst h
          exact ⟨hok.frames, hok.table⟩
        · injection h with h
          subst h
          exact hok
      · split at h
        · rename_i key columnsStr hmatch
          obtain ⟨hkey, hinf, hparen⟩ := tableMatch_groups hmatch
          simp only at h
          split at h
          · cases h
          · rename_i heap hheap
            injection h with h
            subst h
            refine ⟨?_, ?_⟩
            · apply frames_heapSet hheap hok.frames
              exact ⟨hkey, OkVal.table _ (fun row hrow => by cases hrow)⟩
            · intro ct hct
              injection hct with hct
              subst hct
              refine ⟨hkey, ?_, fun row hrow => by cases hrow⟩
              intro c hc
              obtain ⟨p, hp, rfl⟩ := List.mem_map.1 hc
              have hpi : p <:+: columnsStr := split_part_sub hp
              exact ⟨trimSpace_idem _,
                not_mem_sub (trimSpace_sub p) (split_no_sep _ _ p hp),
                not_mem_sub ((trimSpace_sub p).trans hpi) hparen,
                isClean_sub ((trimSpace_sub p).trans (hpi.trans hinf)) hclean⟩
        · split at h
          · split at h
            · rename_i ct hct
              obtain ⟨hk, hcols, hrows⟩ := hok.table ct hct
              split at h
              · cases h
              · rename_i heap hheap
                injection h with h
                subst h
                refine ⟨?_, fun ct1 h1 => by cases h1⟩
                apply frames_heapSet hheap hok.frames
                exact ⟨hk, OkVal.table _ hrows⟩
            · injection h with h
              subst h
              exact ⟨hok.frames, fun ct1 h1 => by cases h1⟩
          · split at h
            · rename_i ct hct
              obtain ⟨hk, hcols, hrows⟩ := hok.table ct hct
              have hrows1 : ∀ row ∈ ct.table ++ [tableRow L ct.columns line], isRow row := by
                intro row hrow
                rw [List.mem_append] at hrow
                rcases hrow with hrow | hrow
                · exact hrows row hrow
                · rw [List.mem_singleton.1 hrow]
                  exact tableRow_isRow L hcols hclean
              simp only at h
              split at h
              · cases h
              · rename_i heap hheap
                injection h with h
                subst h
                refine ⟨?_, ?_⟩
                · apply frames_heapSet hheap hok.frames
                  exact ⟨hk, OkVal.table _ hrows1⟩
                · intro ct1 h1
                  injection h1 with h1
                  subst h1
                  exact ⟨hk, hcols, hrows1⟩
            · split at h
              · rename_i key val hmatch
                obtain ⟨hkey, hinf⟩ := kvMatch_groups hmatch
                split at h
                · cases h
                · rename_i heap hheap
                  injection h with h
                  subst h
                  refine ⟨?_, hok.table⟩
                  apply frames_heapSet hheap hok.frames
                  exact ⟨hkey, OkVal.scalar _ (parseValue_okScalar L
                    (isClean_sub ((trimSpace_sub _).trans hinf) hclean))⟩
              · injection h with h
                subst h
                exact hok

theorem runLines_Ok {F : Type} (L : FloatLib F) :
    ∀ (lines : List Str) (st st1 : State F), st.Ok → (∀ line ∈ lines, isNormLine line) →
      runLines L st lines = some st1 → st1.Ok := by
  intro lines
  induction lines with
  | nil =>
    intro st st1 hok _ h
    simp only [runLines] at h
    injection h with h
    rw [← h]; exact hok
  | cons x xs ih =>
    intro st st1 hok hl h
    rw [runLines_cons] at h
    cases hs : stepLine L st x with
    | none => rw [hs] at h; simp at h
    | some st2 =>
      rw [hs] at h
      exact ih st2 st1 (stepLine_Ok L hok (hl x (List.mem_cons_self _ _)) hs)
        (fun y hy => hl y (List.mem_cons_of_mem _ hy)) h

theorem initState_Ok {F : Type} : (initState : State F).Ok := by
  refine ⟨?_, fun ct h => by cases h⟩
  intro a m hm
  have hmem : m ∈ (initState : State F).heap := (List.mem_iff_getElem?.2 ⟨_, hm⟩)
  have : m = [] := by simpa [initState] using hmem
  rw [this]
  exact ⟨List.nodup_nil, fun e he => by cases he⟩

/-- The tree of a well-formed heap is an object of the image of `Decode`. -/
theorem reify_ImgObj {F : Type} {heap : List (Frame F)}
    (hfr : ∀ (a : Nat) (m : Frame F), heap[a]? = some m → FrameOk m) :
    ∀ (fuel a : Nat) (O : Obj F), reify heap fuel a = some O → ImgObj O := by
  intro fuel
  induction fuel with
  | zero => intro a O h; simp [reify] at h
  | succ fuel ih =>
    intro a O h
    simp only [reify] at h
    split at h
    · cases h
    · rename_i m hm
      have hF := hfr a m hm
      have key : ∀ (m : Frame F) (O : Obj F), (m.map Prod.fst).Nodup → (∀ e ∈ m, CellOk e) →
          mapOpt (fun kc : Str × Cell F =>
            match kc.2 with
            | .val v => some (kc.1, v)
            | .ref r =>
              match reify heap fuel r with
              | none => none
              | some o => some (kc.1, Value.obj o)) m = some O →
          ImgObj O ∧ O.map Prod.fst = m.map Prod.fst := by
        intro m
        induction m with
        | nil =>
          intro O _ _ h
          simp only [mapOpt] at h
          injection h with h
          rw [← h]
          exact ⟨ImgObj.nil, rfl⟩
        | cons x t iht =>
          intro O hnd hcells h
          obtain ⟨k, c⟩ := x
          rw [List.map_cons, List.nodup_cons] at hnd
          have hc := hcells (k, c) (List.mem_cons_self _ _)
          simp only [mapOpt] at h
          cases c with
          | val v =>
            simp only at h
            split at h
            · cases h
            · rename_i bs hbs
              injection h with h
              obtain ⟨h1, h2⟩ := iht bs hnd.2 (fun e he => hcells e (List.mem_cons_of_mem _ he)) hbs
              rw [← h]
              refine ⟨ImgObj.val k v bs hc.1 hc.2 (by rw [h2]; exact hnd.1) h1, ?_⟩
              rw [List.map_cons, List.map_cons, h2]
          | ref r =>
            simp only at h
            split at h
            · cases h
            · rename_i b hb
              split at hb
              · cases hb
              · rename_i o ho
                injection hb with hb
                split at h
                · cases h
                · rename_i bs hbs
                  injection h with h
                  obtain ⟨h1, h2⟩ :=
                    iht bs hnd.2 (fun e he => hcells e (List.mem_cons_of_mem _ he)) hbs
                  rw [← h, ← hb]
                  refine ⟨ImgObj.block k o bs hc (ih r o ho) (by rw [h2]; exact hnd.1) h1, ?_⟩
                  rw [List.map_cons, List.map_cons, h2]
      exact (key m O hF.1 hF.2 h).1

/-- Every object `Decode` returns for a text is in the image described by `ImgObj`. -/
theorem decode_ImgObj {F : Type} (L : FloatLib F) {t : Str} {V : Obj F}
    (h : Decode L (.string t) = Outcome.ok V) : ImgObj V := by
  change decodeText L t = Outcome.ok V at h
  rw [decodeText_eq] at h
  cases hrun : runLines L initState (normLines t) with
  | none => rw [hrun] at h; simp [finish] at h
  | some st =>
    rw [hrun] at h
    have hok := runLines_Ok L _ _ _ initState_Ok (normLines_isNormLine t) hrun
    simp only [finish] at h
    split at h
    · cases h
    · split at h
      · cases h
      · rename_i root _ obj hobj
        injection h with h
        rw [← h]
        exact reify_ImgObj hok.frames _ _ _ hobj

theorem decode_ok_text {F : Type} (L : FloatLib F) {input : Input} {V : Obj F}
    (h : Decode L input = Outcome.ok V) : ∃ t : Str, Decode L (.string t) = Outcome.ok V := by
  cases input with
  | string v => exact ⟨v, h⟩
  | bytes v => exact ⟨v, h⟩
  | other typeName => simp [Decode] at h

/-! ## C1: the round trip -/

/-- C1 (amended): for every input that `Decode` accepts, with `V` the object it returns,
if every table inside `V` is regular (it has a first row, the column list of the first row
is neither empty nor the single empty name, and every row has the columns of the first
row) then
`Decode (Encode V)` returns `V` again: same keys, same scalars, same tables with the same
rows.  The float library is any one whose printed numbers are read back unchanged. -/
theorem C1_round_trip {F : Type} (L : FloatLib F) (hL : L.Lawful) (input : Input)
    (V : Obj F) (hV : Decode L input = Outcome.ok V) (hreg : regularObj V = true) :
    Decode L (.string (Encode L V)) = Outcome.ok V := by
  obtain ⟨t, ht⟩ := decode_ok_text L hV
  exact decode_encode_img hL (decode_ImgObj L ht) hreg

set_option maxRecDepth 100000 in
/-- The round trip on the "complex structure" document of `TestRoundTrip`. -/
theorem C1_round_trip_witness :
    sampleLib.Lawful ∧
    Decode sampleLib (.string ("name: \"John\"\nage: 30\ntags: [\"developer\", \"go\"]\n" ++
        "address \x7b\n  street: \"123 Main St\"\n  city: \"New York\"\n\x7d\n" ++
        "users: table(name, age) [\n  \"Alice\", 25\n  \"Bob\", 30\n]").toList) =
      Outcome.ok [("name".toList, .str "John".toList), ("age".toList, .num 30),
        ("tags".toList, .arr [.str "developer".toList, .str "go".toList]),
        ("address".toList, .obj [("street".toList, .str "123 Main St".toList),
          ("city".toList, .str "New York".toList)]),
        ("users".toList, .table [[("name".toList, .str "Alice".toList), ("age".toList, .num 25)],
          [("name".toList, .str "Bob".toList), ("age".toList, .num 30)]])] ∧
    @regularObj Nat
      [("name".toList, .str "John".toList), ("age".toList, .num 30),
        ("tags".toList, .arr [.str "developer".toList, .str "go".toList]),
        ("address".toList, .obj [("street".toList, .str "123 Main St".toList),
          ("city".toList, .str "New York".toList)]),
        ("users".toList, .table [[("name".toList, .str "Alice".toList), ("age".toList, .num 25)],
          [("name".toList, .str "Bob".toList), ("age".toList, .num 30)]])] = true ∧
    Decode sampleLib (.string (Encode sampleLib
      [("name".toList, .str "John".toList), ("age".toList, .num 30),
        ("tags".toList, .arr [.str "developer".toList, .str "go".toList]),
        ("address".toList, .obj [("street".toList, .str "123 Main St".toList),
          ("city".toList, .str "New York".toList)]),
        ("users".toList, .table [[("name".toList, .str "Alice".toList), ("age".toList, .num 25)],
          [("name".toList, .str "Bob".toList), ("age".toList, .num 30)]])])) =
      Outcome.ok [("name".toList, .str "John".toList), ("age".toList, .num 30),
        ("tags".toList, .arr [.str "developer".toList, .str "go".toList]),
        ("address".toList, .obj [("street".toList, .str "123 Main St".toList),
          ("city".toList, .str "New York".toList)]),
        ("users".toList, .table [[("name".toList, .str "Alice".toList), ("age".toList, .num 25)],
          [("name".toList, .str "Bob".toList), ("age".toList, .num 30)]])] :=
  ⟨sampleLib_lawful, by rfl, by rfl, C1_round_trip sampleLib sampleLib_lawful
    (.string ("name: \"John\"\nage: 30\ntags: [\"developer\", \"go\"]\n" ++
        "address \x7b\n  street: \"123 Main St\"\n  city: \"New York\"\n\x7d\n" ++
        "users: table(name, age) [\n  \"Alice\", 25\n  \"Bob\", 30\n]").toList) _
    (by rfl) (by rfl)⟩

/-- Counterexample to C1 as stated.  In the first text the first row of the table has
one field and the second row two: `Encode` prints the columns of the first row only, so
the second row comes back without its key `b`.  In the second text the table has no row:
`Encode` prints `t: table() [`, which is not a table-open line, and the table comes back
as the String `table() [`.  In the third text the only column name is empty and the
same line is printed. -/
theorem C1_round_trip_counterexample :
    (Decode sampleLib (.string "t: table(a, b) [\n1\n1, 2\n]".toList) =
        Outcome.ok [("t".toList, .table [[("a".toList, .num 1)],
          [("a".toList, .num 1), ("b".toList, .num 2)]])] ∧
      Encode sampleLib [("t".toList, .table [[("a".toList, .num 1)],
          [("a".toList, .num 1), ("b".toList, .num 2)]])] =
        "t: table(a) [\n  1\n  1\n]".toList ∧
      Decode sampleLib (.string (Encode sampleLib [("t".toList, .table [[("a".toList, .num 1)],
          [("a".toList, .num 1), ("b".toList, .num 2)]])])) =
        Outcome.ok [("t".toList, .table [[("a".toList, .num 1)], [("a".toList, .num 1)]])]) ∧
    (Decode sampleLib (.string "t: table(a) [\n]".toList) =
        Outcome.ok [("t".toList, .table [])] ∧
      Encode sampleLib [("t".toList, .table [])] = "t: table() [\n]".toList ∧
      Decode sampleLib (.string (Encode sampleLib [("t".toList, .table [])])) =
        Outcome.ok [("t".toList, .str "table() [".toList)]) ∧
    (Decode sampleLib (.string "t: table( ) [\n1\n]".toList) =
        Outcome.ok [("t".toList, .table [[([], .num 1)]])] ∧
      Encode sampleLib [("t".toList, .table [[([], .num 1)]])] =
        "t: table() [\n  1\n]".toList ∧
      Decode sampleLib (.string (Encode sampleLib [("t".toList, .table [[([], .num 1)]])])) =
        Outcome.ok [("t".toList, .str "table() [".toList)]) := by
  refine ⟨⟨by rfl, by rfl, by rfl⟩, ⟨by rfl, by rfl, by rfl⟩, ⟨by rfl, by rfl, by rfl⟩⟩

/-! ## C11, C12: arrays -/

/-- The array branch of `parseValue` on a bracketed text, for a library that rejects
bracketed numbers. -/
theorem parseValue_bracketed {F : Type} {L : FloatLib F} (hL : L.RejectsBracket) (J : Str) :
    parseValue L (Char.ofNat 91 :: (J ++ [Char.ofNat 93])) =
      if trimSpace J = [] then .arr []
      else .arr ((split (trimSpace J) (Char.ofNat 44)).map
        (fun part => parseValue L (trimSpace part))) := by
  have hlast : (Char.ofNat 91 :: (J ++ [Char.ofNat 93])).getLast? = some (Char.ofNat 93) := by
    rw [← List.cons_append, List.getLast?_concat]
  have htrim : trimSpace (Char.ofNat 91 :: (J ++ [Char.ofNat 93])) =
      Char.ofNat 91 :: (J ++ [Char.ofNat 93]) := by
    apply trimSpace_eq_self
    · intro a ha
      simp only [List.head?_cons, Option.some.injEq] at ha
      rw [← ha]; decide
    · intro b hb
      rw [hlast] at hb
      injection hb with hb
      rw [← hb]; decide
  have h1 : Char.ofNat 91 :: (J ++ [Char.ofNat 93]) ≠ "true".toList := by
    intro h
    have := congrArg List.head? h
    simp only [List.head?_cons] at this
    revert this; decide
  have h2 : Char.ofNat 91 :: (J ++ [Char.ofNat 93]) ≠ "false".toList := by
    intro h
    have := congrArg List.head? h
    simp only [List.head?_cons] at this
    revert this; decide
  have h3 : enclosed (Char.ofNat 91 :: (J ++ [Char.ofNat 93]))
      (Char.ofNat 34) (Char.ofNat 34) = false := by
    have hne : Char.ofNat 91 ≠ Char.ofNat 34 := by decide
    simp [enclosed, hne]
  have h4 : enclosed (Char.ofNat 91 :: (J ++ [Char.ofNat 93]))
      (Char.ofNat 91) (Char.ofNat 93) = true := by
    unfold enclosed
    rw [hlast]
    simp
  rw [parseValue_eq]
  simp only [htrim, if_neg h1, if_neg h2, h3, h4, Bool.false_eq_true, if_false, if_true,
    hL _ (List.head?_cons), inner_quoted]

theorem trimSpace_nil_all {s : Str} (h : trimSpace s = []) : ∀ c ∈ s, isSpace c = true := by
  intro c hc
  by_contra hns
  have hns : isSpace c = false := by simpa using hns
  obtain ⟨a, b, hab⟩ := List.append_of_mem hc
  have h1 : trimLeft s ≠ [] := by
    unfold trimLeft
    intro hd
    rw [List.dropWhile_eq_nil_iff] at hd
    have := hd c hc
    rw [hns] at this
    cases this
  have h2 : ∃ d ∈ trimLeft s, isSpace d = false := by
    unfold trimLeft
    have hsplit := List.takeWhile_append_dropWhile isSpace s
    have hmem : c ∈ List.takeWhile isSpace s ++ List.dropWhile isSpace s := by
      rw [hsplit]; exact hc
    rw [List.mem_append] at hmem
    rcases hmem with hmem | hmem
    · have := List.mem_takeWhile_imp hmem
      rw [hns] at this
      cases this
    · exact ⟨c, hmem, hns⟩
  obtain ⟨d, hd, hds⟩ := h2
  unfold trimSpace trimRight at h
  rw [List.rdropWhile_eq_nil_iff] at h
  have := h d hd
  rw [hds] at this
  cases this

theorem join_comma_space_blank {toks : List Str} (hne : toks ≠ [])
    (h : trimSpace (join toks ", ".toList) = []) :
    ∃ t, toks = [t] ∧ ∀ c ∈ t, isSpace c = true := by
  have hall := trimSpace_nil_all h
  cases toks with
  | nil => exact absurd rfl hne
  | cons a r =>
    cases r with
    | nil =>
      rw [join_singleton] at hall
      exact ⟨a, rfl, hall⟩
    | cons b r =>
      exfalso
      rw [join_cons_cons] at hall
      have hmem : Char.ofNat 44 ∈ a ++ (", ".toList ++ join (b :: r) ", ".toList) := by
        have hs : ", ".toList = [Char.ofNat 44, Char.ofNat 32] := rfl
        rw [hs]
        exact List.mem_append_right _ (List.mem_append_left _ (List.mem_cons_self _ _))
      have := hall _ hmem
      revert this; decide

/-- C11: for a library that rejects bracketed numbers, `parseValue` of `[t1, ..., tn]`,
with `n ≥ 1` comma-free tokens that are not a single token of white space only, is the
Array of `parseValue t1`, ..., `parseValue tn` in this order; and `parseValue` of
brackets around white space only (around nothing for `[]`) is the empty Array. -/
theorem C11_array_decode {F : Type} (L : FloatLib F) (hL : L.RejectsBracket) :
    (∀ toks : List Str, toks ≠ [] → (∀ t ∈ toks, Char.ofNat 44 ∉ t) →
      (¬ ∃ t, toks = [t] ∧ ∀ c ∈ t, isSpace c = true) →
      parseValue L (arrayText toks) = .arr (toks.map (parseValue L))) ∧
    (∀ ws : Str, (∀ c ∈ ws, isSpace c = true) →
      parseValue L (Char.ofNat 91 :: (ws ++ [Char.ofNat 93])) = .arr []) := by
  constructor
  · intro toks hne hnc hblank
    unfold arrayText
    rw [parseValue_bracketed hL, if_neg (fun h => hblank (join_comma_space_blank hne h))]
    congr 1
    have e1 : (split (trimSpace (join toks ", ".toList)) (Char.ofNat 44)).map
        (fun part => parseValue L (trimSpace part)) =
        ((split (trimSpace (join toks ", ".toList)) (Char.ofNat 44)).map trimSpace).map
          (parseValue L) := by
      rw [List.map_map]; rfl
    rw [e1, map_trimSpace_split_trimSpace (by decide), split_join_comma_space hne hnc,
      List.map_map]
    apply List.map_congr_left
    intro x _
    exact parseValue_trimSpace L x
  · intro ws hws
    rw [parseValue_bracketed hL, if_pos (trimSpace_spaces hws)]

/-- The arrays of `TestDecodeArrays`: `["go", "programming", "test"]` gives the three
Strings in this order, `[]` the empty Array. -/
theorem C11_array_decode_witness :
    sampleLib.RejectsBracket ∧
    parseValue sampleLib "[\"go\", \"programming\", \"test\"]".toList =
      .arr [.str "go".toList, .str "programming".toList, .str "test".toList] ∧
    parseValue sampleLib "[]".toList = .arr [] :=
  ⟨sampleLib_lawful.parse_bracket,
    (C11_array_decode sampleLib sampleLib_lawful.parse_bracket).1
      ["\"go\"".toList, "\"programming\"".toList, "\"test\"".toList]
      (by decide) (by decide) (by rintro ⟨t, h, _⟩; simp at h),
    (C11_array_decode sampleLib sampleLib_lawful.parse_bracket).2 [] (by decide)⟩

/-- A comma-free token is parsed to a value without branching arrays. -/
theorem parseValue_unbranched {F : Type} (L : FloatLib F) (n : Nat) :
    ∀ w : Str, w.length ≤ n → Char.ofNat 44 ∉ w → Unbranched (parseValue L w) := by
  induction n with
  | zero =>
    intro w hw _
    have : w = [] := List.length_eq_zero.1 (by omega)
    subst this
    rw [parseValue_eq]
    have ht : trimSpace ([] : Str) = [] := by decide
    simp only [ht]
    rw [if_neg (by decide), if_neg (by decide)]
    have he : ∀ a b, enclosed ([] : Str) a b = false := by intro a b; rfl
    simp only [he, Bool.false_eq_true, if_false]
    split
    · exact Unbranched.num _
    · exact Unbranched.str _
  | succ n ih =>
    intro w hw hcomma
    have hcm := not_mem_sub (trimSpace_sub w) hcomma
    rw [parseValue_eq]
    simp only
    split
    · exact Unbranched.bool _
    · split
      · exact Unbranched.bool _
      · split
        · exact Unbranched.str _
        · split
          · exact Unbranched.num _
          · split
            · rename_i henc
              have hcc := not_mem_sub (trimSpace_sub _) (not_mem_sub (inner_sub _) hcm)
              split
              · exact Unbranched.arrNil
              · rw [split_no_sep_self hcc]
                simp only [List.map_cons, List.map_nil]
                apply Unbranched.arrOne
                rw [parseValue_trimSpace]
                apply ih
                · have := part_shorter henc (by
                    rw [split_no_sep_self hcc]; exact List.mem_singleton_self _)
                  rw [trimSpace_idem] at this
                  omega
                · exact hcc
            · exact Unbranched.str _

/-- C12 (amended): when `parseValue` returns an Array, each element is a Bool, a Number,
a String, the empty Array, or an Array of one element that is again of this kind; no
element is an Array of two or more elements, at any depth. -/
theorem C12_array_elements {F : Type} (L : FloatLib F) (t : Str) (xs : List (Value F))
    (h : parseValue L t = .arr xs) : ∀ e ∈ xs, Unbranched e := by
  rw [parseValue_eq] at h
  simp only at h
  split at h
  · cases h
  · split at h
    · cases h
    · split at h
      · cases h
      · split at h
        · cases h
        · split at h
          · split at h
            · injection h with h
              rw [← h]
              intro e he
              cases he
            · injection h with h
              rw [← h]
              intro e he
              obtain ⟨p, hp, rfl⟩ := List.mem_map.1 he
              exact parseValue_unbranched L _ _ (Nat.le_refl _)
                (not_mem_sub (trimSpace_sub p) (split_no_sep _ _ p hp))
          · cases h

/-- The text `[[1, 2], [3, 4]]` is split at every comma: its four elements are the
Strings `[1`, `2]`, `[3`, `4]`. -/
theorem C12_array_elements_witness :
    parseValue sampleLib "[[1, 2], [3, 4]]".toList =
      .arr [.str "[1".toList, .str "2]".toList, .str "[3".toList, .str "4]".toList] ∧
    ∀ e ∈ [Value.str "[1".toList, .str "2]".toList, .str "[3".toList, .str "4]".toList],
      Unbranched (F := Nat) e :=
  ⟨by rfl, C12_array_elements sampleLib "[[1, 2], [3, 4]]".toList _ (by rfl)⟩

/-- Counterexample to C12 as stated: the element `[1]` of `[[1], 2]` holds no comma, so
it reaches `parseValue` whole and is returned as the Array `[1]`, not as the String `[1]`;
likewise `[[]]` is the Array holding the empty Array. -/
theorem C12_array_elements_counterexample :
    parseValue sampleLib "[[1], 2]".toList = .arr [.arr [.num 1], .num 2] ∧
    parseValue sampleLib "[[]]".toList = .arr [.arr []] ∧
    parseValue sampleLib "[[1], 2]".toList ≠ .arr [.str "[1]".toList, .num 2] := by
  refine ⟨by rfl, by rfl, ?_⟩
  have h : parseValue sampleLib "[[1], 2]".toList = .arr [.arr [.num 1], .num 2] := by rfl
  rw [h]
  intro hc
  injection hc with hc
  injection hc with hc _
  cases hc

/-! ## C18, C19: `Encode` of the empty object, of scalars and of arrays -/

/-- Among the lines `encodeValue` appends for an entry, one is not empty. -/
theorem encodeLines_cons_line {F : Type} (L : FloatLib F) (k : Str) (v : Value F)
    (rest : Obj F) (indent : Nat) :
    ∃ l ∈ encodeLines L ((k, v) :: rest) indent, l ≠ [] := by
  have key : ∀ w : Value F,
      padOf indent ++ k ++ ": ".toList ++ serializeValue L w ≠ [] := by
    intro w h
    have := congrArg List.length h
    simp at this
  cases v with
  | null => exact ⟨_, by simp [encodeLines]; exact Or.inl rfl, key _⟩
  | bool b => exact ⟨_, by simp [encodeLines]; exact Or.inl rfl, key _⟩
  | num x => exact ⟨_, by simp [encodeLines]; exact Or.inl rfl, key _⟩
  | int i => exact ⟨_, by simp [encodeLines]; exact Or.inl rfl, key _⟩
  | str s => exact ⟨_, by simp [encodeLines]; exact Or.inl rfl, key _⟩
  | obj O1 =>
    refine ⟨padOf indent ++ (k ++ " \x7b".toList), ?_, by simp⟩
    rw [encodeLines_obj]
    exact List.mem_append_left _ (List.mem_singleton_self _)
  | table rows =>
    cases rows with
    | nil =>
      refine ⟨padOf indent ++ k ++ ": table() [".toList, ?_, by simp⟩
      simp [encodeLines]
    | cons first more =>
      refine ⟨padOf indent ++ tableHeader [] k (first.map Prod.fst), ?_, by simp [tableHeader]⟩
      rw [encodeLines_table]
      exact List.mem_append_left _ (List.mem_singleton_self _)
  | arr xs =>
    cases xs with
    | nil => exact ⟨_, by simp [encodeLines]; exact Or.inl rfl, key _⟩
    | cons e es =>
      cases e with
      | obj first =>
        refine ⟨tableHeader (padOf indent) k (first.map Prod.fst), ?_, by simp [tableHeader]⟩
        simp [encodeLines]
      | null => exact ⟨_, by simp [encodeLines]; exact Or.inl rfl, key _⟩
      | bool b => exact ⟨_, by simp [encodeLines]; exact Or.inl rfl, key _⟩
      | num x => exact ⟨_, by simp [encodeLines]; exact Or.inl rfl, key _⟩
      | int i => exact ⟨_, by simp [encodeLines]; exact Or.inl rfl, key _⟩
      | str s => exact ⟨_, by simp [encodeLines]; exact Or.inl rfl, key _⟩
      | arr ys => exact ⟨_, by simp [encodeLines]; exact Or.inl rfl, key _⟩
      | table rows => exact ⟨_, by simp [encodeLines]; exact Or.inl rfl, key _⟩

/-- C18: `Encode` of the empty object is the empty string, and `Encode` of an object is
the empty string only if the object has no keys. -/
theorem C18_encode_empty {F : Type} (L : FloatLib F) :
    Encode L [] = [] ∧ ∀ O : Obj F, (Encode L O = [] ↔ O = []) := by
  constructor
  · rfl
  · intro O
    refine ⟨fun h => ?_, fun h => by rw [h]; rfl⟩
    cases O with
    | nil => rfl
    | cons e rest =>
      exfalso
      obtain ⟨k, v⟩ := e
      have henc : Encode L ((k, v) :: rest) =
          join (encodeLines L ((k, v) :: rest) 0) "\n".toList := by
        simp only [Encode, encodeValue]
      rw [henc] at h
      exact join_ne_nil (encodeLines_cons_line L k v rest 0) h

/-- C19: `serializeValue` prints `true` and `false` for the Booleans, a String between two
double quotes as it is, and an Array of scalars as its printed elements joined by a comma
and a space between brackets (`[]` when it is empty); `Encode` of an object with one
key holding such an Array is the single line of the key, a colon, a space and that
text. -/
theorem C19_serialize_scalars {F : Type} (L : FloatLib F) :
    serializeValue L (.bool true) = "true".toList ∧
    serializeValue L (.bool false) = "false".toList ∧
    (∀ s : Str, serializeValue L (.str s) = "\"".toList ++ s ++ "\"".toList) ∧
    (∀ xs : List (Value F), (∀ e ∈ xs, isScalar e = true) →
      serializeValue L (.arr xs) =
        "[".toList ++ join (xs.map (serializeValue L)) ", ".toList ++ "]".toList) ∧
    serializeValue L (.arr ([] : List (Value F))) = "[]".toList ∧
    (∀ (k : Str) (xs : List (Value F)), (∀ e ∈ xs, isScalar e = true) →
      Encode L [(k, .arr xs)] = k ++ ": ".toList ++ serializeValue L (.arr xs)) := by
  refine ⟨by simp [serializeValue], by simp [serializeValue], fun s => rfl, ?_, ?_, ?_⟩
  · intro xs _
    rw [serializeValue_arr]
    rfl
  · rw [serializeValue_arr]
    rfl
  · intro k xs hxs
    cases xs with
    | nil => simp [Encode, encodeValue, encodeLines, padOf, join_singleton]
    | cons e es =>
      have he := hxs e (List.mem_cons_self _ _)
      cases e with
      | bool b => simp [Encode, encodeValue, encodeLines, padOf, join_singleton]
      | num x => simp [Encode, encodeValue, encodeLines, padOf, join_singleton]
      | str s => simp [Encode, encodeValue, encodeLines, padOf, join_singleton]
      | null => simp [isScalar] at he
      | int i => simp [isScalar] at he
      | arr ys => simp [isScalar] at he
      | obj o => simp [isScalar] at he
      | table rows => simp [isScalar] at he

/-- The array of `TestEncodeArrays`: the single line `tags: ["go", "programming", "test"]`. -/
theorem C19_serialize_scalars_witness :
    (∀ e ∈ [Value.str "go".toList, .str "programming".toList, .str "test".toList],
      isScalar (F := Nat) e = true) ∧
    Encode sampleLib [("tags".toList,
      .arr [.str "go".toList, .str "programming".toList, .str "test".toList])] =
      "tags: [\"go\", \"programming\", \"test\"]".toList :=
  ⟨by decide, (C19_serialize_scalars sampleLib).2.2.2.2.2 "tags".toList
    [.str "go".toList, .str "programming".toList, .str "test".toList] (by decide)⟩

/-! ## C15, C16: the stack of frames -/

theorem WF_stack_facts {F : Type} {st : State F} (hwf : st.WF) :
    st.stack ≠ [] ∧ ∃ top, st.stack.getLast? = some top ∧ ∃ m, st.heap[top]? = some m := by
  have hroot := hwf.root
  have hne : st.stack ≠ [] := by
    intro h; rw [h] at hroot; cases hroot
  refine ⟨hne, st.stack.getLast hne, List.getLast?_eq_getLast _ hne, ?_⟩
  have hlt := hwf.stack_lt _ (List.getLast_mem hne)
  exact ⟨_, List.getElem?_eq_getElem hlt⟩

theorem stepLine_close_depth_one {F : Type} (L : FloatLib F) {st : State F} (hwf : st.WF)
    (hlen : st.stack.length = 1) : stepLine L st "\x7d".toList = some st := by
  obtain ⟨_, top, htop, _⟩ := WF_stack_facts hwf
  unfold stepLine
  rw [htop]
  simp only
  rw [if_neg (by decide), if_pos trivial, if_neg (by omega)]

/-- C15: for every input text and every number `n` of lines processed, the loop of
`Decode` has reached a state (it has not failed) whose stack is not empty and starts with
the root frame, whose top frame can be read, and on which a `}` line at depth 1 changes
nothing; and the object returned is the root frame of the final state. -/
theorem C15_stack_invariant {F : Type} (L : FloatLib F) (input : Str) :
    (∀ n : Nat, ∃ st : State F,
      run L initState ((split (trimSpace input) (Char.ofNat 10)).take n) = some st ∧
      st.stack ≠ [] ∧ st.stack.head? = some 0 ∧
      (∃ top, st.stack.getLast? = some top ∧ ∃ m, st.heap[top]? = some m) ∧
      (st.stack.length = 1 → stepLine L st "\x7d".toList = some st)) ∧
    (∃ (st : State F) (V : Obj F),
      run L initState (split (trimSpace input) (Char.ofNat 10)) = some st ∧
      reify st.heap st.heap.length 0 = some V ∧ Decode L (.string input) = Outcome.ok V) := by
  constructor
  · intro n
    obtain ⟨st, hrun, hwf⟩ :=
      run_WF L ((split (trimSpace input) (Char.ofNat 10)).take n) (initState_WF (F := F))
    obtain ⟨hne, htop⟩ := WF_stack_facts hwf
    exact ⟨st, hrun, hne, hwf.root, htop, stepLine_close_depth_one L hwf⟩
  · obtain ⟨st, hrun, hwf⟩ :=
      run_WF L (split (trimSpace input) (Char.ofNat 10)) (initState_WF (F := F))
    obtain ⟨V, hV⟩ := finish_ok hwf
    have hre : reify st.heap st.heap.length 0 = some V := by
      simp only [finish, hwf.root] at hV
      split at hV
      · cases hV
      · rename_i o ho
        injection hV with hV
        rw [← hV]; exact ho
    refine ⟨st, V, hrun, hre, ?_⟩
    show decodeText L input = Outcome.ok V
    unfold decodeText
    simp only
    split
    · rename_i hempty
      rw [hempty] at hrun
      have h0 : run L (initState : State F) (split [] (Char.ofNat 10)) = some initState := by
        rfl
      rw [h0] at hrun
      injection hrun with hrun
      rw [← hrun] at hre
      have : reify (initState : State F).heap (initState : State F).heap.length 0 = some [] := by
        rfl
      rw [this] at hre
      injection hre with hre
      rw [hre]
    · rw [hrun]; exact hV

theorem runLines_normLines_WF {F : Type} (L : FloatLib F) (t : Str) :
    ∃ st : State F, runLines L initState (normLines t) = some st ∧ st.WF := by
  obtain ⟨st, hrun, hwf⟩ := run_WF L (split t (Char.ofNat 10)) (initState_WF (F := F))
  rw [run_eq_runLines] at hrun
  exact ⟨st, hrun, hwf⟩

theorem normLines_close : normLines "\x7d".toList = ["\x7d".toList] := by decide

theorem finish_pop {F : Type} (st : State F) (h : st.stack.length > 1) :
    finish (some { st with stack := st.stack.dropLast }) = finish (some st) := by
  have hhead : st.stack.dropLast.head? = st.stack.head? := by
    cases hs : st.stack with
    | nil => rfl
    | cons a r =>
      cases r with
      | nil => rw [hs] at h; simp at h
      | cons b r => simp [List.dropLast]
  simp only [finish, hhead]

/-- C16: for every text `t`, `Decode` of `t` followed by a new final line `}` is
`Decode t`; and the document of a key-value line followed by an unterminated `address {`
holds the key assigned before it. -/
theorem C16_unclosed_block {F : Type} (L : FloatLib F) (t : Str) :
    Decode L (.string (t ++ "\n\x7d".toList)) = Decode L (.string t) ∧
    Decode L (.string "name: \"John\"\naddress \x7b".toList) =
      Outcome.ok [("name".toList, .str "John".toList), ("address".toList, .obj [])] := by
  constructor
  · show decodeText L _ = decodeText L _
    have hs : "\n\x7d".toList = Char.ofNat 10 :: "\x7d".toList := rfl
    rw [decodeText_eq, decodeText_eq, hs, normLines_append_newline, normLines_close,
      runLines_append]
    obtain ⟨st, hrun, hwf⟩ := runLines_normLines_WF L t
    rw [hrun]
    simp only
    rw [runLines_cons]
    obtain ⟨_, top, htop, _⟩ := WF_stack_facts hwf
    have hstep : stepLine L st "\x7d".toList =
        if st.stack.length > 1 then some { st with stack := st.stack.dropLast }
        else some st := by
      unfold stepLine
      rw [htop]
      simp only
      rw [if_neg (by decide), if_pos trivial]
    rw [hstep]
    by_cases hlen : st.stack.length > 1
    · rw [if_pos hlen]
      simp only [runLines]
      exact finish_pop st hlen
    · rw [if_neg hlen]
      simp only [runLines]
  · rfl

/-! ## C14: unrecognised lines -/

theorem kvMatch_form {line : Str} {p : Str × Str} (h : kvMatch line = some p) :
    isKeyValueForm line := by
  unfold kvMatch at h
  simp only at h
  split at h
  · cases h
  · rename_i hkey
    split at h
    · cases h
    · rename_i c afterColon hdrop
      split at h
      · cases h
      · rename_i hc
        have hc : c = Char.ofNat 58 := by simpa using hc
        have hline : line = line.takeWhile isWordChar ++ Char.ofNat 58 :: afterColon := by
          rw [← hc, ← hdrop, List.takeWhile_append_dropWhile]
        have hid : isIdent (line.takeWhile isWordChar) :=
          ⟨hkey, fun x hx => List.mem_takeWhile_imp hx⟩
        refine ⟨_, afterColon, hid, ?_, hline⟩
        intro hnil
        rw [hnil] at h
        simp at h

/-- A line that is none of the recognised forms leaves the state as it is when no table
is open. -/
theorem stepLine_unrecognised {F : Type} (L : FloatLib F) {st : State F} (hwf : st.WF)
    (hct : st.currentTable = none) {l : Str}
    (hblock : hasSuffix l "\x7b".toList = false) (hclose : l ≠ "\x7d".toList)
    (hend : l ≠ "]".toList) (htable : tableMatch l = none) (hkv : ¬ isKeyValueForm l) :
    stepLine L st l = some st := by
  obtain ⟨_, top, htop, _⟩ := WF_stack_facts hwf
  have hk : kvMatch l = none := by
    cases hm : kvMatch l with
    | none => rfl
    | some p => exact absurd (kvMatch_form hm) hkv
  unfold stepLine
  rw [htop]
  simp only [hblock, Bool.false_eq_true, if_false, if_neg hclose, htable, if_neg hend, hct, hk]

/-- C14: a line of a text that is reached while no table is open and that, once its
comment is removed and it is trimmed, does not end with an opening brace, is not `}` or
`]`, is not a table-open line and is not of the form identifier, colon, non-empty rest,
can be removed without changing the result of `Decode`. -/
theorem C14_unrecognised_line {F : Type} (L : FloatLib F) (t : Str)
    (ls1 ls2 : List Str) (line : Str)
    (hsplit : split t (Char.ofNat 10) = ls1 ++ line :: ls2)
    (hopen : ∀ st : State F, run L initState ls1 = some st → st.currentTable = none)
    (hblock : hasSuffix (normLine line) "\x7b".toList = false)
    (hclose : normLine line ≠ "\x7d".toList) (hend : normLine line ≠ "]".toList)
    (htable : tableMatch (normLine line) = none) (hkv : ¬ isKeyValueForm (normLine line)) :
    Decode L (.string (join (ls1 ++ ls2) "\n".toList)) = Decode L (.string t) := by
  have hlines : ∀ l ∈ ls1 ++ ls2, Char.ofNat 10 ∉ l := by
    intro l hl
    simp only [List.mem_append] at hl
    rcases hl with hl | hl
    · exact split_no_sep _ t l (by rw [hsplit]; simp [hl])
    · exact split_no_sep _ t l (by rw [hsplit]; simp [hl])
  have h1 : normLines (join (ls1 ++ ls2) "\n".toList) =
      (ls1.map normLine).filter (fun l => l ≠ []) ++
        (ls2.map normLine).filter (fun l => l ≠ []) := by
    by_cases hne : ls1 ++ ls2 = []
    · have e1 : ls1 = [] := (List.append_eq_nil.1 hne).1
      have e2 : ls2 = [] := (List.append_eq_nil.1 hne).2
      rw [e1, e2]
      rfl
    · rw [normLines_join hlines hne, List.map_append, List.filter_append]
  have h2 : normLines t =
      (ls1.map normLine).filter (fun l => l ≠ []) ++
        ([normLine line].filter (fun l => l ≠ []) ++
          (ls2.map normLine).filter (fun l => l ≠ [])) := by
    unfold normLines
    rw [hsplit, List.map_append, List.filter_append, List.map_cons,
      ← List.singleton_append, List.filter_append]
  show decodeText L _ = decodeText L _
  rw [decodeText_eq, decodeText_eq, h1, h2, runLines_append, runLines_append]
  obtain ⟨st, hrun, hwf⟩ := run_WF L ls1 (initState_WF (F := F))
  have hct := hopen st hrun
  rw [run_eq_runLines] at hrun
  rw [hrun]
  simp only
  rw [runLines_append]
  by_cases hnil : normLine line = []
  · have : [normLine line].filter (fun l => l ≠ []) = [] := by simp [hnil]
    rw [this]
    rfl
  · have : [normLine line].filter (fun l => l ≠ []) = [normLine line] := by simp [hnil]
    rw [this, runLines_cons, stepLine_unrecognised L hwf hct hblock hclose hend htable hkv]
    rfl

/-- Removing the bare word `bare` from between two key-value lines. -/
theorem C14_unrecognised_line_witness :
    Decode sampleLib (.string "name: John\nage: 30".toList) =
      Decode sampleLib (.string "name: John\nbare\nage: 30".toList) :=
  C14_unrecognised_line sampleLib "name: John\nbare\nage: 30".toList
    ["name: John".toList] ["age: 30".toList] "bare".toList (by decide)
    (by
      intro st h
      have e : run sampleLib initState ["name: John".toList] =
          some ⟨[[("name".toList, .val (.str "John".toList))]], [0], none⟩ := by rfl
      rw [e] at h
      injection h with h
      rw [← h])
    (by decide) (by decide) (by decide) (by decide)
    (by
      rintro ⟨k, rest, _, _, h⟩
      have hmem : Char.ofNat 58 ∈ normLine "bare".toList := by
        rw [h]; simp
      revert hmem; decide)

/-! ## C13: the last assignment wins -/

theorem removeComments_no_marker {s : Str} (h1 : Char.ofNat 35 ∉ s)
    (h2 : index s "//".toList < 0) : removeComments s = s := by
  rw [removeComments_def, index_hash_neg h1]
  have : cutIndexOf (-1) (index s "//".toList) = -1 := by
    unfold cutIndexOf
    split_ifs <;> omega
  rw [this]
  rfl

theorem trimRight_decomp (s : Str) :
    ∃ w : Str, (∀ c ∈ w, isSpace c = true) ∧ s = trimRight s ++ w := by
  refine ⟨(s.reverse.takeWhile isSpace).reverse, ?_, ?_⟩
  · intro c hc
    rw [List.mem_reverse] at hc
    exact List.mem_takeWhile_imp hc
  · unfold trimRight List.rdropWhile
    rw [← List.reverse_append, List.takeWhile_append_dropWhile, List.reverse_reverse]

theorem trimRight_ne_nil {s : Str} (h : trimSpace s ≠ []) : trimRight s ≠ [] := by
  intro hnil
  apply h
  apply trimSpace_spaces
  unfold trimRight at hnil
  rw [List.rdropWhile_eq_nil_iff] at hnil
  exact hnil

/-- The trimmed key-value line: the key, the colon, and a rest that ends in a character
that is not white space. -/
theorem kvLine_trim {kv : Str × Str} (h : isKvLine kv) :
    ∃ y : Str, trimSpace (kvText kv) = kv.1 ++ Char.ofNat 58 :: y ∧ y ≠ [] ∧
      (∀ b, y.getLast? = some b → isSpace b = false) ∧ Char.ofNat 10 ∉ y ∧
      trimSpace y = trimSpace kv.2 := by
  obtain ⟨hk, hv, hnl, _, _, _, _⟩ := h
  have hsp : isSpace (Char.ofNat 32) = true := by decide
  have hv2 : trimSpace (Char.ofNat 32 :: kv.2) ≠ [] := by
    rw [trimSpace_cons_space hsp]; exact hv
  obtain ⟨w, hw, hdec⟩ := trimRight_decomp (Char.ofNat 32 :: kv.2)
  have hyne := trimRight_ne_nil hv2
  have hlast : ∀ b, (trimRight (Char.ofNat 32 :: kv.2)).getLast? = some b →
      isSpace b = false := fun b hb => trimRight_getLast hb
  refine ⟨trimRight (Char.ofNat 32 :: kv.2), ?_, hyne, hlast, ?_, ?_⟩
  · have e : kvText kv = (kv.1 ++ Char.ofNat 58 :: trimRight (Char.ofNat 32 :: kv.2)) ++ w := by
      unfold kvText
      rw [List.append_assoc, List.cons_append, ← hdec]
    rw [e, trimSpace_append_spaces _ hw]
    apply trimSpace_eq_self
    · intro a ha
      obtain ⟨c, t, hkt, hc⟩ := ident_head hk
      rw [hkt] at ha
      simp only [List.cons_append, List.head?_cons, Option.some.injEq] at ha
      rw [← ha]
      exact (wordChar_facts hc).1
    · intro b hb
      rw [List.getLast?_append_of_ne_nil _ (by simp), ← List.singleton_append,
        List.getLast?_append_of_ne_nil _ hyne] at hb
      exact hlast b hb
  · intro hmem
    have hsub : trimRight (Char.ofNat 32 :: kv.2) <+: Char.ofNat 32 :: kv.2 :=
      List.rdropWhile_prefix _ _
    have := hsub.subset hmem
    simp only [List.mem_cons] at this
    rcases this with this | this
    · revert this; decide
    · exact hnl this
  · have e1 : trimSpace (Char.ofNat 32 :: kv.2) =
        trimSpace (trimRight (Char.ofNat 32 :: kv.2)) := by
      conv_lhs => rw [hdec]
      rw [trimSpace_append_spaces _ hw]
    rw [← e1, trimSpace_cons_space hsp]

theorem kvMatch_rest {k y : Str} (hk : isIdent k) (hne : y ≠ [])
    (hlast : ∀ b, y.getLast? = some b → isSpace b = false) (hnl : Char.ofNat 10 ∉ y) :
    kvMatch (k ++ Char.ofNat 58 :: y) = some (k, y.dropWhile isReSpace) := by
  have hd : y.dropWhile isReSpace ≠ [] := by
    intro hnil
    rw [List.dropWhile_eq_nil_iff] at hnil
    have hb := hlast (y.getLast hne) (List.getLast?_eq_getLast _ hne)
    rw [reSpace_isSpace (hnil _ (List.getLast_mem hne))] at hb
    cases hb
  have hnl2 : Char.ofNat 10 ∉ y.dropWhile isReSpace :=
    fun hmem => hnl ((List.dropWhile_suffix _).subset hmem)
  unfold kvMatch
  simp only
  rw [takeWhile_append_stop _ hk.2 (by decide), dropWhile_append_stop _ hk.2 (by decide)]
  rw [if_neg hk.1]
  simp only
  rw [if_neg (by decide), if_pos hd, if_neg hnl2]

theorem trimSpace_dropWhile_reSpace (y : Str) :
    trimSpace (y.dropWhile isReSpace) = trimSpace y := by
  conv_rhs => rw [← List.takeWhile_append_dropWhile isReSpace y]
  rw [trimSpace_spaces_append]
  intro c hc
  exact reSpace_isSpace (List.mem_takeWhile_imp hc)

/-- The iteration of the loop of `Decode` on a key-value line, outside a table. -/
theorem stepLine_kvLine {F : Type} (L : FloatLib F) {st : State F} {top : Nat} {m : Frame F}
    (htop : st.stack.getLast? = some top) (hct : st.currentTable = none)
    (hm : st.heap[top]? = some m) {kv : Str × Str} (h : isKvLine kv) :
    stepLine L st (trimSpace (kvText kv)) =
      some { st with heap := st.heap.set top (mapSet m kv.1 (.val (parseValue L kv.2))) } := by
  obtain ⟨y, hy, hyne, hlast, hnl, htrim⟩ := kvLine_trim h
  obtain ⟨hk, _, _, _, _, hblock, htable⟩ := h
  obtain ⟨c, t, hkt, hc⟩ := ident_head hk
  have hlen : 2 ≤ (trimSpace (kvText kv)).length := by
    rw [hy, hkt]; simp; omega
  have hclose : trimSpace (kvText kv) ≠ "\x7d".toList := by
    intro he
    rw [he] at hlen
    revert hlen; decide
  have hend : trimSpace (kvText kv) ≠ "]".toList := by
    intro he
    rw [he] at hlen
    revert hlen; decide
  have hmatch : kvMatch (trimSpace (kvText kv)) = some (kv.1, y.dropWhile isReSpace) := by
    rw [hy]; exact kvMatch_rest hk hyne hlast hnl
  have hval : parseValue L (trimSpace (y.dropWhile isReSpace)) = parseValue L kv.2 := by
    rw [trimSpace_dropWhile_reSpace, htrim, parseValue_trimSpace]
  unfold stepLine
  rw [htop]
  simp only [hblock, Bool.false_eq_true, if_false, if_neg hclose, htable, if_neg hend, hct,
    hmatch, hval, heapSet_eq hm]

theorem normLines_kvText {kv : Str × Str} (h : isKvLine kv) :
    normLine (kvText kv) = trimSpace (kvText kv) ∧ trimSpace (kvText kv) ≠ [] ∧
      Char.ofNat 10 ∉ kvText kv := by
  obtain ⟨y, hy, _, _, _, _⟩ := kvLine_trim h
  obtain ⟨hk, _, hnl, hh, hs, _, _⟩ := h
  have hcv : removeComments kv.2 = kv.2 := removeComments_no_marker hh hs
  have hc1 : removeComments [Char.ofNat 58, Char.ofNat 32] = [Char.ofNat 58, Char.ofNat 32] := by
    decide
  have hc2 : removeComments (Char.ofNat 58 :: Char.ofNat 32 :: kv.2) =
      Char.ofNat 58 :: Char.ofNat 32 :: kv.2 := by
    have := noMarker_append hc1 hcv (Or.inl (by decide))
    simpa using this
  have hc3 : removeComments (kvText kv) = kvText kv := by
    unfold kvText
    exact noMarker_append (isClean_ident hk).2 hc2 (Or.inl (ident_getLast hk))
  refine ⟨by unfold normLine; rw [hc3], by rw [hy]; simp, ?_⟩
  unfold kvText
  intro hmem
  simp only [List.mem_append, List.mem_cons] at hmem
  rcases hmem with hmem | hmem | hmem | hmem
  · exact (wordChar_facts (hk.2 _ hmem)).2.2.2.2.2.1 rfl
  · revert hmem; decide
  · revert hmem; decide
  · exact hnl hmem

theorem mapGet_mapSet {α : Type} (m : List (Str × α)) (k : Str) (v : α) (k1 : Str) :
    mapGet (mapSet m k v) k1 = if k = k1 then some v else mapGet m k1 := by
  induction m with
  | nil => simp [mapSet, mapGet]
  | cons x t ih =>
    obtain ⟨k0, v0⟩ := x
    by_cases h0 : k0 = k
    · subst h0
      simp only [mapSet, mapGet, if_true]
      by_cases h1 : k0 = k1
      · rw [if_pos h1, if_pos h1]
      · rw [if_neg h1, if_neg h1, if_neg h1]
    · simp only [mapSet, if_neg h0, mapGet]
      by_cases h2 : k0 = k1
      · rw [if_pos h2, if_neg (fun h => h0 (h2.trans h.symm))]
        rw [if_pos h2]
      · rw [if_neg h2, ih, if_neg h2]

theorem keys_mapSet {α : Type} (m : List (Str × α)) (k : Str) (v : α) (k1 : Str) :
    k1 ∈ (mapSet m k v).map Prod.fst ↔ k1 = k ∨ k1 ∈ m.map Prod.fst := by
  induction m with
  | nil => simp [mapSet]
  | cons x t ih =>
    obtain ⟨k0, v0⟩ := x
    simp only [mapSet]
    by_cases h0 : k0 = k
    · rw [if_pos h0]
      simp only [List.map_cons, List.mem_cons]
      constructor
      · intro h; exact Or.inr h
      · rintro (h | h)
        · exact Or.inl (h.trans h0.symm)
        · exact h
    · rw [if_neg h0]
      simp only [List.map_cons, List.mem_cons, ih]
      constructor
      · rintro (h | h | h)
        · exact Or.inr (Or.inl h)
        · exact Or.inl h
        · exact Or.inr (Or.inr h)
      · rintro (h | h | h)
        · exact Or.inr (Or.inl h)
        · exact Or.inl h
        · exact Or.inr (Or.inr h)

theorem mapSet_frameOf {F : Type} (O : Obj F) (k : Str) (v : Value F) :
    mapSet (frameOf O) k (Cell.val v) = frameOf (mapSet O k v) := by
  induction O with
  | nil => rfl
  | cons x t ih =>
    obtain ⟨k0, v0⟩ := x
    simp only [frameOf, List.map_cons, mapSet] at ih ⊢
    split
    · rfl
    · rw [List.map_cons, ih]

theorem assignAll_facts {F : Type} (L : FloatLib F) (kvs : List (Str × Str)) :
    ∀ m : Obj F, (m.map Prod.fst).Nodup →
      ((assignAll L kvs m).map Prod.fst).Nodup ∧
      (∀ k, k ∈ (assignAll L kvs m).map Prod.fst ↔ k ∈ kvs.map Prod.fst ∨ k ∈ m.map Prod.fst) ∧
      ∀ k, mapGet (assignAll L kvs m) k =
        match lastValue kvs k with
        | some v => some (parseValue L v)
        | none => mapGet m k := by
  induction kvs with
  | nil =>
    intro m hm
    exact ⟨hm, fun k => ⟨fun h => Or.inr h, fun h => h.elim (fun h1 => absurd h1 (List.not_mem_nil _)) id⟩,
      fun k => rfl⟩
  | cons kv rest ih =>
    intro m hm
    obtain ⟨h1, h2, h3⟩ := ih (mapSet m kv.1 (parseValue L kv.2))
      (mapSet_keys_nodup _ _ hm)
    refine ⟨h1, ?_, ?_⟩
    · intro k
      simp only [assignAll]
      rw [h2 k, keys_mapSet, List.map_cons, List.mem_cons]
      constructor
      · rintro (h | h | h)
        · exact Or.inl (Or.inr h)
        · exact Or.inl (Or.inl h)
        · exact Or.inr h
      · rintro ((h | h) | h)
        · exact Or.inr (Or.inl h)
        · exact Or.inl h
        · exact Or.inr (Or.inr h)
    · intro k
      simp only [assignAll, lastValue]
      rw [h3 k]
      cases lastValue rest k with
      | some v => rfl
      | none =>
        simp only
        rw [mapGet_mapSet]
        split <;> rfl

theorem runLines_kvLines {F : Type} (L : FloatLib F) (kvs : List (Str × Str))
    (h : ∀ kv ∈ kvs, isKvLine kv) :
    ∀ O : Obj F, runLines L ⟨[frameOf O], [0], none⟩ (kvs.map (fun kv => trimSpace (kvText kv))) =
      some ⟨[frameOf (assignAll L kvs O)], [0], none⟩ := by
  induction kvs with
  | nil => intro O; rfl
  | cons kv rest ih =>
    intro O
    rw [List.map_cons, runLines_cons,
      @stepLine_kvLine F L ⟨[frameOf O], [0], none⟩ 0 (frameOf O) rfl rfl rfl kv
        (h kv (List.mem_cons_self _ _))]
    simp only [List.set_cons_zero, mapSet_frameOf]
    exact ih (fun x hx => h x (List.mem_cons_of_mem _ hx)) _

theorem mapOpt_frameOf {F : Type} (f : Str × Cell F → Option (Str × Value F))
    (hf : ∀ k v, f (k, Cell.val v) = some (k, v)) :
    ∀ O : Obj F, mapOpt f (frameOf O) = some O := by
  intro O
  induction O with
  | nil => rfl
  | cons x t ih =>
    obtain ⟨k, v⟩ := x
    unfold frameOf at ih ⊢
    rw [List.map_cons, mapOpt, hf]
    simp only [ih]

theorem finish_frameOf {F : Type} (O : Obj F) :
    finish (some (⟨[frameOf O], [0], none⟩ : State F)) = Outcome.ok O := by
  have hre : reify [frameOf O] 1 0 = some O := by
    simp only [reify, List.getElem?_cons_zero]
    exact mapOpt_frameOf _ (fun k v => rfl) O
  simp only [finish, List.head?_cons, List.length_singleton, hre]

theorem normLines_kvDoc {kvs : List (Str × Str)} (h : ∀ kv ∈ kvs, isKvLine kv) :
    normLines (join (kvs.map kvText) "\n".toList) =
      kvs.map (fun kv => trimSpace (kvText kv)) := by
  by_cases hne : kvs = []
  · rw [hne]; rfl
  · have hlines : ∀ l ∈ kvs.map kvText, Char.ofNat 10 ∉ l := by
      intro l hl
      obtain ⟨kv, hkv, rfl⟩ := List.mem_map.1 hl
      exact (normLines_kvText (h kv hkv)).2.2
    rw [normLines_join hlines (by simpa using hne), List.map_map]
    have hmap : kvs.map (normLine ∘ kvText) = kvs.map (fun kv => trimSpace (kvText kv)) := by
      apply List.map_congr_left
      intro kv hkv
      exact (normLines_kvText (h kv hkv)).1
    rw [hmap, List.filter_eq_self]
    intro l hl
    obtain ⟨kv, hkv, rfl⟩ := List.mem_map.1 hl
    simpa using (normLines_kvText (h kv hkv)).2.1

/-- C13 (amended): for every document made only of key-value lines `k: v`, with `k` an
identifier, `v` free of newlines and comment markers and not white space only, and the
trimmed line not ending in an opening brace and not a table-open line, `Decode` returns
an object with distinct keys, whose keys are the keys occurring in the lines, and which
maps each key to `parseValue` of the value on the last line bearing that key. -/
theorem C13_last_assignment_wins {F : Type} (L : FloatLib F) (kvs : List (Str × Str))
    (h : ∀ kv ∈ kvs, isKvLine kv) :
    ∃ O : Obj F, Decode L (.string (join (kvs.map kvText) "\n".toList)) = Outcome.ok O ∧
      (O.map Prod.fst).Nodup ∧ (∀ k, k ∈ O.map Prod.fst ↔ k ∈ kvs.map Prod.fst) ∧
      ∀ k v, lastValue kvs k = some v → mapGet O k = some (parseValue L v) := by
  obtain ⟨h1, h2, h3⟩ := assignAll_facts L kvs ([] : Obj F) List.nodup_nil
  refine ⟨assignAll L kvs [], ?_, h1, ?_, ?_⟩
  · show decodeText L _ = _
    rw [decodeText_eq, normLines_kvDoc h]
    have hinit : (initState : State F) = ⟨[frameOf []], [0], none⟩ := rfl
    rw [hinit, runLines_kvLines L kvs h, finish_frameOf]
  · intro k
    rw [h2 k]
    constructor
    · rintro (hk | hk)
      · exact hk
      · exact absurd hk (List.not_mem_nil _)
    · exact Or.inl
  · intro k v hv
    rw [h3 k, hv]

/-- Two lines bear the key `name`: the value of the second one is kept. -/
theorem C13_last_assignment_wins_witness :
    (∀ kv ∈ [("name".toList, "\"John\"".toList), ("age".toList, "30".toList),
      ("name".toList, "\"Jane\"".toList)], isKvLine kv) ∧
    ∃ O : Obj Nat,
      Decode sampleLib (.string (join ([("name".toList, "\"John\"".toList),
        ("age".toList, "30".toList), ("name".toList, "\"Jane\"".toList)].map kvText)
        "\n".toList)) = Outcome.ok O ∧
      (O.map Prod.fst).Nodup ∧
      (∀ k, k ∈ O.map Prod.fst ↔ k ∈ [("name".toList, "\"John\"".toList),
        ("age".toList, "30".toList), ("name".toList, "\"Jane\"".toList)].map Prod.fst) ∧
      ∀ k v, lastValue [("name".toList, "\"John\"".toList), ("age".toList, "30".toList),
        ("name".toList, "\"Jane\"".toList)] k = some v →
        mapGet O k = some (parseValue sampleLib v) :=
  ⟨by decide, C13_last_assignment_wins sampleLib _ (by decide)⟩

/-- Counterexample to C13 as stated.  Both documents meet every condition of the claim.
In the first the value of `k` is a single space: the trimmed line `k:` is not a key-value
line and `k` is not a key of the result.  In the second the line `k: x` + opening brace +
space does not end in an opening brace, but the trimmed line does: it opens a block under
the key `k: x`, and `k` is not a key of the result. -/
theorem C13_last_assignment_wins_counterexample :
    ((∀ kv ∈ [("a".toList, "1".toList), ("k".toList, " ".toList)], isClaimedKv kv) ∧
      Decode sampleLib (.string (join ([("a".toList, "1".toList),
        ("k".toList, " ".toList)].map kvText) "\n".toList)) =
        Outcome.ok [("a".toList, .num 1)] ∧
      "k".toList ∈ [("a".toList, "1".toList), ("k".toList, " ".toList)].map Prod.fst ∧
      "k".toList ∉ [("a".toList, (Value.num 1 : Value Nat))].map Prod.fst) ∧
    ((∀ kv ∈ [("k".toList, "x\x7b ".toList)], isClaimedKv kv) ∧
      Decode sampleLib (.string (join ([("k".toList, "x\x7b ".toList)].map kvText)
        "\n".toList)) = Outcome.ok [("k: x".toList, .obj [])] ∧
      "k".toList ∉ [("k: x".toList, (Value.obj [] : Value Nat))].map Prod.fst) := by
  refine ⟨⟨by decide, by rfl, by decide, by decide⟩, ⟨by decide, by rfl, by decide⟩⟩

/-! ## Tables left open: the entry of the open table -/

theorem set_getElem?_self {α : Type} {l : List α} {a : Nat} {m : α} (h : l[a]? = some m) :
    l.set a m = l := by
  apply List.ext_getElem?
  intro i
  rw [List.getElem?_set]
  split
  · rename_i hai
    subst hai
    split
    · exact h.symm
    · rename_i hlt
      rw [List.getElem?_eq_none (by omega)]
  · rfl

theorem mapSet_same {α : Type} {m : List (Str × α)} {k : Str} {v : α}
    (h : mapGet m k = some v) : mapSet m k v = m := by
  induction m with
  | nil => simp [mapGet] at h
  | cons x t ih =>
    obtain ⟨k0, v0⟩ := x
    simp only [mapGet] at h
    simp only [mapSet]
    split
    · rename_i hk
      rw [if_pos hk] at h
      injection h with h
      rw [h]
    · rename_i hk
      rw [if_neg hk] at h
      rw [ih h]

theorem heapSet_synced {F : Type} {heap heap1 : List (Frame F)} {addr : Nat} {key : Str}
    {cell : Cell F} (h : heapSet heap addr key cell = some heap1) :
    ∃ m, heap1[addr]? = some m ∧ mapGet m key = some cell := by
  unfold heapSet at h
  split at h
  · cases h
  · rename_i m0 hm0
    injection h with h
    subst h
    have hlt : addr < heap.length := lt_of_getElem?_some hm0
    refine ⟨mapSet m0 key cell, List.getElem?_set_self hlt, ?_⟩
    rw [mapGet_mapSet, if_pos rfl]

/-- One iteration of the loop keeps the open table's entry in its parent frame equal to
the table, unless the line opens a block while a table is open. -/
theorem stepLine_Synced {F : Type} (L : FloatLib F) {st st1 : State F} (hs : st.Synced)
    {line : Str} (h : stepLine L st line = some st1)
    (hb : hasSuffix line "\x7b".toList = true → st.currentTable = none) :
    st1.Synced ∧
      st1.currentTable.isSome =
        (if hasSuffix line "\x7b".toList then st.currentTable.isSome
         else if line = "\x7d".toList then st.currentTable.isSome
         else if (tableMatch line).isSome then true
         else if line = "]".toList then false
         else st.currentTable.isSome) := by
  unfold stepLine at h
  split at h
  · cases h
  · rename_i top htop
    split at h
    · rename_i hblock
      simp only at h
      split at h
      · cases h
      · injection h with h
        subst h
        rw [if_pos hblock]
        refine ⟨?_, rfl⟩
        intro ct hct
        simp only at hct
        rw [hb hblock] at hct
        cases hct
    · rename_i hblock
      rw [if_neg hblock]
      split at h
      · rename_i hclose
        rw [if_pos hclose]
        split at h
        · injection h with h
          subst h
          exact ⟨hs, rfl⟩
        · injection h with h
          subst h
          exact ⟨hs, rfl⟩
      · rename_i hclose
        rw [if_neg hclose]
        split at h
        · rename_i key columnsStr hmatch
          rw [hmatch]
          simp only at h
          split at h
          · cases h
          · rename_i heap hheap
            injection h with h
            subst h
            refine ⟨?_, rfl⟩
            intro ct hct
            simp only at hct
            injection hct with hct
            subst hct
            exact heapSet_synced hheap
        · rename_i hmatch
          rw [hmatch]
          simp only [Option.isSome_none, Bool.false_eq_true, if_false]
          split at h
          · rename_i hend
            rw [if_pos hend]
            split at h
            · split at h
              · cases h
              · injection h with h
                subst h
                exact ⟨fun ct hct => (by cases hct), rfl⟩
            · injection h with h
              subst h
              exact ⟨fun ct hct => (by cases hct), rfl⟩
          · rename_i hend
            rw [if_neg hend]
            split at h
            · rename_i ct0 hct0
              simp only at h
              split at h
              · cases h
              · rename_i heap hheap
                injection h with h
                subst h
                refine ⟨?_, by rw [hct0]; rfl⟩
                intro ct hct
                simp only at hct
                injection hct with hct
                subst hct
                exact heapSet_synced hheap
            · rename_i hct0
              split at h
              · split at h
                · cases h
                · injection h with h
                  subst h
                  refine ⟨?_, rfl⟩
                  intro ct hct
                  simp only at hct
                  rw [hct0] at hct
                  cases hct
              · injection h with h
                subst h
                exact ⟨hs, rfl⟩

theorem runLines_Synced {F : Type} (L : FloatLib F) :
    ∀ (lines : List Str) (st : State F), st.WF → st.Synced →
      noBlockInTable st.currentTable.isSome lines = true →
      ∃ st1, runLines L st lines = some st1 ∧ st1.WF ∧ st1.Synced := by
  intro lines
  induction lines with
  | nil => intro st hwf hs _; exact ⟨st, rfl, hwf, hs⟩
  | cons l ls ih =>
    intro st hwf hs hscan
    obtain ⟨st2, hstep, hwf2⟩ := stepLine_WF L hwf l
    rw [runLines_cons, hstep]
    simp only
    have hb : hasSuffix l "\x7b".toList = true → st.currentTable = none := by
      intro hblock
      simp only [noBlockInTable, hblock, if_true, Bool.and_eq_true, Bool.not_eq_true'] at hscan
      cases hc : st.currentTable with
      | none => rfl
      | some ct =>
        rw [hc] at hscan
        simp at hscan
    obtain ⟨hs2, hflag⟩ := stepLine_Synced L hs hstep hb
    apply ih st2 hwf2 hs2
    rw [hflag]
    simp only [noBlockInTable] at hscan
    split
    · rename_i h1
      rw [if_pos h1] at hscan
      simp only [Bool.and_eq_true] at hscan
      exact hscan.2
    · rename_i h1
      rw [if_neg h1] at hscan
      split
      · rename_i h2
        rw [if_pos h2] at hscan
        exact hscan
      · rename_i h2
        rw [if_neg h2] at hscan
        split
        · rename_i h3
          rw [if_pos h3] at hscan
          exact hscan
        · rename_i h3
          rw [if_neg h3] at hscan
          split
          · rename_i h4
            rw [if_pos h4] at hscan
            exact hscan
          · rename_i h4
            rw [if_neg h4] at hscan
            exact hscan

theorem initState_Synced {F : Type} : (initState : State F).Synced :=
  fun ct hct => by cases hct

theorem finish_table_none {F : Type} (st : State F) :
    finish (some { st with currentTable := none }) = finish (some st) := rfl

/-- The iteration on a final `]` line changes nothing that `Decode` returns when the
entry of the open table is still the table. -/
theorem stepLine_end_Synced {F : Type} (L : FloatLib F) {st : State F} (hwf : st.WF)
    (hs : st.Synced) :
    ∃ st1, stepLine L st "]".toList = some st1 ∧ finish (some st1) = finish (some st) := by
  obtain ⟨_, top, htop, _⟩ := WF_stack_facts hwf
  have hstep : stepLine L st "]".toList =
      match st.currentTable with
      | some ct =>
        match heapSet st.heap ct.parent ct.key (.val (.table ct.table)) with
        | none => none
        | some heap => some { st with heap := heap, currentTable := none }
      | none => some { st with currentTable := none } := by
    unfold stepLine
    rw [htop]
    simp only
    rw [if_neg (by decide), if_neg (by decide)]
    have ht : tableMatch "]".toList = none := by decide
    rw [ht]
    simp only
    exact if_pos trivial
  rw [hstep]
  cases hct : st.currentTable with
  | none => exact ⟨_, rfl, finish_table_none st⟩
  | some ct =>
    obtain ⟨m, hm, hget⟩ := hs ct hct
    simp only
    rw [heapSet_eq hm, mapSet_same hget, set_getElem?_self hm]
    exact ⟨_, rfl, finish_table_none st⟩

/-! ## C20: nested objects -/

theorem ite_ne_newline {c : Prop} [Decidable c] {a b : Char} (ha : a ≠ Char.ofNat 10)
    (hb : b ≠ Char.ofNat 10) : (if c then a else b) ≠ Char.ofNat 10 := by
  split <;> assumption

theorem digitChar_ne_newline (d : Nat) : Nat.digitChar d ≠ Char.ofNat 10 := by
  unfold Nat.digitChar
  repeat' apply ite_ne_newline
  all_goals decide

theorem toDigitsCore_no_newline (fuel : Nat) :
    ∀ (n : Nat) (ds : List Char), Char.ofNat 10 ∉ ds →
      Char.ofNat 10 ∉ Nat.toDigitsCore 10 fuel n ds := by
  induction fuel with
  | zero => intro n ds h; simpa [Nat.toDigitsCore] using h
  | succ fuel ih =>
    intro n ds h
    have h2 : Char.ofNat 10 ∉ Nat.digitChar (n % 10) :: ds := by
      intro hmem
      rw [List.mem_cons] at hmem
      rcases hmem with hmem | hmem
      · exact digitChar_ne_newline _ hmem.symm
      · exact h hmem
    simp only [Nat.toDigitsCore]
    split
    · exact h2
    · exact ih _ _ h2

theorem nat_toString_no_newline (n : Nat) : Char.ofNat 10 ∉ (toString n).toList := by
  show Char.ofNat 10 ∉ (Nat.repr n).toList
  unfold Nat.repr Nat.toDigits
  exact toDigitsCore_no_newline _ _ _ (List.not_mem_nil _)

theorem int_toString_no_newline (i : Int) : Char.ofNat 10 ∉ (toString i).toList := by
  cases i with
  | ofNat n => exact nat_toString_no_newline n
  | negSucc n =>
    show Char.ofNat 10 ∉ ("-" ++ toString (n + 1)).data
    rw [String.data_append]
    intro hmem
    rw [List.mem_append] at hmem
    rcases hmem with hmem | hmem
    · revert hmem; decide
    · exact nat_toString_no_newline _ hmem

theorem mem_insertEntry {e x : Str × Str} {l : List (Str × Str)}
    (h : x ∈ insertEntry e l) : x = e ∨ x ∈ l := by
  induction l with
  | nil => simp only [insertEntry, List.mem_singleton] at h; exact Or.inl h
  | cons y t ih =>
    simp only [insertEntry] at h
    split at h
    · rw [List.mem_cons] at h; exact h
    · rw [List.mem_cons] at h
      rcases h with h | h
      · exact Or.inr (by rw [h]; exact List.mem_cons_self _ _)
      · rcases ih h with h | h
        · exact Or.inl h
        · exact Or.inr (List.mem_cons_of_mem _ h)

theorem mem_sortEntries {x : Str × Str} {l : List (Str × Str)}
    (h : x ∈ sortEntries l) : x ∈ l := by
  induction l with
  | nil => exact h
  | cons y t ih =>
    simp only [sortEntries] at h
    rcases mem_insertEntry h with h | h
    · rw [h]; exact List.mem_cons_self _ _
    · exact List.mem_cons_of_mem _ (ih h)

theorem join_no_newline {ls : List Str} {sep : Str} (hsep : Char.ofNat 10 ∉ sep)
    (h : ∀ l ∈ ls, Char.ofNat 10 ∉ l) : Char.ofNat 10 ∉ join ls sep := by
  intro hmem
  rcases mem_join hmem with hm | ⟨l, hl, hm⟩
  · exact hsep hm
  · exact h l hl hm

theorem mapText_no_newline {es : List (Str × Str)}
    (h : ∀ e ∈ es, Char.ofNat 10 ∉ e.1 ∧ Char.ofNat 10 ∉ e.2) :
    Char.ofNat 10 ∉ "map[".toList ++ join ((sortEntries es).map entryText) " ".toList ++
      "]".toList := by
  have hj : Char.ofNat 10 ∉ join ((sortEntries es).map entryText) " ".toList := by
    apply join_no_newline (by decide)
    intro l hl
    obtain ⟨e, he, rfl⟩ := List.mem_map.1 hl
    obtain ⟨h1, h2⟩ := h e (mem_sortEntries he)
    unfold entryText
    intro hmem
    simp only [List.mem_append] at hmem
    rcases hmem with (hmem | hmem) | hmem
    · exact h1 hmem
    · revert hmem; decide
    · exact h2 hmem
  intro hmem
  simp only [List.mem_append] at hmem
  rcases hmem with (hmem | hmem) | hmem
  · revert hmem; decide
  · exact hj hmem
  · revert hmem; decide

mutual
theorem sprintV_no_newline {F : Type} (L : FloatLib F) (hL : L.NoNewline) :
    ∀ v : Value F, noNewlineVal v = true → Char.ofNat 10 ∉ sprintV L v
  | .null, _ => by simp only [sprintV]; decide
  | .bool b, _ => by cases b <;> simp only [sprintV] <;> decide
  | .num x, _ => by simp only [sprintV]; exact (hL x).2
  | .int i, _ => by simp only [sprintV]; exact int_toString_no_newline i
  | .str s, h => by
    simp only [noNewlineVal, decide_eq_true_eq] at h
    simp only [sprintV]; exact h
  | .arr xs, h => by
    simp only [noNewlineVal] at h
    have hj := @join_no_newline _ " ".toList (by decide)
      (sprintList_no_newline L hL xs h)
    simp only [sprintV]
    intro hmem
    simp only [List.mem_append] at hmem
    rcases hmem with (hmem | hmem) | hmem
    · revert hmem; decide
    · exact hj hmem
    · revert hmem; decide
  | .obj kvs, h => by
    simp only [noNewlineVal] at h
    simp only [sprintV]
    exact mapText_no_newline (sprintEntries_no_newline L hL kvs h)
  | .table rows, h => by
    simp only [noNewlineVal] at h
    have hj := @join_no_newline _ " ".toList (by decide)
      (sprintRows_no_newline L hL rows h)
    simp only [sprintV]
    intro hmem
    simp only [List.mem_append] at hmem
    rcases hmem with (hmem | hmem) | hmem
    · revert hmem; decide
    · exact hj hmem
    · revert hmem; decide
theorem sprintList_no_newline {F : Type} (L : FloatLib F) (hL : L.NoNewline) :
    ∀ vs : List (Value F), noNewlineList vs = true →
      ∀ s ∈ sprintList L vs, Char.ofNat 10 ∉ s
  | [], _ => by intro s hs; simp only [sprintList] at hs; cases hs
  | v :: vs, h => by
    simp only [noNewlineList, Bool.and_eq_true] at h
    intro s hs
    simp only [sprintList, List.mem_cons] at hs
    rcases hs with hs | hs
    · rw [hs]; exact sprintV_no_newline L hL v h.1
    · exact sprintList_no_newline L hL vs h.2 s hs
theorem sprintEntries_no_newline {F : Type} (L : FloatLib F) (hL : L.NoNewline) :
    ∀ kvs : List (Str × Value F), noNewlineObj kvs = true →
      ∀ e ∈ sprintEntries L kvs, Char.ofNat 10 ∉ e.1 ∧ Char.ofNat 10 ∉ e.2
  | [], _ => by intro e he; simp only [sprintEntries] at he; cases he
  | (k, v) :: kvs, h => by
    simp only [noNewlineObj, Bool.and_eq_true, decide_eq_true_eq] at h
    intro e he
    simp only [sprintEntries, List.mem_cons] at he
    rcases he with he | he
    · rw [he]; exact ⟨h.1.1, sprintV_no_newline L hL v h.1.2⟩
    · exact sprintEntries_no_newline L hL kvs h.2 e he
theorem sprintRows_no_newline {F : Type} (L : FloatLib F) (hL : L.NoNewline) :
    ∀ rs : List (List (Str × Value F)), noNewlineRows rs = true →
      ∀ s ∈ sprintRows L rs, Char.ofNat 10 ∉ s
  | [], _ => by intro s hs; simp only [sprintRows] at hs; cases hs
  | r :: rs, h => by
    simp only [noNewlineRows, Bool.and_eq_true] at h
    intro s hs
    simp only [sprintRows, List.mem_cons] at hs
    rcases hs with hs | hs
    · rw [hs]; exact mapText_no_newline (sprintEntries_no_newline L hL r h.1)
    · exact sprintRows_no_newline L hL rs h.2 s hs
end

mutual
theorem serializeValue_no_newline {F : Type} (L : FloatLib F) (hL : L.NoNewline) :
    ∀ v : Value F, noNewlineVal v = true → Char.ofNat 10 ∉ serializeValue L v
  | .null, h => by simp only [serializeValue]; exact sprintV_no_newline L hL _ h
  | .bool b, _ => by cases b <;> simp only [serializeValue] <;> decide
  | .num x, _ => by
    simp only [serializeValue]
    split
    · exact (hL x).1
    · exact (hL x).2
  | .int i, _ => by simp only [serializeValue]; exact int_toString_no_newline i
  | .str s, h => by
    simp only [noNewlineVal, decide_eq_true_eq] at h
    simp only [serializeValue]
    intro hmem
    simp only [List.mem_append, List.mem_singleton] at hmem
    rcases hmem with (hmem | hmem) | hmem
    · revert hmem; decide
    · exact h hmem
    · revert hmem; decide
  | .arr xs, h => by
    simp only [noNewlineVal] at h
    have hj := @join_no_newline _ ", ".toList (by decide)
      (serializeList_no_newline L hL xs h)
    simp only [serializeValue]
    intro hmem
    simp only [List.mem_append] at hmem
    rcases hmem with (hmem | hmem) | hmem
    · revert hmem; decide
    · exact hj hmem
    · revert hmem; decide
  | .obj kvs, h => by simp only [serializeValue]; exact sprintV_no_newline L hL _ h
  | .table rows, h => by simp only [serializeValue]; exact sprintV_no_newline L hL _ h
theorem serializeList_no_newline {F : Type} (L : FloatLib F) (hL : L.NoNewline) :
    ∀ vs : List (Value F), noNewlineList vs = true →
      ∀ s ∈ serializeList L vs, Char.ofNat 10 ∉ s
  | [], _ => by intro s hs; simp only [serializeList] at hs; cases hs
  | v :: vs, h => by
    simp only [noNewlineList, Bool.and_eq_true] at h
    intro s hs
    simp only [serializeList, List.mem_cons] at hs
    rcases hs with hs | hs
    · rw [hs]; exact serializeValue_no_newline L hL v h.1
    · exact serializeList_no_newline L hL vs h.2 s hs
end

theorem flatLines_append (a b : List Str) : flatLines (a ++ b) = flatLines a ++ flatLines b := by
  induction a with
  | nil => rfl
  | cons x t ih =>
    show split x _ ++ flatLines (t ++ b) = _
    rw [ih]
    simp only [flatLines, List.append_assoc]

theorem indentLines_append (a b : List Str) :
    indentLines (a ++ b) = indentLines a ++ indentLines b := by
  unfold indentLines
  rw [List.map_append]

theorem flatLines_ne_nil {ls : List Str} (h : ls ≠ []) : flatLines ls ≠ [] := by
  cases ls with
  | nil => exact absurd rfl h
  | cons x t =>
    simp only [flatLines]
    intro hnil
    exact split_ne_nil x _ (List.append_eq_nil.1 hnil).1

theorem flatLines_no_newline {ls : List Str} (h : ∀ l ∈ ls, Char.ofNat 10 ∉ l) :
    flatLines ls = ls := by
  induction ls with
  | nil => rfl
  | cons x t ih =>
    simp only [flatLines]
    rw [split_no_sep_self (h x (List.mem_cons_self _ _)),
      ih (fun l hl => h l (List.mem_cons_of_mem _ hl))]
    rfl

theorem join_append_ne {a b : List Str} (sep : Str) (ha : a ≠ []) (hb : b ≠ []) :
    join (a ++ b) sep = join a sep ++ sep ++ join b sep := by
  induction a with
  | nil => exact absurd rfl ha
  | cons x t ih =>
    cases t with
    | nil =>
      cases b with
      | nil => exact absurd rfl hb
      | cons y r =>
        rw [List.singleton_append, join_cons_cons, join_singleton, List.append_assoc]
    | cons x2 t2 =>
      rw [List.cons_append, List.cons_append, join_cons_cons, ← List.cons_append,
        ih (by simp), join_cons_cons]
      simp only [List.append_assoc]

theorem join_flatLines (ls : List Str) :
    join (flatLines ls) "\n".toList = join ls "\n".toList := by
  induction ls with
  | nil => rfl
  | cons x t ih =>
    have hs : "\n".toList = [Char.ofNat 10] := rfl
    cases t with
    | nil =>
      simp only [flatLines, List.append_nil]
      rw [join_singleton, hs, join_split]
    | cons y r =>
      simp only [flatLines] at ih ⊢
      rw [join_append_ne _ (split_ne_nil x _)
        (by intro hnil; exact split_ne_nil y _ (List.append_eq_nil.1 hnil).1), ih,
        join_cons_cons, hs, join_split, List.append_assoc]

theorem split_join_lines {ls : List Str} (h : ls ≠ []) :
    split (join ls "\n".toList) (Char.ofNat 10) = flatLines ls := by
  induction ls with
  | nil => exact absurd rfl h
  | cons x t ih =>
    cases t with
    | nil => rw [join_singleton]; simp only [flatLines, List.append_nil]
    | cons y r =>
      have hs : "\n".toList = [Char.ofNat 10] := rfl
      rw [join_cons_cons, hs, List.singleton_append,
        split_append_sep_general, ← hs, ih (by simp)]
      rfl

theorem padOf_succ (n : Nat) : padOf (n + 1) = "  ".toList ++ padOf n := by
  unfold padOf
  rw [List.replicate_succ, List.flatten_cons]

theorem plain_indent {A B : List Str} (hA : A = indentLines B)
    (hB : ∀ l ∈ B, Char.ofNat 10 ∉ l) : flatLines A = indentLines (flatLines B) := by
  have hA2 : ∀ l ∈ A, Char.ofNat 10 ∉ l := by
    intro l hl
    rw [hA] at hl
    obtain ⟨b, hb, rfl⟩ := List.mem_map.1 hl
    intro hmem
    rw [List.mem_append] at hmem
    rcases hmem with hmem | hmem
    · revert hmem; decide
    · exact hB b hb hmem
  rw [flatLines_no_newline hA2, flatLines_no_newline hB, hA]

theorem noNewlineObj_mem {F : Type} {row : Obj F} (h : noNewlineObj row = true) :
    ∀ e ∈ row, Char.ofNat 10 ∉ e.1 ∧ noNewlineVal e.2 = true := by
  induction row with
  | nil => intro e he; cases he
  | cons x t ih =>
    obtain ⟨k, v⟩ := x
    simp only [noNewlineObj, Bool.and_eq_true, decide_eq_true_eq] at h
    intro e he
    rw [List.mem_cons] at he
    rcases he with he | he
    · rw [he]; exact ⟨h.1.1, h.1.2⟩
    · exact ih h.2 e he

theorem noNewlineRows_mem {F : Type} {rows : List (Obj F)} (h : noNewlineRows rows = true) :
    ∀ row ∈ rows, noNewlineObj row = true := by
  induction rows with
  | nil => intro e he; cases he
  | cons x t ih =>
    simp only [noNewlineRows, Bool.and_eq_true] at h
    intro e he
    rw [List.mem_cons] at he
    rcases he with he | he
    · rw [he]; exact h.1
    · exact ih h.2 e he

theorem objectRows_noNewline {F : Type} {xs : List (Value F)} (h : noNewlineList xs = true) :
    ∀ row ∈ objectRows xs, noNewlineObj row = true := by
  induction xs with
  | nil => intro e he; cases he
  | cons x t ih =>
    simp only [noNewlineList, Bool.and_eq_true] at h
    intro e he
    cases x with
    | obj o =>
      simp only [objectRows, List.mem_cons] at he
      rcases he with he | he
      · rw [he]
        have := h.1
        simp only [noNewlineVal] at this
        exact this
      · exact ih h.2 e he
    | null => exact ih h.2 e (by simpa [objectRows] using he)
    | bool b => exact ih h.2 e (by simpa [objectRows] using he)
    | num x => exact ih h.2 e (by simpa [objectRows] using he)
    | int i => exact ih h.2 e (by simpa [objectRows] using he)
    | str s => exact ih h.2 e (by simpa [objectRows] using he)
    | arr ys => exact ih h.2 e (by simpa [objectRows] using he)
    | table rows => exact ih h.2 e (by simpa [objectRows] using he)

theorem cellOf_noNewline {F : Type} {row : Obj F} (h : noNewlineObj row = true) (col : Str) :
    noNewlineVal (cellOf row col) = true := by
  unfold cellOf
  induction row with
  | nil => rfl
  | cons x t ih =>
    obtain ⟨k, v⟩ := x
    simp only [noNewlineObj, Bool.and_eq_true, decide_eq_true_eq] at h
    simp only [mapGet]
    split
    · exact h.1.2
    · exact ih h.2

theorem rowLine_no_newline {F : Type} (L : FloatLib F) (hL : L.NoNewline) {pad : Str}
    (hpad : Char.ofNat 10 ∉ pad) (columns : List Str) {row : Obj F}
    (h : noNewlineObj row = true) : Char.ofNat 10 ∉ rowLine L pad columns row := by
  have hj : Char.ofNat 10 ∉
      join (columns.map (fun col => serializeValue L (cellOf row col))) ", ".toList := by
    apply join_no_newline (by decide)
    intro l hl
    obtain ⟨c, _, rfl⟩ := List.mem_map.1 hl
    exact serializeValue_no_newline L hL _ (cellOf_noNewline h c)
  unfold rowLine
  intro hmem
  simp only [List.mem_append] at hmem
  rcases hmem with (hmem | hmem) | hmem
  · exact hpad hmem
  · revert hmem; decide
  · exact hj hmem

theorem tableHeader_no_newline {pad key : Str} {columns : List Str}
    (hpad : Char.ofNat 10 ∉ pad) (hkey : Char.ofNat 10 ∉ key)
    (hcols : ∀ c ∈ columns, Char.ofNat 10 ∉ c) :
    Char.ofNat 10 ∉ tableHeader pad key columns := by
  have hj : Char.ofNat 10 ∉ join columns ", ".toList := join_no_newline (by decide) hcols
  unfold tableHeader
  intro hmem
  simp only [List.mem_append] at hmem
  rcases hmem with (((hmem | hmem) | hmem) | hmem) | hmem
  · exact hpad hmem
  · exact hkey hmem
  · revert hmem; decide
  · exact hj hmem
  · revert hmem; decide

theorem tableHeader_indent (pad key : Str) (columns : List Str) :
    tableHeader ("  ".toList ++ pad) key columns = "  ".toList ++ tableHeader pad key columns := by
  simp only [tableHeader, List.append_assoc]

theorem rowLine_indent {F : Type} (L : FloatLib F) (pad : Str) (columns : List Str)
    (row : Obj F) :
    rowLine L ("  ".toList ++ pad) columns row = "  ".toList ++ rowLine L pad columns row := by
  simp only [rowLine, List.append_assoc]

/-- The lines of a table at one more level of indentation. -/
theorem tableLines_indent {F : Type} (L : FloatLib F) (hL : L.NoNewline) {pad key : Str}
    (hpad : Char.ofNat 10 ∉ pad) (hkey : Char.ofNat 10 ∉ key) {columns : List Str}
    (hcols : ∀ c ∈ columns, Char.ofNat 10 ∉ c) {rows : List (Obj F)}
    (hrows : ∀ row ∈ rows, noNewlineObj row = true) :
    flatLines ([tableHeader ("  ".toList ++ pad) key columns] ++
        rows.map (rowLine L ("  ".toList ++ pad) columns) ++ [("  ".toList ++ pad) ++ "]".toList]) =
      indentLines (flatLines ([tableHeader pad key columns] ++
        rows.map (rowLine L pad columns) ++ [pad ++ "]".toList])) := by
  apply plain_indent
  · simp only [indentLines, List.map_append, List.map_cons, List.map_nil, List.map_map,
      tableHeader_indent, List.append_assoc]
    rfl
  · intro l hl
    simp only [List.mem_append, List.mem_singleton, List.mem_map] at hl
    rcases hl with (hl | ⟨row, hrow, hl⟩) | hl
    · rw [hl]; exact tableHeader_no_newline hpad hkey hcols
    · rw [← hl]; exact rowLine_no_newline L hL hpad columns (hrows row hrow)
    · rw [hl]
      intro hmem
      rw [List.mem_append] at hmem
      rcases hmem with hmem | hmem
      · exact hpad hmem
      · revert hmem; decide

theorem indent_combine {A B A1 B1 : List Str} (h1 : flatLines A = indentLines (flatLines B))
    (h2 : flatLines A1 = indentLines (flatLines B1)) :
    flatLines (A ++ A1) = indentLines (flatLines (B ++ B1)) := by
  rw [flatLines_append, flatLines_append, indentLines_append, h1, h2]

theorem kvLine_indent {F : Type} (L : FloatLib F) (hL : L.NoNewline) (n : Nat) {k : Str}
    (hk : Char.ofNat 10 ∉ k) {v : Value F} (hv : noNewlineVal v = true) :
    flatLines [padOf (n + 1) ++ k ++ ": ".toList ++ serializeValue L v] =
      indentLines (flatLines [padOf n ++ k ++ ": ".toList ++ serializeValue L v]) := by
  apply plain_indent
  · simp only [indentLines, List.map_cons, List.map_nil, padOf_succ, List.append_assoc]
  · intro l hl
    rw [List.mem_singleton] at hl
    rw [hl]
    intro hmem
    simp only [List.mem_append] at hmem
    rcases hmem with ((hmem | hmem) | hmem) | hmem
    · exact padOf_no_newline n hmem
    · exact hk hmem
    · revert hmem; decide
    · exact serializeValue_no_newline L hL v hv hmem

theorem singleLine_indent {pad s : Str} (hpad : Char.ofNat 10 ∉ pad) (hs : Char.ofNat 10 ∉ s) :
    flatLines [("  ".toList ++ pad) ++ s] = indentLines (flatLines [pad ++ s]) := by
  apply plain_indent
  · simp only [indentLines, List.map_cons, List.map_nil, List.append_assoc]
  · intro l hl
    rw [List.mem_singleton] at hl
    rw [hl]
    intro hmem
    rw [List.mem_append] at hmem
    rcases hmem with hmem | hmem
    · exact hpad hmem
    · exact hs hmem

theorem encodeLines_join_ne_nil {F : Type} (L : FloatLib F) {O : Obj F} (h : O ≠ []) (n : Nat) :
    encodeLines L O n ≠ [] ∧ join (encodeLines L O n) "\n".toList ≠ [] := by
  cases O with
  | nil => exact absurd rfl h
  | cons e rest =>
    obtain ⟨k, v⟩ := e
    obtain ⟨l, hl, hne⟩ := encodeLines_cons_line L k v rest n
    exact ⟨List.ne_nil_of_mem hl, join_ne_nil ⟨l, hl, hne⟩⟩

theorem nested_indent {F : Type} (L : FloatLib F) (O1 : Obj F) (n : Nat)
    (ih : flatLines (encodeLines L O1 (n + 1)) = indentLines (flatLines (encodeLines L O1 n))) :
    flatLines (if join (encodeLines L O1 (n + 1)) "\n".toList ≠ [] then
        [join (encodeLines L O1 (n + 1)) "\n".toList] else []) =
      indentLines (flatLines (if join (encodeLines L O1 n) "\n".toList ≠ [] then
        [join (encodeLines L O1 n) "\n".toList] else [])) := by
  by_cases hO : O1 = []
  · subst hO
    rfl
  · obtain ⟨h1, h2⟩ := encodeLines_join_ne_nil L hO (n + 1)
    obtain ⟨h3, h4⟩ := encodeLines_join_ne_nil L hO n
    rw [if_pos h2, if_pos h4]
    simp only [flatLines, List.append_nil]
    rw [split_join_lines h1, split_join_lines h3, ih]

/-- The lines `encodeValue` prints for an object at one more level of indentation are
its lines, each prefixed with two spaces. -/
theorem encodeLines_indent {F : Type} (L : FloatLib F) (hL : L.NoNewline) :
    ∀ (O : Obj F) (n : Nat), noNewlineObj O = true →
      flatLines (encodeLines L O (n + 1)) = indentLines (flatLines (encodeLines L O n))
  | [], _, _ => rfl
  | (k, v) :: rest, n, h => by
    simp only [noNewlineObj, Bool.and_eq_true, decide_eq_true_eq] at h
    obtain ⟨⟨hk, hv⟩, hrest⟩ := h
    have ihrest := encodeLines_indent L hL rest n hrest
    have hpad := padOf_no_newline n
    have kv : ∀ w : Value F, noNewlineVal w = true →
        flatLines ([padOf (n + 1) ++ k ++ ": ".toList ++ serializeValue L w] ++
          encodeLines L rest (n + 1)) =
        indentLines (flatLines ([padOf n ++ k ++ ": ".toList ++ serializeValue L w] ++
          encodeLines L rest n)) :=
      fun w hw => indent_combine (kvLine_indent L hL n hk hw) ihrest
    cases v with
    | null => simpa only [encodeLines] using kv _ hv
    | bool b => simpa only [encodeLines] using kv _ hv
    | num x => simpa only [encodeLines] using kv _ hv
    | int i => simpa only [encodeLines] using kv _ hv
    | str s => simpa only [encodeLines] using kv _ hv
    | obj O1 =>
      have hO1 : noNewlineObj O1 = true := by simpa only [noNewlineVal] using hv
      have ih1 := encodeLines_indent L hL O1 (n + 1) hO1
      rw [encodeLines_obj, encodeLines_obj]
      apply indent_combine
      · rw [padOf_succ]
        exact singleLine_indent hpad (by
          intro hmem
          rw [List.mem_append] at hmem
          rcases hmem with hmem | hmem
          · exact hk hmem
          · revert hmem; decide)
      · apply indent_combine (nested_indent L O1 (n + 1) ih1)
        apply indent_combine _ ihrest
        rw [padOf_succ]
        exact singleLine_indent hpad (by decide)
    | table rows =>
      have hrows := noNewlineRows_mem (by simpa only [noNewlineVal] using hv : noNewlineRows rows = true)
      cases rows with
      | nil =>
        simp only [encodeLines]
        apply indent_combine _ ihrest
        have e : ∀ p : Str, [p ++ k ++ ": table() [".toList, p ++ "]".toList] =
            [p ++ (k ++ ": table() [".toList)] ++ [p ++ "]".toList] := by
          intro p; simp only [List.append_assoc, List.singleton_append]
        rw [e, e, padOf_succ]
        apply indent_combine
        · exact singleLine_indent hpad (by
            intro hmem
            rw [List.mem_append] at hmem
            rcases hmem with hmem | hmem
            · exact hk hmem
            · revert hmem; decide)
        · exact singleLine_indent hpad (by decide)
      | cons first more =>
        simp only [encodeLines]
        apply indent_combine _ ihrest
        rw [padOf_succ]
        exact tableLines_indent L hL hpad hk
          (fun c hc => by
            obtain ⟨e, he, rfl⟩ := List.mem_map.1 hc
            exact (noNewlineObj_mem (hrows first (List.mem_cons_self _ _)) e he).1)
          hrows
    | arr xs =>
      have hxs : noNewlineList xs = true := by simpa only [noNewlineVal] using hv
      cases xs with
      | nil => simpa only [encodeLines] using kv _ hv
      | cons e es =>
        cases e with
        | obj first =>
          have hrows := objectRows_noNewline hxs
          simp only [encodeLines]
          apply indent_combine _ ihrest
          rw [padOf_succ]
          exact tableLines_indent L hL hpad hk
            (fun c hc => by
              obtain ⟨e, he, rfl⟩ := List.mem_map.1 hc
              exact (noNewlineObj_mem (hrows first (by simp [objectRows])) e he).1)
            hrows
        | null => simpa only [encodeLines] using kv _ hv
        | bool b => simpa only [encodeLines] using kv _ hv
        | num x => simpa only [encodeLines] using kv _ hv
        | int i => simpa only [encodeLines] using kv _ hv
        | str s => simpa only [encodeLines] using kv _ hv
        | arr ys => simpa only [encodeLines] using kv _ hv
        | table rows => simpa only [encodeLines] using kv _ hv
termination_by O => sizeOf O

theorem join_three {a b : Str} {M : List Str} (hM : M ≠ []) :
    join ([a] ++ M ++ [b]) "\n".toList =
      a ++ "\n".toList ++ join M "\n".toList ++ "\n".toList ++ b := by
  rw [join_append_ne _ (by simp) (by simp), join_append_ne _ (by simp) hM, join_singleton,
    join_singleton]

/-- C20: for every key `k` and object `O` whose keys and Strings hold no newline,
`Encode` of the object with the single key `k` holding `O` is the line `k` + space +
opening brace, then every line of `Encode O` prefixed with two spaces, then the line of
the closing brace; for the empty `O` it is exactly these two lines. -/
theorem C20_nested_object {F : Type} (L : FloatLib F) (hL : L.NoNewline) (k : Str)
    (O : Obj F) (hO : noNewlineObj O = true) :
    Encode L [(k, .obj O)] =
      join ([k ++ " \x7b".toList] ++ indentLines (textLines (Encode L O)) ++ ["\x7d".toList])
        "\n".toList ∧
    Encode L [(k, .obj ([] : Obj F))] =
      join [k ++ " \x7b".toList, "\x7d".toList] "\n".toList := by
  have hE : ∀ O1 : Obj F, Encode L [(k, .obj O1)] =
      join ([k ++ " \x7b".toList] ++
        ((if join (encodeLines L O1 1) "\n".toList ≠ [] then
          [join (encodeLines L O1 1) "\n".toList] else []) ++ ["\x7d".toList])) "\n".toList := by
    intro O1
    have h0 : Encode L [(k, .obj O1)] = join (encodeLines L [(k, .obj O1)] 0) "\n".toList := by
      simp only [Encode, encodeValue]
    rw [h0, encodeLines_obj, encodeLines_nil]
    rfl
  constructor
  · rw [hE]
    by_cases hne : O = []
    · subst hne
      rfl
    · obtain ⟨h1, h2⟩ := encodeLines_join_ne_nil L hne 1
      obtain ⟨h3, h4⟩ := encodeLines_join_ne_nil L hne 0
      have hEO : Encode L O = join (encodeLines L O 0) "\n".toList := by
        simp only [Encode, encodeValue]
      have hlines : indentLines (textLines (Encode L O)) = flatLines (encodeLines L O 1) := by
        unfold textLines
        rw [hEO, if_neg h4, split_join_lines h3]
        exact (encodeLines_indent L hL O 0 hO).symm
      rw [if_pos h2, hlines, ← List.append_assoc, join_three (by simp),
        join_three (flatLines_ne_nil h1), join_singleton, join_flatLines]
  · rw [hE]
    rfl

theorem sampleLib_noNewline : sampleLib.NoNewline := by
  intro x
  have h := sampleLib_lawful.fmt_chars x
  have hn : numText sampleLib x = natText x := by simp [numText, sampleLib]
  rw [hn] at h
  have key : Char.ofNat 10 ∉ natText x := by
    intro hmem
    have := h _ hmem
    revert this; decide
  exact ⟨key, key⟩

/-- The nested block of `TestEncodeNestedBlocks`. -/
theorem C20_nested_object_witness :
    sampleLib.NoNewline ∧
    noNewlineObj (F := Nat) [("street".toList, .str "123 Main St".toList),
      ("city".toList, .str "New York".toList)] = true ∧
    Encode sampleLib [("address".toList,
        .obj [("street".toList, .str "123 Main St".toList),
          ("city".toList, .str "New York".toList)])] =
      "address \x7b\n  street: \"123 Main St\"\n  city: \"New York\"\n\x7d".toList :=
  ⟨sampleLib_noNewline, by decide,
    (C20_nested_object sampleLib sampleLib_noNewline "address".toList
      [("street".toList, .str "123 Main St".toList), ("city".toList, .str "New York".toList)]
      (by decide)).1⟩

/-! ## C21, C22: tables in `Encode` -/

/-- C22: for every key `k` and table with a first row, `Encode` prints the header
`k: table(` + the columns of the first row joined by comma-space + `) [`, then one line
per row, in row order, made of two spaces and the serialised cells of the row in the
header's column order joined by comma-space, then `]`; for the table without rows it
prints exactly the two lines `k: table() [` and `]`. -/
theorem C22_table_encoding {F : Type} (L : FloatLib F) (k : Str) :
    (∀ (first : Obj F) (rest : List (Obj F)),
      Encode L [(k, .table (first :: rest))] =
        join ([k ++ ": table(".toList ++ join (first.map Prod.fst) ", ".toList ++ ") [".toList] ++
          (first :: rest).map (fun row => "  ".toList ++
            join ((first.map Prod.fst).map (fun c => serializeValue L (cellOf row c)))
              ", ".toList) ++
          ["]".toList]) "\n".toList) ∧
    Encode L [(k, .table ([] : List (Obj F)))] =
      join [k ++ ": table() [".toList, "]".toList] "\n".toList := by
  constructor
  · intro first rest
    have h0 : Encode L [(k, .table (first :: rest))] =
        join (encodeLines L [(k, .table (first :: rest))] 0) "\n".toList := by
      simp only [Encode, encodeValue]
    rw [h0, encodeLines_table, encodeLines_nil]
    simp only [tableHeader, padOf, List.replicate_zero, List.flatten_nil,
      List.nil_append, List.append_nil, List.append_assoc] <;> rfl
  · rfl

theorem objectRows_all {F : Type} (xs : List (Value F)) (h : ∀ x ∈ xs, isObjVal x = true) :
    (objectRows xs).map Value.obj = xs := by
  induction xs with
  | nil => rfl
  | cons x t ih =>
    have hx := h x (List.mem_cons_self _ _)
    have ht := ih (fun y hy => h y (List.mem_cons_of_mem _ hy))
    cases x with
    | obj o => simp only [objectRows, List.map_cons, ht]
    | null => simp [isObjVal] at hx
    | bool b => simp [isObjVal] at hx
    | num x => simp [isObjVal] at hx
    | int i => simp [isObjVal] at hx
    | str s => simp [isObjVal] at hx
    | arr ys => simp [isObjVal] at hx
    | table rows => simp [isObjVal] at hx

/-- C21 (amended): a non-empty array is printed as a table exactly when its first element
is an object: the header with the columns of that object, then one line for each element
that is an object (the other elements are skipped; when all elements are objects these
are all the elements), then `]`.  A non-empty array whose first element is not an object
is printed on the one line `key: [v1, v2, ...]` holding every element. -/
theorem C21_table_inference {F : Type} (L : FloatLib F) (k : Str) (e : Value F)
    (es : List (Value F)) :
    (∀ first : Obj F, e = .obj first →
      Encode L [(k, .arr (e :: es))] =
        join ([k ++ ": table(".toList ++ join (first.map Prod.fst) ", ".toList ++ ") [".toList] ++
          (objectRows (e :: es)).map (fun row => "  ".toList ++
            join ((first.map Prod.fst).map (fun c => serializeValue L (cellOf row c)))
              ", ".toList) ++
          ["]".toList]) "\n".toList ∧
      ((∀ x ∈ e :: es, isObjVal x = true) → (objectRows (e :: es)).map Value.obj = e :: es)) ∧
    (isObjVal e = false →
      Encode L [(k, .arr (e :: es))] =
        k ++ ": [".toList ++ join ((e :: es).map (serializeValue L)) ", ".toList ++ "]".toList) := by
  have h0 : Encode L [(k, .arr (e :: es))] =
      join (encodeLines L [(k, .arr (e :: es))] 0) "\n".toList := by
    simp only [Encode, encodeValue]
  have hkv : ∀ w : Value F, join [padOf 0 ++ k ++ ": ".toList ++ serializeValue L (.arr (w :: es))]
      "\n".toList =
      k ++ ": [".toList ++ join ((w :: es).map (serializeValue L)) ", ".toList ++ "]".toList := by
    intro w
    rw [join_singleton, serializeValue_arr]
    simp only [padOf, List.replicate_zero, List.flatten_nil, List.nil_append, List.append_assoc]
      <;> rfl
  constructor
  · intro first he
    subst he
    refine ⟨?_, objectRows_all _⟩
    rw [h0]
    simp only [encodeLines, tableHeader, padOf, List.replicate_zero, List.flatten_nil,
      List.nil_append, List.append_nil, List.append_assoc] <;> rfl
  · intro he
    rw [h0]
    cases e with
    | obj o => simp [isObjVal] at he
    | null => simpa only [encodeLines, List.append_nil] using hkv _
    | bool b => simpa only [encodeLines, List.append_nil] using hkv _
    | num x => simpa only [encodeLines, List.append_nil] using hkv _
    | int i => simpa only [encodeLines, List.append_nil] using hkv _
    | str s => simpa only [encodeLines, List.append_nil] using hkv _
    | arr ys => simpa only [encodeLines, List.append_nil] using hkv _
    | table rows => simpa only [encodeLines, List.append_nil] using hkv _

/-- An array of two objects is printed as a table with one line for each. -/
theorem C21_table_inference_witness :
    Encode sampleLib [("users".toList, .arr [.obj [("name".toList, .str "Alice".toList)],
      .obj [("name".toList, .str "Bob".toList)]])] =
      "users: table(name) [\n  \"Alice\"\n  \"Bob\"\n]".toList ∧
    Encode sampleLib [("tags".toList, .arr [.str "go".toList, .obj []])] =
      "tags: [\"go\", map[]]".toList :=
  ⟨((C21_table_inference sampleLib "users".toList (.obj [("name".toList, .str "Alice".toList)])
      [.obj [("name".toList, .str "Bob".toList)]]).1 _ rfl).1,
    (C21_table_inference sampleLib "tags".toList (.str "go".toList) [.obj []]).2 rfl⟩

/-- Counterexample to C21 as stated: the second element of the array is not an object,
yet the array is printed as a table, because its first element is one; the table has one
row line for the two elements, and the element `5` is not printed at all. -/
theorem C21_table_inference_counterexample :
    isObjVal (Value.num 5 : Value Nat) = false ∧
    Encode sampleLib [("k".toList, .arr [.obj [("a".toList, .num 1)], .num 5])] =
      "k: table(a) [\n  1\n]".toList := by
  exact ⟨rfl, rfl⟩

/-! ## C27: the table-open line without columns -/

theorem decodeText_kvDoc {F : Type} (L : FloatLib F) {kvs : List (Str × Str)}
    (h : ∀ kv ∈ kvs, isKvLine kv) :
    decodeText L (join (kvs.map kvText) "\n".toList) = Outcome.ok (assignAll L kvs []) := by
  rw [decodeText_eq, normLines_kvDoc h]
  have hinit : (initState : State F) = ⟨[frameOf []], [0], none⟩ := rfl
  rw [hinit, runLines_kvLines L kvs h, finish_frameOf]

theorem decodeText_append_end {F : Type} (L : FloatLib F) {t : Str}
    (h : noBlockInTable false (normLines t) = true) :
    decodeText L (t ++ "\n]".toList) = decodeText L t := by
  have hs : "\n]".toList = Char.ofNat 10 :: "]".toList := rfl
  have hn : normLines "]".toList = ["]".toList] := by decide
  rw [decodeText_eq, decodeText_eq, hs, normLines_append_newline, hn, runLines_append]
  obtain ⟨st, hrun, hwf, hsync⟩ :=
    runLines_Synced L (normLines t) (initState : State F) initState_WF initState_Synced h
  rw [hrun]
  simp only
  obtain ⟨st1, hstep, hfin⟩ := stepLine_end_Synced L hwf hsync
  rw [runLines_cons, hstep]
  simp only [runLines]
  exact hfin

theorem tableMatch_no_columns {k : Str} (hk : isIdent k) :
    tableMatch (k ++ ": table() [".toList) = none := by
  have hs : ": table() [".toList = Char.ofNat 58 :: " table() [".toList := rfl
  unfold tableMatch
  simp only
  rw [hs, takeWhile_append_stop _ hk.2 (by decide), dropWhile_append_stop _ hk.2 (by decide)]
  rw [if_neg hk.1]
  simp only
  rw [if_neg (by decide)]
  have hd : " table() [".toList.dropWhile isReSpace = "table() [".toList := by decide
  rw [hd]
  rw [if_neg (by decide)]
  have hc : ("table() [".toList.drop 6).takeWhile (fun c => decide (c ≠ Char.ofNat 41)) = [] := by
    decide
  rw [hc]
  simp

theorem kvLine_no_columns {k : Str} (hk : isIdent k) : isKvLine (k, "table() [".toList) := by
  have hlast : (kvText (k, "table() [".toList)).getLast? = some (Char.ofNat 91) := by
    unfold kvText
    have e : k ++ Char.ofNat 58 :: Char.ofNat 32 :: "table() [".toList =
        (k ++ ": table() ".toList) ++ [Char.ofNat 91] := by
      simp only [List.append_assoc]
      rfl
    rw [e, List.getLast?_concat]
  have htrim : trimSpace (kvText (k, "table() [".toList)) = kvText (k, "table() [".toList) := by
    apply trimSpace_eq_self
    · intro a ha
      obtain ⟨c, t, hkt, hc⟩ := ident_head hk
      unfold kvText at ha
      simp only [hkt, List.cons_append, List.head?_cons, Option.some.injEq] at ha
      rw [← ha]
      exact (wordChar_facts hc).1
    · intro b hb
      rw [hlast] at hb
      injection hb with hb
      rw [← hb]; decide
  have v1 : trimSpace "table() [".toList ≠ [] := by decide
  have v2 : Char.ofNat 10 ∉ "table() [".toList := by decide
  have v3 : Char.ofNat 35 ∉ "table() [".toList := by decide
  have v4 : index "table() [".toList "//".toList < 0 := by decide
  refine ⟨hk, v1, v2, v3, v4, ?_, ?_⟩
  · rw [htrim]
    exact hasSuffix_brace_false (by rw [hlast]; decide)
  · rw [htrim]
    exact tableMatch_no_columns hk

theorem parseValue_no_columns {F : Type} (L : FloatLib F)
    (hL : L.parseFloat "table() [".toList = none) :
    parseValue L "table() [".toList = .str "table() [".toList := by
  rw [parseValue_eq]
  have ht : trimSpace "table() [".toList = "table() [".toList := by decide
  simp only [ht, hL]
  rw [if_neg (by decide), if_neg (by decide)]
  have h3 : enclosed "table() [".toList (Char.ofNat 34) (Char.ofNat 34) = false := by decide
  have h4 : enclosed "table() [".toList (Char.ofNat 91) (Char.ofNat 93) = false := by decide
  simp only [h3, h4, Bool.false_eq_true, if_false]

/-- C27: for a library that does not read `table() [` as a number, and for every
identifier `k`, `Decode` of the two lines `k: table() [` and `]`, which are what `Encode`
prints for an empty table under `k`, maps `k` to the String `table() [`. -/
theorem C27_empty_table_header {F : Type} (L : FloatLib F)
    (hL : L.parseFloat "table() [".toList = none) (k : Str) (hk : isIdent k) :
    Decode L (.string (k ++ ": table() [\n]".toList)) =
      Outcome.ok [(k, .str "table() [".toList)] ∧
    Encode L [(k, .table ([] : List (Obj F)))] = k ++ ": table() [\n]".toList := by
  constructor
  · have hkv := kvLine_no_columns hk
    have hall : ∀ kv ∈ [(k, "table() [".toList)], isKvLine kv := by
      intro kv h
      rw [List.mem_singleton.1 h]; exact hkv
    have hdoc := decodeText_kvDoc L hall
    rw [List.map_cons, List.map_nil, join_singleton] at hdoc
    have hnorm := normLines_kvDoc hall
    rw [List.map_cons, List.map_nil, join_singleton] at hnorm
    have hscan : noBlockInTable false (normLines (kvText (k, "table() [".toList))) = true := by
      rw [hnorm]
      simp only [List.map_cons, List.map_nil, noBlockInTable, hkv.2.2.2.2.2.1,
        hkv.2.2.2.2.2.2, Bool.false_eq_true, if_false, Option.isSome_none]
      split_ifs <;> rfl
    have hend := decodeText_append_end L hscan
    have htext : k ++ ": table() [\n]".toList =
        kvText (k, "table() [".toList) ++ "\n]".toList := by
      unfold kvText
      simp only [List.append_assoc]
      rfl
    show decodeText L _ = _
    rw [htext, hend, hdoc]
    simp only [assignAll, mapSet, parseValue_no_columns L hL]
  · have h0 : Encode L [(k, .table ([] : List (Obj F)))] =
        join [k ++ ": table() [".toList, "]".toList] "\n".toList := rfl
    rw [h0, join_cons_cons, join_singleton]
    simp only [List.append_assoc]
    rfl

/-- The empty table under `users` comes back as a String. -/
theorem C27_empty_table_header_witness :
    sampleLib.parseFloat "table() [".toList = none ∧ isIdent "users".toList ∧
    Decode sampleLib (.string (Encode sampleLib [("users".toList, .table [])])) =
      Outcome.ok [("users".toList, .str "table() [".toList)] :=
  ⟨by decide, by decide,
    (C27_empty_table_header sampleLib (by decide) "users".toList (by decide)).1⟩

/-! ## C29: comment markers inside quotes -/

theorem index_slashes_neg {s : Str} (h : Char.ofNat 47 ∉ s) : index s "//".toList < 0 := by
  induction s with
  | nil => rw [index_nil]; decide
  | cons c t ih =>
    have hc : c ≠ Char.ofNat 47 := fun e => h (by rw [e]; exact List.mem_cons_self _ _)
    have ht := ih (fun m => h (List.mem_cons_of_mem _ m))
    rw [index_cons, slashes_isPrefixOf]
    simp only [hc, decide_False, Bool.false_and, Bool.false_eq_true, if_false, ht, if_true]
    omega

/-- A marker appended to a text without marker that does not end in a slash is where
`removeComments` cuts. -/
theorem removeComments_append_marker (l r : Str) (hl : removeComments l = l)
    (hlast : l.getLast? ≠ some (Char.ofNat 47)) (hr : removeComments r = []) :
    removeComments (l ++ r) = l := by
  induction l with
  | nil => exact hr
  | cons d t ih =>
    obtain ⟨hm, ht⟩ := removeComments_eq_self_cons hl
    have hm2 : ¬ (d = Char.ofNat 35 ∨
        (d = Char.ofNat 47 ∧ (t ++ r).head? = some (Char.ofNat 47))) := by
      rintro (h | ⟨h1, h2⟩)
      · exact hm (Or.inl h)
      · cases t with
        | nil => exact hlast (by rw [h1]; rfl)
        | cons e u => exact hm (Or.inr ⟨h1, by simpa using h2⟩)
    have hlast2 : t.getLast? ≠ some (Char.ofNat 47) := by
      cases t with
      | nil => simp
      | cons e u => rw [List.getLast?_cons_cons] at hlast; exact hlast
    rw [List.cons_append, removeComments_cons, if_neg hm2, ih ht hlast2]

theorem plainChar_facts {c : Char} (h : c.isAlphanum = true ∨ c = Char.ofNat 32) :
    c ≠ Char.ofNat 10 ∧ c ≠ Char.ofNat 35 ∧ c ≠ Char.ofNat 47 ∧ c ≠ Char.ofNat 123 ∧
      c ≠ Char.ofNat 91 ∧ c ≠ Char.ofNat 34 := by
  rcases h with h | h
  · have hn : (65 ≤ c.toNat ∧ c.toNat ≤ 90) ∨ (97 ≤ c.toNat ∧ c.toNat ≤ 122) ∨
        (48 ≤ c.toNat ∧ c.toNat ≤ 57) := by
      simp only [Char.isAlphanum, Char.isAlpha, Char.isUpper, Char.isLower, Char.isDigit,
        Bool.or_eq_true, Bool.and_eq_true, decide_eq_true_eq] at h
      have e : ∀ n : UInt32, (n ≥ 65) = (65 ≤ n.toNat) := fun n => rfl
      rcases h with (⟨h1, h2⟩ | ⟨h1, h2⟩) | ⟨h1, h2⟩
      · exact Or.inl ⟨h1, h2⟩
      · exact Or.inr (Or.inl ⟨h1, h2⟩)
      · exact Or.inr (Or.inr ⟨h1, h2⟩)
    refine ⟨?_, ?_, ?_, ?_, ?_, ?_⟩ <;>
    · intro e
      rw [e] at hn
      revert hn; decide
  · rw [h]
    decide

theorem quotedPrefix_facts {a : Str} (ha : isPlainText a) :
    trimSpace (Char.ofNat 34 :: a) = Char.ofNat 34 :: a ∧
    (∀ c ∈ Char.ofNat 34 :: a, c ≠ Char.ofNat 10 ∧ c ≠ Char.ofNat 35 ∧ c ≠ Char.ofNat 47) ∧
    (∀ b, (Char.ofNat 34 :: a).getLast? = some b →
      isSpace b = false ∧ b ≠ Char.ofNat 123 ∧ b ≠ Char.ofNat 91 ∧
        (a ≠ [] → b ≠ Char.ofNat 34)) := by
  obtain ⟨hch, htrim⟩ := ha
  have hlast : ∀ b, (Char.ofNat 34 :: a).getLast? = some b →
      isSpace b = false ∧ b ≠ Char.ofNat 123 ∧ b ≠ Char.ofNat 91 ∧
        (a ≠ [] → b ≠ Char.ofNat 34) := by
    intro b hb
    cases a with
    | nil =>
      simp only [List.getLast?_singleton, Option.some.injEq] at hb
      rw [← hb]
      exact ⟨by decide, by decide, by decide, fun h => absurd rfl h⟩
    | cons e u =>
      rw [List.getLast?_cons_cons] at hb
      have hsp : isSpace b = false := by
        rw [← htrim] at hb
        exact trimSpace_getLast hb
      have hmem : b ∈ e :: u := List.mem_of_getLast?_eq_some hb
      have := plainChar_facts (hch b hmem)
      exact ⟨hsp, this.2.2.2.1, this.2.2.2.2.1, fun _ => this.2.2.2.2.2⟩
  refine ⟨?_, ?_, hlast⟩
  · apply trimSpace_eq_self
    · intro c hc
      simp only [List.head?_cons, Option.some.injEq] at hc
      rw [← hc]; decide
    · intro b hb; exact (hlast b hb).1
  · intro c hc
    rw [List.mem_cons] at hc
    rcases hc with hc | hc
    · rw [hc]; exact ⟨by decide, by decide, by decide⟩
    · have := plainChar_facts (hch c hc)
      exact ⟨this.1, this.2.1, this.2.2.1⟩

theorem kvLine_quotedPrefix {k a : Str} (hk : isIdent k) (ha : isPlainText a) :
    isKvLine (k, Char.ofNat 34 :: a) ∧
    trimSpace (kvText (k, Char.ofNat 34 :: a)) = kvText (k, Char.ofNat 34 :: a) ∧
    (kvText (k, Char.ofNat 34 :: a)).getLast? ≠ some (Char.ofNat 47) := by
  obtain ⟨htrim, hch, hlast⟩ := quotedPrefix_facts ha
  have hl : (kvText (k, Char.ofNat 34 :: a)).getLast? = (Char.ofNat 34 :: a).getLast? := by
    unfold kvText
    have e : k ++ Char.ofNat 58 :: Char.ofNat 32 :: (Char.ofNat 34 :: a) =
        (k ++ [Char.ofNat 58, Char.ofNat 32]) ++ (Char.ofNat 34 :: a) := by
      simp only [List.append_assoc, List.cons_append, List.nil_append]
    rw [e, List.getLast?_append_of_ne_nil _ (by simp)]
  have hlb : ∀ c, (Char.ofNat 34 :: a).getLast? ≠ some c ∨
      (isSpace c = false ∧ c ≠ Char.ofNat 123 ∧ c ≠ Char.ofNat 91) := by
    intro c
    by_cases h : (Char.ofNat 34 :: a).getLast? = some c
    · exact Or.inr ⟨(hlast c h).1, (hlast c h).2.1, (hlast c h).2.2.1⟩
    · exact Or.inl h
  have htl : trimSpace (kvText (k, Char.ofNat 34 :: a)) = kvText (k, Char.ofNat 34 :: a) := by
    apply trimSpace_eq_self
    · intro c hc
      obtain ⟨d, t, hkt, hd⟩ := ident_head hk
      unfold kvText at hc
      simp only [hkt, List.cons_append, List.head?_cons, Option.some.injEq] at hc
      rw [← hc]
      exact (wordChar_facts hd).1
    · intro b hb
      rw [hl] at hb
      exact (hlast b hb).1
  refine ⟨⟨hk, ?_, ?_, ?_, ?_, ?_, ?_⟩, htl, ?_⟩
  · rw [htrim]; simp
  · intro hmem; exact (hch _ hmem).1 rfl
  · intro hmem; exact (hch _ hmem).2.1 rfl
  · exact index_slashes_neg (fun hmem => (hch _ hmem).2.2 rfl)
  · rw [htl]
    apply hasSuffix_brace_false
    rw [hl]
    intro h
    exact (hlast _ h).2.1 rfl
  · rw [htl]
    apply tableMatch_none_of_last
    rw [hl]
    intro h
    exact (hlast _ h).2.2.1 rfl
  · rw [hl]
    intro h
    have hmem := List.mem_of_getLast?_eq_some h
    exact (hch _ hmem).2.2 rfl

theorem parseValue_quotedPrefix {F : Type} {L : FloatLib F} (hq : L.RejectsQuote) {a : Str}
    (ha : isPlainText a) :
    parseValue L (Char.ofNat 34 :: a) = .str (Char.ofNat 34 :: a) := by
  obtain ⟨htrim, _, hlast⟩ := quotedPrefix_facts ha
  have h1 : Char.ofNat 34 :: a ≠ "true".toList := by
    intro h
    have := congrArg List.head? h
    simp only [List.head?_cons] at this
    revert this; decide
  have h2 : Char.ofNat 34 :: a ≠ "false".toList := by
    intro h
    have := congrArg List.head? h
    simp only [List.head?_cons] at this
    revert this; decide
  have h3 : enclosed (Char.ofNat 34 :: a) (Char.ofNat 34) (Char.ofNat 34) = false := by
    cases a with
    | nil => decide
    | cons e u =>
      cases he : enclosed (Char.ofNat 34 :: e :: u) (Char.ofNat 34) (Char.ofNat 34) with
      | false => rfl
      | true =>
        exfalso
        simp only [enclosed, Bool.and_eq_true, beq_iff_eq] at he
        exact (hlast _ he.2).2.2.2 (by simp) rfl
  have h4 : enclosed (Char.ofNat 34 :: a) (Char.ofNat 91) (Char.ofNat 93) = false := by
    have hne : Char.ofNat 34 ≠ Char.ofNat 91 := by decide
    simp [enclosed, hne]
  rw [parseValue_eq]
  simp only [htrim, if_neg h1, if_neg h2, h3, h4, Bool.false_eq_true, if_false,
    hq _ (List.head?_cons)]

theorem decode_cut_line {F : Type} (L : FloatLib F) {k a r : Str} (hk : isIdent k)
    (ha : isPlainText a) (hr : removeComments r = []) (hnl : Char.ofNat 10 ∉ r) :
    Decode L (.string (kvText (k, Char.ofNat 34 :: a) ++ r)) =
      Outcome.ok [(k, parseValue L (Char.ofNat 34 :: a))] := by
  obtain ⟨hkv, htl, hlast⟩ := kvLine_quotedPrefix hk ha
  obtain ⟨hn1, _, hn3⟩ := normLines_kvText hkv
  have hrc : removeComments (kvText (k, Char.ofNat 34 :: a)) = kvText (k, Char.ofNat 34 :: a) := by
    have := hn1
    unfold normLine at this
    have h2 : removeComments (removeComments (kvText (k, Char.ofNat 34 :: a))) =
        removeComments (kvText (k, Char.ofNat 34 :: a)) := removeComments_idem _
    have hsub := removeComments_pre (kvText (k, Char.ofNat 34 :: a))
    have hlen : (trimSpace (kvText (k, Char.ofNat 34 :: a))).length ≤
        (removeComments (kvText (k, Char.ofNat 34 :: a))).length := by
      rw [← this]; exact trimSpace_length_le _
    rw [htl] at hlen
    exact List.IsPrefix.eq_of_length_le hsub hlen
  have hfull : Char.ofNat 10 ∉ kvText (k, Char.ofNat 34 :: a) ++ r := by
    intro hmem
    rw [List.mem_append] at hmem
    rcases hmem with hmem | hmem
    · exact hn3 hmem
    · exact hnl hmem
  have hnorm : normLines (kvText (k, Char.ofNat 34 :: a) ++ r) =
      normLines (kvText (k, Char.ofNat 34 :: a)) := by
    unfold normLines
    rw [split_no_sep_self hfull, split_no_sep_self hn3]
    simp only [List.map_cons, List.map_nil, normLine,
      removeComments_append_marker _ r hrc hlast hr, hrc]
  have hall : ∀ kv ∈ [(k, Char.ofNat 34 :: a)], isKvLine kv := by
    intro kv h
    rw [List.mem_singleton.1 h]; exact hkv
  have hdoc := decodeText_kvDoc L hall
  rw [List.map_cons, List.map_nil, join_singleton] at hdoc
  show decodeText L _ = _
  rw [decodeText_eq, hnorm, ← decodeText_eq, hdoc]
  simp only [assignAll, mapSet]

/-- C29: for a library that rejects numbers starting with a double quote, every
identifier `k`, every text `a` of letters, digits and inner spaces and every text `b`
without newline, `Decode` of the line `k: "a#b"` and of the line `k: "a//b"` maps `k` to
`parseValue` of the cut text `"a`, which is the String `"a` with its opening quote, and
not the String `a#b` or `a//b`. -/
theorem C29_comment_in_quotes {F : Type} (L : FloatLib F) (hq : L.RejectsQuote)
    (k a b : Str) (hk : isIdent k) (ha : isPlainText a) (hb : Char.ofNat 10 ∉ b) :
    Decode L (.string (k ++ ": \"".toList ++ a ++ "#".toList ++ b ++ "\"".toList)) =
      Outcome.ok [(k, parseValue L ("\"".toList ++ a))] ∧
    Decode L (.string (k ++ ": \"".toList ++ a ++ "//".toList ++ b ++ "\"".toList)) =
      Outcome.ok [(k, parseValue L ("\"".toList ++ a))] ∧
    parseValue L ("\"".toList ++ a) = .str ("\"".toList ++ a) ∧
    (Value.str ("\"".toList ++ a) : Value F) ≠ .str (a ++ "#".toList ++ b) ∧
    (Value.str ("\"".toList ++ a) : Value F) ≠ .str (a ++ "//".toList ++ b) := by
  obtain ⟨_, hch, _⟩ := quotedPrefix_facts ha
  have e1 : k ++ ": \"".toList ++ a ++ "#".toList ++ b ++ "\"".toList =
      kvText (k, Char.ofNat 34 :: a) ++ (Char.ofNat 35 :: (b ++ "\"".toList)) := by
    unfold kvText
    simp only [List.append_assoc]
    rfl
  have e2 : k ++ ": \"".toList ++ a ++ "//".toList ++ b ++ "\"".toList =
      kvText (k, Char.ofNat 34 :: a) ++
        (Char.ofNat 47 :: Char.ofNat 47 :: (b ++ "\"".toList)) := by
    unfold kvText
    simp only [List.append_assoc]
    rfl
  have hq1 : Char.ofNat 10 ∉ b ++ "\"".toList := by
    intro hmem
    rw [List.mem_append] at hmem
    rcases hmem with hmem | hmem
    · exact hb hmem
    · revert hmem; decide
  have hne : ∀ x : Str, Char.ofNat 35 ∈ x ∨ Char.ofNat 47 ∈ x →
      (Value.str ("\"".toList ++ a) : Value F) ≠ .str x := by
    intro x hx h
    injection h with h
    rcases hx with hx | hx
    · rw [← h] at hx
      exact (hch _ hx).2.1 rfl
    · rw [← h] at hx
      exact (hch _ hx).2.2 rfl
  refine ⟨?_, ?_, parseValue_quotedPrefix hq ha, ?_, ?_⟩
  · rw [e1]
    apply decode_cut_line L hk ha
    · rw [removeComments_cons, if_pos (Or.inl rfl)]
    · intro hmem
      rw [List.mem_cons] at hmem
      rcases hmem with hmem | hmem
      · revert hmem; decide
      · exact hq1 hmem
  · rw [e2]
    apply decode_cut_line L hk ha
    · rw [removeComments_cons, if_pos (Or.inr ⟨rfl, rfl⟩)]
    · intro hmem
      simp only [List.mem_cons] at hmem
      rcases hmem with hmem | hmem | hmem
      · revert hmem; decide
      · revert hmem; decide
      · exact hq1 hmem
  · apply hne
    left
    simp
  · apply hne
    right
    have hs : "//".toList = [Char.ofNat 47, Char.ofNat 47] := rfl
    rw [hs]
    simp

theorem sampleLib_rejectsQuote : sampleLib.RejectsQuote := by
  intro s hs
  show sampleParse s = none
  unfold sampleParse
  cases s with
  | nil => rfl
  | cons c t =>
    simp only [List.head?_cons, Option.some.injEq] at hs
    rw [hs, if_neg]
    rintro ⟨_, h⟩
    rw [List.all_cons, Bool.and_eq_true] at h
    have h1 := h.1
    revert h1; decide

/-- The line `note: "a b#c"` keeps only the text before the `#`, opening quote
included. -/
theorem C29_comment_in_quotes_witness :
    sampleLib.RejectsQuote ∧ isIdent "note".toList ∧ isPlainText "a b".toList ∧
    Char.ofNat 10 ∉ "c".toList ∧
    Decode sampleLib (.string "note: \"a b#c\"".toList) =
      Outcome.ok [("note".toList, parseValue sampleLib "\"a b".toList)] :=
  ⟨sampleLib_rejectsQuote, by decide, by decide, by decide,
    (C29_comment_in_quotes sampleLib sampleLib_rejectsQuote "note".toList "a b".toList
      "c".toList (by decide) (by decide) (by decide)).1⟩

/-! ## C25: rows of an open table -/

/-- C25: in every state of the loop of `Decode` in which a table is open, whatever the
stack of frames, a non-blank line that is not a block open, not `}`, not a table-open
line and not `]` is appended to the open table as a row and written to the entry of the
table's key in the frame where the table was opened; the stack and every other frame and
entry stay as they are, so a line `k: v` assigns no key `k`.  A `}` line that pops the
stack leaves the open table and its frame as they are.  In the example the row `1` is
read inside the block `b`, and `k: v` after the `}` is a row, not a key. -/
theorem C25_row_in_open_table {F : Type} (L : FloatLib F) (st : State F)
    (ct : TableContext F) (line : Str) (hwf : st.WF) (hct : st.currentTable = some ct)
    (hrow : isRowLine line) :
    (∃ m, st.heap[ct.parent]? = some m ∧
      stepLine L st line = some
        { heap := st.heap.set ct.parent
            (mapSet m ct.key (.val (.table (ct.table ++ [tableRow L ct.columns line]))))
          stack := st.stack
          currentTable := some { ct with table := ct.table ++ [tableRow L ct.columns line] } }) ∧
    (st.stack.length > 1 →
      stepLine L st "\x7d".toList = some { st with stack := st.stack.dropLast }) ∧
    Decode sampleLib (.string "t: table(a) [\nb \x7b\n1\n\x7d\nk: v\n]".toList) =
      Outcome.ok [("t".toList, .table [[("a".toList, .num 1)],
        [("a".toList, .str "k: v".toList)]]), ("b".toList, .obj [])] := by
  obtain ⟨_, top, htop, _⟩ := WF_stack_facts hwf
  have hparent := hwf.parent_lt ct hct
  refine ⟨?_, ?_, by rfl⟩
  · obtain ⟨heap1, hset, hstep⟩ := stepLine_row L htop hct hparent hrow
    have hm : st.heap[ct.parent]? = some st.heap[ct.parent] := List.getElem?_eq_getElem hparent
    rw [heapSet_eq hm] at hset
    injection hset with hset
    refine ⟨_, hm, ?_⟩
    rw [hstep, ← hset]
  · intro hlen
    unfold stepLine
    rw [htop]
    simp only
    rw [if_neg (by decide), if_pos trivial, if_pos hlen]

/-- A line `k: v` met in the open table of the example state becomes a row. -/
theorem C25_row_in_open_table_witness :
    exampleTableState.WF ∧ exampleTableState.currentTable = some exampleTableContext ∧
    isRowLine "k: v".toList ∧
    stepLine sampleLib exampleTableState "k: v".toList = some
      { heap := [[("t".toList, .val (.table [[("a".toList, .str "k: v".toList)]]))]]
        stack := [0]
        currentTable := some { exampleTableContext with
          table := [[("a".toList, .str "k: v".toList)]] } } := by
  have hwf : exampleTableState.WF :=
    stepLine_some_WF sampleLib initState_WF
      (rfl : stepLine sampleLib initState "t: table(a, b, c) [".toList = some exampleTableState)
  have hrow : isRowLine "k: v".toList := ⟨by decide, by decide, by decide, by decide⟩
  obtain ⟨m, hm, hstep⟩ :=
    (C25_row_in_open_table sampleLib exampleTableState exampleTableContext "k: v".toList hwf rfl
      hrow).1
  refine ⟨hwf, rfl, hrow, ?_⟩
  rw [hstep]
  have : m = [("t".toList, .val (.table []))] := by
    have h0 : exampleTableState.heap[exampleTableContext.parent]? =
        some [("t".toList, .val (.table []))] := rfl
    rw [h0] at hm
    injection hm with hm
    exact hm.symm
  rw [this]
  rfl

/-! ## C26: numbers and bare words -/

/-- C26 (amended): `parseValue` returns a Number exactly for the tokens that, trimmed,
are not `true` or `false`, are not double-quoted and are accepted by `ParseFloat`, and
the Number is the one `ParseFloat` returns; every token that, trimmed, is not `true` or
`false`, not double-quoted, not accepted by `ParseFloat` and not bracketed is returned,
trimmed, as a String. -/
theorem C26_number_or_string {F : Type} (L : FloatLib F) (t : Str) :
    (∀ x : F, parseValue L t = .num x ↔
      (trimSpace t ≠ "true".toList ∧ trimSpace t ≠ "false".toList ∧
        enclosed (trimSpace t) (Char.ofNat 34) (Char.ofNat 34) = false ∧
        L.parseFloat (trimSpace t) = some x)) ∧
    (trimSpace t ≠ "true".toList → trimSpace t ≠ "false".toList →
      enclosed (trimSpace t) (Char.ofNat 34) (Char.ofNat 34) = false →
      L.parseFloat (trimSpace t) = none →
      enclosed (trimSpace t) (Char.ofNat 91) (Char.ofNat 93) = false →
      parseValue L t = .str (trimSpace t)) := by
  constructor
  · intro x
    rw [parseValue_eq]
    simp only
    constructor
    · intro h
      split at h
      · cases h
      · rename_i h1
        split at h
        · cases h
        · rename_i h2
          split at h
          · cases h
          · rename_i h3
            split at h
            · rename_i y hy
              injection h with h
              rw [← h]
              exact ⟨h1, h2, by simpa using h3, hy⟩
            · split at h
              · split at h <;> cases h
              · cases h
    · rintro ⟨h1, h2, h3, h4⟩
      rw [if_neg h1, if_neg h2, h3, h4]
      simp
  · intro h1 h2 h3 h4 h5
    rw [parseValue_eq]
    simp only [if_neg h1, if_neg h2, h3, h4, h5, Bool.false_eq_true, if_false]

/-- The bare word `online` is returned as a String, the numeral `30` as a Number. -/
theorem C26_number_or_string_witness :
    parseValue sampleLib "online".toList = .str "online".toList ∧
    parseValue sampleLib "30".toList = .num 30 :=
  ⟨(C26_number_or_string sampleLib "online".toList).2 (by decide) (by decide) (by decide)
      (by decide) (by decide),
    ((C26_number_or_string sampleLib "30".toList).1 30).2
      ⟨by decide, by decide, by decide, by decide⟩⟩

/-- Counterexample to C26 as stated: whether a token is a Number is decided by
`ParseFloat` alone, and `strconv.ParseFloat` also accepts texts that are not base-10
numerals, such as `NaN`; with a library that reads `NaN`, `parseValue` returns a Number
for it. -/
theorem C26_number_or_string_counterexample :
    isDecimalNumeral "NaN".toList = false ∧
    parseValue nanLib "NaN".toList = .num none ∧
    isDecimalNumeral "-12.5e+3".toList = true ∧ isDecimalNumeral "30".toList = true := by
  refine ⟨by decide, by rfl, by decide, by decide⟩

/-! ## C28: cells of missing fields -/

/-- A row line made of comma-free printed values, and the row `Decode` builds from it. -/
theorem tokRow_facts {F : Type} (L : FloatLib F) {toks : List Str}
    (htok : ∀ x ∈ toks, TokText x) (hnc : ∀ x ∈ toks, Char.ofNat 44 ∉ x) (hxs : toks ≠ [])
    {columns : List Str} (hnd : columns.Nodup) :
    join toks ", ".toList ≠ [] ∧
    trimSpace (join toks ", ".toList) = join toks ", ".toList ∧
    isClean (join toks ", ".toList) ∧
    isRowLine (join toks ", ".toList) ∧
    tableRow L columns (join toks ", ".toList) = List.zip columns (toks.map (parseValue L)) := by
  obtain ⟨hjne, hjtrim⟩ := tokText_join htok hxs
  have hlast : ∀ c, (join toks ", ".toList).getLast? = some c →
      c ≠ Char.ofNat 123 ∧ c ≠ Char.ofNat 91 := by
    intro c hc
    obtain ⟨x, hx, he⟩ := @join_getLast _ ", ".toList (fun y hy => (htok y hy).ne) hxs
    rw [he] at hc
    exact ((htok x hx).last_ok c hc).2
  have hhead : ∀ c, (join toks ", ".toList).head? = some c →
      c ≠ Char.ofNat 125 ∧ c ≠ Char.ofNat 93 := by
    intro c hc
    cases hr : toks with
    | nil => exact absurd hr hxs
    | cons a r =>
      have ha := htok a (by rw [hr]; exact List.mem_cons_self _ _)
      rw [join_head ha.ne hr] at hc
      exact (ha.head_ok c hc).2
  refine ⟨hjne, hjtrim, isClean_join_comma_space (fun x hx => (htok x hx).clean), ?_, ?_⟩
  · refine ⟨hasSuffix_brace_false (fun h => (hlast _ h).1 rfl), ?_,
      tableMatch_none_of_last (fun h => (hlast _ h).2 rfl), ?_⟩
    · intro h
      have := hhead (Char.ofNat 125) (by rw [h]; rfl)
      exact this.1 rfl
    · intro h
      have := hhead (Char.ofNat 93) (by rw [h]; rfl)
      exact this.2 rfl
  · rw [tableRow_eq_zip L hnd]
    have e1 : (split (join toks ", ".toList) (Char.ofNat 44)).map
        (fun part => parseValue L (trimSpace part)) =
        ((split (join toks ", ".toList) (Char.ofNat 44)).map trimSpace).map (parseValue L) := by
      rw [List.map_map]; rfl
    rw [e1, split_join_comma_space hxs hnc, List.map_map]
    congr 1
    apply List.map_congr_left
    intro x _
    exact parseValue_trimSpace L x

theorem mem_of_mapGet {α : Type} {row : List (Str × α)} {k : Str} {v : α}
    (h : mapGet row k = some v) : (k, v) ∈ row := by
  induction row with
  | nil => simp [mapGet] at h
  | cons x t ih =>
    obtain ⟨k0, v0⟩ := x
    simp only [mapGet] at h
    split at h
    · rename_i hk
      injection h with h
      rw [← hk, ← h]
      exact List.mem_cons_self _ _
    · exact List.mem_cons_of_mem _ (ih h)

theorem tokText_nil : TokText "<nil>".toList :=
  ⟨by decide, fun a ha => by
      simp only [String.toList, List.head?_cons, Option.some.injEq] at ha
      rw [← ha]; exact ⟨by decide, by decide, by decide⟩,
    fun b hb => by
      have h : "<nil>".toList.getLast? = some (Char.ofNat 62) := by decide
      rw [h] at hb
      injection hb with hb
      rw [← hb]; exact ⟨by decide, by decide, by decide⟩,
    ⟨by decide, by decide⟩⟩

theorem parseValue_nil {F : Type} (L : FloatLib F)
    (hnil : L.parseFloat "<nil>".toList = none) :
    parseValue L "<nil>".toList = .str "<nil>".toList := by
  rw [parseValue_eq]
  have ht : trimSpace "<nil>".toList = "<nil>".toList := by decide
  simp only [ht, hnil]
  rw [if_neg (by decide), if_neg (by decide)]
  have h3 : enclosed "<nil>".toList (Char.ofNat 34) (Char.ofNat 34) = false := by decide
  have h4 : enclosed "<nil>".toList (Char.ofNat 91) (Char.ofNat 93) = false := by decide
  simp only [h3, h4, Bool.false_eq_true, if_false]

/-- The printed cell of a column, for a row as `Decode` builds it: a comma-free printed
value that `parseValue` reads as the value of the row, or as the String `<nil>`. -/
theorem cell_facts {F : Type} {L : FloatLib F} (hL : L.Lawful)
    (hnil : L.parseFloat "<nil>".toList = none) {row : Obj F} (hrow : isRow row) (col : Str) :
    TokText (serializeValue L (cellOf row col)) ∧
    Char.ofNat 44 ∉ serializeValue L (cellOf row col) ∧
    parseValue L (serializeValue L (cellOf row col)) = cellBack row col := by
  unfold cellOf cellBack
  cases hget : mapGet row col with
  | none =>
    simp only [Option.getD_none]
    have hs : serializeValue L (.null : Value F) = "<nil>".toList := by
      simp [serializeValue, sprintV]
    rw [hs]
    exact ⟨tokText_nil, by decide, parseValue_nil L hnil⟩
  | some v =>
    simp only [Option.getD_some]
    exact okElem_serialize hL (hrow.2 _ (mem_of_mapGet hget)).2

theorem zip_map_self {α β : Type} (l : List α) (f : α → β) :
    List.zip l (l.map f) = l.map (fun a => (a, f a)) := by
  induction l with
  | nil => rfl
  | cons x t ih => simp [ih]

/-- The body of the line `Encode` prints for a row under the columns of the first row,
and the row `Decode` builds from it. -/
theorem cellsLine_facts {F : Type} {L : FloatLib F} (hL : L.Lawful)
    (hnil : L.parseFloat "<nil>".toList = none) {columns : List Str} (hne : columns ≠ [])
    (hnd : columns.Nodup) {row : Obj F} (hrow : isRow row) :
    normLines (rowLine L [] columns row) =
      [join (columns.map (fun col => serializeValue L (cellOf row col))) ", ".toList] ∧
    isRowLine (join (columns.map (fun col => serializeValue L (cellOf row col))) ", ".toList) ∧
    tableRow L columns
      (join (columns.map (fun col => serializeValue L (cellOf row col))) ", ".toList) =
      rowBack columns row := by
  have htok : ∀ x ∈ columns.map (fun col => serializeValue L (cellOf row col)), TokText x := by
    intro x hx
    obtain ⟨c, _, rfl⟩ := List.mem_map.1 hx
    exact (cell_facts hL hnil hrow c).1
  have hnc : ∀ x ∈ columns.map (fun col => serializeValue L (cellOf row col)),
      Char.ofNat 44 ∉ x := by
    intro x hx
    obtain ⟨c, _, rfl⟩ := List.mem_map.1 hx
    exact (cell_facts hL hnil hrow c).2.1
  have hxs : columns.map (fun col => serializeValue L (cellOf row col)) ≠ [] := by
    simpa using hne
  obtain ⟨h1, h2, h3, h4, h5⟩ := tokRow_facts L htok hnc hxs hnd
  refine ⟨?_, h4, ?_⟩
  · have hw : ∀ c ∈ "  ".toList, isSpace c = true := by decide
    have := normLines_prefixed hw (by decide) h1 h2 h3
    simpa only [rowLine, List.nil_append] using this
  · rw [h5, List.map_map]
    unfold rowBack
    have e : columns.map ((parseValue L) ∘ fun col => serializeValue L (cellOf row col)) =
        columns.map (fun col => cellBack row col) := by
      apply List.map_congr_left
      intro c _
      exact (cell_facts hL hnil hrow c).2.2
    rw [e, zip_map_self]

theorem runLines_rowLines {F : Type} (L : FloatLib F) {st : State F} {top top1 : Nat}
    (m : Frame F) {key : Str} (columns : List Str)
    (htop : st.stack.getLast? = some top1) (hlt : top < st.heap.length)
    (hfresh : key ∉ m.map Prod.fst) (lines : List Str) :
    ∀ tbl : List (Obj F), (∀ l ∈ lines, isRowLine l) →
      runLines L (tableStateAt st top m key columns tbl) lines =
        some (tableStateAt st top m key columns (tbl ++ lines.map (tableRow L columns))) := by
  induction lines with
  | nil => intro tbl _; simp [runLines]
  | cons l ls ih =>
    intro tbl h
    rw [runLines_cons, stepLine_rowAt L m columns tbl htop hlt hfresh (h l (List.mem_cons_self _ _))]
    simp only
    rw [ih (tbl ++ [tableRow L columns l]) (fun x hx => h x (List.mem_cons_of_mem _ hx))]
    simp

/-- Decoding what `Encode` prints for a table under an identifier. -/
theorem decode_encode_table {F : Type} {L : FloatLib F} (hL : L.Lawful)
    (hnil : L.parseFloat "<nil>".toList = none) {k : Str} (hk : isIdent k)
    {first : Obj F} {rest : List (Obj F)} (hrows : ∀ row ∈ first :: rest, isRow row)
    (hne : first.map Prod.fst ≠ []) (hne2 : first.map Prod.fst ≠ [[]]) :
    Decode L (.string (Encode L [(k, .table (first :: rest))])) =
      Outcome.ok [(k, .table ((first :: rest).map (rowBack (first.map Prod.fst))))] := by
  have hcols : ∀ c ∈ first.map Prod.fst, isColumn c := by
    intro c hc
    obtain ⟨e, he, rfl⟩ := List.mem_map.1 hc
    exact ((hrows first (List.mem_cons_self _ _)).2 e he).1
  have hnd : (first.map Prod.fst).Nodup := (hrows first (List.mem_cons_self _ _)).1
  obtain ⟨hh1, hh2, hh3, _, _⟩ := headerLine_facts hk hcols hne hne2
  have henc : Encode L [(k, .table (first :: rest))] =
      join ([tableHeader [] k (first.map Prod.fst)] ++
        ((first :: rest).map (rowLine L [] (first.map Prod.fst)) ++ ["]".toList])) "\n".toList := by
    have h0 : Encode L [(k, .table (first :: rest))] =
        join (encodeLines L [(k, .table (first :: rest))] 0) "\n".toList := by
      simp only [Encode, encodeValue]
    rw [h0, encodeLines_table, encodeLines_nil]
    simp only [padOf, List.replicate_zero, List.flatten_nil, List.nil_append, List.append_nil]
  have hnorm : normLines (Encode L [(k, .table (first :: rest))]) =
      [tableHeader [] k (first.map Prod.fst)] ++
        ((first :: rest).map (fun row =>
          join ((first.map Prod.fst).map (fun col => serializeValue L (cellOf row col)))
            ", ".toList) ++ ["]".toList]) := by
    rw [henc, normLines_join_append, normLines_join_append, normLines_single, normLines_single,
      normLines_join_map _ _ _ (fun row hrow => (cellsLine_facts hL hnil hne hnd (hrows row hrow)).1)]
    have e1 : normLines (tableHeader [] k (first.map Prod.fst)) =
        [tableHeader [] k (first.map Prod.fst)] := by
      have := normLines_padded 0 hh1 hh2 hh3
      simpa only [padOf, List.replicate_zero, List.flatten_nil, List.nil_append] using this
    have e2 : normLines "]".toList = ["]".toList] := by decide
    rw [e1, e2]
  have h0 : (initState : State F).stack.getLast? = some 0 := rfl
  have hm0 : (initState : State F).heap[0]? = some [] := rfl
  have hA : runLines L (initState : State F) [tableHeader [] k (first.map Prod.fst)] =
      some (tableStateAt initState 0 [] k (first.map Prod.fst) []) := by
    rw [runLines_cons, stepLine_tableOpen L h0 hm0 hk (by simp) hcols hne hne2]
    rfl
  show decodeText L _ = _
  rw [decodeText_eq, hnorm, runLines_append, hA]
  simp only
  rw [runLines_append,
    runLines_rowLines L [] (first.map Prod.fst) h0 (by simp [initState] : 0 < (initState : State F).heap.length)
      (by simp) _ [] (by
        intro l hl
        obtain ⟨row, hrow, rfl⟩ := List.mem_map.1 hl
        exact (cellsLine_facts hL hnil hne hnd (hrows row hrow)).2.1)]
  have hrows2 : ((first :: rest).map (fun row =>
      join ((first.map Prod.fst).map (fun col => serializeValue L (cellOf row col)))
        ", ".toList)).map (tableRow L (first.map Prod.fst)) =
      (first :: rest).map (rowBack (first.map Prod.fst)) := by
    rw [List.map_map]
    apply List.map_congr_left
    intro row hrow
    exact (cellsLine_facts hL hnil hne hnd (hrows row hrow)).2.2
  rw [hrows2]
  simp only
  rw [runLines_cons, stepLine_tableEndAt L [] (first.map Prod.fst) _ h0
    (by simp [initState] : 0 < (initState : State F).heap.length) (by simp)]
  simp only [runLines, List.nil_append]
  exact finish_frameOf [(k, .table ((first :: rest).map (rowBack (first.map Prod.fst))))]

theorem mapGet_rowBack {F : Type} {columns : List Str} (hnd : columns.Nodup) (row : Obj F)
    {c : Str} (hc : c ∈ columns) : mapGet (rowBack columns row) c = some (cellBack row c) := by
  have hkeys : (rowBack columns row).map Prod.fst = columns := by
    unfold rowBack
    rw [List.map_map]
    exact List.map_id _
  have hmem : (c, cellBack row c) ∈ rowBack columns row :=
    List.mem_map.2 ⟨c, hc, rfl⟩
  exact @mapGet_of_mem _ (rowBack columns row) (by rw [hkeys]; exact hnd) _ hmem

/-- C28 (amended): for a table as `Decode` builds them (rows with distinct, trimmed,
clean column names free of commas and closing parentheses, and cells that are Bools,
Numbers, clean comma-free Strings or arrays of at most one element) stored under an
identifier, whose first row has a column `c` that a later row lacks: `Encode` prints
that row's cell for `c` as the text `<nil>`, and `Decode` of the printed text returns
the table in which every row has every column of the first row, the missing cells being
the String `<nil>`; in particular that row has the field `c` with the String `<nil>`.
The library prints numbers that it reads back and does not read `<nil>` as a number. -/
theorem C28_missing_cell {F : Type} (L : FloatLib F) (hL : L.Lawful)
    (hnil : L.parseFloat "<nil>".toList = none) (k : Str) (hk : isIdent k)
    (first : Obj F) (rest : List (Obj F)) (hrows : ∀ row ∈ first :: rest, isRow row)
    (hne2 : first.map Prod.fst ≠ [[]]) (row : Obj F) (c : Str) (hrow : row ∈ rest)
    (hc : c ∈ first.map Prod.fst) (hmiss : mapGet row c = none) :
    serializeValue L (cellOf row c) = "<nil>".toList ∧
    Decode L (.string (Encode L [(k, .table (first :: rest))])) =
      Outcome.ok [(k, .table ((first :: rest).map (rowBack (first.map Prod.fst))))] ∧
    rowBack (first.map Prod.fst) row ∈ (first :: rest).map (rowBack (first.map Prod.fst)) ∧
    mapGet (rowBack (first.map Prod.fst) row) c = some (.str "<nil>".toList) := by
  have hne : first.map Prod.fst ≠ [] := List.ne_nil_of_mem hc
  have hnd : (first.map Prod.fst).Nodup := (hrows first (List.mem_cons_self _ _)).1
  refine ⟨?_, decode_encode_table hL hnil hk hrows hne hne2,
    List.mem_map.2 ⟨row, List.mem_cons_of_mem _ hrow, rfl⟩, ?_⟩
  · unfold cellOf
    rw [hmiss]
    simp [serializeValue, sprintV]
  · rw [mapGet_rowBack hnd row hc]
    unfold cellBack
    rw [hmiss]
    rfl

/-- The second row of the table has no field `c`: it is printed as `3, <nil>` and comes
back with `c` holding the String `<nil>`. -/
theorem C28_missing_cell_witness :
    Encode sampleLib [("t".toList, .table [[("a".toList, .num 1), ("c".toList, .num 2)],
        [("a".toList, .num 3)]])] = "t: table(a, c) [\n  1, 2\n  3, <nil>\n]".toList ∧
    Decode sampleLib (.string (Encode sampleLib [("t".toList,
        .table [[("a".toList, .num 1), ("c".toList, .num 2)], [("a".toList, .num 3)]])])) =
      Outcome.ok [("t".toList, .table [[("a".toList, .num 1), ("c".toList, .num 2)],
        [("a".toList, .num 3), ("c".toList, .str "<nil>".toList)]])] := by
  have hcol : ∀ s : Str, s = "a".toList ∨ s = "c".toList → isColumn s := by
    rintro s (h | h) <;> rw [h] <;> exact ⟨by decide, by decide, by decide, by decide, by decide⟩
  have hrows : ∀ row ∈ [[("a".toList, (Value.num 1 : Value Nat)), ("c".toList, .num 2)],
      [("a".toList, .num 3)]], isRow row := by
    intro row hr
    simp only [List.mem_cons, List.mem_singleton, List.not_mem_nil, or_false] at hr
    rcases hr with hr | hr
    · rw [hr]
      refine ⟨by decide, ?_⟩
      intro e he
      simp only [List.mem_cons, List.mem_singleton, List.not_mem_nil, or_false] at he
      rcases he with he | he
      · rw [he]; exact ⟨hcol _ (Or.inl rfl), OkElem.num _⟩
      · rw [he]; exact ⟨hcol _ (Or.inr rfl), OkElem.num _⟩
    · rw [hr]
      refine ⟨by decide, ?_⟩
      intro e he
      simp only [List.mem_singleton] at he
      rw [he]; exact ⟨hcol _ (Or.inl rfl), OkElem.num _⟩
  exact ⟨by rfl,
    (C28_missing_cell sampleLib sampleLib_lawful (by decide) "t".toList (by decide)
      [("a".toList, .num 1), ("c".toList, .num 2)] [[("a".toList, .num 3)]] hrows (by decide)
      [("a".toList, .num 3)] "c".toList (List.mem_singleton_self _) (by decide) (by rfl)).2.1⟩

/-- Counterexample to C28 as stated: the first row has the column `c` and the second row
has no field `c`, but its String holds a comma; the printed line has three parts, and
`Decode` gives the second row the field `c` with the String `y"`, not `<nil>`. -/
theorem C28_missing_cell_counterexample :
    mapGet [("a".toList, (Value.str "x,y".toList : Value Nat))] "c".toList = none ∧
    Encode sampleLib [("t".toList, .table [[("a".toList, .num 1), ("c".toList, .num 2)],
        [("a".toList, .str "x,y".toList)]])] =
      "t: table(a, c) [\n  1, 2\n  \"x,y\", <nil>\n]".toList ∧
    Decode sampleLib (.string (Encode sampleLib [("t".toList,
        .table [[("a".toList, .num 1), ("c".toList, .num 2)],
          [("a".toList, .str "x,y".toList)]])])) =
      Outcome.ok [("t".toList, .table [[("a".toList, .num 1), ("c".toList, .num 2)],
        [("a".toList, .str "\"x".toList), ("c".toList, .str "y\"".toList)]])] := by
  exact ⟨by rfl, by rfl, by rfl⟩

/-! ## C24: block nesting -/

theorem mapSet_shiftFrame {F : Type} (m : Frame F) (key : Str) (c : Cell F) :
    mapSet (shiftFrame m) key (shiftCell c) = shiftFrame (mapSet m key c) := by
  induction m with
  | nil => rfl
  | cons x t ih =>
    obtain ⟨k0, c0⟩ := x
    simp only [shiftFrame, List.map_cons, mapSet] at ih ⊢
    split
    · rfl
    · rw [List.map_cons, ih]

theorem heapSet_wrap {F : Type} {heap heap1 : List (Frame F)} {a : Nat} {key : Str}
    {c : Cell F} (root : Frame F) (h : heapSet heap a key c = some heap1) :
    heapSet (root :: heap.map shiftFrame) (a + 1) key (shiftCell c) =
      some (root :: heap1.map shiftFrame) := by
  unfold heapSet at h ⊢
  split at h
  · cases h
  · rename_i m hm
    injection h with h
    have hw : (root :: heap.map shiftFrame)[a + 1]? = some (shiftFrame m) := by
      rw [List.getElem?_cons_succ, List.getElem?_map, hm]
      rfl
    rw [hw]
    simp only
    rw [← h, List.set_cons_succ, mapSet_shiftFrame, List.map_set]

theorem getLast_wrap {stack : List Nat} {top : Nat} (h : stack.getLast? = some top) :
    (0 :: stack.map (fun a => a + 1)).getLast? = some (top + 1) := by
  cases stack with
  | nil => cases h
  | cons x t =>
    rw [List.map_cons, List.getLast?_cons_cons]
    have e : (x + 1) :: t.map (fun a => a + 1) = (x :: t).map (fun a => a + 1) := rfl
    rw [e, List.getLast?_map, h]
    rfl

theorem dropLast_wrap {stack : List Nat} (h : stack.length > 1) :
    (0 :: stack.map (fun a => a + 1)).dropLast = 0 :: stack.dropLast.map (fun a => a + 1) := by
  cases stack with
  | nil => simp at h
  | cons x t =>
    cases t with
    | nil => simp at h
    | cons y u => simp [List.dropLast, List.map_dropLast]

theorem stepLine_wrap {F : Type} (L : FloatLib F) (k : Str) {st st1 : State F} {line : Str}
    (h : stepLine L st line = some st1)
    (hclose : line = "\x7d".toList → st.stack.length > 1) :
    stepLine L (wrapState k st) line = some (wrapState k st1) ∧
    st1.stack.length =
      (if hasSuffix line "\x7b".toList then st.stack.length + 1
       else if line = "\x7d".toList then st.stack.length - 1 else st.stack.length) := by
  unfold stepLine at h
  split at h
  · cases h
  · rename_i top htop
    have hwtop : (wrapState k st).stack.getLast? = some (top + 1) := getLast_wrap htop
    unfold stepLine
    rw [hwtop]
    simp only
    split at h
    · rename_i hblock
      simp only at h
      split at h
      · cases h
      · rename_i heap hheap
        injection h with h
        subst h
        rw [if_pos hblock, if_pos hblock]
        have hw := heapSet_wrap [(k, Cell.ref 1)] hheap
        have e1 : (wrapState k st).heap ++ [[]] =
            [(k, Cell.ref 1)] :: (st.heap ++ [[]]).map shiftFrame := by
          simp [wrapState, shiftFrame]
        have e2 : (wrapState k st).heap.length = st.heap.length + 1 := by
          simp [wrapState]
        simp only [e1, e2]
        have e3 : (Cell.ref (st.heap.length + 1) : Cell F) = shiftCell (.ref st.heap.length) := rfl
        rw [e3, hw]
        refine ⟨?_, by simp⟩
        simp [wrapState]
    · rename_i hblock
      rw [if_neg hblock, if_neg hblock]
      have hwheap : (wrapState k st).heap = [(k, Cell.ref 1)] :: st.heap.map shiftFrame := rfl
      split at h
      · rename_i hcl
        have hlen := hclose hcl
        rw [if_pos hlen] at h
        injection h with h
        subst h
        rw [if_pos hcl, if_pos hcl]
        have hwlen : (wrapState k st).stack.length > 1 := by
          simp [wrapState]; omega
        rw [if_pos hwlen]
        refine ⟨?_, by simp⟩
        have := dropLast_wrap hlen
        simp only [wrapState] at this ⊢
        rw [this]
      · rename_i hcl
        rw [if_neg hcl, if_neg hcl]
        split at h
        · rename_i key columnsStr hmatch
          try rw [hmatch]
          simp only at h ⊢
          split at h
          · cases h
          · rename_i heap hheap
            injection h with h
            subst h
            have hw := heapSet_wrap [(k, Cell.ref 1)] hheap
            rw [hwheap]
            have e3 : (Cell.val (Value.table []) : Cell F) = shiftCell (.val (.table [])) := rfl
            rw [e3, hw]
            exact ⟨rfl, rfl⟩
        · rename_i hmatch
          try rw [hmatch]
          try simp only
          split at h
          · rename_i hend
            rw [if_pos hend]
            split at h
            · rename_i ct hct
              have hwct : (wrapState k st).currentTable =
                  some { ct with parent := ct.parent + 1 } := by
                simp [wrapState, hct]
              rw [hwct]
              simp only
              split at h
              · cases h
              · rename_i heap hheap
                injection h with h
                subst h
                have hw := heapSet_wrap [(k, Cell.ref 1)] hheap
                rw [hwheap]
                have e3 : (Cell.val (Value.table ct.table) : Cell F) =
                    shiftCell (.val (.table ct.table)) := rfl
                rw [e3, hw]
                exact ⟨rfl, rfl⟩
            · rename_i hct
              have hwct : (wrapState k st).currentTable = none := by
                simp [wrapState, hct]
              rw [hwct]
              injection h with h
              subst h
              exact ⟨rfl, rfl⟩
          · rename_i hend
            rw [if_neg hend]
            split at h
            · rename_i ct hct
              have hwct : (wrapState k st).currentTable =
                  some { ct with parent := ct.parent + 1 } := by
                simp [wrapState, hct]
              rw [hwct]
              simp only at h ⊢
              split at h
              · cases h
              · rename_i heap hheap
                injection h with h
                subst h
                have hw := heapSet_wrap [(k, Cell.ref 1)] hheap
                rw [hwheap]
                have e3 : (Cell.val (Value.table (ct.table ++ [tableRow L ct.columns line])) :
                    Cell F) =
                    shiftCell (.val (.table (ct.table ++ [tableRow L ct.columns line]))) := rfl
                rw [e3, hw]
                exact ⟨rfl, rfl⟩
            · rename_i hct
              have hwct : (wrapState k st).currentTable = none := by
                simp [wrapState, hct]
              rw [hwct]
              try simp only
              split at h
              · rename_i key val hmatch2
                try rw [hmatch2]
                try simp only
                split at h
                · cases h
                · rename_i heap hheap
                  injection h with h
                  subst h
                  have hw := heapSet_wrap [(k, Cell.ref 1)] hheap
                  rw [hwheap]
                  have e3 : (Cell.val (parseValue L (trimSpace val)) : Cell F) =
                      shiftCell (.val (parseValue L (trimSpace val))) := rfl
                  rw [e3, hw]
                  refine ⟨?_, rfl⟩
                  simp only [wrapState, hct, Option.map_none']
              · rename_i hmatch2
                try rw [hmatch2]
                injection h with h
                subst h
                exact ⟨rfl, rfl⟩

theorem runLines_wrap {F : Type} (L : FloatLib F) (k : Str) :
    ∀ (lines : List Str) (st : State F) (d : Nat), st.WF → st.stack.length = d + 1 →
      closesBalanced d lines = true →
      ∃ st1, runLines L st lines = some st1 ∧ st1.WF ∧
        runLines L (wrapState k st) lines = some (wrapState k st1) := by
  intro lines
  induction lines with
  | nil => intro st d hwf _ _; exact ⟨st, rfl, hwf, rfl⟩
  | cons l ls ih =>
    intro st d hwf hlen hbal
    obtain ⟨st2, hstep, hwf2⟩ := stepLine_WF L hwf l
    have hclose : l = "\x7d".toList → st.stack.length > 1 := by
      intro hl
      have hb : hasSuffix l "\x7b".toList = false := by rw [hl]; decide
      simp only [closesBalanced, hb, Bool.false_eq_true, if_false, if_pos hl] at hbal
      cases d with
      | zero => simp at hbal
      | succ d => omega
    obtain ⟨hw, hlen2⟩ := stepLine_wrap L k hstep hclose
    rw [runLines_cons, runLines_cons, hstep, hw]
    simp only
    simp only [closesBalanced] at hbal
    by_cases hb : hasSuffix l "\x7b".toList = true
    · rw [if_pos hb] at hbal hlen2
      exact ih st2 (d + 1) hwf2 (by omega) hbal
    · rw [if_neg hb] at hbal hlen2
      by_cases hl : l = "\x7d".toList
      · rw [if_pos hl] at hbal hlen2
        cases d with
        | zero => simp at hbal
        | succ d =>
          simp only at hbal
          exact ih st2 d hwf2 (by omega) hbal
      · rw [if_neg hl] at hbal hlen2
        exact ih st2 d hwf2 (by omega) hbal

theorem mapOpt_shift {F : Type} {β : Type} {f g : Str × Cell F → Option β} :
    ∀ (m : Frame F) (O : List β),
      (∀ e ∈ m, ∀ b, f e = some b → g (e.1, shiftCell e.2) = some b) →
      mapOpt f m = some O → mapOpt g (shiftFrame m) = some O := by
  intro m
  induction m with
  | nil => intro O _ h; exact h
  | cons x t ih =>
    intro O hfg h
    simp only [mapOpt] at h
    cases hx : f x with
    | none => rw [hx] at h; cases h
    | some b =>
      rw [hx] at h
      simp only at h
      cases ht : mapOpt f t with
      | none => rw [ht] at h; cases h
      | some bs =>
        rw [ht] at h
        have h1 := hfg x (List.mem_cons_self _ _) b hx
        have h2 := ih bs (fun e he => hfg e (List.mem_cons_of_mem _ he)) ht
        show mapOpt g ((x.1, shiftCell x.2) :: shiftFrame t) = some O
        simp only [mapOpt, h1, h2]
        exact h

theorem reify_wrap {F : Type} (root : Frame F) (heap : List (Frame F)) :
    ∀ (fuel a : Nat) (O : Obj F), reify heap fuel a = some O →
      reify (root :: heap.map shiftFrame) fuel (a + 1) = some O := by
  intro fuel
  induction fuel with
  | zero => intro a O h; simp [reify] at h
  | succ fuel ih =>
    intro a O h
    simp only [reify] at h ⊢
    split at h
    · cases h
    · rename_i m hm
      have hw : (root :: heap.map shiftFrame)[a + 1]? = some (shiftFrame m) := by
        rw [List.getElem?_cons_succ, List.getElem?_map, hm]
        rfl
      rw [hw]
      simp only
      refine mapOpt_shift m O ?_ h
      intro e _ b hb
      obtain ⟨key, c⟩ := e
      cases c with
      | val v => exact hb
      | ref r =>
        simp only [shiftCell] at hb ⊢
        cases hr : reify heap fuel r with
        | none => rw [hr] at hb; cases hb
        | some o =>
          rw [hr] at hb
          rw [ih r o hr]
          exact hb

theorem finish_wrap {F : Type} (k : Str) {st : State F} (hwf : st.WF) {O : Obj F}
    (h : finish (some st) = Outcome.ok O) :
    finish (some (wrapState k st)) = Outcome.ok [(k, .obj O)] := by
  have hre : reify st.heap st.heap.length 0 = some O := by
    simp only [finish, hwf.root] at h
    split at h
    · cases h
    · rename_i o ho
      injection h with h
      rw [← h]; exact ho
  have hw := reify_wrap [(k, Cell.ref 1)] st.heap _ _ _ hre
  have hlen : (wrapState k st).heap.length = st.heap.length + 1 := by simp [wrapState]
  have hhead : (wrapState k st).stack.head? = some 0 := rfl
  have hheap : (wrapState k st).heap = [(k, Cell.ref 1)] :: st.heap.map shiftFrame := rfl
  simp only [finish, hhead, hlen]
  have hre2 : reify ((wrapState k st).heap) (st.heap.length + 1) 0 = some [(k, .obj O)] := by
    rw [hheap]
    simp only [reify, List.getElem?_cons_zero, mapOpt]
    rw [hw]
  rw [hre2]

theorem decodeText_wrap {F : Type} (L : FloatLib F) (k body : Str) (hk : isIdent k)
    (hbal : closesBalanced 0 (normLines body) = true) :
    ∃ O : Obj F, decodeText L body = Outcome.ok O ∧
      decodeText L (k ++ " \x7b\n".toList ++ body ++ "\n\x7d".toList) =
        Outcome.ok [(k, .obj O)] := by
  have hkey : isBlockKey k := ⟨trimSpace_ident hk, isClean_ident hk⟩
  obtain ⟨hn, hlast, hdrop⟩ := blockLine_facts 0 hkey
  have hn0 : normLines (k ++ " \x7b".toList) = [trimSpace (k ++ " \x7b".toList)] := hn
  have htext : k ++ " \x7b\n".toList ++ body ++ "\n\x7d".toList =
      (k ++ " \x7b".toList) ++ Char.ofNat 10 :: (body ++ Char.ofNat 10 :: "\x7d".toList) := by
    have h1 : " \x7b\n".toList = " \x7b".toList ++ [Char.ofNat 10] := rfl
    have h2 : "\n\x7d".toList = Char.ofNat 10 :: "\x7d".toList := rfl
    rw [h1, h2]
    simp only [List.append_assoc, List.singleton_append, List.cons_append,
      List.nil_append]
  obtain ⟨st1, hrun, hwf1, hrunw⟩ :=
    runLines_wrap L k (normLines body) (initState : State F) 0 initState_WF rfl hbal
  obtain ⟨O, hO⟩ := finish_ok hwf1
  refine ⟨O, ?_, ?_⟩
  · rw [decodeText_eq, hrun]
    exact hO
  · have hhead : stepLine L (initState : State F) (trimSpace (k ++ " \x7b".toList)) =
        some (wrapState k initState) := by
      have hb := @stepLine_block F L (initState : State F) 0 []
        (trimSpace (k ++ " \x7b".toList)) rfl rfl hlast
      rw [hb, hdrop]
      rfl
    obtain ⟨hne, _⟩ := WF_stack_facts hwf1
    have hlen : (wrapState k st1).stack.length > 1 := by
      have : st1.stack.length > 0 := List.length_pos.2 hne
      simp only [wrapState, List.length_cons, List.length_map]
      omega
    have hclose : stepLine L (wrapState k st1) "\x7d".toList =
        some { wrapState k st1 with stack := (wrapState k st1).stack.dropLast } := by
      obtain ⟨top, htop⟩ : ∃ top, (wrapState k st1).stack.getLast? = some top := by
        cases hs : (wrapState k st1).stack.getLast? with
        | none =>
          rw [List.getLast?_eq_none_iff] at hs
          rw [hs] at hlen
          cases hlen
        | some top => exact ⟨top, rfl⟩
      unfold stepLine
      rw [htop]
      simp only
      rw [if_neg (by decide), if_pos trivial, if_pos hlen]
    rw [decodeText_eq, htext, normLines_append_newline, normLines_append_newline, hn0,
      normLines_close, List.singleton_append, runLines_cons, hhead]
    simp only
    rw [runLines_append, hrunw]
    simp only
    rw [runLines_cons, hclose]
    simp only [runLines]
    rw [finish_pop _ hlen]
    exact finish_wrap k hwf1 hO

/-- C24: for every identifier `k` and every body text in which each closing-brace line
closes a block opened earlier in the body, `Decode` of the body returns an object `O`,
and `Decode` of the line `k` + space + opening brace, then the body, then the line of
the closing brace returns the object with the single key `k` holding `O`. -/
theorem C24_block_nesting {F : Type} (L : FloatLib F) (k body : Str) (hk : isIdent k)
    (hbal : closesBalanced 0 (normLines body) = true) :
    ∃ O : Obj F, Decode L (.string body) = Outcome.ok O ∧
      Decode L (.string (k ++ " \x7b\n".toList ++ body ++ "\n\x7d".toList)) =
        Outcome.ok [(k, .obj O)] :=
  decodeText_wrap L k body hk hbal

set_option maxRecDepth 100000 in
/-- The nested blocks of `TestDecodeNestedBlocks`: `address` inside `user`. -/
theorem C24_block_nesting_witness :
    isIdent "user".toList ∧
    closesBalanced 0
      (normLines "name: \"John\"\naddress \x7b\n  street: \"123 Main St\"\n\x7d".toList) =
        true ∧
    ∃ O : Obj Nat,
      Decode sampleLib
        (.string "name: \"John\"\naddress \x7b\n  street: \"123 Main St\"\n\x7d".toList) =
          Outcome.ok O ∧
      Decode sampleLib (.string ("user".toList ++ " \x7b\n".toList ++
        "name: \"John\"\naddress \x7b\n  street: \"123 Main St\"\n\x7d".toList ++
        "\n\x7d".toList)) = Outcome.ok [("user".toList, .obj O)] :=
  ⟨by decide, by decide,
    C24_block_nesting sampleLib "user".toList
      "name: \"John\"\naddress \x7b\n  street: \"123 Main St\"\n\x7d".toList
      (by decide) (by decide)⟩

/-! ## C17: the write-back at the end of input -/

theorem Synced.kept {F : Type} {st : State F} (hs : st.Synced) : st.Kept := by
  intro ct hct
  obtain ⟨m, hm, hget⟩ := hs ct hct
  exact ⟨m, hm, Or.inl hget⟩

theorem heapSet_kept {F : Type} {heap heap1 : List (Frame F)} {top : Nat} {key : Str}
    {r : Nat} (h : heapSet (heap ++ [[]]) top key (.ref r) = some heap1)
    {p : Nat} {m : Frame F} (hm : heap[p]? = some m) {k : Str} {v : Cell F}
    (hget : mapGet m k = some v) :
    ∃ m1, heap1[p]? = some m1 ∧ (mapGet m1 k = some v ∨ mapGet m1 k = some (.ref r)) := by
  have hp : p < heap.length := lt_of_getElem?_some hm
  have hm2 : (heap ++ [[]])[p]? = some m := by
    rw [List.getElem?_append_left hp]; exact hm
  unfold heapSet at h
  split at h
  · cases h
  · rename_i m0 hm0
    injection h with h
    subst h
    by_cases htp : top = p
    · subst htp
      rw [hm2] at hm0
      injection hm0 with hm0
      subst hm0
      have hlt : top < (heap ++ [[]]).length := by simp; omega
      refine ⟨mapSet m key (.ref r), List.getElem?_set_self hlt, ?_⟩
      rw [mapGet_mapSet]
      split
      · exact Or.inr rfl
      · exact Or.inl hget
    · refine ⟨m, ?_, Or.inl hget⟩
      rw [List.getElem?_set_ne htp]
      exact hm2

/-- One iteration of the loop keeps the entry of the open table in its parent frame the
table as read so far, or a block. -/
theorem stepLine_Kept {F : Type} (L : FloatLib F) {st st1 : State F} (hs : st.Kept)
    {line : Str} (h : stepLine L st line = some st1) : st1.Kept := by
  unfold stepLine at h
  split at h
  · cases h
  · rename_i top htop
    split at h
    · simp only at h
      split at h
      · cases h
      · rename_i heap hheap
        injection h with h
        subst h
        intro ct hct
        simp only at hct
        obtain ⟨m, hm, hget⟩ := hs ct hct
        rcases hget with hget | ⟨r, hget⟩
        · obtain ⟨m1, hm1, hg⟩ := heapSet_kept hheap hm hget
          exact ⟨m1, hm1, hg.imp id (fun x => ⟨_, x⟩)⟩
        · obtain ⟨m1, hm1, hg⟩ := heapSet_kept hheap hm hget
          exact ⟨m1, hm1, Or.inr (hg.elim (fun x => ⟨_, x⟩) (fun x => ⟨_, x⟩))⟩
    · split at h
      · split at h
        · injection h with h
          subst h
          exact hs
        · injection h with h
          subst h
          exact hs
      · split at h
        · simp only at h
          split at h
          · cases h
          · rename_i heap hheap
            injection h with h
            subst h
            intro ct hct
            simp only at hct
            injection hct with hct
            subst hct
            obtain ⟨m, hm, hget⟩ := heapSet_synced hheap
            exact ⟨m, hm, Or.inl hget⟩
        · split at h
          · split at h
            · split at h
              · cases h
              · injection h with h
                subst h
                exact fun ct hct => (by cases hct)
            · injection h with h
              subst h
              exact fun ct hct => (by cases hct)
          · split at h
            · simp only at h
              split at h
              · cases h
              · rename_i heap hheap
                injection h with h
                subst h
                intro ct hct
                simp only at hct
                injection hct with hct
                subst hct
                obtain ⟨m, hm, hget⟩ := heapSet_synced hheap
                exact ⟨m, hm, Or.inl hget⟩
            · rename_i hct0
              split at h
              · split at h
                · cases h
                · injection h with h
                  subst h
                  intro ct hct
                  simp only at hct
                  rw [hct0] at hct
                  cases hct
              · injection h with h
                subst h
                exact hs

theorem runLines_Kept {F : Type} (L : FloatLib F) :
    ∀ (lines : List Str) (st : State F), st.WF → st.Kept →
      ∃ st1, runLines L st lines = some st1 ∧ st1.WF ∧ st1.Kept := by
  intro lines
  induction lines with
  | nil => intro st hwf hs; exact ⟨st, rfl, hwf, hs⟩
  | cons l ls ih =>
    intro st hwf hs
    obtain ⟨st2, hstep, hwf2⟩ := stepLine_WF L hwf l
    rw [runLines_cons, hstep]
    exact ih st2 hwf2 (stepLine_Kept L hs hstep)

theorem mapOpt_pointwise {α β : Type} {f g : α → Option β} :
    ∀ (l : List α) (bs : List β), mapOpt f l = some bs → mapOpt g l = some bs →
      ∀ a ∈ l, ∃ b, f a = some b ∧ g a = some b := by
  intro l
  induction l with
  | nil => intro bs _ _ a ha; cases ha
  | cons x t ih =>
    intro bs hf hg a ha
    simp only [mapOpt] at hf hg
    cases hfx : f x with
    | none => rw [hfx] at hf; cases hf
    | some b =>
      cases hgx : g x with
      | none => rw [hgx] at hg; cases hg
      | some c =>
        rw [hfx] at hf
        rw [hgx] at hg
        simp only at hf hg
        cases hft : mapOpt f t with
        | none => rw [hft] at hf; cases hf
        | some bt =>
          cases hgt : mapOpt g t with
          | none => rw [hgt] at hg; cases hg
          | some ct =>
            rw [hft] at hf
            rw [hgt] at hg
            simp only [Option.some.injEq] at hf hg
            have hbc : b = c ∧ bt = ct := by
              rw [← hg] at hf
              exact List.cons.inj hf
            rcases List.mem_cons.1 ha with hax | hat
            · subst hax
              exact ⟨b, hfx, by rw [hgx, hbc.1]⟩
            · exact ih bt hft (by rw [hgt, hbc.2]) a hat

theorem mapGet_mapOpt {α β : Type} {f : Str × α → Option (Str × β)}
    (hkey : ∀ e b, f e = some b → b.1 = e.1) :
    ∀ (m : List (Str × α)) (O : List (Str × β)), mapOpt f m = some O →
      ∀ k c, mapGet m k = some c → ∃ v, f (k, c) = some (k, v) ∧ mapGet O k = some v := by
  intro m
  induction m with
  | nil => intro O _ k c hget; cases hget
  | cons x t ih =>
    intro O h k c hget
    obtain ⟨k0, c0⟩ := x
    simp only [mapOpt] at h
    cases hfx : f (k0, c0) with
    | none => rw [hfx] at h; cases h
    | some b =>
      rw [hfx] at h
      simp only at h
      cases hft : mapOpt f t with
      | none => rw [hft] at h; cases h
      | some bt =>
        rw [hft] at h
        simp only [Option.some.injEq] at h
        subst h
        obtain ⟨bk, bv⟩ := b
        have hbk : bk = k0 := hkey _ _ hfx
        subst hbk
        simp only [mapGet] at hget ⊢
        by_cases hk : bk = k
        · rw [if_pos hk] at hget
          rw [if_pos hk]
          injection hget with hget
          subst hget
          subst hk
          exact ⟨bv, hfx, rfl⟩
        · rw [if_neg hk] at hget
          rw [if_neg hk]
          exact ih bt hft k c hget

theorem reify_set_unreached {F : Type} (heap : List (Frame F)) (p : Nat) (x : Frame F) :
    ∀ (fuel a : Nat), reaches heap p fuel a = false →
      reify (heap.set p x) fuel a = reify heap fuel a := by
  intro fuel
  induction fuel with
  | zero => intro a _; rfl
  | succ fuel ih =>
    intro a h
    simp only [reaches, Bool.or_eq_false_iff, beq_eq_false_iff_ne, ne_eq] at h
    obtain ⟨hap, hany⟩ := h
    simp only [reify]
    rw [List.getElem?_set_ne (fun hpa => hap hpa.symm)]
    cases hm : heap[a]? with
    | none => rfl
    | some m =>
      rw [hm] at hany
      simp only at hany ⊢
      apply mapOpt_congr
      intro e he
      have he2 := List.any_eq_false.1 hany e he
      obtain ⟨k, c⟩ := e
      cases c with
      | val v => rfl
      | ref r =>
        simp only at he2 ⊢
        rw [ih r (by simpa using he2)]

theorem reify_set_reached {F : Type} {heap : List (Frame F)} {p : Nat} {m : Frame F}
    (hm : heap[p]? = some m) {key : Str} {r : Nat} (hget : mapGet m key = some (.ref r))
    (T : Value F) (hT : ∀ o, T ≠ .obj o) :
    ∀ (fuel a : Nat) (O O1 : Obj F), reaches heap p fuel a = true →
      reify heap fuel a = some O →
      reify (heap.set p (mapSet m key (.val T))) fuel a = some O1 → O ≠ O1 := by
  have hp : p < heap.length := lt_of_getElem?_some hm
  intro fuel
  induction fuel with
  | zero => intro a O O1 h; cases h
  | succ fuel ih =>
    intro a O O1 hreach h h1 hEq
    subst hEq
    simp only [reify] at h h1
    by_cases hap : a = p
    · subst hap
      rw [hm] at h
      rw [List.getElem?_set_self hp] at h1
      simp only at h h1
      obtain ⟨v, hv, hgv⟩ := mapGet_mapOpt (by
        intro e b hb
        obtain ⟨k, c⟩ := e
        cases c with
        | val v => simp only at hb; injection hb with hb; rw [← hb]
        | ref r1 =>
          simp only at hb
          split at hb
          · cases hb
          · injection hb with hb; rw [← hb]) m O h key _ hget
      obtain ⟨v1, hv1, hgv1⟩ := mapGet_mapOpt (by
        intro e b hb
        obtain ⟨k, c⟩ := e
        cases c with
        | val v => simp only at hb; injection hb with hb; rw [← hb]
        | ref r1 =>
          simp only at hb
          split at hb
          · cases hb
          · injection hb with hb; rw [← hb]) (mapSet m key (.val T)) O h1 key (.val T)
        (by rw [mapGet_mapSet, if_pos rfl])
      rw [hgv] at hgv1
      injection hgv1 with hvv
      subst hvv
      simp only at hv hv1
      injection hv1 with hv1
      injection hv1 with _ hv1
      subst hv1
      split at hv
      · cases hv
      · rename_i o _
        injection hv with hv
        injection hv with _ hv
        exact hT o hv.symm
    · rw [List.getElem?_set_ne (fun hpa => hap hpa.symm)] at h1
      simp only [reaches, Bool.or_eq_true, beq_iff_eq] at hreach
      rcases hreach with hreach | hreach
      · exact hap hreach
      · cases hma : heap[a]? with
        | none => rw [hma] at h; cases h
        | some ma =>
          rw [hma] at h h1 hreach
          simp only at h h1 hreach
          obtain ⟨e, he, hre⟩ := List.any_eq_true.1 hreach
          obtain ⟨b, hb, hb1⟩ := mapOpt_pointwise ma O h h1 e he
          obtain ⟨k, c⟩ := e
          cases c with
          | val v => cases hre
          | ref r1 =>
            simp only at hre hb hb1
            cases ho : reify heap fuel r1 with
            | none => rw [ho] at hb; cases hb
            | some o =>
              cases ho1 : reify (heap.set p (mapSet m key (.val T))) fuel r1 with
              | none => rw [ho1] at hb1; cases hb1
              | some o1 =>
                rw [ho] at hb
                rw [ho1] at hb1
                simp only at hb hb1
                rw [← hb1] at hb
                injection hb with hb
                injection hb with _ hb
                injection hb with hb
                exact ih r1 o o1 hre ho ho1 hb

theorem endState_eq {F : Type} (L : FloatLib F) (t : Str) :
    endState L t = runLines L initState (normLines t) := by
  unfold endState
  rw [run_eq_runLines]
  show runLines L initState (normLines (trimSpace t)) = _
  rw [normLines_trimSpace]

theorem finish_of_reify {F : Type} {st : State F} (hwf : st.WF) {O : Obj F}
    (h : reify st.heap st.heap.length 0 = some O) : finish (some st) = Outcome.ok O := by
  simp only [finish, hwf.root, h]

theorem reify_root_ok {F : Type} {st : State F} (hwf : st.WF) :
    ∃ O, reify st.heap st.heap.length 0 = some O := by
  have h0 : 0 < st.heap.length := by
    have hne : st.stack ≠ [] := (WF_stack_facts hwf).1
    cases hs : st.stack with
    | nil => exact absurd hs hne
    | cons a r =>
      have ha := hwf.stack_lt a (by rw [hs]; exact List.mem_cons_self _ _)
      omega
  exact reify_total hwf.refs_up st.heap.length 0 h0 (by omega)

theorem initState_Kept {F : Type} : (initState : State F).Kept :=
  fun ct hct => (by cases hct)

theorem stepLine_end_eq {F : Type} (L : FloatLib F) {st : State F} (hwf : st.WF) :
    stepLine L st "]".toList =
      match st.currentTable with
      | some ct =>
        match heapSet st.heap ct.parent ct.key (.val (.table ct.table)) with
        | none => none
        | some heap => some { st with heap := heap, currentTable := none }
      | none => some { st with currentTable := none } := by
  obtain ⟨_, top, htop, _⟩ := WF_stack_facts hwf
  unfold stepLine
  rw [htop]
  simp only
  rw [if_neg (by decide), if_neg (by decide)]
  have ht : tableMatch "]".toList = none := by decide
  rw [ht]
  simp only
  exact if_pos trivial

/-- The iteration on a final `]` line changes what `Decode` returns exactly when the
entry of the open table is lost. -/
theorem finish_end_iff {F : Type} (L : FloatLib F) {st : State F} (hwf : st.WF)
    (hk : st.Kept) :
    ∃ st1, stepLine L st "]".toList = some st1 ∧
      (finish (some st1) = finish (some st) ↔ tableEntryLost st = false) := by
  obtain ⟨st1, hstep, hwf1⟩ := stepLine_WF L hwf "]".toList
  refine ⟨st1, hstep, ?_⟩
  rw [stepLine_end_eq L hwf] at hstep
  cases hct : st.currentTable with
  | none =>
    rw [hct] at hstep
    simp only at hstep
    injection hstep with hstep
    subst hstep
    have hl : tableEntryLost st = false := by
      unfold tableEntryLost
      rw [hct]
    exact ⟨fun _ => hl, fun _ => finish_table_none st⟩
  | some ct =>
    rw [hct] at hstep
    obtain ⟨m, hm, hget⟩ := hk ct hct
    simp only at hstep
    rw [heapSet_eq hm] at hstep
    simp only at hstep
    injection hstep with hstep
    rcases hget with hget | ⟨r, hget⟩
    · have hl : tableEntryLost st = false := by
        unfold tableEntryLost
        rw [hct]
        simp only
        rw [hm]
        simp only
        rw [hget]
      rw [mapSet_same hget, set_getElem?_self hm] at hstep
      subst hstep
      exact ⟨fun _ => hl, fun _ => finish_table_none st⟩
    · have hl : tableEntryLost st = reaches st.heap ct.parent st.heap.length 0 := by
        unfold tableEntryLost
        rw [hct]
        simp only
        rw [hm]
        simp only
        rw [hget]
      rw [hl]
      have hlen : st1.heap.length = st.heap.length := by
        rw [← hstep]
        simp only [List.length_set]
      have hheap : st1.heap = st.heap.set ct.parent (mapSet m ct.key (.val (.table ct.table))) := by
        rw [← hstep]
      obtain ⟨O, h0⟩ := reify_root_ok hwf
      obtain ⟨O1, h1⟩ := reify_root_ok hwf1
      rw [finish_of_reify hwf1 h1, finish_of_reify hwf h0]
      rw [hlen, hheap] at h1
      cases hreach : reaches st.heap ct.parent st.heap.length 0 with
      | false =>
        rw [reify_set_unreached st.heap ct.parent _ _ _ hreach, h0] at h1
        injection h1 with h1
        subst h1
        exact ⟨fun _ => rfl, fun _ => rfl⟩
      | true =>
        constructor
        · intro heq
          exfalso
          injection heq with heq
          exact reify_set_reached hm hget (.table ct.table) (fun o ho => by cases ho)
            _ _ O O1 hreach h0 h1 heq.symm
        · intro hc
          cases hc

theorem decodeText_end_iff {F : Type} (L : FloatLib F) (t : Str) :
    decodeText L (t ++ "\n]".toList) = decodeText L t ↔ entryLostAt L t = false := by
  have hs : "\n]".toList = Char.ofNat 10 :: "]".toList := rfl
  have hn : normLines "]".toList = ["]".toList] := by decide
  rw [decodeText_eq, decodeText_eq, hs, normLines_append_newline, hn, runLines_append]
  obtain ⟨st, hrun, hwf, hkept⟩ :=
    runLines_Kept L (normLines t) (initState : State F) initState_WF initState_Kept
  have hlost : entryLostAt L t = tableEntryLost st := by
    unfold entryLostAt
    rw [endState_eq, hrun]
  rw [hrun, hlost]
  simp only
  obtain ⟨st1, hstep, hiff⟩ := finish_end_iff L hwf hkept
  rw [runLines_cons, hstep]
  simp only [runLines]
  exact hiff

/-- C17 (amended): for every text `t`, `Decode` of `t` followed by a new final line `]`
is `Decode t` if and only if the entry of a table left open at the end of `t` is not
lost: it is not the case that a table is open, the entry under its key in the frame where
it was opened holds a block instead of the rows, and that frame is part of the result. -/
theorem C17_unclosed_table {F : Type} (L : FloatLib F) (t : Str) :
    Decode L (.string (t ++ "\n]".toList)) = Decode L (.string t) ↔
      entryLostAt L t = false :=
  decodeText_end_iff L t

set_option maxRecDepth 100000 in
/-- The unterminated table of `TestEdgeCases` decodes like the same table terminated; so
do a table with a block opened under another key, before or after which rows are read, a
table whose block of the same key is followed by a row, and a table whose entry is lost
in a frame that is no longer part of the result; the table whose entry is lost in the
root frame does not. -/
theorem C17_unclosed_table_witness :
    (entryLostAt sampleLib "users: table(name, age) [\n  \"Alice\", 25".toList = false ∧
      Decode sampleLib (.string ("users: table(name, age) [\n  \"Alice\", 25".toList ++
          "\n]".toList)) =
        Decode sampleLib (.string "users: table(name, age) [\n  \"Alice\", 25".toList)) ∧
    (entryLostAt sampleLib "t: table(a) [\nx \x7b\n1".toList = false ∧
      Decode sampleLib (.string ("t: table(a) [\nx \x7b\n1".toList ++ "\n]".toList)) =
        Decode sampleLib (.string "t: table(a) [\nx \x7b\n1".toList)) ∧
    (entryLostAt sampleLib "t: table(a) [\nb \x7b\n1\n\x7d\nk: v".toList = false ∧
      Decode sampleLib (.string
          ("t: table(a) [\nb \x7b\n1\n\x7d\nk: v".toList ++ "\n]".toList)) =
        Decode sampleLib (.string "t: table(a) [\nb \x7b\n1\n\x7d\nk: v".toList)) ∧
    (entryLostAt sampleLib "t: table(a) [\nt \x7b\n1".toList = false ∧
      Decode sampleLib (.string ("t: table(a) [\nt \x7b\n1".toList ++ "\n]".toList)) =
        Decode sampleLib (.string "t: table(a) [\nt \x7b\n1".toList)) ∧
    (entryLostAt sampleLib
        "a \x7b\nt: table(x) [\nt \x7b\n\x7d\n\x7d\na \x7b".toList = false ∧
      Decode sampleLib (.string
          ("a \x7b\nt: table(x) [\nt \x7b\n\x7d\n\x7d\na \x7b".toList ++ "\n]".toList)) =
        Decode sampleLib (.string
          "a \x7b\nt: table(x) [\nt \x7b\n\x7d\n\x7d\na \x7b".toList)) ∧
    (entryLostAt sampleLib "t: table(a) [\n1\nt \x7b".toList = true ∧
      Decode sampleLib (.string ("t: table(a) [\n1\nt \x7b".toList ++ "\n]".toList)) ≠
        Decode sampleLib (.string "t: table(a) [\n1\nt \x7b".toList)) :=
  ⟨⟨by decide, (C17_unclosed_table sampleLib _).2 (by decide)⟩,
    ⟨by decide, (C17_unclosed_table sampleLib _).2 (by decide)⟩,
    ⟨by decide, (C17_unclosed_table sampleLib _).2 (by decide)⟩,
    ⟨by decide, (C17_unclosed_table sampleLib _).2 (by decide)⟩,
    ⟨by decide, (C17_unclosed_table sampleLib _).2 (by decide)⟩,
    ⟨by decide, fun h => absurd ((C17_unclosed_table sampleLib _).1 h) (by decide)⟩⟩

/-- Counterexample to C17 as stated: the line `t` + opening brace, met while the table
`t` is open, replaces the table under `t` by an empty block; without a final `]` the
block stays, with it the rows are written back over the block. -/
theorem C17_unclosed_table_counterexample :
    Decode sampleLib (.string "t: table(a) [\n1\nt \x7b".toList) =
      Outcome.ok [("t".toList, .obj [])] ∧
    Decode sampleLib (.string ("t: table(a) [\n1\nt \x7b".toList ++ "\n]".toList)) =
      Outcome.ok [("t".toList, .table [[("a".toList, .num 1)]])] ∧
    Decode sampleLib (.string ("t: table(a) [\n1\nt \x7b".toList ++ "\n]".toList)) ≠
      Decode sampleLib (.string "t: table(a) [\n1\nt \x7b".toList) := by
  have e1 : Decode sampleLib (.string "t: table(a) [\n1\nt \x7b".toList) =
      Outcome.ok [("t".toList, .obj [])] := by rfl
  have e2 : Decode sampleLib (.string ("t: table(a) [\n1\nt \x7b".toList ++ "\n]".toList)) =
      Outcome.ok [("t".toList, .table [[("a".toList, .num 1)]])] := by rfl
  refine ⟨e1, e2, ?_⟩
  rw [e1, e2]
  intro hc
  injection hc with hc
  injection hc with hc _
  injection hc with _ hc
  cases hc

/-! ## C23: the integrality test of `serializeValue` -/

set_option maxRecDepth 100000 in
/-- C23: `serializeValue` prints a Number that passes the test `v == float64(int64(v))`
with `%.0f`, so without a decimal point when `%.0f` prints none, and a Number that fails
the test with `%g`; the Number 1.5e19, an integer beyond the range of `int64`, fails the
test and is printed as `1.5e+19`, with a decimal point, while the integer 30 is printed
as `30`. -/
theorem C23_number_serialization :
    (∀ (F : Type) (L : FloatLib F) (v : F), L.isIntegral v = true →
      serializeValue L (.num v) = L.fmtF0 v ∧
        (Char.ofNat 46 ∉ L.fmtF0 v → Char.ofNat 46 ∉ serializeValue L (.num v))) ∧
    (∀ (F : Type) (L : FloatLib F) (v : F), L.isIntegral v = false →
      serializeValue L (.num v) = L.fmtG v) ∧
    serializeValue wideLib (.num 30) = "30".toList ∧
    wideLib.isIntegral 15000000000000000000 = false ∧
    serializeValue wideLib (.num 15000000000000000000) = "1.5e+19".toList ∧
    Char.ofNat 46 ∈ serializeValue wideLib (.num 15000000000000000000) := by
  refine ⟨?_, ?_, by decide, by decide, by decide, by decide⟩
  · intro F L v hv
    have h : serializeValue L (.num v) = L.fmtF0 v := by
      simp only [serializeValue, hv, if_true]
    exact ⟨h, fun hdot => by rw [h]; exact hdot⟩
  · intro F L v hv
    simp only [serializeValue, hv, Bool.false_eq_true, if_false]

end Dan
